import Mathlib

/-!
# DetChromatic: input-DAG scheduling and greedy colouring

A shallow embedding of `exp/include/Galois/Runtime/DetChromatic.h` and the
properties of it that are checked here.

Conventions of the embedding.

* A graph node (`GNode`) is its position `0 .. numNodes-1` in the graph's
  iteration order; the per-node record is `InputDAGdata`; the node data of a
  graph is a function `Nat → InputDAGdata`.
* `unsigned` fields are natural numbers, and every `unsigned` operation
  reduces modulo `2^32`; the conversion `unsigned → int` is two's complement.
* `visitAdj` of `DAGvisitorUndirected` enumerates `Graph.adj src` in order,
  and the successor strategy is the materialised one of `DAGmanagerDefault`.
* A parallel loop over a worklist is a sequence of operator applications; a
  schedule lists, for each application, the worklist position that is handed
  out and the worker that runs it.
* `Sweep.log` is a trace of what the operator did (most recent event
  first); it is written by the model and read only by the statements.
* A store `forbiddenColors[i] = true` with `i` outside the vector has no
  defined effect in the source. The embedding records it in `Manager.oob` and
  returns the vector's elements as they were, only to stay total: a state with
  `oob = true` stands for no definite state of the program, and a statement
  about colours that does not read the flag is a statement under that
  convention.
* A `colorWorkLists[i]->push (n)` with `i` outside the vector has no defined
  effect either (and `push` asserts `i < colorWorkLists.size ()`). The
  embedding records it in `ChromaticExecutor.oob` and returns the buckets as
  they were; a state with `oob = true` stands for no definite state of the
  program.
* A user function of the executors works on the payload `Manager.user` and
  activates nodes through `push`; it is given as the map from the node and the
  state it sees to the new payload and the nodes it pushes, in order.
* `assignIDs` and `assignPriority` return `none` when a worker's iterators
  are advanced outside the node sequence; `initDAG` starts from the node data
  that `assignPriority` has returned.
* The in/out successor strategy of `DAGmanagerInOut` works on a `GraphInOut`;
  the storage's in-place partition of an edge list is a parameter of
  `InitDAGoffsets`.
* The accumulators of the topology-driven executor are natural numbers; its
  state records, per round, the nodes the gated lambda has run on and the
  nodes the user function has been invoked on, which only the statements
  read.
* A `colorBags[i]->push (n)` of the reusable chromatic executor with `i`
  outside the vector is treated in the same way; it is recorded in
  `ChromaticReuseExecutor.oob`. A `do_all` over a bag takes its nodes in the
  order of the bag, and `ChromaticReuseExecutor.applied` lists the nodes the
  user function has been invoked on (most recent first).
* `maxColors` is a max accumulator over `int`; the value it starts from is
  the one of `Manager.init` (0) or of `Manager.initLeast` (the least `int`).
-/

namespace DetChromatic

/-! ## Machine integers -/

/-- Subtraction of two `unsigned` (32-bit) values. -/
def usub (a b : Nat) : Nat := (a % 4294967296 + 4294967296 - b % 4294967296) % 4294967296

/-- Conversion of an `unsigned` value to `int`. -/
def toInt32 (x : Nat) : Int :=
  if x % 4294967296 < 2147483648 then ((x % 4294967296 : Nat) : Int)
  else ((x % 4294967296 : Nat) : Int) - 4294967296

/-! ## Data model -/

/-- Fields of `BaseDAGdata` together with the successor array of `InputDAGdata`
(`numSucc` is the length of `dagSucc`). The defaults are the constructor's. -/
structure InputDAGdata where
  onWL : Int := 0
  indegree : Int := 0
  indeg_backup : Int := 0
  id : Nat
  priority : Nat := 0
  color : Int := -1
  dagSucc : List Nat := []
  deriving DecidableEq, Repr

/-- Node data as constructed (`InputDAGdata (id)`) with the priority that
`assignPriority` has written. -/
def nodeData (priority id : Nat → Nat) : Nat → InputDAGdata :=
  fun v => { id := id v, priority := priority v }

/-- Conflict graph: number of nodes and, per node, the adjacency entries in
the order `visitAdj` enumerates them (parallel edges are repeated entries). -/
structure Graph where
  numNodes : Nat
  adj : Nat → List Nat

/-- Every adjacency entry is a node of the graph. -/
def Graph.WF (g : Graph) : Prop :=
  ∀ u, u < g.numNodes → ∀ v ∈ g.adj u, v < g.numNodes

/-- Undirected graph: `v` is listed by `u` as often as `u` is listed by `v`. -/
def Graph.Symmetric (g : Graph) : Prop :=
  ∀ u, u < g.numNodes → ∀ v, v < g.numNodes → (g.adj u).count v = (g.adj v).count u

/-- No node is adjacent to itself. -/
def Graph.NoSelfLoop (g : Graph) : Prop :=
  ∀ u, u < g.numNodes → u ∉ g.adj u

instance (g : Graph) : Decidable g.WF := by unfold Graph.WF; infer_instance
instance (g : Graph) : Decidable g.Symmetric := by unfold Graph.Symmetric; infer_instance
instance (g : Graph) : Decidable g.NoSelfLoop := by unfold Graph.NoSelfLoop; infer_instance

/-- Write of one node record. -/
def setNode (d : Nat → InputDAGdata) (v : Nat) (x : InputDAGdata) : Nat → InputDAGdata :=
  fun u => if u = v then x else d u

namespace DAGdataComparator

/-- Three-valued comparison `DAGdataComparator::compare3val`. -/
def compare3val (left right : InputDAGdata) : Int :=
  let r := toInt32 (usub left.priority right.priority)
  if r ≠ 0 then r else toInt32 (usub left.id right.id)

/-- Boolean comparison `DAGdataComparator::compare`. -/
def compare (left right : InputDAGdata) : Bool :=
  if left.priority ≠ right.priority then decide (left.priority < right.priority)
  else decide (left.id < right.id)

end DAGdataComparator

open DAGdataComparator

/-! ## DAG manager -/

/-- Mutable state of a `DAGmanagerBase` and of the graph's node data it works
on. `oob` is set once a store has gone outside a forbidden-colours vector;
`user` is the payload of the user computation. -/
structure Manager (σ : Type) where
  data : Nat → InputDAGdata
  perThrdColorVec : Nat → List Bool
  maxColors : Int
  oob : Bool
  user : σ

/-- The loop body of `DAGmanagerBase::initDAG` on node `src`, with the
`postInit` of `DAGmanagerDefault::initDAG`. -/
def initDAGnode (g : Graph) (d : Nat → InputDAGdata) (src : Nat) : Nat → InputDAGdata :=
  let sd := d src
  let indeg : Int := (g.adj src).foldl
    (fun indeg dst => if compare3val (d dst) sd < 0 then indeg + 1 else indeg) 0
  let succ := (g.adj src).filter (fun dst => decide (compare3val (d dst) sd > 0))
  setNode d src { sd with indegree := indeg, indeg_backup := indeg, dagSucc := succ }

/-- The `do_all` of `DAGmanagerBase::initDAG` over the nodes of the graph (the
node data already carries the priorities and ids of `assignPriority`). -/
def initDAG (g : Graph) (d : Nat → InputDAGdata) : Nat → InputDAGdata :=
  (List.range g.numNodes).foldl (initDAGnode g) d

/-- `DAGmanagerDefault::initDAG` on the node data the manager works on. -/
def Manager.initDAG {σ : Type} (g : Graph) (m : Manager σ) : Manager σ :=
  { m with data := DetChromatic.initDAG g m.data }

/-- `DAGmanagerBase::collectSources`: the nodes whose `indegree` is 0. -/
def collectSources (g : Graph) (d : Nat → InputDAGdata) : List Nat :=
  (List.range g.numNodes).filter (fun src => decide ((d src).indegree = 0))

/-- `DAGmanagerBase::reinitDAG`: every `indegree` is reset from `indeg_backup`;
the nodes that are then at 0 are returned as sources. -/
def reinitDAG (g : Graph) (d : Nat → InputDAGdata) : (Nat → InputDAGdata) × List Nat :=
  (List.range g.numNodes).foldl
    (fun acc src =>
      let sd := { acc.1 src with indegree := (acc.1 src).indeg_backup }
      (setNode acc.1 src sd, if sd.indegree = 0 then acc.2 ++ [src] else acc.2))
    (d, [])

/-- What the operator of a DAG sweep does, in the order it does it. -/
inductive Event where
  | call (src : Nat)
  | dec (dst : Nat) (x : Int)
  | push (dst : Nat)
  deriving DecidableEq, Repr

/-- State of a `for_each_local` loop running `RunDAGcomp`. -/
structure Sweep (σ : Type) where
  m : Manager σ
  wl : List Nat
  log : List Event

/-- The nodes the supplied function has been invoked on. -/
def calls : List Event → List Nat
  | [] => []
  | Event.call src :: l => src :: calls l
  | _ :: l => calls l

/-- The `dagClosure` of `RunDAGcomp::operator()`: decrement, push on zero. -/
def dagClosure {σ : Type} (s : Sweep σ) (dst : Nat) : Sweep σ :=
  let dd := s.m.data dst
  let x := dd.indegree - 1
  let m1 : Manager σ := { s.m with data := setNode s.m.data dst { dd with indegree := x } }
  if x = 0 then
    { m := m1, wl := s.wl ++ [dst], log := Event.push dst :: Event.dec dst x :: s.log }
  else
    { m := m1, wl := s.wl, log := Event.dec dst x :: s.log }

/-- The operator `RunDAGcomp::operator()` run by worker `tid` on `src`. -/
def RunDAGcomp {σ : Type} (func : Nat → Nat → Manager σ → Manager σ) (tid src : Nat)
    (s : Sweep σ) : Sweep σ :=
  let s1 : Sweep σ := { m := func tid src s.m, wl := s.wl, log := Event.call src :: s.log }
  (s1.m.data src).dagSucc.foldl dagClosure s1

/-- One operator application: worker `tid` is handed the node at position
`i` of the worklist. -/
def step {σ : Type} (func : Nat → Nat → Manager σ → Manager σ) (i tid : Nat)
    (s : Sweep σ) : Sweep σ :=
  match s.wl.get? i with
  | none => s
  | some src => RunDAGcomp func tid src { s with wl := s.wl.eraseIdx i }

/-- The loop `for_each_local` under a schedule: it stops when the worklist is
empty. -/
def for_each_local {σ : Type} (func : Nat → Nat → Manager σ → Manager σ) :
    List (Nat × Nat) → Sweep σ → Sweep σ
  | [], s => s
  | c :: sched, s =>
    match s.wl with
    | [] => s
    | _ :: _ => for_each_local func sched (step func (c.1 % s.wl.length) c.2 s)

/-- `DAGmanagerBase::runDAGcomputation (func, sources, loopname)`. -/
def runDAGcomputation {σ : Type} (func : Nat → Nat → Manager σ → Manager σ)
    (sources : List Nat) (sched : List (Nat × Nat)) (m : Manager σ) : Sweep σ :=
  for_each_local func sched { m := m, wl := sources, log := [] }

/-- `DAGmanagerBase::runDAGcomputation (func, loopname)`: seeded with
`collectSources`. -/
def runDAGcomputationAll {σ : Type} (g : Graph) (func : Nat → Nat → Manager σ → Manager σ)
    (sched : List (Nat × Nat)) (m : Manager σ) : Sweep σ :=
  runDAGcomputation func (collectSources g m.data) sched m

/-! ## Greedy colouring -/

/-- The `colorClosure` of `colorNode` on the forbidden-colours vector. For a
neighbour without a colour (`dd.color = -1`) the source executes
`forbiddenColors[-1] = true`, a store outside the vector whose effect is not
defined: the second component records that such a store has been made, and
the vector is returned as it was only so that the function is total. -/
def colorClosure (d : Nat → InputDAGdata) (acc : List Bool × Bool) (dst : Nat) :
    List Bool × Bool :=
  let c := (d dst).color
  let v := if (acc.1.length : Int) ≤ c then
      acc.1 ++ List.replicate (c.toNat + 1 - acc.1.length) false
    else acc.1
  if 0 ≤ c then (v.set c.toNat true, acc.2) else (v, true)

/-- The scan of `colorNode`: the first index whose entry is `false`. -/
def firstFree : List Bool → Option Nat
  | [] => none
  | b :: bs => if b = false then some 0 else (firstFree bs).map (fun i => i + 1)

/-- `DAGmanagerBase::colorNode (src)` run by worker `tid`. -/
def colorNode {σ : Type} (g : Graph) (tid src : Nat) (m : Manager σ) : Manager σ :=
  let sd := m.data src
  let cleared := (m.perThrdColorVec tid).map (fun _ => false)
  let r := (g.adj src).foldl (colorClosure m.data) (cleared, m.oob)
  let c1 : Int := match firstFree r.1 with
    | some i => (i : Int)
    | none => sd.color
  let c2 : Int := if c1 = -1 then (r.1.length : Int) else c1
  { m with
    data := setNode m.data src { sd with color := c2 }
    perThrdColorVec := fun t => if t = tid then r.1 else m.perThrdColorVec t
    maxColors := max m.maxColors c2
    oob := r.2 }

/-- `DAGmanagerBase::colorDAG`. -/
def colorDAG {σ : Type} (g : Graph) (sched : List (Nat × Nat)) (m : Manager σ) : Sweep σ :=
  runDAGcomputationAll g (colorNode g) sched m

/-- A manager over the given node data, before any colouring: the per-worker
vectors are empty and no colour has been reported to `maxColors`. -/
def Manager.init (d : Nat → InputDAGdata) : Manager Unit :=
  { data := d, perThrdColorVec := fun _ => [], maxColors := 0, oob := false, user := () }

/-! ## Active subsets and the reusable executor -/

/-- `DAGmanagerBase::reinitActiveDAG (range, sources)`: the three passes over
`range`; the result is the node data and the sources. -/
def reinitActiveDAG (d : Nat → InputDAGdata) (range : List Nat) :
    (Nat → InputDAGdata) × List Nat :=
  let d1 := range.foldl (fun d src => setNode d src { d src with indegree := 0 }) d
  let d2 := range.foldl
    (fun d src => (d src).dagSucc.foldl
      (fun d dst =>
        if (d dst).onWL > 0 then setNode d dst { d dst with indegree := (d dst).indegree + 1 }
        else d) d) d1
  (d2, range.filter (fun src => decide ((d2 src).indegree = 0)))

namespace InputGraphDAGreuseExecutor

/-- `InputGraphDAGreuseExecutor::push_initial (range)`. -/
def push_initial (d : Nat → InputDAGdata) (range : List Nat) : Nat → InputDAGdata :=
  range.foldl (fun d node => setNode d node { d node with onWL := 1 }) d

/-- `InputGraphDAGreuseExecutor::initialize (range)`: the manager state and
`initialSources`. -/
def initRange {σ : Type} (g : Graph) (range : List Nat) (m : Manager σ) :
    Manager σ × List Nat :=
  let r := reinitActiveDAG (initDAG g (push_initial m.data range)) range
  ({ m with data := r.1 }, r.2)

/-- `InputGraphDAGreuseExecutor::execute ()`. -/
def execute {σ : Type} (func : Nat → Manager σ → Manager σ) (sched : List (Nat × Nat))
    (st : Manager σ × List Nat) : Sweep σ :=
  runDAGcomputation (fun _ src m => func src m) st.2 sched st.1

end InputGraphDAGreuseExecutor

/-! ## Vocabulary of the statements -/

/-- The comparison `initDAG` uses orders `u` before `v`. -/
def before (d : Nat → InputDAGdata) (u v : Nat) : Bool :=
  decide (compare3val (d u) (d v) < 0)

/-- The comparison `initDAG` uses orders `u` after `v`. -/
def after (d : Nat → InputDAGdata) (u v : Nat) : Bool :=
  decide (compare3val (d u) (d v) > 0)

/-- The record `initDAG` leaves at node `v`. -/
def initRec (g : Graph) (d : Nat → InputDAGdata) (v : Nat) : InputDAGdata :=
  { d v with
    indegree := (((g.adj v).countP (fun dst => before d dst v) : Nat) : Int)
    indeg_backup := (((g.adj v).countP (fun dst => before d dst v) : Nat) : Int)
    dagSucc := (g.adj v).filter (fun dst => after d dst v) }

/-- Node data after the decrements of the successor entries `L`. -/
def decBy (d : Nat → InputDAGdata) (L : List Nat) : Nat → InputDAGdata :=
  fun v => { d v with indegree := (d v).indegree - ((L.count v : Nat) : Int) }

/-- An adjacency entry `dst` of `v` that `initDAG` has counted in
`indegree (v)` and for which `v` has not received a decrement: `dst` is
ordered before `v`, and it is not the case that `dst` has been processed
with `v` among its DAG successors. -/
def pending (d0 : Nat → InputDAGdata) (done : List Nat) (v dst : Nat) : Bool :=
  before d0 dst v && !(decide (dst ∈ done) && after d0 v dst)

/-- Number of DAG-successor entries `u → v` (occurrences of `v` in the
successor array of `u`) whose source `u` has not been processed. -/
def unprocessedPreds (g : Graph) (d : Nat → InputDAGdata) (done : List Nat) (v : Nat) : Nat :=
  ((List.range g.numNodes).map
    (fun u => if u ∈ done then 0 else (d u).dagSucc.count v)).sum

/-- Number of decrements of `indegree (v)` in the log. -/
def decs : List Event → Nat → Nat
  | [], _ => 0
  | Event.dec dst _ :: l, v => (if dst = v then 1 else 0) + decs l v
  | _ :: l, v => decs l v

/-- The nodes pushed to the worklist by the operator. -/
def pushes : List Event → List Nat
  | [] => []
  | Event.push dst :: l => dst :: pushes l
  | _ :: l => pushes l

/-- In the log (most recent event first) every push of a node comes right
after a decrement of that node whose result is 0, and every decrement whose
result is 0 is followed by the push of its node. -/
def paired : List Event → Bool
  | [] => true
  | Event.push w :: Event.dec v x :: l => decide (v = w) && decide (x = 0) && paired l
  | Event.push _ :: _ => false
  | Event.dec _ x :: l => decide (x ≠ 0) && paired l
  | Event.call _ :: l => paired l

/-- The supplied function leaves the DAG bookkeeping of every node alone. -/
def KeepsDAG {σ : Type} (func : Nat → Nat → Manager σ → Manager σ) : Prop :=
  ∀ tid src m v,
    ((func tid src m).data v).indegree = (m.data v).indegree ∧
    ((func tid src m).data v).dagSucc = (m.data v).dagSucc ∧
    ((func tid src m).data v).priority = (m.data v).priority ∧
    ((func tid src m).data v).id = (m.data v).id

/-- The supplied function leaves every `indeg_backup` alone. -/
def KeepsBackup {σ : Type} (func : Nat → Nat → Manager σ → Manager σ) : Prop :=
  ∀ tid src m v, ((func tid src m).data v).indeg_backup = (m.data v).indeg_backup

/-- The ids, as stored in the `unsigned` field, are pairwise distinct. -/
def DistinctIds (g : Graph) (d : Nat → InputDAGdata) : Prop :=
  ∀ u, u < g.numNodes → ∀ v, v < g.numNodes → u ≠ v →
    (d u).id % 4294967296 ≠ (d v).id % 4294967296

/-- Priorities and ids are below `2^31`. -/
def KeysBelow (g : Graph) (d : Nat → InputDAGdata) : Prop :=
  ∀ v, v < g.numNodes → (d v).priority < 2147483648 ∧ (d v).id < 2147483648

instance (g : Graph) (d : Nat → InputDAGdata) : Decidable (DistinctIds g d) := by
  unfold DistinctIds; infer_instance
instance (g : Graph) (d : Nat → InputDAGdata) : Decidable (KeysBelow g d) := by
  unfold KeysBelow; infer_instance

/-- Node `v` carries the first-fit colour with respect to its neighbours that
are ordered before it: the least non-negative integer that none of them has. -/
def FirstFit (g : Graph) (d0 d : Nat → InputDAGdata) (v : Nat) : Prop :=
  0 ≤ (d v).color ∧
  (∀ u ∈ g.adj v, before d0 u v = true → (d u).color ≠ (d v).color) ∧
  (∀ j : Int, 0 ≤ j → j < (d v).color → ∃ u ∈ g.adj v, before d0 u v = true ∧ (d u).color = j)

/-! ## Invariants -/

/-- Node data `d` carries the DAG that `initDAG` builds from the keys of `d0`,
with every `indegree` at its initial count: the state right after `initDAG`,
and again after `reinitDAG`. -/
structure DAGready (g : Graph) (d0 d : Nat → InputDAGdata) : Prop where
  key : ∀ v, (d v).priority = (d0 v).priority ∧ (d v).id = (d0 v).id
  succ : ∀ v, v < g.numNodes → (d v).dagSucc = (g.adj v).filter (fun dst => after d0 dst v)
  indeg : ∀ v, v < g.numNodes →
    (d v).indegree = (((g.adj v).countP (fun dst => before d0 dst v) : Nat) : Int)

/-- Invariant of a sweep over the DAG that `initDAG` has built from the keys
of `d0`. -/
structure SweepInv {σ : Type} (g : Graph) (d0 : Nat → InputDAGdata) (s : Sweep σ) : Prop where
  key : ∀ v, (s.m.data v).priority = (d0 v).priority ∧ (s.m.data v).id = (d0 v).id
  succ : ∀ v, v < g.numNodes →
    (s.m.data v).dagSucc = (g.adj v).filter (fun dst => after d0 dst v)
  wl_nodup : s.wl.Nodup
  done_nodup : (calls s.log).Nodup
  disj : ∀ v, v ∈ s.wl → v ∉ calls s.log
  wl_lt : ∀ v, v ∈ s.wl → v < g.numNodes
  done_lt : ∀ v, v ∈ calls s.log → v < g.numNodes
  indeg : ∀ v, v < g.numNodes →
    (s.m.data v).indegree = (((g.adj v).countP (pending d0 (calls s.log) v) : Nat) : Int)
  zero : ∀ v, v < g.numNodes →
    ((s.m.data v).indegree = 0 ↔ (v ∈ s.wl ∨ v ∈ calls s.log))

/-- Invariant of the log of a sweep seeded with `sources`. -/
structure LogInv {σ : Type} (n : Nat) (sources : List Nat) (s : Sweep σ) : Prop where
  decs_eq : ∀ v, v < n →
    (s.m.data v).indegree + ((decs s.log v : Nat) : Int) = (s.m.data v).indeg_backup
  paired_ok : paired s.log = true
  perm_ok : List.Perm (s.wl ++ calls s.log) (sources ++ pushes s.log)

/-- Weak invariant of the colouring sweep: exactly the processed nodes carry a
colour. -/
structure Colored {σ : Type} (s : Sweep σ) : Prop where
  unc : ∀ v, v ∉ calls s.log → (s.m.data v).color = -1
  pos : ∀ v, v ∈ calls s.log → 0 ≤ (s.m.data v).color

/-- Invariant of the colouring sweep: the nodes not yet processed are
uncoloured; the processed ones carry their first-fit colour. -/
structure ColorInv {σ : Type} (g : Graph) (d0 : Nat → InputDAGdata) (s : Sweep σ) : Prop where
  unc : ∀ v, v ∉ calls s.log → (s.m.data v).color = -1
  col : ∀ v, v ∈ calls s.log → FirstFit g d0 s.m.data v

/-- Every node that sweep `a` has processed has been processed by sweep `b`
and carries the same colour in both. -/
def Agree {σ : Type} (a b : Sweep σ) : Prop :=
  ∀ v, v ∈ calls a.log → v ∈ calls b.log ∧ (a.m.data v).color = (b.m.data v).color

/-! ## Concrete inputs -/

/-- Keys of the `BY_ID` policy: ids are the positions, `priority = id % 100`. -/
def keysById : Nat → InputDAGdata := nodeData (fun v => v % 100) (fun v => v)

/-- Priorities `0, 1431655765, 2863311530, ...` (thirds of `2^32`) on ids `0, 1, 2, ...`. -/
def keysWrap : Nat → InputDAGdata := nodeData (fun v => v * 1431655765) (fun v => v)

/-- Ids `0, 1431655800, 2863311600, ...` with the priority `id % 100 = 0` that
`BY_ID` gives them: the keys of nodes a third of `2^32` positions apart. -/
def keysWrapId : Nat → InputDAGdata := nodeData (fun _ => 0) (fun v => v * 1431655800)

/-- Priorities `0, 2147483649, ...` (more than `2^31` apart) on ids `0, 1, ...`. -/
def keysFar : Nat → InputDAGdata := nodeData (fun v => v * 2147483649) (fun v => v)

/-- Ids `0, 2147483649, ...` (more than `2^31` apart) with equal priorities. -/
def keysFarId : Nat → InputDAGdata := nodeData (fun _ => 0) (fun v => v * 2147483649)

/-- One node with an edge to itself. -/
def selfLoop : Graph := { numNodes := 1, adj := fun v => match v with | 0 => [0] | _ => [] }

/-- Two nodes joined by one undirected edge. -/
def path2 : Graph :=
  { numNodes := 2, adj := fun v => match v with | 0 => [1] | 1 => [0] | _ => [] }

/-- Two nodes, node 0 lists node 1 but not the other way round. -/
def arc : Graph := { numNodes := 2, adj := fun v => match v with | 0 => [1] | _ => [] }

/-- Three mutually adjacent nodes. -/
def triangle : Graph :=
  { numNodes := 3, adj := fun v => match v with | 0 => [1, 2] | 1 => [0, 2] | 2 => [0, 1] | _ => [] }

/-- The path `0 - 1 - 2 - 3 - 4`. -/
def path5 : Graph :=
  { numNodes := 5
    adj := fun v => match v with
      | 0 => [1] | 1 => [0, 2] | 2 => [1, 3] | 3 => [2, 4] | 4 => [3] | _ => [] }

/-- A centre `0` with the leaves `1, 2, 3`. -/
def star : Graph :=
  { numNodes := 4
    adj := fun v => match v with
      | 0 => [1, 2, 3] | 1 => [0] | 2 => [0] | 3 => [0] | _ => [] }

/-- A user function without effect. -/
def noop {σ : Type} : Nat → Nat → Manager σ → Manager σ := fun _ _ m => m

/-! ## Chromatic executor -/

/-- Conversion of an `int` value to `unsigned`. -/
def toUnsigned (x : Int) : Nat := (x % 4294967296).toNat

/-- `DAGmanagerBase::getMaxColors`: what the max accumulator `maxColors` holds
(the largest value `colorNode` has reported to it, or the value it started
from), as `unsigned`. -/
def getMaxColors {σ : Type} (m : Manager σ) : Nat := toUnsigned m.maxColors

/-- State of a `ChromaticExecutor`: the graph's node data and the user payload
(`m`), `nextIndex`, the vector of colour buckets, and the local `rounds` of
`execute`. `oob` is set once `push` has indexed `colorWorkLists` outside the
vector; `applied` lists the nodes the user function has been invoked on (most
recent first), each with the `onWL` flag it had at that moment. -/
structure ChromaticExecutor (σ : Type) where
  m : Manager σ
  nextIndex : Nat
  colorWorkLists : List (List Nat)
  rounds : Nat
  oob : Bool
  applied : List (Nat × Int)

namespace ChromaticExecutor

/-- The constructor: `maxColors` empty buckets, `nextIndex = 0`. -/
def create {σ : Type} (m : Manager σ) (maxColors : Nat) : ChromaticExecutor σ :=
  { m := m, nextIndex := 0, colorWorkLists := List.replicate maxColors [], rounds := 0,
    oob := false, applied := [] }

/-- `ChromaticExecutor::push (n)`: the compare-and-swap of `onWL` from 0 to 1
gates the push to bucket `color`. With an index outside the vector the source
fails its assertion `i < colorWorkLists.size ()`, or reads
`colorWorkLists[i]` outside the vector, whose effect is not defined: this is
recorded in `oob`, and the buckets are returned as they were only so that the
function is total. -/
def push {σ : Type} (e : ChromaticExecutor σ) (n : Nat) : ChromaticExecutor σ :=
  let data := e.m.data n
  let i := toUnsigned data.color
  if data.onWL = 0 then
    let m1 : Manager σ := { e.m with data := setNode e.m.data n { data with onWL := 1 } }
    if i < e.colorWorkLists.length then
      { e with m := m1
               colorWorkLists := e.colorWorkLists.set i (e.colorWorkLists.getD i [] ++ [n]) }
    else
      { e with m := m1, oob := true }
  else e

/-- The loop of `chooseNext` from iteration `i` on, `fuel` iterations left:
the index of the bucket it selects. -/
def chooseNextLoop (buckets : List (List Nat)) (nextIndex : Nat) : Nat → Nat → Option Nat
  | 0, _ => none
  | fuel + 1, i =>
    let j := ((nextIndex + i) % 4294967296) % buckets.length
    if 0 < (buckets.getD j []).length then some j
    else chooseNextLoop buckets nextIndex fuel (i + 1)

/-- `ChromaticExecutor::chooseNext`: the index of the selected bucket (`none`
for `nullptr`) and the state with the new `nextIndex`. -/
def chooseNext {σ : Type} (e : ChromaticExecutor σ) : Option Nat × ChromaticExecutor σ :=
  match chooseNextLoop e.colorWorkLists e.nextIndex e.colorWorkLists.length 0 with
  | none => (none, e)
  | some j => (some j, { e with nextIndex := (j + 1) % e.colorWorkLists.length })

/-- `ChromaticExecutor::ApplyOperator` on `n`: the flag is cleared, then the
user function runs; it returns its new payload and the nodes it gives to
`push`, in order. -/
def ApplyOperator {σ : Type} (func : Nat → Manager σ → σ × List Nat) (n : Nat)
    (e : ChromaticExecutor σ) : ChromaticExecutor σ :=
  let nd := e.m.data n
  let m1 : Manager σ := { e.m with data := setNode e.m.data n { nd with onWL := 0 } }
  let r := func n m1
  r.2.foldl push
    { e with m := { m1 with user := r.1 }, applied := (n, (m1.data n).onWL) :: e.applied }

/-- One operator application of the `for_each` over bucket `j`: the node at
position `k` is taken out and `ApplyOperator` runs on it. -/
def step {σ : Type} (func : Nat → Manager σ → σ × List Nat) (j k : Nat)
    (e : ChromaticExecutor σ) : ChromaticExecutor σ :=
  match (e.colorWorkLists.getD j []).get? k with
  | none => e
  | some n =>
    ApplyOperator func n
      { e with colorWorkLists :=
                 e.colorWorkLists.set j ((e.colorWorkLists.getD j []).eraseIdx k) }

/-- The `for_each` over bucket `j` under a schedule of positions: it stops
when the bucket is empty. -/
def for_each {σ : Type} (func : Nat → Manager σ → σ × List Nat) (j : Nat) :
    List Nat → ChromaticExecutor σ → ChromaticExecutor σ
  | [], e => e
  | c :: sched, e =>
    match e.colorWorkLists.getD j [] with
    | [] => e
    | _ :: _ => for_each func j sched (step func j (c % (e.colorWorkLists.getD j []).length) e)

/-- The `while (true)` loop of `execute`, one schedule per round. -/
def roundLoop {σ : Type} (func : Nat → Manager σ → σ × List Nat) :
    List (List Nat) → ChromaticExecutor σ → ChromaticExecutor σ
  | [], e => e
  | sched :: rest, e =>
    match e.chooseNext with
    | (none, e1) => e1
    | (some j, e1) => roundLoop func rest (for_each func j sched { e1 with rounds := e1.rounds + 1 })

/-- `ChromaticExecutor::execute (range)`. -/
def execute {σ : Type} (func : Nat → Manager σ → σ × List Nat) (range : List Nat)
    (scheds : List (List Nat)) (e : ChromaticExecutor σ) : ChromaticExecutor σ :=
  roundLoop func scheds { range.foldl push e with rounds := 0 }

end ChromaticExecutor

/-- `for_each_det_chromatic (range, func, graph, dagManager, loopname)`. -/
def for_each_det_chromatic {σ : Type} (g : Graph) (func : Nat → Manager σ → σ × List Nat)
    (range : List Nat) (csched : List (Nat × Nat)) (scheds : List (List Nat)) (m : Manager σ) :
    ChromaticExecutor σ :=
  let m1 := (colorDAG g csched m).m
  ChromaticExecutor.execute func range scheds (ChromaticExecutor.create m1 (getMaxColors m1))

/-! ## Active-DAG executor -/

/-- State of an `InputGraphDAGexecutor`: node data and payload (`m`), the bag
`nextWork`, and the locals `sources` and `rounds` of `execute`. `applied`
lists the nodes `ApplyOperator` has run on (most recent first), `decremented`
the successors that received a decrement, each with the `onWL` flag it had at
that moment. -/
structure InputGraphDAGexecutor (σ : Type) where
  m : Manager σ
  nextWork : List Nat
  sources : List Nat
  rounds : Nat
  applied : List (Nat × Int)
  decremented : List (Nat × Int)

namespace InputGraphDAGexecutor

/-- `InputGraphDAGexecutor::push (node)`. -/
def push {σ : Type} (e : InputGraphDAGexecutor σ) (node : Nat) : InputGraphDAGexecutor σ :=
  let nd := e.m.data node
  if nd.onWL = 0 then
    { e with m := { e.m with data := setNode e.m.data node { nd with onWL := 1 } }
             nextWork := e.nextWork ++ [node] }
  else e

/-- The `closure` of `ApplyOperator::operator()`: a successor whose
in-degree is positive is decremented and, at zero, pushed to the running
loop's worklist. -/
def closure {σ : Type} (e : InputGraphDAGexecutor σ) (dst : Nat) : InputGraphDAGexecutor σ :=
  let dd := e.m.data dst
  if dd.indegree > 0 then
    let x := dd.indegree - 1
    let e1 : InputGraphDAGexecutor σ :=
      { e with m := { e.m with data := setNode e.m.data dst { dd with indegree := x } }
               decremented := (dst, dd.onWL) :: e.decremented }
    if x = 0 then { e1 with sources := e1.sources ++ [dst] } else e1
  else e

/-- `InputGraphDAGexecutor::ApplyOperator` on `src`. -/
def ApplyOperator {σ : Type} (func : Nat → Manager σ → σ × List Nat) (src : Nat)
    (e : InputGraphDAGexecutor σ) : InputGraphDAGexecutor σ :=
  let sd := e.m.data src
  let m1 : Manager σ := { e.m with data := setNode e.m.data src { sd with onWL := 0 } }
  let r := func src m1
  let e1 := r.2.foldl push
    { e with m := { m1 with user := r.1 }, applied := (src, sd.onWL) :: e.applied }
  (e1.m.data src).dagSucc.foldl closure e1

/-- One operator application of the `for_each` over `sources`. -/
def step {σ : Type} (func : Nat → Manager σ → σ × List Nat) (k : Nat)
    (e : InputGraphDAGexecutor σ) : InputGraphDAGexecutor σ :=
  match e.sources.get? k with
  | none => e
  | some src => ApplyOperator func src { e with sources := e.sources.eraseIdx k }

/-- The `for_each` over `sources` under a schedule of positions. -/
def for_each {σ : Type} (func : Nat → Manager σ → σ × List Nat) :
    List Nat → InputGraphDAGexecutor σ → InputGraphDAGexecutor σ
  | [], e => e
  | c :: sched, e =>
    match e.sources with
    | [] => e
    | _ :: _ => for_each func sched (step func (c % e.sources.length) e)

/-- The state after `reinitActiveDAG (nextWork, sources)` and the clearing of
`nextWork`. -/
def frontier {σ : Type} (e : InputGraphDAGexecutor σ) : InputGraphDAGexecutor σ :=
  let r := reinitActiveDAG e.m.data e.nextWork
  { e with m := { e.m with data := r.1 }, sources := r.2, nextWork := [] }

/-- The `while (true)` loop of `execute`, one schedule per round. -/
def roundLoop {σ : Type} (func : Nat → Manager σ → σ × List Nat) :
    List (List Nat) → InputGraphDAGexecutor σ → InputGraphDAGexecutor σ
  | [], e => e
  | sched :: rest, e =>
    match e.frontier.sources with
    | [] => e.frontier
    | _ :: _ =>
      roundLoop func rest (for_each func sched { e.frontier with rounds := e.rounds + 1 })

/-- The state of `execute (range)` when it enters its loop: after `initDAG`
and the initial pushes. -/
def start {σ : Type} (g : Graph) (range : List Nat) (m : Manager σ) :
    InputGraphDAGexecutor σ :=
  range.foldl push
    { m := m.initDAG g, nextWork := [], sources := [], rounds := 0, applied := [],
      decremented := [] }

/-- `InputGraphDAGexecutor::execute (range)`. -/
def execute {σ : Type} (g : Graph) (func : Nat → Manager σ → σ × List Nat) (range : List Nat)
    (scheds : List (List Nat)) (m : Manager σ) : InputGraphDAGexecutor σ :=
  roundLoop func scheds (start g range m)

end InputGraphDAGexecutor

/-- Keys with `priority = id`, ids the positions. -/
def keysPrioId : Nat → InputDAGdata := nodeData (fun v => v) (fun v => v)

/-- A user function of the executors that pushes nothing. -/
def quiet {σ : Type} : Nat → Manager σ → σ × List Nat := fun _ m => (m.user, [])

/-- The path `0 - 1 - 2 - 3 - 4` with `priority = id`, after `initDAG`. -/
def path5Init : Manager Unit := (Manager.init keysPrioId).initDAG path5

/-- The colouring sweep on `path5Init`, the worklist handing out its first
node each time. -/
def path5Colored : Sweep Unit := colorDAG path5 (List.replicate 5 (0, 0)) path5Init

/-! ## Vocabulary of the executor statements -/

/-- Bucket `j` of the executor (empty for `j` outside the vector). -/
def ChromaticExecutor.bucket {σ : Type} (e : ChromaticExecutor σ) (j : Nat) : List Nat :=
  e.colorWorkLists.getD j []

/-- A step of a `ChromaticExecutor`: a call of `push`, or the removal of the
node at position `k` of bucket `j` followed by `ApplyOperator` on it. -/
inductive Move where
  | push (n : Nat)
  | apply (j k : Nat)
  deriving DecidableEq, Repr

/-- The state after a sequence of steps. -/
def ChromaticExecutor.run {σ : Type} (func : Nat → Manager σ → σ × List Nat) :
    List Move → ChromaticExecutor σ → ChromaticExecutor σ
  | [], e => e
  | Move.push n :: l, e => ChromaticExecutor.run func l (e.push n)
  | Move.apply j k :: l, e => ChromaticExecutor.run func l (ChromaticExecutor.step func j k e)

/-- Invariant of a `ChromaticExecutor` with `B` buckets over `N` nodes whose
colours are `c0`: a node is in bucket `j` once if its flag is 1 and `j` is
its colour, and not at all otherwise. -/
structure BucketInv {σ : Type} (N : Nat) (c0 : Nat → Int) (B : Nat)
    (e : ChromaticExecutor σ) : Prop where
  size : e.colorWorkLists.length = B
  color : ∀ v, (e.m.data v).color = c0 v
  flag : ∀ v, v < N → (e.m.data v).onWL = 0 ∨ (e.m.data v).onWL = 1
  count : ∀ j, j < B → ∀ v, (e.bucket j).count v
    = if v < N ∧ (e.m.data v).onWL = 1 ∧ toUnsigned (c0 v) = j then 1 else 0
  applied : ∀ p, p ∈ e.applied → p.2 = 0

/-- The state of a `ChromaticExecutor` constructed with `B` buckets over the
state `m`, after a sequence of steps. -/
def ChromaticExecutor.reach {σ : Type} (func : Nat → Manager σ → σ × List Nat)
    (m : Manager σ) (B : Nat) (moves : List Move) : ChromaticExecutor σ :=
  ChromaticExecutor.run func moves (ChromaticExecutor.create m B)

/-- The state after a sequence of steps of `execute`: a call of `chooseNext`
(`none`), or a `push` or a step of the `for_each` (`some mv`). -/
def ChromaticExecutor.walk {σ : Type} (func : Nat → Manager σ → σ × List Nat) :
    List (Option Move) → ChromaticExecutor σ → ChromaticExecutor σ
  | [], e => e
  | none :: l, e => ChromaticExecutor.walk func l e.chooseNext.2
  | some mv :: l, e => ChromaticExecutor.walk func l (ChromaticExecutor.run func [mv] e)

/-- A step names a node of the graph: the node of a `push` is below `N`. -/
def Move.below (N : Nat) : Move → Bool
  | Move.push n => decide (n < N)
  | Move.apply _ _ => true

/-- One node without edges. -/
def single : Graph := { numNodes := 1, adj := fun _ => [] }

/-- The colouring sweep on one node without edges, after `initDAG`. -/
def singleColored : Sweep Unit :=
  colorDAG single [(0, 0)] ((Manager.init keysPrioId).initDAG single)

/-- The manager of `Manager.init` with the accumulator `maxColors` started
from the least `int`. -/
def Manager.initLeast (d : Nat → InputDAGdata) : Manager Unit :=
  { Manager.init d with maxColors := -2147483648 }

/-- The nodes below `N` whose `onWL` flag is 1. -/
def ChromaticExecutor.pending {σ : Type} (N : Nat) (e : ChromaticExecutor σ) : Finset Nat :=
  (Finset.range N).filter (fun v => (e.m.data v).onWL = 1)

/-! ## Ids and priorities -/

/-- The body of the `on_each` of `assignIDs` for worker `tid` of `numT`: the
nodes at the positions `beg .. end - 1` of the node sequence get their
position as `id` (an `unsigned`). When `beg` lies beyond `end`, `std::advance`
takes the iterators outside the node sequence: the result is `none`. (The
`size_t` products do not wrap while `numNodes + numT ≤ 2^64`.) -/
def assignIDsWorker (numNodes numT tid : Nat) (d : Nat → InputDAGdata) :
    Option (Nat → InputDAGdata) :=
  let num_per := (numNodes + numT - 1) / numT
  let beg := tid * num_per
  let endp := min numNodes ((tid + 1) * num_per)
  if beg ≤ endp then
    some ((List.range (endp - beg)).foldl
      (fun d i => setNode d (beg + i) { d (beg + i) with id := (beg + i) % 4294967296 }) d)
  else none

/-- `DAGmanagerBase::assignIDs` with `numT` workers. -/
def assignIDs (numNodes numT : Nat) (d : Nat → InputDAGdata) : Option (Nat → InputDAGdata) :=
  (List.range numT).foldl (fun acc tid => acc.bind (assignIDsWorker numNodes numT tid)) (some d)

/-- The priority policies. -/
inductive PriorityFunc where
  | FIRST_FIT
  | BY_ID
  | RANDOM
  | MIN_DEGREE
  | MAX_DEGREE
  deriving DecidableEq, Repr

/-- The constant `MAX_LEVELS`. -/
def MAX_LEVELS : Nat := 100

/-- The lambda `byId` of `assignPriority`. -/
def byId (nd : InputDAGdata) : InputDAGdata :=
  { nd with priority := (nd.id % 4294967296) % MAX_LEVELS }

/-- The lambda `randPri` of `assignPriority`; `rng node` is the value the
worker's generator returns when it is called for `node`. -/
def randPri (rng : Nat → Nat) (node : Nat) (nd : InputDAGdata) : InputDAGdata :=
  { nd with priority := rng node % 4294967296 }

/-- The lambda `minDegree` of `assignPriority`: the number of edges of `node`. -/
def minDegree (g : Graph) (node : Nat) (nd : InputDAGdata) : InputDAGdata :=
  { nd with priority := (g.adj node).length % 4294967296 }

/-- The lambda `maxDegree` of `assignPriority`: `numNodes` minus the number of
edges of `node`, as `unsigned`. -/
def maxDegree (g : Graph) (node : Nat) (nd : InputDAGdata) : InputDAGdata :=
  { nd with priority := usub g.numNodes (g.adj node).length }

/-- `DAGmanagerBase::assignPriorityHelper`: the `do_all` of `nodeFunc` over the
nodes of the graph. -/
def assignPriorityHelper (g : Graph) (nodeFunc : Nat → InputDAGdata → InputDAGdata)
    (d : Nat → InputDAGdata) : Nat → InputDAGdata :=
  (List.range g.numNodes).foldl (fun d node => setNode d node (nodeFunc node (d node))) d

/-- `DAGmanagerBase::assignPriority` under the policy `p`, with `numT`
workers: `assignIDs`, then the `switch`. -/
def assignPriority (p : PriorityFunc) (g : Graph) (numT : Nat) (rng : Nat → Nat)
    (d : Nat → InputDAGdata) : Option (Nat → InputDAGdata) :=
  (assignIDs g.numNodes numT d).map (fun d1 =>
    match p with
    | PriorityFunc.FIRST_FIT => d1
    | PriorityFunc.BY_ID => assignPriorityHelper g (fun _ nd => byId nd) d1
    | PriorityFunc.RANDOM => assignPriorityHelper g (randPri rng) d1
    | PriorityFunc.MIN_DEGREE => assignPriorityHelper g (minDegree g) d1
    | PriorityFunc.MAX_DEGREE => assignPriorityHelper g (maxDegree g) d1)

/-- Every worker of `assignIDs` computes a range that starts inside the node
sequence: `beg ≤ numNodes`. -/
def RangesOK (numNodes numT : Nat) : Prop :=
  ∀ tid, tid < numT → tid * ((numNodes + numT - 1) / numT) ≤ numNodes

instance (numNodes numT : Nat) : Decidable (RangesOK numNodes numT) := by
  unfold RangesOK; infer_instance

/-- Node data as the constructor `InputDAGdata (id = 0)` leaves it. -/
def fresh : Nat → InputDAGdata := nodeData (fun _ => 0) (fun _ => 0)

/-- Three nodes; node 0 is joined to node 1 and to node 2 by two parallel
edges each. -/
def doubled : Graph :=
  { numNodes := 3, adj := fun v => match v with | 0 => [1, 1, 2, 2] | 1 => [0, 0] | 2 => [0, 0] | _ => [] }

/-! ## The in/out successor strategy -/

/-- A graph that exposes, for every node, its in-edges and its out-edges. -/
structure GraphInOut where
  numNodes : Nat
  inAdj : Nat → List Nat
  outAdj : Nat → List Nat

/-- The fields `InputDAGdataInOut` adds to `BaseDAGdata`. -/
structure Offsets where
  dagSuccEndIn : Nat
  dagSuccEndOut : Nat
  deriving DecidableEq, Repr

namespace DAGmanagerInOut

/-- `DAGmanagerInOut::VisitAdjacent`: the in-edges, then the out-edges. -/
def VisitAdjacent (g : GraphInOut) (src : Nat) : List Nat :=
  g.inAdj src ++ g.outAdj src

/-- `DAGmanagerInOut::Predicate` with the data of `src`. -/
def Predicate (d : Nat → InputDAGdata) (src dst : Nat) : Bool :=
  decide (DAGdataComparator.compare3val (d src) (d dst) < 0)

/-- `DAGmanagerInOut::InitDAGoffsets` on node `src`. `part pred l` stands for
the graph's `partition_neighbors` / `partition_in_neighbors` on the edge
list `l`: the reordered list and the split offset. -/
def InitDAGoffsets (part : (Nat → Bool) → List Nat → List Nat × Nat)
    (d : Nat → InputDAGdata) (g : GraphInOut) (src : Nat) : GraphInOut × Offsets :=
  let out := part (Predicate d src) (g.outAdj src)
  let inn := part (Predicate d src) (g.inAdj src)
  ({ g with
      outAdj := fun v => if v = src then out.1 else g.outAdj v
      inAdj := fun v => if v = src then inn.1 else g.inAdj v },
   { dagSuccEndOut := out.2, dagSuccEndIn := inn.2 })

/-- One iteration of the `do_all` of `DAGmanagerInOut::Manager::initDAG`:
`InitDAGoffsets` on node `src`, whose offsets are stored in its node data. -/
def initDAGstep (part : (Nat → Bool) → List Nat → List Nat × Nat)
    (d : Nat → InputDAGdata) (acc : GraphInOut × (Nat → Offsets)) (src : Nat) :
    GraphInOut × (Nat → Offsets) :=
  (( InitDAGoffsets part d acc.1 src).1,
    fun v => if v = src then ( InitDAGoffsets part d acc.1 src).2 else acc.2 v)

/-- The `postInit` pass of `DAGmanagerInOut::Manager::initDAG`: `InitDAGoffsets`
on every node of the graph. -/
def initDAG (part : (Nat → Bool) → List Nat → List Nat × Nat)
    (d : Nat → InputDAGdata) (g : GraphInOut) : GraphInOut × (Nat → Offsets) :=
  (List.range g.numNodes).foldl (initDAGstep part d)
    (g, fun _ => { dagSuccEndIn := 0, dagSuccEndOut := 0 })

/-- `DAGmanagerInOut::VisitDAGsuccessors`: the first `dagSuccEndIn` in-edges,
then the first `dagSuccEndOut` out-edges. -/
def VisitDAGsuccessors (g : GraphInOut) (src : Nat) (sd : Offsets) : List Nat :=
  (g.inAdj src).take sd.dagSuccEndIn ++ (g.outAdj src).take sd.dagSuccEndOut

/-- The nodes `VisitDAGsuccessors` enumerates at `src` after `initDAG`. -/
def successors (part : (Nat → Bool) → List Nat → List Nat × Nat)
    (d : Nat → InputDAGdata) (g : GraphInOut) (src : Nat) : List Nat :=
  VisitDAGsuccessors (initDAG part d g).1 src ((initDAG part d g).2 src)

end DAGmanagerInOut

/-- The same graph as a `DAGmanagerDefault` sees it through the adjacency
visitor `DAGmanagerInOut::VisitAdjacent`. -/
def GraphInOut.toGraph (g : GraphInOut) : Graph :=
  { numNodes := g.numNodes, adj := DAGmanagerInOut.VisitAdjacent g }

/-- What the storage's in-place partition of an edge list guarantees: the
entries are kept, those before the offset satisfy the predicate and those
from the offset on do not. -/
def IsPartition (part : (Nat → Bool) → List Nat → List Nat × Nat) : Prop :=
  ∀ pred l, List.Perm (part pred l).1 l ∧
    (∀ x, x ∈ (part pred l).1.take (part pred l).2 → pred x = true) ∧
    (∀ x, x ∈ (part pred l).1.drop (part pred l).2 → pred x = false)

/-- Modelled from the spec: the in-place adjacency-partitioning operation,
which accepts a predicate and returns a split offset; here the one that keeps
the relative order of the entries. -/
def partition_neighbors (pred : Nat → Bool) (l : List Nat) : List Nat × Nat :=
  (l.filter pred ++ l.filter (fun x => !pred x), (l.filter pred).length)

/-- In the words of the statement: the neighbours `dst` of `src` with
`(priority (src), id (src)) < (priority (dst), id (dst))`, lexicographically. -/
def specSuccessors (adj : List Nat) (d : Nat → InputDAGdata) (src : Nat) : List Nat :=
  adj.filter (fun dst => decide ((d src).priority < (d dst).priority ∨
    ((d src).priority = (d dst).priority ∧ (d src).id < (d dst).id)))

/-- Two nodes and the edge from 0 to 1. -/
def arcInOut : GraphInOut :=
  { numNodes := 2
    inAdj := fun v => match v with | 1 => [0] | _ => []
    outAdj := fun v => match v with | 0 => [1] | _ => [] }

/-- Priorities `0, 2147483648, ...` (exactly `2^31` apart) on ids `0, 1, ...`. -/
def keysHalf : Nat → InputDAGdata := nodeData (fun v => v * 2147483648) (fun v => v)

/-! ## Reusable executor on all nodes -/

namespace InputGraphDAGreuseExecutor

/-- `InputGraphDAGreuseExecutor::initialize (void)`, which takes all nodes to
be active: the manager state and `initialSources`. -/
def initAll {σ : Type} (g : Graph) (m : Manager σ) : Manager σ × List Nat :=
  let d := initDAG g (push_initial m.data (List.range g.numNodes))
  ({ m with data := d }, collectSources g d)

/-- `InputGraphDAGreuseExecutor::reinitDAG ()`: the in-degrees are reset;
`initialSources` stays what it is. -/
def reinitDAG {σ : Type} (g : Graph) (st : Manager σ × List Nat) : Manager σ × List Nat :=
  ({ st.1 with data := (DetChromatic.reinitDAG g st.1.data).1 }, st.2)

/-- A sequence of `execute ()` / `reinitDAG ()` cycles, one schedule per
cycle: the sweeps of the cycles in order, and the state after the last
`reinitDAG ()`. -/
def cycles {σ : Type} (g : Graph) (func : Nat → Manager σ → Manager σ) :
    List (List (Nat × Nat)) → Manager σ × List Nat → List (Sweep σ) × (Manager σ × List Nat)
  | [], st => ([], st)
  | sched :: rest, st =>
    let s := execute func sched st
    let r := cycles g func rest (reinitDAG g (s.m, st.2))
    (s :: r.1, r.2)

end InputGraphDAGreuseExecutor

/-! ## Topology-driven executor -/

/-- The members of an `InputGraphDAGtopologyDriven` that change during
`execute`: the payload of the user computation and the two accumulators.
`visited` lists the nodes the lambda `f` has run on in the current round, each
with the `onWL` flag it had at that moment, and `applied` the nodes the user
function has been invoked on in the current round, each with the flag it had
when the user function started (most recent first). -/
structure InputGraphDAGtopologyDriven (σ : Type) where
  user : σ
  numActiveFound : Nat
  numPushes : Nat
  visited : List (Nat × Int)
  applied : List (Nat × Int)

namespace InputGraphDAGtopologyDriven

/-- The state the user function sees. -/
def view {σ : Type} (m : Manager (InputGraphDAGtopologyDriven σ)) : Manager σ :=
  { data := m.data, perThrdColorVec := m.perThrdColorVec, maxColors := m.maxColors,
    oob := m.oob, user := m.user.user }

/-- The executor state at construction: both accumulators are 0. -/
def create {σ : Type} (m : Manager σ) : Manager (InputGraphDAGtopologyDriven σ) :=
  { data := m.data, perThrdColorVec := m.perThrdColorVec, maxColors := m.maxColors,
    oob := m.oob,
    user := { user := m.user, numActiveFound := 0, numPushes := 0, visited := [], applied := [] } }

/-- `InputGraphDAGtopologyDriven::push (node)`: the push is counted, and the
flag goes from 0 to 1 by compare-and-swap. -/
def push {σ : Type} (m : Manager (InputGraphDAGtopologyDriven σ)) (node : Nat) :
    Manager (InputGraphDAGtopologyDriven σ) :=
  let nd := m.data node
  { m with
    user := { m.user with numPushes := m.user.numPushes + 1 }
    data := if nd.onWL = 0 then setNode m.data node { nd with onWL := 1 } else m.data }

/-- The lambda `f` of `execute`, which `runDAGcomputation` runs on `src`. -/
def f {σ : Type} (func : Nat → Manager σ → σ × List Nat) (src : Nat)
    (m : Manager (InputGraphDAGtopologyDriven σ)) : Manager (InputGraphDAGtopologyDriven σ) :=
  let sd := m.data src
  let m0 : Manager (InputGraphDAGtopologyDriven σ) :=
    { m with user := { m.user with visited := (src, sd.onWL) :: m.user.visited } }
  if sd.onWL > 0 then
    let m1 : Manager (InputGraphDAGtopologyDriven σ) :=
      { m0 with data := setNode m0.data src { sd with onWL := 0 } }
    let r := func src (view m1)
    let m2 := r.2.foldl push
      { m1 with user := { m1.user with user := r.1
                                       applied := (src, (m1.data src).onWL) :: m1.user.applied } }
    { m2 with user := { m2.user with numActiveFound := m2.user.numActiveFound + 1 } }
  else m0

/-- State of `execute` in its loop: the executor state, the bag `sources`,
the local `rounds`, and whether the loop has been left by `break`. `trace`
holds the sweep of every round performed (most recent first). -/
structure Run (σ : Type) where
  m : Manager (InputGraphDAGtopologyDriven σ)
  sources : List Nat
  rounds : Nat
  finished : Bool
  trace : List (Sweep (InputGraphDAGtopologyDriven σ))

/-- The reset at the end of a round that was not the last: `reinitDAG`, and
both accumulators back to 0. -/
def reset {σ : Type} (g : Graph) (m : Manager (InputGraphDAGtopologyDriven σ)) :
    Manager (InputGraphDAGtopologyDriven σ) :=
  { m with
    data := (reinitDAG g m.data).1
    user := { m.user with numActiveFound := 0, numPushes := 0 } }

/-- The executor state with the trace of the current round emptied. -/
def clear {σ : Type} (m : Manager (InputGraphDAGtopologyDriven σ)) :
    Manager (InputGraphDAGtopologyDriven σ) :=
  { m with user := { m.user with visited := [], applied := [] } }

/-- The `while (true)` loop of `execute`, one schedule per round. A round
whose schedule ends before its worklist is empty is not completed, and the
loop is given up. -/
def roundLoop {σ : Type} (g : Graph) (func : Nat → Manager σ → σ × List Nat) :
    List (List (Nat × Nat)) → Run σ → Run σ
  | [], r => r
  | sched :: rest, r =>
    let s := runDAGcomputation (fun _ src m => f func src m) r.sources sched (clear r.m)
    match s.wl with
    | _ :: _ => { r with m := s.m, rounds := r.rounds + 1, trace := s :: r.trace }
    | [] =>
      if s.m.user.numPushes = 0 then
        { r with m := s.m, rounds := r.rounds + 1, trace := s :: r.trace, finished := true }
      else
        roundLoop g func rest
          { r with m := reset g s.m, rounds := r.rounds + 1, trace := s :: r.trace }

/-- The state of `execute (range)` when it enters its loop: after `initDAG`,
`collectSources` and the pushes of the nodes of `range`. -/
def start {σ : Type} (g : Graph) (range : List Nat) (m : Manager σ) : Run σ :=
  { m := range.foldl push (create (m.initDAG g))
    sources := collectSources g (m.initDAG g).data
    rounds := 0, finished := false, trace := [] }

/-- `InputGraphDAGtopologyDriven::execute (range)`. -/
def execute {σ : Type} (g : Graph) (func : Nat → Manager σ → σ × List Nat) (range : List Nat)
    (scheds : List (List (Nat × Nat))) (m : Manager σ) : Run σ :=
  roundLoop g func scheds (start g range m)

end InputGraphDAGtopologyDriven

/-- A user function that pushes the next node of the 5-node path, up to
node 2. -/
def pushNext : Nat → Manager Unit → Unit × List Nat :=
  fun src _ => ((), if src < 2 then [src + 1] else [])

/-- Node data and sources at the start of a sweep of an executor that reuses
its DAG: the data is as `initDAG` left it for the keys of `d0`, every
`indeg_backup` holds the initial count, and `sources` is what
`collectSources` returns. -/
structure CycleReady (g : Graph) (d0 d : Nat → InputDAGdata) (sources : List Nat) : Prop where
  ready : DAGready g d0 d
  bak : ∀ v, v < g.numNodes →
    (d v).indeg_backup = (((g.adj v).countP (fun dst => before d0 dst v) : Nat) : Int)
  src : sources = collectSources g d

/-- What the trace of a round of the topology-driven executor records: the
nodes `f` has run on are the nodes the sweep has processed; the user function
has been invoked on the nodes whose flag was positive when `f` ran on them,
with the flag already cleared; all flags are 0 or 1. -/
structure GateInv {σ : Type} (s : Sweep (InputGraphDAGtopologyDriven σ)) : Prop where
  vis : s.m.user.visited.map Prod.fst = calls s.log
  app0 : ∀ e, e ∈ s.m.user.applied → e.2 = 0
  gate : ∀ v, v ∈ s.m.user.applied.map Prod.fst ↔ ∃ x, 0 < x ∧ (v, x) ∈ s.m.user.visited
  vflag : ∀ e, e ∈ s.m.user.visited → e.2 = 0 ∨ e.2 = 1
  flags : ∀ v, (s.m.data v).onWL = 0 ∨ (s.m.data v).onWL = 1

/-! ## Worker ranges and the reusable chromatic executor -/

/-- The range `[beg, end)` that worker `tid` of `numT` computes in
`assignIDs`. -/
def assignIDsRange (numNodes numT tid : Nat) : Nat × Nat :=
  let num_per := (numNodes + numT - 1) / numT
  (tid * num_per, min numNodes ((tid + 1) * num_per))

/-- State of a `ChromaticReuseExecutor`: node data and payload (`m`) and the
bags `colorBags`. `oob` is set once `push_initial` has indexed `colorBags`
outside the vector; `applied` lists the nodes the user function has been
invoked on (most recent first). -/
structure ChromaticReuseExecutor (σ : Type) where
  m : Manager σ
  colorBags : List (List Nat)
  oob : Bool
  applied : List Nat

namespace ChromaticReuseExecutor

/-- `ChromaticReuseExecutor::push_initial (n)`: the compare-and-swap of `onWL`
from 0 to 1 gates the push to bag `color`. With an index outside the vector
the source fails its assertion `i < colorBags.size ()`, or reads
`colorBags[i]` outside the vector, whose effect is not defined: this is
recorded in `oob`, and the bags are returned as they were only so that the
function is total. -/
def push_initial {σ : Type} (e : ChromaticReuseExecutor σ) (n : Nat) :
    ChromaticReuseExecutor σ :=
  let data := e.m.data n
  let i := toUnsigned data.color
  if data.onWL = 0 then
    let m1 : Manager σ := { e.m with data := setNode e.m.data n { data with onWL := 1 } }
    if i < e.colorBags.length then
      { e with m := m1, colorBags := e.colorBags.set i (e.colorBags.getD i [] ++ [n]) }
    else
      { e with m := m1, oob := true }
  else e

/-- The executor with `maxColors` empty bags over the state `m`, and the
`do_all` of `push_initial` over `range`. -/
def fill {σ : Type} (m : Manager σ) (maxColors : Nat) (range : List Nat) :
    ChromaticReuseExecutor σ :=
  range.foldl push_initial
    { m := m, colorBags := List.replicate maxColors [], oob := false, applied := [] }

/-- `ChromaticReuseExecutor::initialize (range)`: `colorDAG`, then
`getMaxColors ()` bags, then `push_initial` on every node of `range`. -/
def initBags {σ : Type} (g : Graph) (csched : List (Nat × Nat)) (range : List Nat)
    (m : Manager σ) : ChromaticReuseExecutor σ :=
  fill (colorDAG g csched m).m (getMaxColors (colorDAG g csched m).m) range

/-- `ChromaticReuseExecutor::ApplyOperator` on node `n`. -/
def ApplyOperator {σ : Type} (func : Nat → Manager σ → Manager σ)
    (e : ChromaticReuseExecutor σ) (n : Nat) : ChromaticReuseExecutor σ :=
  { e with m := func n e.m, applied := n :: e.applied }

/-- `ChromaticReuseExecutor::execute ()`: a `do_all` over every bag, in the
order of the vector; the nodes of a bag are taken in the order of the bag. -/
def execute {σ : Type} (func : Nat → Manager σ → Manager σ) (e : ChromaticReuseExecutor σ) :
    ChromaticReuseExecutor σ :=
  e.colorBags.foldl (fun e bag => bag.foldl (ApplyOperator func) e) e

end ChromaticReuseExecutor

/-! ## The comparison -/

theorem toInt32_usub_pos_neg (a b : Nat) (h : 0 < toInt32 (usub a b)) :
    toInt32 (usub b a) < 0 := by
  unfold toInt32 usub at *
  split_ifs at h ⊢ <;> omega

theorem toInt32_usub_eq_zero (a b : Nat) :
    toInt32 (usub a b) = 0 ↔ a % 4294967296 = b % 4294967296 := by
  unfold toInt32 usub
  split_ifs <;> omega

theorem compare3val_pos_neg (a b : InputDAGdata) (h : 0 < compare3val a b) :
    compare3val b a < 0 := by
  unfold compare3val at *
  simp only [ne_eq, ite_not] at *
  by_cases hp : toInt32 (usub a.priority b.priority) = 0
  · have hp2 : toInt32 (usub b.priority a.priority) = 0 := by
      rw [toInt32_usub_eq_zero] at hp ⊢; omega
    rw [if_pos hp] at h
    rw [if_pos hp2]
    exact toInt32_usub_pos_neg _ _ h
  · have hp2 : ¬ toInt32 (usub b.priority a.priority) = 0 := by
      rw [toInt32_usub_eq_zero] at hp ⊢; omega
    rw [if_neg hp] at h
    rw [if_neg hp2]
    exact toInt32_usub_pos_neg _ _ h

theorem compare3val_eq_zero (a b : InputDAGdata) :
    compare3val a b = 0 ↔
      a.priority % 4294967296 = b.priority % 4294967296 ∧ a.id % 4294967296 = b.id % 4294967296 := by
  unfold compare3val
  simp only [ne_eq, ite_not]
  by_cases hp : toInt32 (usub a.priority b.priority) = 0
  · rw [if_pos hp, toInt32_usub_eq_zero]
    rw [toInt32_usub_eq_zero] at hp
    tauto
  · rw [if_neg hp]
    have hp2 := hp
    rw [toInt32_usub_eq_zero] at hp2
    exact ⟨fun h => absurd h hp, fun h => absurd h.1 hp2⟩

theorem compare3val_self (a : InputDAGdata) : compare3val a a = 0 := by
  rw [compare3val_eq_zero]; exact ⟨rfl, rfl⟩

theorem compare3val_congr {a b a1 b1 : InputDAGdata} (h1 : a.priority = a1.priority)
    (h2 : a.id = a1.id) (h3 : b.priority = b1.priority) (h4 : b.id = b1.id) :
    compare3val a b = compare3val a1 b1 := by
  unfold compare3val; rw [h1, h2, h3, h4]

/-- Below `2^31` the three-valued comparison is the lexicographic one. -/
theorem compare3val_neg_iff (a b : InputDAGdata)
    (ha : a.priority < 2147483648 ∧ a.id < 2147483648)
    (hb : b.priority < 2147483648 ∧ b.id < 2147483648) :
    compare3val a b < 0 ↔
      (a.priority < b.priority ∨ (a.priority = b.priority ∧ a.id < b.id)) := by
  unfold compare3val toInt32 usub
  simp only [ne_eq, ite_not]
  split_ifs <;> omega

theorem compare3val_pos_iff (a b : InputDAGdata)
    (ha : a.priority < 2147483648 ∧ a.id < 2147483648)
    (hb : b.priority < 2147483648 ∧ b.id < 2147483648) :
    0 < compare3val a b ↔
      (b.priority < a.priority ∨ (a.priority = b.priority ∧ b.id < a.id)) := by
  unfold compare3val toInt32 usub
  simp only [ne_eq, ite_not]
  split_ifs <;> omega

/-! ## initDAG -/

theorem foldl_count_int {α : Type} (p : α → Prop) [DecidablePred p] (l : List α) (k : Int) :
    l.foldl (fun indeg dst => if p dst then indeg + 1 else indeg) k
      = k + ((l.countP (fun x => decide (p x)) : Nat) : Int) := by
  induction l generalizing k with
  | nil => simp
  | cons a l ih =>
    rw [List.foldl_cons, ih, List.countP_cons]
    by_cases h : p a
    · simp [h]; ring
    · simp [h]

theorem setNode_same (d : Nat → InputDAGdata) (v : Nat) (x : InputDAGdata) :
    setNode d v x v = x := by simp [setNode]

theorem setNode_other (d : Nat → InputDAGdata) (v u : Nat) (x : InputDAGdata) (h : u ≠ v) :
    setNode d v x u = d u := by simp [setNode, h]

theorem initDAGnode_same (g : Graph) (d d1 : Nat → InputDAGdata) (a : Nat)
    (hk : ∀ u, (d1 u).priority = (d u).priority ∧ (d1 u).id = (d u).id) (ha : d1 a = d a) :
    initDAGnode g d1 a a = initRec g d a := by
  have hc : ∀ x y, compare3val (d1 x) (d1 y) = compare3val (d x) (d y) := fun x y =>
    compare3val_congr (hk x).1 (hk x).2 (hk y).1 (hk y).2
  have hc2 : ∀ x, compare3val (d1 x) (d a) = compare3val (d x) (d a) := fun x => by
    have := hc x a; rwa [ha] at this
  unfold initDAGnode initRec before after
  simp only [setNode_same, foldl_count_int, ha, hc2, zero_add]

theorem foldl_initDAGnode (g : Graph) (d : Nat → InputDAGdata) :
    ∀ (L : List Nat) (d1 : Nat → InputDAGdata), L.Nodup →
      (∀ u, (d1 u).priority = (d u).priority ∧ (d1 u).id = (d u).id) →
      (∀ u ∈ L, d1 u = d u) →
      ∀ v, L.foldl (initDAGnode g) d1 v = if v ∈ L then initRec g d v else d1 v := by
  intro L
  induction L with
  | nil => intro d1 _ _ _ v; simp
  | cons a L ih =>
    intro d1 hnd hk hL v
    rw [List.foldl_cons]
    have hnd2 := List.nodup_cons.mp hnd
    have ha : initDAGnode g d1 a a = initRec g d a :=
      initDAGnode_same g d d1 a hk (hL a (List.mem_cons_self a L))
    have hoth : ∀ u, u ≠ a → initDAGnode g d1 a u = d1 u := fun u hu => by
      unfold initDAGnode; simp only [setNode_other _ _ _ _ hu]
    rw [ih (initDAGnode g d1 a) hnd2.2]
    · by_cases hv : v = a
      · subst hv; simp [hnd2.1, ha]
      · simp [hv, hoth v hv]
    · intro u
      by_cases hu : u = a
      · subst hu; rw [ha]; exact ⟨rfl, rfl⟩
      · rw [hoth u hu]; exact hk u
    · intro u hu
      have hne : u ≠ a := fun h => hnd2.1 (h ▸ hu)
      rw [hoth u hne]; exact hL u (List.mem_cons_of_mem a hu)

theorem initDAG_apply (g : Graph) (d : Nat → InputDAGdata) (v : Nat) :
    initDAG g d v = if v < g.numNodes then initRec g d v else d v := by
  unfold initDAG
  rw [foldl_initDAGnode g d (List.range g.numNodes) d (List.nodup_range _)
    (fun _ => ⟨rfl, rfl⟩) (fun _ _ => rfl)]
  simp [List.mem_range]

/-! ## The operator of a DAG sweep -/

theorem dagClosure_data {σ : Type} (s : Sweep σ) (dst : Nat) :
    (dagClosure s dst).m.data = decBy s.m.data [dst] := by
  funext v
  unfold dagClosure decBy
  by_cases hv : v = dst
  · subst hv
    by_cases hx : (s.m.data v).indegree - 1 = 0 <;> simp [hx, setNode]
  · have hv2 : dst ≠ v := fun h => hv h.symm
    by_cases hx : (s.m.data dst).indegree - 1 = 0 <;> simp [hx, setNode, hv, hv2]

theorem dagClosure_wl {σ : Type} (s : Sweep σ) (dst : Nat) :
    (dagClosure s dst).wl = s.wl ++ (if (s.m.data dst).indegree = 1 then [dst] else []) := by
  unfold dagClosure
  by_cases hx : (s.m.data dst).indegree - 1 = 0
  · have : (s.m.data dst).indegree = 1 := by omega
    simp [hx, this]
  · have : ¬ (s.m.data dst).indegree = 1 := by omega
    simp [hx, this]

theorem dagClosure_calls {σ : Type} (s : Sweep σ) (dst : Nat) :
    calls (dagClosure s dst).log = calls s.log := by
  unfold dagClosure
  by_cases hx : (s.m.data dst).indegree - 1 = 0 <;> simp [hx, calls]

theorem dagClosure_frame {σ : Type} (s : Sweep σ) (dst : Nat) :
    (dagClosure s dst).m = { s.m with data := (dagClosure s dst).m.data } := by
  unfold dagClosure
  by_cases hx : (s.m.data dst).indegree - 1 = 0 <;> simp [hx]

theorem decBy_decBy (d : Nat → InputDAGdata) (L1 L2 : List Nat) :
    decBy (decBy d L1) L2 = decBy d (L1 ++ L2) := by
  funext v
  simp only [decBy, List.count_append, Nat.cast_add]
  congr 1
  omega

theorem decBy_nil (d : Nat → InputDAGdata) : decBy d [] = d := by
  funext v; simp [decBy]

/-- Effect of the successor loop of `RunDAGcomp`: every entry is one
decrement, and a node is pushed when, and only when, its counter passes from
1 to 0. -/
theorem foldl_dagClosure {σ : Type} (L : List Nat) : ∀ (s : Sweep σ),
    (L.foldl dagClosure s).m.data = decBy s.m.data L ∧
    (L.foldl dagClosure s).m = { s.m with data := (L.foldl dagClosure s).m.data } ∧
    calls (L.foldl dagClosure s).log = calls s.log ∧
    ∃ P : List Nat, (L.foldl dagClosure s).wl = s.wl ++ P ∧ P.Nodup ∧
      ∀ v, v ∈ P ↔ (0 < (s.m.data v).indegree ∧ (s.m.data v).indegree ≤ ((L.count v : Nat) : Int)) := by
  induction L with
  | nil =>
    intro s
    refine ⟨by simp [decBy_nil], by simp, by simp, [], by simp, List.nodup_nil, ?_⟩
    intro v; simp
  | cons a L ih =>
    intro s
    rw [List.foldl_cons]
    obtain ⟨h1, h2, h3, P, h4, h5, h6⟩ := ih (dagClosure s a)
    refine ⟨?_, ?_, ?_, ?_⟩
    · rw [h1, dagClosure_data, decBy_decBy]; rfl
    · rw [h2, dagClosure_frame]
    · rw [h3, dagClosure_calls]
    · refine ⟨(if (s.m.data a).indegree = 1 then [a] else []) ++ P, ?_, ?_, ?_⟩
      · rw [h4, dagClosure_wl, List.append_assoc]
      · have hP : ∀ v, v ∈ P ↔ (0 < (decBy s.m.data [a] v).indegree ∧
            (decBy s.m.data [a] v).indegree ≤ ((L.count v : Nat) : Int)) := by
          intro v; rw [h6 v, dagClosure_data]
        by_cases hx : (s.m.data a).indegree = 1
        · simp only [hx, if_true]
          rw [List.singleton_append, List.nodup_cons]
          refine ⟨?_, h5⟩
          rw [hP a]
          simp [decBy, hx]
        · simp [hx, h5]
      · intro v
        have hP : v ∈ P ↔ (0 < (decBy s.m.data [a] v).indegree ∧
            (decBy s.m.data [a] v).indegree ≤ ((L.count v : Nat) : Int)) := by
          rw [h6 v, dagClosure_data]
        rw [List.mem_append, hP, List.count_cons]
        by_cases hva : v = a
        · subst hva
          by_cases hx : (s.m.data v).indegree = 1
          · simp [hx, decBy]
          · simp only [hx, if_false, List.not_mem_nil, false_or, decBy, List.count_singleton_self,
              beq_self_eq_true, if_true]
            push_cast
            constructor
            · rintro ⟨h, h'⟩; constructor <;> omega
            · rintro ⟨h, h'⟩; constructor <;> omega
        · have hav : a ≠ v := fun h => hva h.symm
          have hnot : v ∉ (if (s.m.data a).indegree = 1 then [a] else []) := by
            split_ifs
            · simp [hva]
            · simp
          have hc : List.count v [a] = 0 := List.count_eq_zero.mpr (by simp [hva])
          simp [hnot, decBy, hc, hav]

theorem RunDAGcomp_calls {σ : Type} (func : Nat → Nat → Manager σ → Manager σ) (tid src : Nat)
    (s : Sweep σ) : calls (RunDAGcomp func tid src s).log = src :: calls s.log := by
  unfold RunDAGcomp
  simp only []
  rw [(foldl_dagClosure _ _).2.2.1]
  rfl

/-! ## The sweep invariant -/

theorem after_before (d0 : Nat → InputDAGdata) (u v : Nat) (h : after d0 u v = true) :
    before d0 v u = true := by
  unfold after at h; unfold before
  simp only [decide_eq_true_eq] at *
  exact compare3val_pos_neg _ _ h

theorem after_self (d0 : Nat → InputDAGdata) (u : Nat) : after d0 u u = false := by
  unfold after; simp [compare3val_self]

theorem count_filter_ite {α : Type} [DecidableEq α] (p : α → Bool) (a : α) (l : List α) :
    (l.filter p).count a = if p a = true then l.count a else 0 := by
  by_cases h : p a = true
  · rw [if_pos h, List.count_filter h]
  · rw [if_neg h, List.count_eq_zero]
    intro hm
    exact h (List.mem_filter.mp hm).2

/-- Processing `src` removes from the pending entries of `v` exactly the
entries `src` that have `v` as a DAG successor. -/
theorem countP_pending_cons (d0 : Nat → InputDAGdata) (done : List Nat) (src v : Nat)
    (hsrc : src ∉ done) (l : List Nat) :
    l.countP (pending d0 done v)
      = l.countP (pending d0 (src :: done) v) + (if after d0 v src = true then l.count src else 0) := by
  induction l with
  | nil => simp
  | cons a l ih =>
    rw [List.countP_cons, List.countP_cons, List.count_cons, ih]
    have hab := after_before d0 v src
    by_cases hva : after d0 v src = true
    · have hb := hab hva
      by_cases has : a = src
      · subst has
        simp [pending, hva, hb, hsrc]
        omega
      · simp [pending, hva, has]
        omega
    · by_cases has : a = src
      · subst has
        simp [pending, hva, hsrc]
      · simp [pending, hva, has]

theorem mem_eraseIdx_of_nodup {l : List Nat} (hl : l.Nodup) {i src : Nat}
    (hi : l.get? i = some src) (v : Nat) : v ∈ l.eraseIdx i ↔ (v ≠ src ∧ v ∈ l) := by
  obtain ⟨h, hget⟩ := List.get?_eq_some.mp hi
  have h1 : l.erase l[i] = l.eraseIdx i := hl.erase_getElem i h
  have h2 : l[i] = src := by simpa using hget
  rw [← h1, h2, hl.mem_erase_iff]

theorem nodup_eraseIdx {l : List Nat} (hl : l.Nodup) (i : Nat) : (l.eraseIdx i).Nodup :=
  hl.sublist (List.eraseIdx_sublist l i)

theorem SweepInv.sweep_operator {σ : Type} {g : Graph} {d0 : Nat → InputDAGdata}
    {func : Nat → Nat → Manager σ → Manager σ} (hf : KeepsDAG func) (hwf : g.WF)
    (hsym : g.Symmetric) {s : Sweep σ} (inv : SweepInv g d0 s) (i tid src : Nat)
    (hi : s.wl.get? i = some src) :
    SweepInv g d0 (RunDAGcomp func tid src { s with wl := s.wl.eraseIdx i }) := by
  have hsrc_wl : src ∈ s.wl := List.get?_mem hi
  have hsrc_lt := inv.wl_lt src hsrc_wl
  have hsrc_nd : src ∉ calls s.log := inv.disj src hsrc_wl
  have hsrc0 : (s.m.data src).indegree = 0 := (inv.zero src hsrc_lt).mpr (Or.inl hsrc_wl)
  have hL : ((func tid src s.m).data src).dagSucc
      = (g.adj src).filter (fun dst => after d0 dst src) := by
    rw [(hf tid src s.m src).2.1, inv.succ src hsrc_lt]
  obtain ⟨h1, -, h3, P, h4, h5, h6⟩ := foldl_dagClosure ((func tid src s.m).data src).dagSucc
    ({ m := func tid src s.m, wl := s.wl.eraseIdx i, log := Event.call src :: s.log } : Sweep σ)
  have hrun : RunDAGcomp func tid src { s with wl := s.wl.eraseIdx i }
      = ((func tid src s.m).data src).dagSucc.foldl dagClosure
        ({ m := func tid src s.m, wl := s.wl.eraseIdx i, log := Event.call src :: s.log } : Sweep σ) := rfl
  rw [hrun]
  simp only [calls] at h3
  simp only [] at h1 h4 h6
  rw [hL] at h1 h3 h4 h6 ⊢
  -- entries of `v` in the successor list of `src`
  have hcount : ∀ v, v < g.numNodes →
      ((g.adj src).filter (fun dst => after d0 dst src)).count v
        = if after d0 v src = true then (g.adj v).count src else 0 := by
    intro v hv
    rw [count_filter_ite, hsym src hsrc_lt v hv]
  have hind : ∀ v, (decBy (func tid src s.m).data
      ((g.adj src).filter (fun dst => after d0 dst src)) v).indegree
      = (s.m.data v).indegree
        - ((((g.adj src).filter (fun dst => after d0 dst src)).count v : Nat) : Int) := by
    intro v; simp only [decBy, (hf tid src s.m v).1]
  have hnew : ∀ v, v < g.numNodes →
      (decBy (func tid src s.m).data ((g.adj src).filter (fun dst => after d0 dst src)) v).indegree
        = (((g.adj v).countP (pending d0 (src :: calls s.log) v) : Nat) : Int) := by
    intro v hv
    rw [hind v, hcount v hv, inv.indeg v hv, countP_pending_cons d0 (calls s.log) src v hsrc_nd]
    push_cast
    omega
  have hP : ∀ v, v ∈ P → v < g.numNodes ∧ 0 < (s.m.data v).indegree := by
    intro v hvP
    have hh := (h6 v).mp hvP
    rw [(hf tid src s.m v).1] at hh
    refine ⟨?_, hh.1⟩
    have hpos : 0 < ((g.adj src).filter (fun dst => after d0 dst src)).count v := by
      have hh1 := hh.1; have hh2 := hh.2; omega
    have hmem := List.count_pos_iff.mp hpos
    exact hwf src hsrc_lt v (List.mem_filter.mp hmem).1
  have hPnot : ∀ v, v ∈ P → v ∉ s.wl ∧ v ∉ calls s.log ∧ v ≠ src := by
    intro v hvP
    obtain ⟨hv, hpos⟩ := hP v hvP
    have hz := inv.zero v hv
    refine ⟨fun h => ?_, fun h => ?_, fun h => ?_⟩
    · have := hz.mpr (Or.inl h); omega
    · have := hz.mpr (Or.inr h); omega
    · subst h; omega
  have hwl : ∀ v, v ∈ s.wl.eraseIdx i ↔ (v ≠ src ∧ v ∈ s.wl) :=
    mem_eraseIdx_of_nodup inv.wl_nodup hi
  refine
    { key := ?_, succ := ?_, wl_nodup := ?_, done_nodup := ?_, disj := ?_, wl_lt := ?_,
      done_lt := ?_, indeg := ?_, zero := ?_ }
  · intro v
    rw [h1]
    simp only [decBy, (hf tid src s.m v).2.2.1, (hf tid src s.m v).2.2.2]
    exact inv.key v
  · intro v hv
    rw [h1]
    simp only [decBy, (hf tid src s.m v).2.1]
    exact inv.succ v hv
  · rw [h4, List.nodup_append]
    refine ⟨nodup_eraseIdx inv.wl_nodup i, h5, ?_⟩
    intro v hv1 hv2
    exact (hPnot v hv2).1 ((hwl v).mp hv1).2
  · rw [h3]
    exact List.nodup_cons.mpr ⟨hsrc_nd, inv.done_nodup⟩
  · intro v hv
    rw [h3]
    rw [h4, List.mem_append] at hv
    rw [List.mem_cons, not_or]
    rcases hv with hv | hv
    · exact ⟨((hwl v).mp hv).1, inv.disj v ((hwl v).mp hv).2⟩
    · exact ⟨(hPnot v hv).2.2, (hPnot v hv).2.1⟩
  · intro v hv
    rw [h4, List.mem_append] at hv
    rcases hv with hv | hv
    · exact inv.wl_lt v ((hwl v).mp hv).2
    · exact (hP v hv).1
  · intro v hv
    rw [h3, List.mem_cons] at hv
    rcases hv with hv | hv
    · rw [hv]; exact hsrc_lt
    · exact inv.done_lt v hv
  · intro v hv
    rw [h1, h3]
    exact hnew v hv
  · intro v hv
    rw [h1, h3, h4, List.mem_append, List.mem_cons]
    have hnn := hnew v hv
    have hz := inv.zero v hv
    have hi2 := hind v
    have hold := inv.indeg v hv
    have hp6 := h6 v
    rw [(hf tid src s.m v).1] at hp6
    by_cases hvs : v = src
    · constructor
      · intro _; exact Or.inr (Or.inl hvs)
      · intro _
        rw [hi2, hcount v hv, hvs, after_self, hsrc0]
        simp
    · rw [hwl v]
      constructor
      · intro h0
        by_cases hz0 : (s.m.data v).indegree = 0
        · rcases hz.mp hz0 with h | h
          · exact Or.inl (Or.inl ⟨hvs, h⟩)
          · exact Or.inr (Or.inr h)
        · refine Or.inl (Or.inr (hp6.mpr ?_))
          constructor <;> omega
      · intro h
        have hge : 0 ≤ (decBy (func tid src s.m).data
            ((g.adj src).filter (fun dst => after d0 dst src)) v).indegree := by
          rw [hnn]; exact Int.natCast_nonneg _
        rcases h with (h | h) | h
        · have := hz.mpr (Or.inl h.2); omega
        · have := (hp6.mp h).2; omega
        · rcases h with h | h
          · exact absurd h hvs
          · have := hz.mpr (Or.inr h); omega

theorem initDAG_ready (g : Graph) (d : Nat → InputDAGdata) : DAGready g d (initDAG g d) := by
  refine { key := ?_, succ := ?_, indeg := ?_ }
  · intro v
    rw [initDAG_apply]
    split_ifs <;> simp [initRec]
  · intro v hv
    rw [initDAG_apply, if_pos hv]
    simp [initRec]
  · intro v hv
    rw [initDAG_apply, if_pos hv]
    simp [initRec]

theorem pending_nil (d0 : Nat → InputDAGdata) (v : Nat) :
    pending d0 [] v = fun dst => before d0 dst v := by
  funext dst; simp [pending]

theorem SweepInv.sweep_start {σ : Type} {g : Graph} {d0 : Nat → InputDAGdata} (m : Manager σ)
    (h : DAGready g d0 m.data) :
    SweepInv g d0 { m := m, wl := collectSources g m.data, log := [] } := by
  refine
    { key := h.key, succ := h.succ, wl_nodup := ?_, done_nodup := ?_, disj := ?_, wl_lt := ?_,
      done_lt := ?_, indeg := ?_, zero := ?_ }
  · exact (List.nodup_range _).filter _
  · simp [calls]
  · intro v _; simp [calls]
  · intro v hv
    simp only [collectSources, List.mem_filter, List.mem_range] at hv
    exact hv.1
  · intro v hv; simp [calls] at hv
  · intro v hv
    simp only [calls, pending_nil]
    exact h.indeg v hv
  · intro v hv
    simp [calls, collectSources, hv]

theorem SweepInv.sweep_step {σ : Type} {g : Graph} {d0 : Nat → InputDAGdata}
    {func : Nat → Nat → Manager σ → Manager σ} (hf : KeepsDAG func) (hwf : g.WF)
    (hsym : g.Symmetric) {s : Sweep σ} (inv : SweepInv g d0 s) (i tid : Nat) :
    SweepInv g d0 (step func i tid s) := by
  unfold DetChromatic.step
  cases hi : s.wl.get? i with
  | none => exact inv
  | some src => exact inv.sweep_operator hf hwf hsym i tid src hi

theorem SweepInv.sweep_loop {σ : Type} {g : Graph} {d0 : Nat → InputDAGdata}
    {func : Nat → Nat → Manager σ → Manager σ} (hf : KeepsDAG func) (hwf : g.WF)
    (hsym : g.Symmetric) (sched : List (Nat × Nat)) :
    ∀ {s : Sweep σ}, SweepInv g d0 s → SweepInv g d0 (for_each_local func sched s) := by
  induction sched with
  | nil => intro s inv; exact inv
  | cons c sched ih =>
    intro s inv
    unfold DetChromatic.for_each_local
    cases hwl : s.wl with
    | nil => exact inv
    | cons a l => exact ih (inv.sweep_step hf hwf hsym _ _)

/-- A position of a non-empty worklist yields a node, and the operator
application adds that node to the processed ones. -/
theorem step_calls {σ : Type} (func : Nat → Nat → Manager σ → Manager σ) (i tid : Nat)
    (s : Sweep σ) (hi : i < s.wl.length) :
    ∃ src, s.wl.get? i = some src ∧ calls (step func i tid s).log = src :: calls s.log := by
  refine ⟨s.wl[i], by simp [List.get?_eq_getElem?, hi], ?_⟩
  unfold DetChromatic.step
  have : s.wl.get? i = some s.wl[i] := by simp [List.get?_eq_getElem?, hi]
  rw [this]
  exact RunDAGcomp_calls func tid _ _

theorem SweepInv.length_le {σ : Type} {g : Graph} {d0 : Nat → InputDAGdata} {s : Sweep σ}
    (inv : SweepInv g d0 s) : s.wl.length + (calls s.log).length ≤ g.numNodes := by
  have hnd : (s.wl ++ calls s.log).Nodup :=
    List.nodup_append.mpr ⟨inv.wl_nodup, inv.done_nodup, fun v h1 h2 => inv.disj v h1 h2⟩
  have hsub : s.wl ++ calls s.log ⊆ List.range g.numNodes := by
    intro v hv
    rw [List.mem_range]
    rcases List.mem_append.mp hv with h | h
    · exact inv.wl_lt v h
    · exact inv.done_lt v h
  have := (List.subperm_of_subset hnd hsub).length_le
  simpa using this

/-- A schedule with as many entries as there are nodes left to process
empties the worklist. -/
theorem for_each_local_complete {σ : Type} {g : Graph} {d0 : Nat → InputDAGdata}
    {func : Nat → Nat → Manager σ → Manager σ} (hf : KeepsDAG func) (hwf : g.WF)
    (hsym : g.Symmetric) (sched : List (Nat × Nat)) :
    ∀ {s : Sweep σ}, SweepInv g d0 s → g.numNodes ≤ sched.length + (calls s.log).length →
      (for_each_local func sched s).wl = [] := by
  induction sched with
  | nil =>
    intro s inv hlen
    have := inv.length_le
    simp only [List.length_nil, zero_add] at hlen
    unfold DetChromatic.for_each_local
    exact List.length_eq_zero.mp (by omega)
  | cons c sched ih =>
    intro s inv hlen
    unfold DetChromatic.for_each_local
    cases hwl : s.wl with
    | nil => simpa using hwl
    | cons a l =>
      simp only []
      have hpos : 0 < s.wl.length := by rw [hwl]; simp
      have hi : c.1 % s.wl.length < s.wl.length := Nat.mod_lt _ hpos
      obtain ⟨src, _, hc⟩ := step_calls func (c.1 % s.wl.length) c.2 s hi
      rw [← hwl]
      apply ih (inv.sweep_step hf hwf hsym _ _)
      rw [hc]
      simp only [List.length_cons] at hlen ⊢
      omega

theorem before_or_before {g : Graph} {d0 : Nat → InputDAGdata} (hid : DistinctIds g d0)
    {u v : Nat} (hu : u < g.numNodes) (hv : v < g.numNodes) (huv : u ≠ v) :
    before d0 u v = true ∨ before d0 v u = true := by
  have hne : compare3val (d0 u) (d0 v) ≠ 0 := by
    intro h
    exact hid u hu v hv huv ((compare3val_eq_zero _ _).mp h).2
  rcases lt_or_gt_of_ne hne with h | h
  · left; simp [before, h]
  · right; simp [before, compare3val_pos_neg _ _ h]

theorem mem_adj_symm {g : Graph} (hsym : g.Symmetric) {u v : Nat} (hu : u < g.numNodes)
    (hv : v < g.numNodes) (h : v ∈ g.adj u) : u ∈ g.adj v := by
  rw [← List.count_pos_iff, ← hsym u hu v hv, List.count_pos_iff]
  exact h

/-- A node whose counter is at 0 has had every entry counted by `initDAG`
discharged: the neighbours ordered before it have been processed and list
it as a DAG successor. -/
theorem SweepInv.pred_done {σ : Type} {g : Graph} {d0 : Nat → InputDAGdata} {s : Sweep σ}
    (inv : SweepInv g d0 s) {v : Nat} (hv : v < g.numNodes)
    (h0 : (s.m.data v).indegree = 0) {u : Nat} (hu : u ∈ g.adj v) (hb : before d0 u v = true) :
    u ∈ calls s.log ∧ after d0 v u = true := by
  have h := inv.indeg v hv
  rw [h0] at h
  have hz : (g.adj v).countP (pending d0 (calls s.log) v) = 0 := by exact_mod_cast h.symm
  have := List.countP_eq_zero.mp hz u hu
  simp [pending, hb] at this
  exact this

/-- Two distinct nodes that are both in the worklist are not adjacent. -/
theorem SweepInv.wl_not_adj {σ : Type} {g : Graph} {d0 : Nat → InputDAGdata} {s : Sweep σ}
    (inv : SweepInv g d0 s) (hsym : g.Symmetric) (hid : DistinctIds g d0)
    {u v : Nat} (hu : u ∈ s.wl) (hv : v ∈ s.wl) (huv : u ≠ v) : v ∉ g.adj u := by
  intro hadj
  have hul := inv.wl_lt u hu
  have hvl := inv.wl_lt v hv
  have hu0 := (inv.zero u hul).mpr (Or.inl hu)
  have hv0 := (inv.zero v hvl).mpr (Or.inl hv)
  rcases before_or_before hid hul hvl huv with hb | hb
  · exact inv.disj u hu (inv.pred_done hvl hv0 (mem_adj_symm hsym hul hvl hadj) hb).1
  · exact inv.disj v hv (inv.pred_done hul hu0 hadj hb).1

/-- Invariant of every state that a sweep seeded with `collectSources` reaches. -/
theorem sweepInv_reachable {σ : Type} {g : Graph} {d0 : Nat → InputDAGdata}
    {func : Nat → Nat → Manager σ → Manager σ} (hf : KeepsDAG func) (hwf : g.WF)
    (hsym : g.Symmetric) (m : Manager σ) (hm : DAGready g d0 m.data)
    (sched : List (Nat × Nat)) :
    SweepInv g d0 (runDAGcomputationAll g func sched m) :=
  SweepInv.sweep_loop hf hwf hsym sched (SweepInv.sweep_start m hm)

theorem Manager.initDAG_ready_data {σ : Type} (g : Graph) (m : Manager σ) :
    DAGready g m.data (m.initDAG g).data :=
  DetChromatic.initDAG_ready g m.data

/-! ## colorNode -/

theorem getD_extend_set (v : List Bool) (c i : Nat) :
    ((v ++ List.replicate (c + 1 - v.length) false).set c true).getD i false
      = (decide (i = c) || v.getD i false) := by
  simp only [List.getD_eq_getElem?_getD, List.getElem?_set, List.length_append,
    List.length_replicate, List.getElem?_append, List.getElem?_replicate]
  by_cases hic : i = c
  · subst hic
    have : i < v.length + (i + 1 - v.length) := by omega
    simp [this]
  · have hci : ¬ c = i := fun h => hic h.symm
    simp only [hci, if_false, hic, decide_False, Bool.false_or]
    by_cases hiv : i < v.length
    · simp [hiv]
    · simp only [hiv, if_false]
      have h2 : v[i]? = none := List.getElem?_eq_none (by omega)
      rw [h2]
      split_ifs <;> simp

theorem length_extend_set (v : List Bool) (c : Nat) :
    ((v ++ List.replicate (c + 1 - v.length) false).set c true).length = max v.length (c + 1) := by
  simp only [List.length_set, List.length_append, List.length_replicate]
  omega

/-- One application of `colorClosure` when the neighbour carries a colour. -/
theorem colorClosure_colored (d : Nat → InputDAGdata) (acc : List Bool × Bool) (dst : Nat)
    (h : 0 ≤ (d dst).color) :
    (colorClosure d acc dst).1
      = (acc.1 ++ List.replicate ((d dst).color.toNat + 1 - acc.1.length) false).set
          (d dst).color.toNat true := by
  unfold colorClosure
  simp only [h, if_true]
  by_cases hlen : (acc.1.length : Int) ≤ (d dst).color
  · simp [hlen]
  · have : (d dst).color.toNat + 1 - acc.1.length = 0 := by omega
    simp [hlen, this]

theorem colorClosure_uncolored (d : Nat → InputDAGdata) (acc : List Bool × Bool) (dst : Nat)
    (h : ¬ 0 ≤ (d dst).color) : (colorClosure d acc dst).1 = acc.1 := by
  unfold colorClosure
  have hlen : ¬ (acc.1.length : Int) ≤ (d dst).color := by omega
  simp [h, hlen]

/-- The forbidden-colours vector after the neighbour loop of `colorNode`. -/
theorem foldl_colorClosure (d : Nat → InputDAGdata) (L : List Nat) :
    ∀ (acc : List Bool × Bool),
      acc.1.length ≤ (L.foldl (colorClosure d) acc).1.length ∧
      (∀ i, (L.foldl (colorClosure d) acc).1.getD i false = true ↔
        (acc.1.getD i false = true ∨ ∃ u ∈ L, (d u).color = (i : Int))) ∧
      (∀ u ∈ L, 0 ≤ (d u).color →
        (d u).color < ((L.foldl (colorClosure d) acc).1.length : Int)) := by
  induction L with
  | nil => intro acc; simp
  | cons a L ih =>
    intro acc
    rw [List.foldl_cons]
    obtain ⟨h1, h2, h3⟩ := ih (colorClosure d acc a)
    by_cases hc : 0 ≤ (d a).color
    · have hcl := colorClosure_colored d acc a hc
      have hlen : (colorClosure d acc a).1.length = max acc.1.length ((d a).color.toNat + 1) := by
        rw [hcl, length_extend_set]
      refine ⟨by omega, ?_, ?_⟩
      · intro i
        rw [h2 i, hcl, getD_extend_set]
        simp only [Bool.or_eq_true, decide_eq_true_eq, List.mem_cons, exists_eq_or_imp]
        have : i = (d a).color.toNat ↔ (d a).color = (i : Int) := by omega
        rw [this]
        tauto
      · intro u hu hu0
        rcases List.mem_cons.mp hu with h | h
        · subst h; omega
        · exact h3 u h hu0
    · have hcl := colorClosure_uncolored d acc a hc
      refine ⟨by rw [hcl] at h1; exact h1, ?_, ?_⟩
      · intro i
        rw [h2 i, hcl]
        simp only [List.mem_cons, exists_eq_or_imp]
        have : ¬ (d a).color = (i : Int) := by omega
        tauto
      · intro u hu hu0
        rcases List.mem_cons.mp hu with h | h
        · subst h; omega
        · exact h3 u h hu0

theorem firstFree_some {fc : List Bool} {i : Nat} (h : firstFree fc = some i) :
    i < fc.length ∧ fc.getD i false = false ∧ ∀ j, j < i → fc.getD j false = true := by
  induction fc generalizing i with
  | nil => simp [firstFree] at h
  | cons b bs ih =>
    cases b with
    | false =>
      simp only [firstFree, if_true, Option.some.injEq] at h
      subst h
      simp
    | true =>
      cases hk : firstFree bs with
      | none => simp [firstFree, hk] at h
      | some k =>
        simp only [firstFree, hk, Option.map_some', Option.some.injEq] at h
        simp only [Bool.true_eq_false, if_false] at h
        have hi : i = k + 1 := by simpa using h.symm
        subst hi
        obtain ⟨h1, h2, h3⟩ := ih hk
        refine ⟨by simp; omega, by simpa using h2, ?_⟩
        intro j hj
        cases j with
        | zero => simp
        | succ j => simpa using h3 j (by omega)

theorem firstFree_none {fc : List Bool} (h : firstFree fc = none) :
    ∀ j, j < fc.length → fc.getD j false = true := by
  induction fc with
  | nil => intro j hj; simp at hj
  | cons b bs ih =>
    cases b with
    | false => simp [firstFree] at h
    | true =>
      have hk : firstFree bs = none := by
        cases hk : firstFree bs with
        | none => rfl
        | some k => simp [firstFree, hk] at h
      intro j hj
      cases j with
      | zero => simp
      | succ j => simpa using ih hk j (by simpa using hj)

theorem getD_map_false (v : List Bool) (i : Nat) :
    (v.map (fun _ => false)).getD i false = false := by
  simp only [List.getD_eq_getElem?_getD, List.getElem?_map]
  cases v[i]? <;> simp

/-- First fit: `colorNode` gives an uncoloured `src` the least non-negative
integer that is not the colour of a neighbour, and writes nothing else of the
node data. -/
theorem colorNode_first_fit {σ : Type} (g : Graph) (tid src : Nat) (m : Manager σ)
    (hunc : (m.data src).color = -1) :
    ∃ c : Int, (colorNode g tid src m).data = setNode m.data src { m.data src with color := c } ∧
      0 ≤ c ∧ (∀ u ∈ g.adj src, (m.data u).color ≠ c) ∧
      (∀ j : Int, 0 ≤ j → j < c → ∃ u ∈ g.adj src, (m.data u).color = j) := by
  obtain ⟨-, h2, h3⟩ := foldl_colorClosure m.data (g.adj src)
    ((m.perThrdColorVec tid).map (fun _ => false), m.oob)
  simp only [getD_map_false, Bool.false_eq_true, false_or] at h2
  cases hff : firstFree ((g.adj src).foldl (colorClosure m.data)
      ((m.perThrdColorVec tid).map (fun _ => false), m.oob)).1 with
  | some i =>
    obtain ⟨f1, f2, f3⟩ := firstFree_some hff
    refine ⟨(i : Int), ?_, Int.natCast_nonneg _, ?_, ?_⟩
    · unfold colorNode
      simp only [hff]
      have : ¬ ((i : Int) = -1) := by omega
      simp [this]
    · intro u hu hcu
      have := (h2 i).mpr ⟨u, hu, hcu⟩
      rw [f2] at this
      exact Bool.false_ne_true this
    · intro j hj0 hji
      have hj : j.toNat < i := by omega
      obtain ⟨u, hu, hcu⟩ := (h2 j.toNat).mp (f3 j.toNat hj)
      exact ⟨u, hu, by rw [hcu]; omega⟩
  | none =>
    have f := firstFree_none hff
    refine ⟨((((g.adj src).foldl (colorClosure m.data)
      ((m.perThrdColorVec tid).map (fun _ => false), m.oob)).1.length : Nat) : Int), ?_,
      Int.natCast_nonneg _, ?_, ?_⟩
    · unfold colorNode
      simp only [hff, hunc]
      simp
    · intro u hu hcu
      have := h3 u hu (by rw [hcu]; exact Int.natCast_nonneg _)
      omega
    · intro j hj0 hji
      have hj : j.toNat < ((g.adj src).foldl (colorClosure m.data)
          ((m.perThrdColorVec tid).map (fun _ => false), m.oob)).1.length := by omega
      obtain ⟨u, hu, hcu⟩ := (h2 j.toNat).mp (f j.toNat hj)
      exact ⟨u, hu, by rw [hcu]; omega⟩

theorem colorNode_keepsDAG {σ : Type} (g : Graph) :
    KeepsDAG (colorNode g : Nat → Nat → Manager σ → Manager σ) := by
  intro tid src m v
  unfold colorNode
  by_cases h : v = src
  · subst h; simp [setNode]
  · simp [setNode, h]

theorem colorNode_other {σ : Type} (g : Graph) (tid src : Nat) (m : Manager σ) (v : Nat)
    (h : v ≠ src) : (colorNode g tid src m).data v = m.data v := by
  unfold colorNode; simp [setNode, h]

/-! ## The colouring sweep -/

theorem RunDAGcomp_color {σ : Type} (func : Nat → Nat → Manager σ → Manager σ) (tid src : Nat)
    (s : Sweep σ) (v : Nat) :
    ((RunDAGcomp func tid src s).m.data v).color = ((func tid src s.m).data v).color := by
  unfold RunDAGcomp
  simp only []
  rw [(foldl_dagClosure _ _).1]
  rfl

theorem before_self (d0 : Nat → InputDAGdata) (u : Nat) : before d0 u u = false := by
  unfold before; simp [compare3val_self]

theorem ColorInv.color_operator {σ : Type} {g : Graph} {d0 : Nat → InputDAGdata}
    (hsym : g.Symmetric) (hid : DistinctIds g d0) {s : Sweep σ} (inv : SweepInv g d0 s)
    (ci : ColorInv g d0 s) (i tid src : Nat) (hi : s.wl.get? i = some src) :
    ColorInv g d0 (RunDAGcomp (colorNode g) tid src { s with wl := s.wl.eraseIdx i }) := by
  have hsrc_wl : src ∈ s.wl := List.get?_mem hi
  have hsrc_lt := inv.wl_lt src hsrc_wl
  have hsrc_nd : src ∉ calls s.log := inv.disj src hsrc_wl
  have hunc := ci.unc src hsrc_nd
  obtain ⟨c, hdata, hc0, hne, hall⟩ := colorNode_first_fit g tid src s.m hunc
  have hcol : ∀ v, ((RunDAGcomp (colorNode g) tid src { s with wl := s.wl.eraseIdx i }).m.data v).color
      = if v = src then c else (s.m.data v).color := by
    intro v
    rw [RunDAGcomp_color]
    simp only [hdata, setNode]
    split_ifs <;> rfl
  have hcalls := RunDAGcomp_calls (colorNode g) tid src { s with wl := s.wl.eraseIdx i }
  simp only [] at hcalls
  -- a processed node is not `src`, and its earlier neighbours are processed
  have hdone_ne : ∀ v, v ∈ calls s.log → v ≠ src := fun v hv h => hsrc_nd (h ▸ hv)
  have hpred : ∀ v, v ∈ calls s.log → ∀ u ∈ g.adj v, before d0 u v = true → u ∈ calls s.log := by
    intro v hv u hu hb
    have hvl := inv.done_lt v hv
    exact (inv.pred_done hvl ((inv.zero v hvl).mpr (Or.inr hv)) hu hb).1
  refine { unc := ?_, col := ?_ }
  · intro v hv
    rw [hcalls, List.mem_cons, not_or] at hv
    rw [hcol v, if_neg hv.1]
    exact ci.unc v hv.2
  · intro v hv
    rw [hcalls, List.mem_cons] at hv
    unfold FirstFit
    by_cases hvs : v = src
    · subst hvs
      simp only [hcol, if_true]
      refine ⟨hc0, ?_, ?_⟩
      · intro u hu hb
        have hus : u ≠ v := by
          intro h; rw [h, before_self] at hb; exact Bool.false_ne_true hb
        rw [if_neg hus]
        exact hne u hu
      · intro j hj0 hjc
        obtain ⟨u, hu, huc⟩ := hall j hj0 hjc
        have hudone : u ∈ calls s.log := by
          by_contra hnd
          have := ci.unc u hnd
          omega
        have hus : u ≠ v := hdone_ne u hudone
        have hul := inv.done_lt u hudone
        refine ⟨u, hu, ?_, by rw [if_neg hus]; exact huc⟩
        rcases before_or_before hid hul hsrc_lt hus with hb | hb
        · exact hb
        · exfalso
          have hv_adj : v ∈ g.adj u := mem_adj_symm hsym hsrc_lt hul hu
          exact hsrc_nd (hpred u hudone v hv_adj hb)
    · have hvd : v ∈ calls s.log := by
        rcases hv with h | h
        · exact absurd h hvs
        · exact h
      obtain ⟨f1, f2, f3⟩ := ci.col v hvd
      simp only [hcol, if_neg hvs]
      refine ⟨f1, ?_, ?_⟩
      · intro u hu hb
        rw [if_neg (hdone_ne u (hpred v hvd u hu hb))]
        exact f2 u hu hb
      · intro j hj0 hjc
        obtain ⟨u, hu, hb, huc⟩ := f3 j hj0 hjc
        exact ⟨u, hu, hb, by rw [if_neg (hdone_ne u (hpred v hvd u hu hb))]; exact huc⟩

theorem ColorInv.color_loop {σ : Type} {g : Graph} {d0 : Nat → InputDAGdata} (hwf : g.WF)
    (hsym : g.Symmetric) (hid : DistinctIds g d0) (sched : List (Nat × Nat)) :
    ∀ {s : Sweep σ}, SweepInv g d0 s → ColorInv g d0 s →
      ColorInv g d0 (for_each_local (colorNode g) sched s) := by
  induction sched with
  | nil => intro s _ ci; exact ci
  | cons c sched ih =>
    intro s inv ci
    unfold DetChromatic.for_each_local
    cases hwl : s.wl with
    | nil => exact ci
    | cons a l =>
      simp only []
      rw [← hwl]
      refine ih (inv.sweep_step (colorNode_keepsDAG g) hwf hsym _ _) ?_
      unfold DetChromatic.step
      cases hi : s.wl.get? (c.1 % s.wl.length) with
      | none => exact ci
      | some src => exact ci.color_operator hsym hid inv _ _ src hi

theorem ColorInv.color_start {σ : Type} (g : Graph) (d0 : Nat → InputDAGdata) (m : Manager σ)
    (h : ∀ v, (m.data v).color = -1) :
    ColorInv g d0 { m := m, wl := collectSources g m.data, log := [] } :=
  { unc := fun v _ => h v, col := fun v hv => by simp [calls] at hv }

/-! ## Completion -/

theorem before_iff_lex {g : Graph} {d0 : Nat → InputDAGdata} (hk : KeysBelow g d0) {u v : Nat}
    (hu : u < g.numNodes) (hv : v < g.numNodes) :
    before d0 u v = true ↔
      ((d0 u).priority < (d0 v).priority ∨
        ((d0 u).priority = (d0 v).priority ∧ (d0 u).id < (d0 v).id)) := by
  unfold before
  rw [decide_eq_true_eq]
  exact compare3val_neg_iff _ _ (hk u hu) (hk v hv)

theorem before_iff_after {g : Graph} {d0 : Nat → InputDAGdata} (hk : KeysBelow g d0) {u v : Nat}
    (hu : u < g.numNodes) (hv : v < g.numNodes) :
    before d0 u v = true ↔ after d0 v u = true := by
  rw [before_iff_lex hk hu hv]
  unfold after
  rw [decide_eq_true_eq, gt_iff_lt, compare3val_pos_iff _ _ (hk v hv) (hk u hu)]
  constructor
  · rintro (h | ⟨h1, h2⟩)
    · exact Or.inl h
    · exact Or.inr ⟨h1.symm, h2⟩
  · rintro (h | ⟨h1, h2⟩)
    · exact Or.inl h
    · exact Or.inr ⟨h1.symm, h2⟩

/-- With keys below `2^31` the orientation is acyclic, so a sweep that has
emptied its worklist has processed every node. -/
theorem SweepInv.all_done {σ : Type} {g : Graph} {d0 : Nat → InputDAGdata} {s : Sweep σ}
    (inv : SweepInv g d0 s) (hwf : g.WF) (hk : KeysBelow g d0) (hempty : s.wl = []) :
    ∀ v, v < g.numNodes → v ∈ calls s.log := by
  have key : ∀ k v, v < g.numNodes → (d0 v).priority * 2147483648 + (d0 v).id = k →
      v ∈ calls s.log := by
    intro k
    induction k using Nat.strong_induction_on with
    | _ k ih =>
      intro v hv hkv
      have h0 : (s.m.data v).indegree = 0 := by
        rw [inv.indeg v hv]
        have : (g.adj v).countP (pending d0 (calls s.log) v) = 0 := by
          rw [List.countP_eq_zero]
          intro u hu
          have hul := hwf v hv u hu
          by_cases hb : before d0 u v = true
          · have hlex := (before_iff_lex hk hul hv).mp hb
            have haf := (before_iff_after hk hul hv).mp hb
            have hku := hk u hul
            have hkv2 := hk v hv
            have hdone : u ∈ calls s.log := by
              apply ih ((d0 u).priority * 2147483648 + (d0 u).id) _ u hul rfl
              rw [← hkv]
              rcases hlex with h | ⟨h1, h2⟩ <;> omega
            simp [pending, hb, hdone, haf]
          · simp [pending, hb]
        rw [this]; rfl
      rcases (inv.zero v hv).mp h0 with h | h
      · rw [hempty] at h; simp at h
      · exact h
  intro v hv
  exact key _ v hv rfl

/-! ## Independence of the schedule -/

theorem firstFit_unique {g : Graph} {d0 dA dB : Nat → InputDAGdata} {v : Nat}
    (hA : FirstFit g d0 dA v) (hB : FirstFit g d0 dB v)
    (hagree : ∀ u ∈ g.adj v, before d0 u v = true → (dA u).color = (dB u).color) :
    (dA v).color = (dB v).color := by
  obtain ⟨a1, a2, a3⟩ := hA
  obtain ⟨b1, b2, b3⟩ := hB
  rcases lt_trichotomy (dA v).color (dB v).color with h | h | h
  · obtain ⟨u, hu, hb, hc⟩ := b3 _ a1 h
    exact absurd ((hagree u hu hb).trans hc) (a2 u hu hb)
  · exact h
  · obtain ⟨u, hu, hb, hc⟩ := a3 _ b1 h
    exact absurd ((hagree u hu hb).symm.trans hc) (b2 u hu hb)

theorem Agree.agree_operator {σ : Type} {g : Graph} {d0 : Nat → InputDAGdata}
    (hsym : g.Symmetric) (hid : DistinctIds g d0) {b : Sweep σ} (invB : SweepInv g d0 b)
    (ciB : ColorInv g d0 b) (hB : b.wl = []) {a : Sweep σ} (invA : SweepInv g d0 a)
    (ciA : ColorInv g d0 a) (hag : Agree a b) (i tid src : Nat) (hi : a.wl.get? i = some src) :
    Agree (RunDAGcomp (colorNode g) tid src { a with wl := a.wl.eraseIdx i }) b := by
  have hsrc_wl : src ∈ a.wl := List.get?_mem hi
  have hsrc_lt := invA.wl_lt src hsrc_wl
  have hsrc_nd : src ∉ calls a.log := invA.disj src hsrc_wl
  have hsrc0 : (a.m.data src).indegree = 0 := (invA.zero src hsrc_lt).mpr (Or.inl hsrc_wl)
  have ciA2 := ciA.color_operator hsym hid invA i tid src hi
  have hcalls := RunDAGcomp_calls (colorNode g) tid src { a with wl := a.wl.eraseIdx i }
  simp only [] at hcalls
  have hcol : ∀ v, v ≠ src →
      ((RunDAGcomp (colorNode g) tid src { a with wl := a.wl.eraseIdx i }).m.data v).color
        = (a.m.data v).color := by
    intro v hv
    rw [RunDAGcomp_color]
    simp only [colorNode_other g tid src a.m v hv]
  -- the earlier neighbours of `src` are processed in both sweeps
  have hpredA : ∀ u ∈ g.adj src, before d0 u src = true →
      u ∈ calls a.log ∧ after d0 src u = true :=
    fun u hu hb => invA.pred_done hsrc_lt hsrc0 hu hb
  have hsrcB : src ∈ calls b.log := by
    have h0 : (b.m.data src).indegree = 0 := by
      rw [invB.indeg src hsrc_lt]
      have : (g.adj src).countP (pending d0 (calls b.log) src) = 0 := by
        rw [List.countP_eq_zero]
        intro u hu
        by_cases hb : before d0 u src = true
        · obtain ⟨hd, haf⟩ := hpredA u hu hb
          simp [pending, hb, (hag u hd).1, haf]
        · simp [pending, hb]
      rw [this]; rfl
    rcases (invB.zero src hsrc_lt).mp h0 with h | h
    · rw [hB] at h; simp at h
    · exact h
  intro v hv
  rw [hcalls, List.mem_cons] at hv
  by_cases hvs : v = src
  · subst hvs
    refine ⟨hsrcB, ?_⟩
    refine firstFit_unique (ciA2.col v (by rw [hcalls]; exact List.mem_cons_self _ _))
      (ciB.col v hsrcB) ?_
    intro u hu hb
    have hud := (hpredA u hu hb).1
    have hus : u ≠ v := fun h => hsrc_nd (h ▸ hud)
    rw [hcol u hus]
    exact (hag u hud).2
  · have hvd : v ∈ calls a.log := by
      rcases hv with h | h
      · exact absurd h hvs
      · exact h
    rw [hcol v hvs]
    exact hag v hvd

theorem Agree.agree_loop {σ : Type} {g : Graph} {d0 : Nat → InputDAGdata} (hwf : g.WF)
    (hsym : g.Symmetric) (hid : DistinctIds g d0) {b : Sweep σ} (invB : SweepInv g d0 b)
    (ciB : ColorInv g d0 b) (hB : b.wl = []) (sched : List (Nat × Nat)) :
    ∀ {a : Sweep σ}, SweepInv g d0 a → ColorInv g d0 a → Agree a b →
      Agree (for_each_local (colorNode g) sched a) b := by
  induction sched with
  | nil => intro a _ _ hag; exact hag
  | cons c sched ih =>
    intro a invA ciA hag
    unfold DetChromatic.for_each_local
    cases hwl : a.wl with
    | nil => exact hag
    | cons x l =>
      simp only []
      rw [← hwl]
      have invA2 := invA.sweep_step (colorNode_keepsDAG g) hwf hsym (c.1 % a.wl.length) c.2
      have hstep : ColorInv g d0 (step (colorNode g) (c.1 % a.wl.length) c.2 a) ∧
          Agree (step (colorNode g) (c.1 % a.wl.length) c.2 a) b := by
        unfold DetChromatic.step
        cases hi : a.wl.get? (c.1 % a.wl.length) with
        | none => exact ⟨ciA, hag⟩
        | some src =>
          exact ⟨ciA.color_operator hsym hid invA _ _ src hi,
            hag.agree_operator hsym hid invB ciB hB invA ciA _ _ src hi⟩
      exact ih invA2 hstep.1 hstep.2

/-! ## In-degree and unprocessed predecessors -/

theorem sum_range_ite_eq (n a k : Nat) (ha : a < n) :
    ((List.range n).map (fun u => if u = a then k else 0)).sum = k := by
  induction n with
  | zero => omega
  | succ n ih =>
    rw [List.range_succ, List.map_append, List.sum_append]
    by_cases h : a = n
    · subst h
      have hz : ((List.range a).map (fun u => if u = a then k else 0)).sum = 0 := by
        apply List.sum_eq_zero
        intro x hx
        simp only [List.mem_map, List.mem_range] at hx
        obtain ⟨u, hu, rfl⟩ := hx
        have : u ≠ a := by omega
        simp [this]
      simp [hz]
    · have : a < n := by omega
      rw [ih this]
      have hne : ¬ n = a := fun h' => h h'.symm
      simp [hne]

theorem countP_eq_sum_range (p : Nat → Bool) (n : Nat) (l : List Nat) (hl : ∀ x ∈ l, x < n) :
    l.countP p = ((List.range n).map (fun u => if p u = true then l.count u else 0)).sum := by
  induction l with
  | nil => simp
  | cons a l ih =>
    have hl2 : ∀ x ∈ l, x < n := fun x hx => hl x (List.mem_cons_of_mem a hx)
    have ha : a < n := hl a (List.mem_cons_self a l)
    rw [List.countP_cons, ih hl2]
    have hsplit : (fun u => if p u = true then (a :: l).count u else 0)
        = (fun u => (if p u = true then l.count u else 0)
            + (if u = a then (if p a = true then 1 else 0) else 0)) := by
      funext u
      rw [List.count_cons]
      by_cases hu : u = a
      · subst hu; by_cases hp : p u = true <;> simp [hp]
      · have : ¬ a = u := fun h => hu h.symm
        by_cases hp : p u = true <;> simp [hp, hu, this]
    rw [hsplit, List.sum_map_add, sum_range_ite_eq n a _ ha]

theorem SweepInv.unprocessedPreds_eq {σ : Type} {g : Graph} {d0 : Nat → InputDAGdata}
    {s : Sweep σ} (inv : SweepInv g d0 s) (hwf : g.WF) (hsym : g.Symmetric)
    (hk : KeysBelow g d0) {v : Nat} (hv : v < g.numNodes) :
    unprocessedPreds g s.m.data (calls s.log) v
      = (g.adj v).countP (pending d0 (calls s.log) v) := by
  have hp : (g.adj v).countP (pending d0 (calls s.log) v)
      = (g.adj v).countP (fun u => !decide (u ∈ calls s.log) && after d0 v u) := by
    apply List.countP_congr
    intro u hu
    have hul := hwf v hv u hu
    have hba := before_iff_after hk hul hv
    by_cases ha : after d0 v u = true
    · simp [pending, hba.mpr ha, ha]
    · have hb : ¬ before d0 u v = true := fun h => ha (hba.mp h)
      simp [pending, hb, ha]
  rw [hp, countP_eq_sum_range _ g.numNodes (g.adj v) (hwf v hv)]
  unfold unprocessedPreds
  congr 1
  apply List.map_congr_left
  intro u hu
  have hul : u < g.numNodes := List.mem_range.mp hu
  rw [inv.succ u hul, count_filter_ite, hsym u hul v hv]
  by_cases hd : u ∈ calls s.log
  · simp [hd]
  · by_cases ha : after d0 v u = true <;> simp [hd, ha]

/-! ## reinitDAG -/

theorem foldl_reinitDAG (L : List Nat) : ∀ (acc : (Nat → InputDAGdata) × List Nat), L.Nodup →
    (∀ v, (L.foldl
      (fun (acc : (Nat → InputDAGdata) × List Nat) src =>
        (setNode acc.1 src { acc.1 src with indegree := (acc.1 src).indeg_backup },
          if ({ acc.1 src with indegree := (acc.1 src).indeg_backup } : InputDAGdata).indegree = 0
          then acc.2 ++ [src] else acc.2)) acc).1 v
      = if v ∈ L then { acc.1 v with indegree := (acc.1 v).indeg_backup } else acc.1 v) ∧
    (L.foldl
      (fun (acc : (Nat → InputDAGdata) × List Nat) src =>
        (setNode acc.1 src { acc.1 src with indegree := (acc.1 src).indeg_backup },
          if ({ acc.1 src with indegree := (acc.1 src).indeg_backup } : InputDAGdata).indegree = 0
          then acc.2 ++ [src] else acc.2)) acc).2
      = acc.2 ++ L.filter (fun src => decide ((acc.1 src).indeg_backup = 0)) := by
  induction L with
  | nil => intro acc _; simp
  | cons a L ih =>
    intro acc hnd
    have hnd2 := List.nodup_cons.mp hnd
    rw [List.foldl_cons]
    obtain ⟨h1, h2⟩ := ih _ hnd2.2
    constructor
    · intro v
      rw [h1 v]
      by_cases hva : v = a
      · subst hva; simp [hnd2.1, setNode]
      · simp [hva, setNode]
    · rw [h2]
      have hf : L.filter (fun src => decide
            ((setNode acc.1 a { acc.1 a with indegree := (acc.1 a).indeg_backup } src).indeg_backup = 0))
          = L.filter (fun src => decide ((acc.1 src).indeg_backup = 0)) := by
        apply List.filter_congr
        intro x hx
        have : x ≠ a := fun h => hnd2.1 (h ▸ hx)
        simp [setNode, this]
      rw [hf, List.filter_cons]
      by_cases hz : (acc.1 a).indeg_backup = 0 <;> simp [hz]

theorem reinitDAG_apply (g : Graph) (d : Nat → InputDAGdata) (v : Nat) :
    (reinitDAG g d).1 v
      = if v < g.numNodes then { d v with indegree := (d v).indeg_backup } else d v := by
  unfold reinitDAG
  rw [(foldl_reinitDAG (List.range g.numNodes) (d, []) (List.nodup_range _)).1 v]
  simp [List.mem_range]

theorem reinitDAG_sources (g : Graph) (d : Nat → InputDAGdata) :
    (reinitDAG g d).2 = collectSources g (reinitDAG g d).1 := by
  unfold reinitDAG
  rw [(foldl_reinitDAG (List.range g.numNodes) (d, []) (List.nodup_range _)).2]
  unfold collectSources
  simp only [List.nil_append]
  apply List.filter_congr
  intro x hx
  have hx2 := List.mem_range.mp hx
  have := (foldl_reinitDAG (List.range g.numNodes) (d, []) (List.nodup_range _)).1 x
  simp only [hx, if_true] at this
  rw [this]

/-- After `reinitDAG` the node data is again as `initDAG` left it, whatever
the counters were, provided the backup and the successor arrays are those of
`initDAG`. -/
theorem reinitDAG_ready (g : Graph) (d0 d : Nat → InputDAGdata)
    (hkey : ∀ v, (d v).priority = (d0 v).priority ∧ (d v).id = (d0 v).id)
    (hsucc : ∀ v, v < g.numNodes → (d v).dagSucc = (g.adj v).filter (fun dst => after d0 dst v))
    (hbak : ∀ v, v < g.numNodes →
      (d v).indeg_backup = (((g.adj v).countP (fun dst => before d0 dst v) : Nat) : Int)) :
    DAGready g d0 (reinitDAG g d).1 := by
  refine { key := ?_, succ := ?_, indeg := ?_ }
  · intro v; rw [reinitDAG_apply]; split_ifs <;> exact hkey v
  · intro v hv; rw [reinitDAG_apply, if_pos hv]; exact hsucc v hv
  · intro v hv; rw [reinitDAG_apply, if_pos hv]; exact hbak v hv

/-! ## Processed nodes are coloured -/

theorem Colored.colored_operator {σ : Type} {g : Graph} {d0 : Nat → InputDAGdata} {s : Sweep σ}
    (inv : SweepInv g d0 s) (ci : Colored s) (i tid src : Nat) (hi : s.wl.get? i = some src) :
    Colored (RunDAGcomp (colorNode g) tid src { s with wl := s.wl.eraseIdx i }) := by
  have hsrc_nd : src ∉ calls s.log := inv.disj src (List.get?_mem hi)
  obtain ⟨c, hdata, hc0, -, -⟩ := colorNode_first_fit g tid src s.m (ci.unc src hsrc_nd)
  have hcol : ∀ v, ((RunDAGcomp (colorNode g) tid src { s with wl := s.wl.eraseIdx i }).m.data v).color
      = if v = src then c else (s.m.data v).color := by
    intro v
    rw [RunDAGcomp_color]
    simp only [hdata, setNode]
    split_ifs <;> rfl
  have hcalls := RunDAGcomp_calls (colorNode g) tid src { s with wl := s.wl.eraseIdx i }
  simp only [] at hcalls
  refine { unc := ?_, pos := ?_ }
  · intro v hv
    rw [hcalls, List.mem_cons, not_or] at hv
    rw [hcol v, if_neg hv.1]
    exact ci.unc v hv.2
  · intro v hv
    rw [hcalls, List.mem_cons] at hv
    rw [hcol v]
    by_cases hvs : v = src
    · rw [if_pos hvs]; exact hc0
    · rw [if_neg hvs]
      rcases hv with h | h
      · exact absurd h hvs
      · exact ci.pos v h

theorem Colored.colored_loop {σ : Type} {g : Graph} {d0 : Nat → InputDAGdata} (hwf : g.WF)
    (hsym : g.Symmetric) (sched : List (Nat × Nat)) :
    ∀ {s : Sweep σ}, SweepInv g d0 s → Colored s →
      Colored (for_each_local (colorNode g) sched s) := by
  induction sched with
  | nil => intro s _ ci; exact ci
  | cons c sched ih =>
    intro s inv ci
    unfold DetChromatic.for_each_local
    cases hwl : s.wl with
    | nil => exact ci
    | cons a l =>
      simp only []
      rw [← hwl]
      refine ih (inv.sweep_step (colorNode_keepsDAG g) hwf hsym _ _) ?_
      unfold DetChromatic.step
      cases hi : s.wl.get? (c.1 % s.wl.length) with
      | none => exact ci
      | some src => exact ci.colored_operator inv _ _ src hi

/-! ## Auxiliary facts -/

theorem for_each_local_of_wl_nil {σ : Type} (func : Nat → Nat → Manager σ → Manager σ)
    (sched : List (Nat × Nat)) (s : Sweep σ) (h : s.wl = []) : for_each_local func sched s = s := by
  cases sched with
  | nil => rfl
  | cons c sched => unfold DetChromatic.for_each_local; rw [h]

theorem noop_keepsDAG {σ : Type} : KeepsDAG (noop : Nat → Nat → Manager σ → Manager σ) :=
  fun _ _ _ _ => ⟨rfl, rfl, rfl, rfl⟩

theorem Manager.initDAG_color {σ : Type} (g : Graph) (m : Manager σ) (v : Nat) :
    ((m.initDAG g).data v).color = (m.data v).color := by
  unfold Manager.initDAG
  simp only [initDAG_apply]
  split_ifs <;> simp [initRec]

/-! ## Keys below `2^31` -/

theorem compare_iff_lex (a b : InputDAGdata) :
    compare a b = true ↔
      (a.priority < b.priority ∨ (a.priority = b.priority ∧ a.id < b.id)) := by
  unfold DAGdataComparator.compare
  by_cases h : a.priority = b.priority
  · simp [h]
  · simp only [ne_eq, h, not_false_eq_true, if_true, decide_eq_true_eq, false_and, or_false]

/-- Below `2^31`, `initDAG` counts the neighbours with the lexicographically
smaller key. -/
theorem initDAG_indegree_lex (g : Graph) (d : Nat → InputDAGdata) (hwf : g.WF)
    (hk : KeysBelow g d) (s : Nat) (hs : s < g.numNodes) :
    (initDAG g d s).indegree
        = (((g.adj s).countP (fun dst => compare (d dst) (d s)) : Nat) : Int) ∧
    (initDAG g d s).indeg_backup = (initDAG g d s).indegree := by
  rw [initDAG_apply, if_pos hs]
  refine ⟨?_, rfl⟩
  simp only [initRec]
  congr 1
  apply List.countP_congr
  intro u hu
  rw [before_iff_lex hk (hwf s hs u hu) hs, compare_iff_lex]

/-- Below `2^31`, no node is its own ancestor in the successor relation that
`initDAG` builds. -/
theorem initDAG_acyclic (g : Graph) (d : Nat → InputDAGdata) (hwf : g.WF) (hk : KeysBelow g d)
    (v : Nat) :
    ¬ Relation.TransGen (fun u w => u < g.numNodes ∧ w ∈ (initDAG g d u).dagSucc) v v := by
  have hstep : ∀ u w, (u < g.numNodes ∧ w ∈ (initDAG g d u).dagSucc) →
      w < g.numNodes ∧
      (d u).priority * 2147483648 + (d u).id < (d w).priority * 2147483648 + (d w).id := by
    rintro u w ⟨hu, hw⟩
    rw [initDAG_apply, if_pos hu] at hw
    simp only [initRec, List.mem_filter] at hw
    have hwl := hwf u hu w hw.1
    refine ⟨hwl, ?_⟩
    have hb := (before_iff_after hk hu hwl).mpr hw.2
    have hlex := (before_iff_lex hk hu hwl).mp hb
    have h1 := hk u hu
    have h2 := hk w hwl
    rcases hlex with h | ⟨h3, h4⟩ <;> omega
  have hlt : ∀ u w, Relation.TransGen
      (fun u w => u < g.numNodes ∧ w ∈ (initDAG g d u).dagSucc) u w →
      (d u).priority * 2147483648 + (d u).id < (d w).priority * 2147483648 + (d w).id := by
    intro u w h
    induction h with
    | single h => exact (hstep _ _ h).2
    | tail _ h ih => exact lt_trans ih (hstep _ _ h).2
  intro h
  exact lt_irrefl _ (hlt v v h)

/-- Below `2^31`, on a graph with symmetric adjacency and distinct ids, a
`colorDAG` sweep that runs to the end processes every node exactly once and
leaves it with a colour; and whenever the worklist hands out a node, that node
is still uncoloured. -/
theorem colorDAG_complete {σ : Type} (g : Graph) (m : Manager σ) (sched : List (Nat × Nat))
    (hwf : g.WF) (hsym : g.Symmetric) (hid : DistinctIds g m.data) (hk : KeysBelow g m.data)
    (hunc : ∀ v, (m.data v).color = -1) :
    (∀ i src, (colorDAG g sched (m.initDAG g)).wl.get? i = some src →
      ((colorDAG g sched (m.initDAG g)).m.data src).color = -1) ∧
    (g.numNodes ≤ sched.length → ∀ v, v < g.numNodes →
      0 ≤ ((colorDAG g sched (m.initDAG g)).m.data v).color ∧
      (calls (colorDAG g sched (m.initDAG g)).log).count v = 1) := by
  have hready := Manager.initDAG_ready_data g m
  have inv0 := SweepInv.sweep_start (m.initDAG g) hready
  have ci0 : ColorInv g m.data
      { m := m.initDAG g, wl := collectSources g (m.initDAG g).data, log := [] } :=
    ColorInv.color_start g m.data (m.initDAG g)
      (fun v => by rw [Manager.initDAG_color]; exact hunc v)
  have inv : SweepInv g m.data (colorDAG g sched (m.initDAG g)) :=
    SweepInv.sweep_loop (colorNode_keepsDAG g) hwf hsym sched inv0
  have ci : ColorInv g m.data (colorDAG g sched (m.initDAG g)) :=
    ColorInv.color_loop hwf hsym hid sched inv0 ci0
  constructor
  · intro i src hi
    exact ci.unc src (inv.disj src (List.get?_mem hi))
  · intro hlen v hv
    have hwl : (colorDAG g sched (m.initDAG g)).wl = [] :=
      for_each_local_complete (colorNode_keepsDAG g) hwf hsym sched inv0
        (by simp only [calls, List.length_nil]; omega)
    have hdone := inv.all_done hwf hk hwl v hv
    exact ⟨(ci.col v hdone).1, List.count_eq_one_of_mem inv.done_nodup hdone⟩

/-! ## In-degree conservation -/

theorem dagClosure_log {σ : Type} (s : Sweep σ) (dst : Nat) :
    (∀ v, decs (dagClosure s dst).log v = decs s.log v + (if dst = v then 1 else 0)) ∧
    pushes (dagClosure s dst).log
      = (if (s.m.data dst).indegree = 1 then [dst] else []) ++ pushes s.log ∧
    (paired s.log = true → paired (dagClosure s dst).log = true) ∧
    (∀ v, ((dagClosure s dst).m.data v).indeg_backup = (s.m.data v).indeg_backup) := by
  unfold dagClosure
  by_cases hx : (s.m.data dst).indegree - 1 = 0
  · have h1 : (s.m.data dst).indegree = 1 := by omega
    refine ⟨?_, ?_, ?_, ?_⟩
    · intro v; simp only [hx, if_true, decs]; omega
    · simp [hx, h1, pushes]
    · intro hp; simp [hx, paired, hp]
    · intro v; simp only [hx, if_true, setNode]; split_ifs with h
      · subst h; rfl
      · rfl
  · have h1 : ¬ (s.m.data dst).indegree = 1 := by omega
    refine ⟨?_, ?_, ?_, ?_⟩
    · intro v; simp only [hx, if_false, decs]; omega
    · simp [hx, h1, pushes]
    · intro hp; simp [hx, paired, hp]
    · intro v; simp only [hx, if_false, setNode]; split_ifs with h
      · subst h; rfl
      · rfl

theorem foldl_dagClosure_log {σ : Type} (L : List Nat) : ∀ (s : Sweep σ),
    (∀ v, decs (L.foldl dagClosure s).log v = decs s.log v + L.count v) ∧
    (paired s.log = true → paired (L.foldl dagClosure s).log = true) ∧
    (∀ v, ((L.foldl dagClosure s).m.data v).indeg_backup = (s.m.data v).indeg_backup) ∧
    List.Perm ((L.foldl dagClosure s).wl ++ pushes s.log)
      (s.wl ++ pushes (L.foldl dagClosure s).log) := by
  induction L with
  | nil => intro s; simp
  | cons a L ih =>
    intro s
    rw [List.foldl_cons]
    obtain ⟨h1, h2, h3, h4⟩ := ih (dagClosure s a)
    obtain ⟨k1, k2, k3, k4⟩ := dagClosure_log s a
    refine ⟨?_, fun hp => h2 (k3 hp), fun v => by rw [h3, k4], ?_⟩
    · intro v
      rw [h1, k1, List.count_cons]
      by_cases h : a = v
      · simp [h]; omega
      · simp [h]
    · rw [dagClosure_wl, k2] at h4
      -- h4 : wl' ++ (X ++ pushes s.log) ~ (s.wl ++ X) ++ pushes'
      have e1 : List.Perm ((L.foldl dagClosure (dagClosure s a)).wl ++ pushes s.log
            ++ (if (s.m.data a).indegree = 1 then [a] else []))
          ((L.foldl dagClosure (dagClosure s a)).wl
            ++ ((if (s.m.data a).indegree = 1 then [a] else []) ++ pushes s.log)) := by
        rw [List.append_assoc]
        exact List.Perm.append_left _ List.perm_append_comm
      have e2 : List.Perm (s.wl ++ (if (s.m.data a).indegree = 1 then [a] else [])
            ++ pushes (L.foldl dagClosure (dagClosure s a)).log)
          (s.wl ++ pushes (L.foldl dagClosure (dagClosure s a)).log
            ++ (if (s.m.data a).indegree = 1 then [a] else [])) := by
        rw [List.append_assoc, List.append_assoc]
        exact List.Perm.append_left _ List.perm_append_comm
      have e3 := (e1.trans h4).trans e2
      exact (List.perm_append_right_iff _).mp e3

theorem LogInv.log_operator {σ : Type} {g : Graph} {d0 : Nat → InputDAGdata}
    {func : Nat → Nat → Manager σ → Manager σ} (hf : KeepsDAG func) (hb : KeepsBackup func)
    {sources : List Nat} {s : Sweep σ} (inv : SweepInv g d0 s)
    (li : LogInv g.numNodes sources s) (i tid src : Nat) (hi : s.wl.get? i = some src) :
    LogInv g.numNodes sources (RunDAGcomp func tid src { s with wl := s.wl.eraseIdx i }) := by
  obtain ⟨h1, h2, h3, h4⟩ := foldl_dagClosure_log ((func tid src s.m).data src).dagSucc
    ({ m := func tid src s.m, wl := s.wl.eraseIdx i, log := Event.call src :: s.log } : Sweep σ)
  obtain ⟨k1, -, k3, -⟩ := foldl_dagClosure ((func tid src s.m).data src).dagSucc
    ({ m := func tid src s.m, wl := s.wl.eraseIdx i, log := Event.call src :: s.log } : Sweep σ)
  have hrun : RunDAGcomp func tid src { s with wl := s.wl.eraseIdx i }
      = ((func tid src s.m).data src).dagSucc.foldl dagClosure
        ({ m := func tid src s.m, wl := s.wl.eraseIdx i, log := Event.call src :: s.log } : Sweep σ) := rfl
  rw [hrun]
  simp only [decs, pushes, paired, calls] at h1 h2 h3 h4 k3
  refine { decs_eq := ?_, paired_ok := h2 li.paired_ok, perm_ok := ?_ }
  · intro v hv
    rw [h1 v, h3 v, k1]
    have := li.decs_eq v hv
    have hd : decs (Event.call src :: s.log) v = decs s.log v := rfl
    simp only [decBy, (hf tid src s.m v).1, hb tid src s.m v, hd]
    push_cast
    omega
  · rw [k3]
    have hsrc : src ∈ s.wl := List.get?_mem hi
    have herase : s.wl.eraseIdx i = s.wl.erase src := by
      obtain ⟨h, hget⟩ := List.get?_eq_some.mp hi
      have e1 : s.wl.erase s.wl[i] = s.wl.eraseIdx i := inv.wl_nodup.erase_getElem i h
      have e2 : s.wl[i] = src := by simpa using hget
      rw [← e1, e2]
    have hp1 : List.Perm s.wl (src :: s.wl.eraseIdx i) := by
      rw [herase]; exact List.perm_cons_erase hsrc
    rw [List.perm_iff_count] at h4 ⊢
    have hp2 := List.perm_iff_count.mp li.perm_ok
    have hp3 := List.perm_iff_count.mp hp1
    intro a
    have a1 := h4 a
    have a2 := hp2 a
    have a3 := hp3 a
    simp only [List.count_append, List.count_cons] at a1 a2 a3 ⊢
    omega

theorem LogInv.log_loop {σ : Type} {g : Graph} {d0 : Nat → InputDAGdata}
    {func : Nat → Nat → Manager σ → Manager σ} (hf : KeepsDAG func) (hb : KeepsBackup func)
    (hwf : g.WF) (hsym : g.Symmetric) {sources : List Nat} (sched : List (Nat × Nat)) :
    ∀ {s : Sweep σ}, SweepInv g d0 s → LogInv g.numNodes sources s →
      LogInv g.numNodes sources (for_each_local func sched s) := by
  induction sched with
  | nil => intro s _ li; exact li
  | cons c sched ih =>
    intro s inv li
    unfold DetChromatic.for_each_local
    cases hwl : s.wl with
    | nil => exact li
    | cons a l =>
      simp only []
      rw [← hwl]
      refine ih (inv.sweep_step hf hwf hsym _ _) ?_
      unfold DetChromatic.step
      cases hi : s.wl.get? (c.1 % s.wl.length) with
      | none => exact li
      | some src => exact li.log_operator hf hb inv _ _ src hi

/-- In-degree conservation below `2^31`. In a sweep seeded with
`collectSources` right after `initDAG` or `reinitDAG` that runs to the end, on
a graph with symmetric adjacency: every node receives `indeg_backup`
decrements, the function is invoked once on every node, a node that is not a
source is pushed once and a source never, and the pushes are those that
follow a decrement to 0. -/
theorem indegree_conservation {σ : Type} (g : Graph) (d0 : Nat → InputDAGdata)
    (func : Nat → Nat → Manager σ → Manager σ) (m : Manager σ) (sched : List (Nat × Nat))
    (hwf : g.WF) (hsym : g.Symmetric) (hk : KeysBelow g d0) (hf : KeepsDAG func)
    (hb : KeepsBackup func) (hm : DAGready g d0 m.data)
    (hbak : ∀ v, v < g.numNodes → (m.data v).indeg_backup = (m.data v).indegree)
    (hlen : g.numNodes ≤ sched.length) :
    (runDAGcomputationAll g func sched m).wl = [] ∧
    paired (runDAGcomputationAll g func sched m).log = true ∧
    ∀ v, v < g.numNodes →
      ((decs (runDAGcomputationAll g func sched m).log v : Nat) : Int) = (m.data v).indeg_backup ∧
      (calls (runDAGcomputationAll g func sched m).log).count v = 1 ∧
      (pushes (runDAGcomputationAll g func sched m).log).count v
        = if (m.data v).indegree = 0 then 0 else 1 := by
  have inv0 := SweepInv.sweep_start m hm
  have li0 : LogInv g.numNodes (collectSources g m.data)
      ({ m := m, wl := collectSources g m.data, log := [] } : Sweep σ) :=
    { decs_eq := fun v hv => by simp [decs, hbak v hv]
      paired_ok := rfl
      perm_ok := by simp [calls, pushes] }
  have inv : SweepInv g d0 (runDAGcomputationAll g func sched m) :=
    SweepInv.sweep_loop hf hwf hsym sched inv0
  have li : LogInv g.numNodes (collectSources g m.data) (runDAGcomputationAll g func sched m) :=
    LogInv.log_loop hf hb hwf hsym sched inv0 li0
  have hwl : (runDAGcomputationAll g func sched m).wl = [] :=
    for_each_local_complete hf hwf hsym sched inv0
      (by simp only [calls, List.length_nil]; omega)
  refine ⟨hwl, li.paired_ok, ?_⟩
  intro v hv
  have hdone := inv.all_done hwf hk hwl v hv
  have hcount : (calls (runDAGcomputationAll g func sched m).log).count v = 1 :=
    List.count_eq_one_of_mem inv.done_nodup hdone
  have h0 : ((runDAGcomputationAll g func sched m).m.data v).indegree = 0 :=
    (inv.zero v hv).mpr (Or.inr hdone)
  -- the backup is the one of the start
  have hbk : ∀ sched' : List (Nat × Nat), ∀ s : Sweep σ,
      ((for_each_local func sched' s).m.data v).indeg_backup = (s.m.data v).indeg_backup := by
    intro sched'
    induction sched' with
    | nil => intro s; rfl
    | cons c sched' ih =>
      intro s
      unfold DetChromatic.for_each_local
      cases hwl : s.wl with
      | nil => rfl
      | cons a l =>
        simp only []
        rw [ih]
        unfold DetChromatic.step
        cases s.wl.get? (c.1 % (a :: l).length) with
        | none => rfl
        | some src =>
          simp only [RunDAGcomp]
          rw [(foldl_dagClosure_log _ _).2.2.1 v]
          exact hb _ _ _ _
  refine ⟨?_, hcount, ?_⟩
  · have := li.decs_eq v hv
    rw [h0] at this
    have e : ((runDAGcomputationAll g func sched m).m.data v).indeg_backup
        = (m.data v).indeg_backup := hbk sched _
    rw [e] at this
    omega
  · have hp := List.perm_iff_count.mp li.perm_ok v
    rw [hwl] at hp
    simp only [List.nil_append, List.count_append] at hp
    rw [hcount] at hp
    have hsrc : (collectSources g m.data).count v = if (m.data v).indegree = 0 then 1 else 0 := by
      unfold collectSources
      rw [count_filter_ite, List.count_eq_one_of_mem (List.nodup_range _) (List.mem_range.mpr hv)]
      simp
    rw [hsrc] at hp
    split_ifs at hp ⊢ <;> omega

/-! ## Coloured neighbours, all keys -/

/-- For all unsigned keys: in every state of the colouring sweep, on a graph
with symmetric adjacency and pairwise distinct ids, two distinct adjacent
nodes that are both coloured carry different colours. -/
theorem coloring_valid_of_colored {σ : Type} (g : Graph) (m : Manager σ)
    (sched : List (Nat × Nat)) (hwf : g.WF) (hsym : g.Symmetric) (hid : DistinctIds g m.data)
    (hunc : ∀ v, (m.data v).color = -1) :
    ∀ u, u < g.numNodes → ∀ v ∈ g.adj u, u ≠ v →
      ((colorDAG g sched (m.initDAG g)).m.data u).color ≠ -1 →
      ((colorDAG g sched (m.initDAG g)).m.data v).color ≠ -1 →
      ((colorDAG g sched (m.initDAG g)).m.data u).color
        ≠ ((colorDAG g sched (m.initDAG g)).m.data v).color := by
  have hready := Manager.initDAG_ready_data g m
  have inv0 := SweepInv.sweep_start (m.initDAG g) hready
  have ci0 : ColorInv g m.data
      { m := m.initDAG g, wl := collectSources g (m.initDAG g).data, log := [] } :=
    ColorInv.color_start g m.data (m.initDAG g)
      (fun v => by rw [Manager.initDAG_color]; exact hunc v)
  have ci : ColorInv g m.data (colorDAG g sched (m.initDAG g)) :=
    ColorInv.color_loop hwf hsym hid sched inv0 ci0
  intro u hu v hv huv hcu hcv
  have hvl := hwf u hu v hv
  have hud : u ∈ calls (colorDAG g sched (m.initDAG g)).log := by
    by_contra h; exact hcu (ci.unc u h)
  have hvd : v ∈ calls (colorDAG g sched (m.initDAG g)).log := by
    by_contra h; exact hcv (ci.unc v h)
  rcases before_or_before hid hu hvl huv with hb | hb
  · exact (ci.col v hvd).2.1 u (mem_adj_symm hsym hu hvl hv) hb
  · exact fun h => (ci.col u hud).2.1 v hv hb h.symm

/-- Two colouring sweeps that run to the end give every node the same colour,
whatever their schedules. -/
theorem colorDAG_schedule_agree {σ : Type} (g : Graph) (m : Manager σ)
    (schedA schedB : List (Nat × Nat)) (hwf : g.WF) (hsym : g.Symmetric)
    (hid : DistinctIds g m.data) (hunc : ∀ v, (m.data v).color = -1)
    (hA : g.numNodes ≤ schedA.length) (hB : g.numNodes ≤ schedB.length) :
    (colorDAG g schedA (m.initDAG g)).wl = [] ∧ (colorDAG g schedB (m.initDAG g)).wl = [] ∧
    ∀ v, ((colorDAG g schedA (m.initDAG g)).m.data v).color
      = ((colorDAG g schedB (m.initDAG g)).m.data v).color := by
  have hready := Manager.initDAG_ready_data g m
  have inv0 := SweepInv.sweep_start (m.initDAG g) hready
  have ci0 : ColorInv g m.data
      { m := m.initDAG g, wl := collectSources g (m.initDAG g).data, log := [] } :=
    ColorInv.color_start g m.data (m.initDAG g) (fun v => by rw [Manager.initDAG_color]; exact hunc v)
  have invA : SweepInv g m.data (colorDAG g schedA (m.initDAG g)) :=
    SweepInv.sweep_loop (colorNode_keepsDAG g) hwf hsym schedA inv0
  have invB : SweepInv g m.data (colorDAG g schedB (m.initDAG g)) :=
    SweepInv.sweep_loop (colorNode_keepsDAG g) hwf hsym schedB inv0
  have ciA : ColorInv g m.data (colorDAG g schedA (m.initDAG g)) :=
    ColorInv.color_loop hwf hsym hid schedA inv0 ci0
  have ciB : ColorInv g m.data (colorDAG g schedB (m.initDAG g)) :=
    ColorInv.color_loop hwf hsym hid schedB inv0 ci0
  have hwlA : (colorDAG g schedA (m.initDAG g)).wl = [] :=
    for_each_local_complete (colorNode_keepsDAG g) hwf hsym schedA inv0
      (by simp only [calls, List.length_nil]; omega)
  have hwlB : (colorDAG g schedB (m.initDAG g)).wl = [] :=
    for_each_local_complete (colorNode_keepsDAG g) hwf hsym schedB inv0
      (by simp only [calls, List.length_nil]; omega)
  have hag0 : ∀ b : Sweep σ, Agree
      ({ m := m.initDAG g, wl := collectSources g (m.initDAG g).data, log := [] } : Sweep σ) b :=
    fun b v hv => by simp [calls] at hv
  have hAB : Agree (colorDAG g schedA (m.initDAG g)) (colorDAG g schedB (m.initDAG g)) :=
    Agree.agree_loop hwf hsym hid invB ciB hwlB schedA inv0 ci0 (hag0 _)
  have hBA : Agree (colorDAG g schedB (m.initDAG g)) (colorDAG g schedA (m.initDAG g)) :=
    Agree.agree_loop hwf hsym hid invA ciA hwlA schedB inv0 ci0 (hag0 _)
  refine ⟨hwlA, hwlB, ?_⟩
  intro v
  by_cases hv : v ∈ calls (colorDAG g schedA (m.initDAG g)).log
  · exact (hAB v hv).2
  · have hv2 : v ∉ calls (colorDAG g schedB (m.initDAG g)).log := fun h => hv (hBA v h).1
    rw [ciA.unc v hv, ciB.unc v hv2]

/-! ## reinitActiveDAG -/

/-- Pass 0 of `reinitActiveDAG`: the counters of the nodes of `range` are 0. -/
theorem reinitActive_pass0 (range : List Nat) : ∀ (d : Nat → InputDAGdata) (v : Nat),
    range.foldl (fun d src => setNode d src { d src with indegree := 0 }) d v
      = if v ∈ range then { d v with indegree := 0 } else d v := by
  induction range with
  | nil => intro d v; simp
  | cons a l ih =>
    intro d v
    rw [List.foldl_cons, ih]
    by_cases hva : v = a
    · subst hva
      simp [setNode]
    · by_cases hvl : v ∈ l
      · simp [setNode, hva, hvl]
      · simp [setNode, hva, hvl]

/-- The inner loop of pass 1 of `reinitActiveDAG` over the successor entries
`L`: an active node gains one per entry that names it. -/
theorem reinitActive_inner (L : List Nat) : ∀ (d : Nat → InputDAGdata) (v : Nat),
    L.foldl (fun d dst =>
        if (d dst).onWL > 0 then setNode d dst { d dst with indegree := (d dst).indegree + 1 }
        else d) d v
      = { d v with indegree := (d v).indegree
            + (if (d v).onWL > 0 then ((L.count v : Nat) : Int) else 0) } := by
  induction L with
  | nil => intro d v; simp
  | cons a l ih =>
    intro d v
    rw [List.foldl_cons, ih]
    by_cases hpos : (d a).onWL > 0
    · rw [if_pos hpos]
      by_cases hva : v = a
      · subst hva
        simp only [setNode, if_true, List.count_cons_self]
        rw [if_pos hpos, if_pos hpos]
        congr 1
        push_cast
        ring
      · have hav : ¬ (a = v) := fun h => hva h.symm
        simp only [setNode, if_neg hva, List.count_cons, beq_iff_eq, hav, if_false, Nat.add_zero]
    · rw [if_neg hpos]
      by_cases hva : v = a
      · subst hva
        simp only [if_neg hpos, Int.add_zero]
      · have hav : ¬ (a = v) := fun h => hva h.symm
        simp only [List.count_cons, beq_iff_eq, hav, if_false, Nat.add_zero]

/-- Pass 1 of `reinitActiveDAG` over `range`: an active node gains one per
successor entry of a node of `range` that names it. -/
theorem reinitActive_pass1 (range : List Nat) : ∀ (d : Nat → InputDAGdata) (v : Nat),
    range.foldl (fun d src => (d src).dagSucc.foldl (fun d dst =>
        if (d dst).onWL > 0 then setNode d dst { d dst with indegree := (d dst).indegree + 1 }
        else d) d) d v
      = { d v with indegree := (d v).indegree
            + (if (d v).onWL > 0
                then (((range.map (fun u => (d u).dagSucc.count v)).sum : Nat) : Int) else 0) } := by
  induction range with
  | nil => intro d v; simp
  | cons a l ih =>
    intro d v
    rw [List.foldl_cons, ih]
    have hsucc : ∀ u, ((d a).dagSucc.foldl (fun d dst =>
        if (d dst).onWL > 0 then setNode d dst { d dst with indegree := (d dst).indegree + 1 }
        else d) d u).dagSucc = (d u).dagSucc := by
      intro u; rw [reinitActive_inner]
    simp only [hsucc]
    rw [reinitActive_inner]
    by_cases hpos : (d v).onWL > 0
    · simp only [if_pos hpos, List.map_cons, List.sum_cons]
      congr 1
      push_cast
      ring
    · simp only [if_neg hpos, Int.add_zero]

/-- The node data and sources of `reinitActiveDAG` on a range of flagged
nodes: counters of the range count the successor entries from the range. -/
theorem reinitActiveDAG_apply (d : Nat → InputDAGdata) (range : List Nat)
    (hact : ∀ v, v ∈ range → 0 < (d v).onWL) :
    (∀ v, v ∈ range → ((reinitActiveDAG d range).1 v).indegree
        = (((range.map (fun u => (d u).dagSucc.count v)).sum : Nat) : Int)) ∧
    (∀ v, v ∉ range → ((reinitActiveDAG d range).1 v).indegree = (d v).indegree
        + (if (d v).onWL > 0
            then (((range.map (fun u => (d u).dagSucc.count v)).sum : Nat) : Int) else 0)) ∧
    (∀ v, ((reinitActiveDAG d range).1 v).onWL = (d v).onWL ∧
      ((reinitActiveDAG d range).1 v).dagSucc = (d v).dagSucc ∧
      ((reinitActiveDAG d range).1 v).color = (d v).color ∧
      ((reinitActiveDAG d range).1 v).indeg_backup = (d v).indeg_backup) := by
  have h0 := reinitActive_pass0 range d
  have hs : ∀ u, (range.foldl (fun d src => setNode d src { d src with indegree := 0 }) d u).dagSucc
      = (d u).dagSucc := by
    intro u; rw [h0]; split_ifs <;> rfl
  have hw : ∀ u, (range.foldl (fun d src => setNode d src { d src with indegree := 0 }) d u).onWL
      = (d u).onWL := by
    intro u; rw [h0]; split_ifs <;> rfl
  refine ⟨?_, ?_, ?_⟩
  · intro v hv
    unfold reinitActiveDAG
    simp only
    rw [reinitActive_pass1]
    simp only [hs, hw, if_pos (hact v hv)]
    rw [h0, if_pos hv]
    simp
  · intro v hv
    unfold reinitActiveDAG
    simp only
    rw [reinitActive_pass1]
    simp only [hs, hw]
    rw [h0, if_neg hv]
  · intro v
    unfold reinitActiveDAG
    simp only
    rw [reinitActive_pass1]
    simp only
    rw [h0]
    split_ifs <;> exact ⟨rfl, rfl, rfl, rfl⟩

/-! ## The chromatic worklists -/

theorem getD_set_buckets (l : List (List Nat)) (i j : Nat) (b : List Nat) :
    (l.set i b).getD j [] = if i = j ∧ i < l.length then b else l.getD j [] := by
  simp only [List.getD_eq_getElem?_getD, List.getElem?_set]
  by_cases hij : i = j
  · subst hij
    by_cases hi : i < l.length
    · simp [hi]
    · have : l[i]? = none := by
        rw [List.getElem?_eq_none_iff]; omega
      simp [hi, this]
  · simp [hij]

theorem count_eraseIdx_of_get (b : List Nat) : ∀ (k n x : Nat), b.get? k = some n →
    (b.eraseIdx k).count x + (if n = x then 1 else 0) = b.count x := by
  induction b with
  | nil => intro k n x h; simp at h
  | cons a l ih =>
    intro k n x h
    cases k with
    | zero =>
      simp only [List.get?_cons_zero, Option.some.injEq] at h
      subst h
      simp only [List.eraseIdx_cons_zero, List.count_cons, beq_iff_eq]
    | succ k =>
      simp only [List.get?_cons_succ] at h
      simp only [List.eraseIdx_cons_succ, List.count_cons, beq_iff_eq]
      have := ih k n x h
      omega

namespace ChromaticExecutor

theorem push_length {σ : Type} (e : ChromaticExecutor σ) (n : Nat) :
    (e.push n).colorWorkLists.length = e.colorWorkLists.length := by
  unfold push
  simp only
  split_ifs <;> simp

theorem push_applied {σ : Type} (e : ChromaticExecutor σ) (n : Nat) :
    (e.push n).applied = e.applied := by
  unfold push
  simp only
  split_ifs <;> rfl

theorem push_color {σ : Type} (e : ChromaticExecutor σ) (n v : Nat) :
    ((e.push n).m.data v).color = (e.m.data v).color := by
  unfold push
  simp only
  split_ifs <;> simp only [setNode] <;> split_ifs with h <;> first | rfl | (rw [h])

theorem push_onWL {σ : Type} (e : ChromaticExecutor σ) (n v : Nat) :
    ((e.push n).m.data v).onWL
      = if v = n ∧ (e.m.data n).onWL = 0 then 1 else (e.m.data v).onWL := by
  unfold push
  simp only
  by_cases h0 : (e.m.data n).onWL = 0
  · by_cases hv : v = n
    · by_cases hi : toUnsigned (e.m.data n).color < e.colorWorkLists.length
      · simp [h0, hv, hi, setNode]
      · simp [h0, hv, hi, setNode]
    · by_cases hi : toUnsigned (e.m.data n).color < e.colorWorkLists.length
      · simp [h0, hv, hi, setNode]
      · simp [h0, hv, hi, setNode]
  · simp [h0]

theorem push_bucket {σ : Type} (e : ChromaticExecutor σ) (n j : Nat) :
    (e.push n).bucket j
      = if (e.m.data n).onWL = 0 ∧ toUnsigned (e.m.data n).color = j ∧ j < e.colorWorkLists.length
        then e.bucket j ++ [n] else e.bucket j := by
  unfold push bucket
  simp only
  by_cases h0 : (e.m.data n).onWL = 0
  · rw [if_pos h0]
    by_cases hi : toUnsigned (e.m.data n).color < e.colorWorkLists.length
    · rw [if_pos hi]
      simp only [getD_set_buckets]
      by_cases hj : toUnsigned (e.m.data n).color = j
      · subst hj
        rw [if_pos ⟨rfl, hi⟩, if_pos ⟨h0, rfl, hi⟩]
      · have h1 : ¬ (toUnsigned (e.m.data n).color = j ∧
            toUnsigned (e.m.data n).color < e.colorWorkLists.length) := fun h => hj h.1
        have h2 : ¬ ((e.m.data n).onWL = 0 ∧ toUnsigned (e.m.data n).color = j ∧
            j < e.colorWorkLists.length) := fun h => hj h.2.1
        rw [if_neg h1, if_neg h2]
    · rw [if_neg hi]
      have h2 : ¬ ((e.m.data n).onWL = 0 ∧ toUnsigned (e.m.data n).color = j ∧
          j < e.colorWorkLists.length) := fun h => hi (by rw [h.2.1]; exact h.2.2)
      rw [if_neg h2]
  · have h2 : ¬ ((e.m.data n).onWL = 0 ∧ toUnsigned (e.m.data n).color = j ∧
        j < e.colorWorkLists.length) := fun h => h0 h.1
    rw [if_neg h0, if_neg h2]

end ChromaticExecutor

theorem BucketInv.inv_push {σ : Type} {N B : Nat} {c0 : Nat → Int} {e : ChromaticExecutor σ}
    (inv : BucketInv N c0 B e) (n : Nat) (hn : n < N) : BucketInv N c0 B (e.push n) := by
  refine ⟨?_, ?_, ?_, ?_, ?_⟩
  · rw [ChromaticExecutor.push_length]; exact inv.size
  · intro v; rw [ChromaticExecutor.push_color]; exact inv.color v
  · intro v hv
    rw [ChromaticExecutor.push_onWL]
    split_ifs
    · exact Or.inr rfl
    · exact inv.flag v hv
  · intro j hj v
    have hold := inv.count j hj v
    have holdn := inv.count j hj n
    have hcn := inv.color n
    rw [ChromaticExecutor.push_bucket, ChromaticExecutor.push_onWL, inv.size, hcn]
    by_cases h0 : (e.m.data n).onWL = 0
    · by_cases hi : toUnsigned (c0 n) = j
      · rw [if_pos ⟨h0, hi, hj⟩, List.count_append, hold]
        by_cases hv : v = n
        · subst hv
          simp [h0, hi, hn]
        · have hv2 : ¬ (n = v) := fun h => hv h.symm
          simp [hv, hv2]
      · have hc : ¬ ((e.m.data n).onWL = 0 ∧ toUnsigned (c0 n) = j ∧ j < B) := fun h => hi h.2.1
        rw [if_neg hc, hold]
        by_cases hv : v = n
        · subst hv
          simp [h0, hi]
        · simp [hv]
    · have hc : ¬ ((e.m.data n).onWL = 0 ∧ toUnsigned (c0 n) = j ∧ j < B) := fun h => h0 h.1
      have hc2 : ¬ (v = n ∧ (e.m.data n).onWL = 0) := fun h => h0 h.2
      rw [if_neg hc, if_neg hc2, hold]
  · intro p hp
    rw [ChromaticExecutor.push_applied] at hp
    exact inv.applied p hp

theorem BucketInv.inv_pushes {σ : Type} {N B : Nat} {c0 : Nat → Int} (ns : List Nat) :
    ∀ {e : ChromaticExecutor σ}, BucketInv N c0 B e → (∀ n, n ∈ ns → n < N) →
      BucketInv N c0 B (ns.foldl ChromaticExecutor.push e) := by
  induction ns with
  | nil => intro e inv _; exact inv
  | cons a l ih =>
    intro e inv h
    rw [List.foldl_cons]
    exact ih (inv.inv_push a (h a (List.mem_cons_self a l)))
      (fun n hn => h n (List.mem_cons_of_mem a hn))

theorem BucketInv.inv_step {σ : Type} {N B : Nat} {c0 : Nat → Int} {e : ChromaticExecutor σ}
    (func : Nat → Manager σ → σ × List Nat)
    (hfunc : ∀ n s x, x ∈ (func n s).2 → x < N)
    (inv : BucketInv N c0 B e) (j k : Nat) :
    BucketInv N c0 B (ChromaticExecutor.step func j k e) := by
  unfold ChromaticExecutor.step
  cases hget : (e.colorWorkLists.getD j []).get? k with
  | none => exact inv
  | some n =>
    simp only
    unfold ChromaticExecutor.ApplyOperator
    simp only
    apply BucketInv.inv_pushes
    · have hmem : n ∈ e.bucket j := List.get?_mem hget
      have hjB : j < B := by
        by_contra hge
        have : e.bucket j = [] := by
          unfold ChromaticExecutor.bucket
          rw [List.getD_eq_getElem?_getD, List.getElem?_eq_none_iff.mpr (by rw [inv.size]; omega)]
          rfl
        rw [this] at hmem
        simp at hmem
      have hcnt := inv.count j hjB n
      have hpos : 0 < (e.bucket j).count n := List.count_pos_iff.mpr hmem
      have hn : n < N ∧ (e.m.data n).onWL = 1 ∧ toUnsigned (c0 n) = j := by
        by_contra hc
        rw [if_neg hc] at hcnt
        omega
      refine ⟨?_, ?_, ?_, ?_, ?_⟩
      · simp only [List.length_set]; exact inv.size
      · intro v
        simp only [setNode]
        split_ifs with h
        · rw [← inv.color v, h]
        · exact inv.color v
      · intro v hv
        simp only [setNode]
        split_ifs with h
        · exact Or.inl rfl
        · exact inv.flag v hv
      · intro j2 hj2 v
        have hold := inv.count j2 hj2 v
        have hcnt2 := hcnt
        simp only [ChromaticExecutor.bucket] at hold hcnt2 ⊢
        rw [getD_set_buckets]
        have her := count_eraseIdx_of_get (e.colorWorkLists.getD j []) k n v hget
        simp only [setNode]
        by_cases hjj : j = j2
        · subst hjj
          rw [if_pos ⟨rfl, by rw [inv.size]; exact hjB⟩]
          by_cases hv : v = n
          · subst hv
            simp only [if_true] at her ⊢
            rw [hcnt2, if_pos hn] at her
            split_ifs with h
            · exact absurd h.2.1 (by simp)
            · omega
          · have hv2 : ¬ (n = v) := fun h => hv h.symm
            simp only [if_neg hv, if_neg hv2] at her ⊢
            rw [← hold]; omega
        · have hc : ¬ (j = j2 ∧ j < e.colorWorkLists.length) := fun h => hjj h.1
          rw [if_neg hc, hold]
          by_cases hv : v = n
          · subst hv
            have : ¬ (toUnsigned (c0 v) = j2) := by rw [hn.2.2]; exact hjj
            simp [this]
          · simp only [if_neg hv]
      · intro p hp
        simp only [List.mem_cons] at hp
        rcases hp with hp | hp
        · rw [hp]; simp [setNode]
        · exact inv.applied p hp
    · intro x hx
      exact hfunc _ _ x hx

theorem BucketInv.inv_run {σ : Type} {N B : Nat} {c0 : Nat → Int}
    (func : Nat → Manager σ → σ × List Nat)
    (hfunc : ∀ n s x, x ∈ (func n s).2 → x < N) (moves : List Move) :
    ∀ {e : ChromaticExecutor σ}, BucketInv N c0 B e →
      (∀ n, Move.push n ∈ moves → n < N) →
      BucketInv N c0 B (ChromaticExecutor.run func moves e) := by
  induction moves with
  | nil => intro e inv _; exact inv
  | cons a l ih =>
    intro e inv h
    cases a with
    | push n =>
      unfold ChromaticExecutor.run
      exact ih (inv.inv_push n (h n (List.mem_cons_self _ _)))
        (fun x hx => h x (List.mem_cons_of_mem _ hx))
    | apply j k =>
      unfold ChromaticExecutor.run
      exact ih (inv.inv_step func hfunc j k) (fun x hx => h x (List.mem_cons_of_mem _ hx))

theorem BucketInv.inv_create {σ : Type} (N B : Nat) (m : Manager σ)
    (hflag : ∀ v, v < N → (m.data v).onWL = 0) :
    BucketInv N (fun v => (m.data v).color) B (ChromaticExecutor.create m B) := by
  refine ⟨?_, ?_, ?_, ?_, ?_⟩
  · simp [ChromaticExecutor.create]
  · intro v; rfl
  · intro v hv; exact Or.inl (hflag v hv)
  · intro j hj v
    have hb : (ChromaticExecutor.create m B).bucket j = [] := by
      unfold ChromaticExecutor.bucket ChromaticExecutor.create
      simp [List.getElem?_replicate, hj]
    rw [hb]
    have : ¬ (v < N ∧ ((ChromaticExecutor.create m B).m.data v).onWL = 1 ∧
        toUnsigned ((fun v => (m.data v).color) v) = j) := by
      intro h
      have h1 := hflag v h.1
      have h2 : (m.data v).onWL = 1 := h.2.1
      omega
    rw [if_neg this]
    rfl
  · intro p hp
    simp [ChromaticExecutor.create] at hp

theorem toUnsigned_of_nonneg (x : Int) (h0 : 0 ≤ x) (h1 : x < 4294967296) :
    ((toUnsigned x : Nat) : Int) = x := by
  unfold toUnsigned
  omega

theorem BucketInv.inv_reach {σ : Type} (N B : Nat) (func : Nat → Manager σ → σ × List Nat)
    (m : Manager σ) (moves : List Move)
    (hflag : ∀ v, v < N → (m.data v).onWL = 0)
    (hfunc : ∀ n s x, x ∈ (func n s).2 → x < N)
    (hmoves : ∀ n, Move.push n ∈ moves → n < N) :
    BucketInv N (fun v => (m.data v).color) B (ChromaticExecutor.reach func m B moves) :=
  BucketInv.inv_run func hfunc moves (BucketInv.inv_create N B m hflag) hmoves

theorem BucketInv.bucket_nil {σ : Type} {N B : Nat} {c0 : Nat → Int} {e : ChromaticExecutor σ}
    (inv : BucketInv N c0 B e) (j : Nat) (hj : B ≤ j) : e.bucket j = [] := by
  unfold ChromaticExecutor.bucket
  rw [List.getD_eq_getElem?_getD, List.getElem?_eq_none_iff.mpr (by rw [inv.size]; omega)]
  rfl

theorem BucketInv.of_mem {σ : Type} {N B : Nat} {c0 : Nat → Int} {e : ChromaticExecutor σ}
    (inv : BucketInv N c0 B e) {j n : Nat} (hmem : n ∈ e.bucket j) :
    j < B ∧ n < N ∧ (e.m.data n).onWL = 1 ∧ toUnsigned (c0 n) = j := by
  have hjB : j < B := by
    by_contra hge
    rw [inv.bucket_nil j (by omega)] at hmem
    simp at hmem
  have hcnt := inv.count j hjB n
  have hpos : 0 < (e.bucket j).count n := List.count_pos_iff.mpr hmem
  refine ⟨hjB, ?_⟩
  by_contra hc
  rw [if_neg hc] at hcnt
  omega

/-! ## Admission -/

theorem ChromaticExecutor.push_of_flag {σ : Type} (e : ChromaticExecutor σ) (n : Nat)
    (h : (e.m.data n).onWL ≠ 0) : e.push n = e := by
  unfold ChromaticExecutor.push
  simp only [if_neg h]

theorem ChromaticExecutor.pushes_count {σ : Type} (n : Nat) (ns : List Nat) :
    ∀ (e : ChromaticExecutor σ),
      ((ns.foldl ChromaticExecutor.push e).m.data n).onWL
        = (if n ∈ ns ∧ (e.m.data n).onWL = 0 then 1 else (e.m.data n).onWL) ∧
      ∀ j, ((ns.foldl ChromaticExecutor.push e).bucket j).count n
        = (e.bucket j).count n
          + (if n ∈ ns ∧ (e.m.data n).onWL = 0 ∧ toUnsigned (e.m.data n).color = j ∧
              j < e.colorWorkLists.length then 1 else 0) := by
  induction ns with
  | nil => intro e; simp
  | cons a l ih =>
    intro e
    rw [List.foldl_cons]
    have h := ih (e.push a)
    rw [ChromaticExecutor.push_onWL, ChromaticExecutor.push_color,
      ChromaticExecutor.push_length] at h
    refine ⟨?_, ?_⟩
    · rw [h.1]
      by_cases hna : n = a
      · subst hna
        by_cases h0 : (e.m.data n).onWL = 0
        · simp [h0]
        · simp [h0]
      · by_cases hl : n ∈ l
        · simp [hna, hl]
        · simp [hna, hl]
    · intro j
      rw [h.2 j, ChromaticExecutor.push_bucket]
      by_cases hna : n = a
      · subst hna
        by_cases h0 : (e.m.data n).onWL = 0
        · by_cases hj : toUnsigned (e.m.data n).color = j ∧ j < e.colorWorkLists.length
          · simp [h0, hj]
          · have hj2 : ¬ ((e.m.data n).onWL = 0 ∧ toUnsigned (e.m.data n).color = j ∧
                j < e.colorWorkLists.length) := fun hh => hj hh.2
            rw [if_neg hj2]
            simp [h0]
            intro h1
            by_contra h2
            exact hj ⟨h1, by omega⟩
        · simp [h0]
      · have han : ¬ (a = n) := fun hh => hna hh.symm
        have hcnt : ∀ b : List Nat, (b ++ [a]).count n = b.count n := by
          intro b; simp [List.count_append, List.count_cons, han]
        have hb : (if (e.m.data a).onWL = 0 ∧ toUnsigned (e.m.data a).color = j ∧
            j < e.colorWorkLists.length then e.bucket j ++ [a] else e.bucket j).count n
            = (e.bucket j).count n := by
          split_ifs
          · exact hcnt _
          · rfl
        rw [hb]
        simp [hna]

theorem InputGraphDAGexecutor.nextWork_push_of_flag {σ : Type} (e : InputGraphDAGexecutor σ) (n : Nat)
    (h : (e.m.data n).onWL ≠ 0) : e.push n = e := by
  unfold InputGraphDAGexecutor.push
  simp only [if_neg h]

theorem InputGraphDAGexecutor.nextWork_pushes_count {σ : Type} (n : Nat) (ns : List Nat) :
    ∀ (e : InputGraphDAGexecutor σ),
      ((ns.foldl InputGraphDAGexecutor.push e).m.data n).onWL
        = (if n ∈ ns ∧ (e.m.data n).onWL = 0 then 1 else (e.m.data n).onWL) ∧
      (ns.foldl InputGraphDAGexecutor.push e).nextWork.count n
        = e.nextWork.count n + (if n ∈ ns ∧ (e.m.data n).onWL = 0 then 1 else 0) := by
  induction ns with
  | nil => intro e; simp
  | cons a l ih =>
    intro e
    rw [List.foldl_cons]
    have h := ih (e.push a)
    by_cases hna : n = a
    · subst hna
      by_cases h0 : (e.m.data n).onWL = 0
      · have h1 : ((e.push n).m.data n).onWL = 1 := by
          unfold InputGraphDAGexecutor.push; simp [h0, setNode]
        have h2 : (e.push n).nextWork = e.nextWork ++ [n] := by
          unfold InputGraphDAGexecutor.push; simp [h0]
        rw [h1, h2] at h
        rw [h.1, h.2]
        simp [h0]
      · rw [InputGraphDAGexecutor.nextWork_push_of_flag e n h0] at h ⊢
        rw [h.1, h.2]
        simp [h0]
    · have han : ¬ (a = n) := fun hh => hna hh.symm
      have h1 : ((e.push a).m.data n).onWL = (e.m.data n).onWL := by
        unfold InputGraphDAGexecutor.push
        simp only
        split_ifs
        · simp [setNode, hna]
        · rfl
      have h2 : (e.push a).nextWork.count n = e.nextWork.count n := by
        unfold InputGraphDAGexecutor.push
        simp only
        split_ifs
        · simp [List.count_append, List.count_cons, han]
        · rfl
      rw [h1, h2] at h
      rw [h.1, h.2]
      simp [hna]

/-! ## chooseNext -/

namespace ChromaticExecutor

theorem chooseNextLoop_none (b : List (List Nat)) (ni : Nat) : ∀ (fuel i : Nat),
    (chooseNextLoop b ni fuel i = none ↔
      ∀ k, k < fuel → b.getD (((ni + (i + k)) % 4294967296) % b.length) [] = []) := by
  intro fuel
  induction fuel with
  | zero => intro i; simp [chooseNextLoop]
  | succ fuel ih =>
    intro i
    unfold chooseNextLoop
    simp only
    by_cases hpos : 0 < (b.getD (((ni + i) % 4294967296) % b.length) []).length
    · rw [if_pos hpos]
      constructor
      · intro h; cases h
      · intro h
        have := h 0 (by omega)
        rw [Nat.add_zero] at this
        rw [this] at hpos
        simp at hpos
    · rw [if_neg hpos, ih (i + 1)]
      have hnil : b.getD (((ni + i) % 4294967296) % b.length) [] = [] := by
        cases hb : b.getD (((ni + i) % 4294967296) % b.length) [] with
        | nil => rfl
        | cons x xs => rw [hb] at hpos; simp at hpos
      constructor
      · intro h k hk
        cases k with
        | zero => rw [Nat.add_zero]; exact hnil
        | succ k =>
          have := h k (by omega)
          rw [show i + 1 + k = i + (k + 1) by omega] at this
          exact this
      · intro h k hk
        have := h (k + 1) (by omega)
        rw [show i + (k + 1) = i + 1 + k by omega] at this
        exact this

theorem chooseNextLoop_some (b : List (List Nat)) (ni : Nat) : ∀ (fuel i j : Nat),
    chooseNextLoop b ni fuel i = some j →
      ∃ k, k < fuel ∧ j = ((ni + (i + k)) % 4294967296) % b.length ∧ b.getD j [] ≠ [] ∧
        ∀ k2, k2 < k → b.getD (((ni + (i + k2)) % 4294967296) % b.length) [] = [] := by
  intro fuel
  induction fuel with
  | zero => intro i j h; simp [chooseNextLoop] at h
  | succ fuel ih =>
    intro i j h
    unfold chooseNextLoop at h
    simp only at h
    by_cases hpos : 0 < (b.getD (((ni + i) % 4294967296) % b.length) []).length
    · rw [if_pos hpos] at h
      simp only [Option.some.injEq] at h
      refine ⟨0, by omega, by rw [Nat.add_zero]; exact h.symm, ?_, ?_⟩
      · rw [← h]
        intro hnil
        rw [hnil] at hpos
        simp at hpos
      · intro k2 hk2; omega
    · rw [if_neg hpos] at h
      have hnil : b.getD (((ni + i) % 4294967296) % b.length) [] = [] := by
        cases hb : b.getD (((ni + i) % 4294967296) % b.length) [] with
        | nil => rfl
        | cons x xs => rw [hb] at hpos; simp at hpos
      obtain ⟨k, hk, hj, hne, hbefore⟩ := ih (i + 1) j h
      refine ⟨k + 1, by omega, ?_, hne, ?_⟩
      · rw [show i + (k + 1) = i + 1 + k by omega]; exact hj
      · intro k2 hk2
        cases k2 with
        | zero => rw [Nat.add_zero]; exact hnil
        | succ k2 =>
          have := hbefore k2 (by omega)
          rw [show i + 1 + k2 = i + (k2 + 1) by omega] at this
          exact this

theorem chooseNext_fst {σ : Type} (e : ChromaticExecutor σ) :
    e.chooseNext.1 = chooseNextLoop e.colorWorkLists e.nextIndex e.colorWorkLists.length 0 := by
  unfold chooseNext
  cases chooseNextLoop e.colorWorkLists e.nextIndex e.colorWorkLists.length 0 <;> rfl

theorem chooseNext_snd_none {σ : Type} (e : ChromaticExecutor σ)
    (h : chooseNextLoop e.colorWorkLists e.nextIndex e.colorWorkLists.length 0 = none) :
    e.chooseNext.2 = e := by
  unfold chooseNext
  rw [h]

theorem chooseNext_snd_some {σ : Type} (e : ChromaticExecutor σ) (j : Nat)
    (h : chooseNextLoop e.colorWorkLists e.nextIndex e.colorWorkLists.length 0 = some j) :
    e.chooseNext.2 = { e with nextIndex := (j + 1) % e.colorWorkLists.length } := by
  unfold chooseNext
  rw [h]

end ChromaticExecutor

/-- Every residue is reached by a cyclic offset below the modulus. -/
theorem cyclic_offset (B ni j : Nat) (hj : j < B) : ∃ k, k < B ∧ (ni + k) % B = j := by
  have hB : 0 < B := by omega
  have hr : ni % B < B := Nat.mod_lt _ hB
  have hdm := Nat.div_add_mod ni B
  by_cases hle : ni % B ≤ j
  · refine ⟨j - ni % B, by omega, ?_⟩
    have : ni + (j - ni % B) = j + B * (ni / B) := by omega
    rw [this, Nat.add_mul_mod_self_left, Nat.mod_eq_of_lt hj]
  · refine ⟨B - ni % B + j, by omega, ?_⟩
    have : ni + (B - ni % B + j) = j + B * (ni / B + 1) := by
      rw [Nat.mul_add, Nat.mul_one]; omega
    rw [this, Nat.add_mul_mod_self_left, Nat.mod_eq_of_lt hj]

/-! ## The active-DAG executor on the path -/

theorem ChromaticExecutor.step_quiet {σ : Type} (func : Nat → Manager σ → σ × List Nat)
    (hq : ∀ n s, (func n s).2 = []) (j k : Nat) (e : ChromaticExecutor σ) (n : Nat)
    (hget : (e.bucket j).get? k = some n) :
    (ChromaticExecutor.step func j k e).colorWorkLists
      = e.colorWorkLists.set j ((e.bucket j).eraseIdx k) ∧
    (∀ v, ((ChromaticExecutor.step func j k e).m.data v).onWL
      = if v = n then 0 else (e.m.data v).onWL) ∧
    (ChromaticExecutor.step func j k e).applied = (n, 0) :: e.applied ∧
    (ChromaticExecutor.step func j k e).nextIndex = e.nextIndex ∧
    (ChromaticExecutor.step func j k e).rounds = e.rounds := by
  unfold ChromaticExecutor.bucket at hget
  unfold ChromaticExecutor.step
  rw [hget]
  simp only
  unfold ChromaticExecutor.ApplyOperator
  simp only [hq, List.foldl_nil]
  refine ⟨?_, ?_, ?_, ?_, ?_⟩
  · trivial
  · intro v
    simp only [setNode]
    split_ifs <;> rfl
  · simp [setNode]
  · trivial
  · trivial

theorem BucketInv.bucket_length_le {σ : Type} {N B : Nat} {c0 : Nat → Int} {e : ChromaticExecutor σ}
    (inv : BucketInv N c0 B e) (j : Nat) : (e.bucket j).length ≤ N := by
  by_cases hj : j < B
  · have hnd : (e.bucket j).Nodup := by
      rw [List.nodup_iff_count_le_one]
      intro v
      rw [inv.count j hj v]
      split_ifs <;> omega
    have hsub : (e.bucket j).toFinset ⊆ Finset.range N := by
      intro v hv
      rw [List.mem_toFinset] at hv
      exact Finset.mem_range.mpr (inv.of_mem hv).2.1
    have := Finset.card_le_card hsub
    rw [List.toFinset_card_of_nodup hnd, Finset.card_range] at this
    exact this
  · rw [inv.bucket_nil j (by omega)]
    simp

theorem BucketInv.drain {σ : Type} {N B : Nat} {c0 : Nat → Int}
    (func : Nat → Manager σ → σ × List Nat) (hq : ∀ n s, (func n s).2 = []) (j : Nat) :
    ∀ (sched : List Nat) (e : ChromaticExecutor σ), BucketInv N c0 B e →
      BucketInv N c0 B (ChromaticExecutor.for_each func j sched e) ∧
      (ChromaticExecutor.for_each func j sched e).nextIndex = e.nextIndex ∧
      (ChromaticExecutor.for_each func j sched e).rounds = e.rounds ∧
      (∀ v, ¬ (v < N ∧ toUnsigned (c0 v) = j) →
        ((ChromaticExecutor.for_each func j sched e).m.data v).onWL = (e.m.data v).onWL) ∧
      (∃ new, (ChromaticExecutor.for_each func j sched e).applied = new ++ e.applied ∧
        ∀ v, (new.map Prod.fst).count v
          + ((ChromaticExecutor.for_each func j sched e).bucket j).count v
          = (e.bucket j).count v) ∧
      ((e.bucket j).length ≤ sched.length →
        (ChromaticExecutor.for_each func j sched e).bucket j = []) := by
  intro sched
  induction sched with
  | nil =>
    intro e inv
    unfold ChromaticExecutor.for_each
    refine ⟨inv, rfl, rfl, fun _ _ => rfl, ⟨[], rfl, fun v => by simp⟩, ?_⟩
    intro h
    exact List.length_eq_zero.mp (by simpa using h)
  | cons c sched ih =>
    intro e inv
    unfold ChromaticExecutor.for_each
    cases hb : e.colorWorkLists.getD j [] with
    | nil =>
      dsimp only
      refine ⟨inv, rfl, rfl, fun _ _ => rfl, ⟨[], rfl, fun v => by simp⟩, ?_⟩
      intro _
      exact hb
    | cons x xs =>
      dsimp only
      have hbk : e.bucket j = x :: xs := hb
      have hk : c % (x :: xs).length < (e.bucket j).length := by
        rw [hbk]; exact Nat.mod_lt _ (by simp)
      obtain ⟨n, hget⟩ : ∃ n, (e.bucket j).get? (c % (x :: xs).length) = some n :=
        ⟨_, List.get?_eq_get hk⟩
      have hmem : n ∈ e.bucket j := List.get?_mem hget
      have hn := inv.of_mem hmem
      have hs := ChromaticExecutor.step_quiet func hq j (c % (x :: xs).length) e n hget
      have inv1 : BucketInv N c0 B (ChromaticExecutor.step func j (c % (x :: xs).length) e) :=
        inv.inv_step func (fun n s x hx => by rw [hq] at hx; simp at hx) j _
      have hb1 : (ChromaticExecutor.step func j (c % (x :: xs).length) e).bucket j
          = (e.bucket j).eraseIdx (c % (x :: xs).length) := by
        unfold ChromaticExecutor.bucket
        rw [hs.1, getD_set_buckets, if_pos ⟨rfl, by rw [inv.size]; exact hn.1⟩]
        rfl
      obtain ⟨i1, i2, i3, i4, ⟨new, i5, i6⟩, i7⟩ :=
        ih (ChromaticExecutor.step func j (c % (x :: xs).length) e) inv1
      refine ⟨i1, by rw [i2, hs.2.2.2.1], by rw [i3, hs.2.2.2.2], ?_, ?_, ?_⟩
      · intro v hv
        rw [i4 v hv, hs.2.1 v]
        have : v ≠ n := by
          intro h
          rw [h] at hv
          exact hv ⟨hn.2.1, hn.2.2.2⟩
        rw [if_neg this]
      · refine ⟨new ++ [(n, 0)], ?_, ?_⟩
        · rw [i5, hs.2.2.1]
          simp
        · intro v
          have h6 := i6 v
          rw [hb1] at h6
          have her := count_eraseIdx_of_get (e.bucket j) _ n v hget
          simp only [List.map_append, List.map_cons, List.map_nil, List.count_append,
            List.count_cons, List.count_nil, beq_iff_eq]
          omega
      · intro hlen
        apply i7
        rw [hb1, List.length_eraseIdx]
        rw [if_pos hk]
        simp only [List.length_cons] at hlen
        omega

/-- With every bucket below `nextIndex` empty and no wrap of `nextIndex + i`,
`chooseNext` selects the first non-empty bucket. -/
theorem ChromaticExecutor.chooseNext_least {σ : Type} (e : ChromaticExecutor σ)
    (hw : e.nextIndex + e.colorWorkLists.length ≤ 4294967296)
    (hle : e.nextIndex ≤ e.colorWorkLists.length)
    (hlow : ∀ j, j < e.nextIndex → e.bucket j = []) :
    (e.chooseNext.1 = none →
      e.chooseNext.2 = e ∧ ∀ j, j < e.colorWorkLists.length → e.bucket j = []) ∧
    (∀ j, e.chooseNext.1 = some j →
      j < e.colorWorkLists.length ∧ e.nextIndex ≤ j ∧ e.bucket j ≠ [] ∧
      (∀ j2, j2 < j → e.bucket j2 = []) ∧
      e.chooseNext.2 = { e with nextIndex := (j + 1) % e.colorWorkLists.length }) := by
  have hidx : ∀ k, k < e.colorWorkLists.length →
      ((e.nextIndex + (0 + k)) % 4294967296) % e.colorWorkLists.length
        = (e.nextIndex + k) % e.colorWorkLists.length := by
    intro k hk
    rw [Nat.zero_add, Nat.mod_eq_of_lt (show e.nextIndex + k < 4294967296 by omega)]
  refine ⟨?_, ?_⟩
  · intro h
    rw [ChromaticExecutor.chooseNext_fst] at h
    refine ⟨ChromaticExecutor.chooseNext_snd_none e h, ?_⟩
    rw [ChromaticExecutor.chooseNextLoop_none] at h
    intro j hj
    obtain ⟨k, hk, hkj⟩ := cyclic_offset e.colorWorkLists.length e.nextIndex j hj
    have := h k hk
    rw [hidx k hk, hkj] at this
    exact this
  · intro j hj
    rw [ChromaticExecutor.chooseNext_fst] at hj
    obtain ⟨k, hk, hjk, hne, hbefore⟩ := ChromaticExecutor.chooseNextLoop_some _ _ _ _ _ hj
    rw [hidx k hk] at hjk
    have hlt : e.nextIndex + k < e.colorWorkLists.length := by
      by_contra hge
      have h1 : (e.nextIndex + k) % e.colorWorkLists.length
          = e.nextIndex + k - e.colorWorkLists.length := by
        rw [Nat.mod_eq_sub_mod (by omega), Nat.mod_eq_of_lt (by omega)]
      apply hne
      apply hlow
      omega
    rw [Nat.mod_eq_of_lt hlt] at hjk
    refine ⟨by omega, by omega, hne, ?_, ChromaticExecutor.chooseNext_snd_some e j hj⟩
    intro j2 hj2
    by_cases h2 : j2 < e.nextIndex
    · exact hlow j2 h2
    · have := hbefore (j2 - e.nextIndex) (by omega)
      rw [hidx _ (by omega), Nat.mod_eq_of_lt (by omega)] at this
      rw [show e.nextIndex + (j2 - e.nextIndex) = j2 by omega] at this
      exact this

theorem BucketInv.low_empty {σ : Type} {N B : Nat} {c0 : Nat → Int} {e : ChromaticExecutor σ}
    (inv : BucketInv N c0 B e)
    (hni : ∀ v, v < N → (e.m.data v).onWL = 1 → e.nextIndex ≤ toUnsigned (c0 v)) :
    ∀ j, j < e.nextIndex → e.bucket j = [] := by
  intro j hj
  cases hb : e.bucket j with
  | nil => rfl
  | cons x xs =>
    have hmem : x ∈ e.bucket j := by rw [hb]; exact List.mem_cons_self x xs
    have h := inv.of_mem hmem
    have := hni x h.2.1 h.2.2.1
    omega

theorem BucketInv.pending_mem {σ : Type} {N B : Nat} {c0 : Nat → Int} {e : ChromaticExecutor σ}
    (inv : BucketInv N c0 B e) (hcol : ∀ v, v < N → toUnsigned (c0 v) < B)
    (v : Nat) (hv : v < N) (h1 : (e.m.data v).onWL = 1) :
    v ∈ e.bucket (toUnsigned (c0 v)) := by
  have := inv.count _ (hcol v hv) v
  rw [if_pos ⟨hv, h1, rfl⟩] at this
  exact List.count_pos_iff.mp (by omega)

theorem BucketInv.flag_zero_of_nil {σ : Type} {N B : Nat} {c0 : Nat → Int}
    {e : ChromaticExecutor σ} (inv : BucketInv N c0 B e)
    (hcol : ∀ v, v < N → toUnsigned (c0 v) < B) (hnil : ∀ j, j < B → e.bucket j = []) :
    ∀ v, v < N → (e.m.data v).onWL = 0 := by
  intro v hv
  rcases inv.flag v hv with h | h
  · exact h
  · have := inv.pending_mem hcol v hv h
    rw [hnil _ (hcol v hv)] at this
    simp at this

theorem BucketInv.of_fields {σ : Type} {N B : Nat} {c0 : Nat → Int}
    {e e2 : ChromaticExecutor σ} (inv : BucketInv N c0 B e)
    (h1 : e2.colorWorkLists = e.colorWorkLists) (h2 : e2.m = e.m) (h3 : e2.applied = e.applied) :
    BucketInv N c0 B e2 := by
  have hb : ∀ j, e2.bucket j = e.bucket j := by
    intro j; unfold ChromaticExecutor.bucket; rw [h1]
  refine ⟨by rw [h1]; exact inv.size, ?_, ?_, ?_, ?_⟩
  · intro v; rw [h2]; exact inv.color v
  · intro v hv; rw [h2]; exact inv.flag v hv
  · intro j hj v; rw [hb, h2]; exact inv.count j hj v
  · intro p hp; rw [h3] at hp; exact inv.applied p hp

theorem BucketInv.rounds_loop {σ : Type} {N B : Nat} {c0 : Nat → Int}
    (func : Nat → Manager σ → σ × List Nat) (hq : ∀ n s, (func n s).2 = [])
    (hB : B ≤ 2147483648) (hcol : ∀ v, v < N → toUnsigned (c0 v) < B) :
    ∀ (scheds : List (List Nat)) (e : ChromaticExecutor σ), BucketInv N c0 B e →
      e.nextIndex ≤ B →
      (∀ v, v < N → (e.m.data v).onWL = 1 → e.nextIndex ≤ toUnsigned (c0 v)) →
      (∀ s, s ∈ scheds → N ≤ s.length) →
      ((e.pending N).image (fun v => toUnsigned (c0 v))).card < scheds.length →
      BucketInv N c0 B (ChromaticExecutor.roundLoop func scheds e) ∧
      (ChromaticExecutor.roundLoop func scheds e).rounds
        = e.rounds + ((e.pending N).image (fun v => toUnsigned (c0 v))).card ∧
      (∀ v, v < N → ((ChromaticExecutor.roundLoop func scheds e).m.data v).onWL = 0) ∧
      ∃ new, (ChromaticExecutor.roundLoop func scheds e).applied = new ++ e.applied ∧
        (∀ v, (new.map Prod.fst).count v
          = if v < N ∧ (e.m.data v).onWL = 1 then 1 else 0) ∧
        (new.reverse.map (fun p => toUnsigned (c0 p.1))).Pairwise (· ≤ ·) := by
  intro scheds
  induction scheds with
  | nil => intro e _ _ _ _ h; simp at h
  | cons s rest ih =>
    intro e inv hle hni hs hcard
    have hlow := inv.low_empty hni
    have hw : e.nextIndex + e.colorWorkLists.length ≤ 4294967296 := by rw [inv.size]; omega
    have hle2 : e.nextIndex ≤ e.colorWorkLists.length := by rw [inv.size]; exact hle
    have hcn := ChromaticExecutor.chooseNext_least e hw hle2 hlow
    unfold ChromaticExecutor.roundLoop
    cases hc : e.chooseNext.1 with
    | none =>
      obtain ⟨h2, hnil⟩ := hcn.1 hc
      have hpair : e.chooseNext = (none, e) := Prod.ext hc h2
      rw [hpair]
      dsimp only
      have hflag := inv.flag_zero_of_nil hcol (fun j hj => hnil j (by rw [inv.size]; exact hj))
      have hpend : e.pending N = ∅ := by
        unfold ChromaticExecutor.pending
        rw [Finset.filter_eq_empty_iff]
        intro v hv h1
        have := hflag v (Finset.mem_range.mp hv)
        omega
      refine ⟨inv, by rw [hpend]; simp, hflag, [], rfl, ?_, by simp⟩
      intro v
      have : ¬ (v < N ∧ (e.m.data v).onWL = 1) := fun h => by have := hflag v h.1; omega
      rw [if_neg this]; rfl
    | some j =>
      obtain ⟨hjB, hjn, hne, hbelow, h2⟩ := hcn.2 j hc
      have hpair : e.chooseNext
          = (some j, { e with nextIndex := (j + 1) % e.colorWorkLists.length }) :=
        Prod.ext hc h2
      rw [hpair]
      dsimp only
      rw [inv.size] at hjB
      have inv1 : BucketInv N c0 B
          ({ e with nextIndex := (j + 1) % e.colorWorkLists.length, rounds := e.rounds + 1 } :
            ChromaticExecutor σ) := inv.of_fields rfl rfl rfl
      obtain ⟨inv2, d2, d3, d4, ⟨new1, d5, d6⟩, d7⟩ := BucketInv.drain func hq j s _ inv1
      have hdr := d7 (le_trans (inv1.bucket_length_le j) (hs s (List.mem_cons_self s rest)))
      -- flags after the round
      have hflag2 : ∀ v, v < N →
          (((ChromaticExecutor.for_each func j s
            ({ e with nextIndex := (j + 1) % e.colorWorkLists.length, rounds := e.rounds + 1 } :
              ChromaticExecutor σ)).m.data v).onWL = 1 ↔
            ((e.m.data v).onWL = 1 ∧ toUnsigned (c0 v) ≠ j)) := by
        intro v hv
        constructor
        · intro h1
          have hne2 : toUnsigned (c0 v) ≠ j := by
            intro heq
            have hm := inv2.pending_mem hcol v hv h1
            rw [heq, hdr] at hm
            simp at hm
          have := d4 v (fun h => hne2 h.2)
          rw [this] at h1
          exact ⟨h1, hne2⟩
        · intro h
          rw [d4 v (fun h2 => h.2 h2.2)]
          exact h.1
      have hmin : ∀ v, v < N → (e.m.data v).onWL = 1 → j ≤ toUnsigned (c0 v) := by
        intro v hv h1
        by_contra hlt
        have hm := inv.pending_mem hcol v hv h1
        rw [hbelow _ (by omega)] at hm
        simp at hm
      -- the colours still pending
      have hjmem : j ∈ (e.pending N).image (fun v => toUnsigned (c0 v)) := by
        cases hb : e.bucket j with
        | nil => exact absurd hb hne
        | cons x xs =>
          have hx := inv.of_mem (show x ∈ e.bucket j by rw [hb]; exact List.mem_cons_self x xs)
          rw [Finset.mem_image]
          refine ⟨x, ?_, hx.2.2.2⟩
          unfold ChromaticExecutor.pending
          rw [Finset.mem_filter, Finset.mem_range]
          exact ⟨hx.2.1, hx.2.2.1⟩
      have himg : ((ChromaticExecutor.for_each func j s
            ({ e with nextIndex := (j + 1) % e.colorWorkLists.length, rounds := e.rounds + 1 } :
              ChromaticExecutor σ)).pending N).image (fun v => toUnsigned (c0 v))
          = ((e.pending N).image (fun v => toUnsigned (c0 v))).erase j := by
        ext c
        simp only [Finset.mem_image, Finset.mem_erase, ChromaticExecutor.pending,
          Finset.mem_filter, Finset.mem_range]
        constructor
        · rintro ⟨v, ⟨hv, h1⟩, rfl⟩
          have := (hflag2 v hv).mp h1
          exact ⟨this.2, v, ⟨hv, this.1⟩, rfl⟩
        · rintro ⟨hcj, v, ⟨hv, h1⟩, rfl⟩
          exact ⟨v, ⟨hv, (hflag2 v hv).mpr ⟨h1, hcj⟩⟩, rfl⟩
      have hcard2 : (((ChromaticExecutor.for_each func j s
            ({ e with nextIndex := (j + 1) % e.colorWorkLists.length, rounds := e.rounds + 1 } :
              ChromaticExecutor σ)).pending N).image (fun v => toUnsigned (c0 v))).card + 1
          = ((e.pending N).image (fun v => toUnsigned (c0 v))).card := by
        rw [himg, Finset.card_erase_of_mem hjmem]
        have := Finset.card_pos.mpr ⟨j, hjmem⟩
        omega
      have hBpos : 0 < B := by omega
      have hni2 : ∀ v, v < N →
          ((ChromaticExecutor.for_each func j s
            ({ e with nextIndex := (j + 1) % e.colorWorkLists.length, rounds := e.rounds + 1 } :
              ChromaticExecutor σ)).m.data v).onWL = 1 →
          (ChromaticExecutor.for_each func j s
            ({ e with nextIndex := (j + 1) % e.colorWorkLists.length, rounds := e.rounds + 1 } :
              ChromaticExecutor σ)).nextIndex ≤ toUnsigned (c0 v) := by
        intro v hv h1
        have h := (hflag2 v hv).mp h1
        have := hmin v hv h.1
        rw [d2]
        have hmod : (j + 1) % e.colorWorkLists.length ≤ j + 1 := Nat.mod_le _ _
        have hne3 := h.2
        show (j + 1) % e.colorWorkLists.length ≤ toUnsigned (c0 v)
        omega
      have hle3 : (ChromaticExecutor.for_each func j s
            ({ e with nextIndex := (j + 1) % e.colorWorkLists.length, rounds := e.rounds + 1 } :
              ChromaticExecutor σ)).nextIndex ≤ B := by
        rw [d2]
        show (j + 1) % e.colorWorkLists.length ≤ B
        rw [inv.size]
        exact le_of_lt (Nat.mod_lt _ hBpos)
      obtain ⟨r1, r2, r3, new2, r4, r5, r6⟩ := ih _ inv2 hle3 hni2
        (fun s2 hs2 => hs s2 (List.mem_cons_of_mem s hs2))
        (by simp only [List.length_cons] at hcard; omega)
      refine ⟨r1, ?_, r3, new2 ++ new1, ?_, ?_, ?_⟩
      · rw [r2, d3]
        show e.rounds + 1 + _ = _
        omega
      · rw [r4, d5]
        simp
      · intro v
        have hc1 := d6 v
        rw [hdr] at hc1
        simp only [List.count_nil, Nat.add_zero] at hc1
        have hb1 : (ChromaticExecutor.bucket
            ({ e with nextIndex := (j + 1) % e.colorWorkLists.length, rounds := e.rounds + 1 } :
              ChromaticExecutor σ) j) = e.bucket j := rfl
        rw [hb1, inv.count j hjB v] at hc1
        rw [List.map_append, List.count_append, r5 v, hc1]
        by_cases hv : v < N
        · by_cases h1 : (e.m.data v).onWL = 1
          · by_cases hcj : toUnsigned (c0 v) = j
            · have : ¬ (v < N ∧ ((ChromaticExecutor.for_each func j s
                  ({ e with nextIndex := (j + 1) % e.colorWorkLists.length,
                            rounds := e.rounds + 1 } : ChromaticExecutor σ)).m.data v).onWL = 1) :=
                fun h => ((hflag2 v hv).mp h.2).2 hcj
              rw [if_neg this, if_pos ⟨hv, h1, hcj⟩, if_pos ⟨hv, h1⟩]
            · have : (v < N ∧ ((ChromaticExecutor.for_each func j s
                  ({ e with nextIndex := (j + 1) % e.colorWorkLists.length,
                            rounds := e.rounds + 1 } : ChromaticExecutor σ)).m.data v).onWL = 1) :=
                ⟨hv, (hflag2 v hv).mpr ⟨h1, hcj⟩⟩
              have h3 : ¬ (v < N ∧ (e.m.data v).onWL = 1 ∧ toUnsigned (c0 v) = j) :=
                fun h => hcj h.2.2
              rw [if_pos this, if_neg h3, if_pos ⟨hv, h1⟩]
          · have : ¬ (v < N ∧ ((ChromaticExecutor.for_each func j s
                ({ e with nextIndex := (j + 1) % e.colorWorkLists.length,
                          rounds := e.rounds + 1 } : ChromaticExecutor σ)).m.data v).onWL = 1) :=
              fun h => h1 ((hflag2 v hv).mp h.2).1
            have h3 : ¬ (v < N ∧ (e.m.data v).onWL = 1 ∧ toUnsigned (c0 v) = j) :=
              fun h => h1 h.2.1
            have h4 : ¬ (v < N ∧ (e.m.data v).onWL = 1) := fun h => h1 h.2
            rw [if_neg this, if_neg h3, if_neg h4]
        · have : ¬ (v < N ∧ ((ChromaticExecutor.for_each func j s
              ({ e with nextIndex := (j + 1) % e.colorWorkLists.length,
                        rounds := e.rounds + 1 } : ChromaticExecutor σ)).m.data v).onWL = 1) :=
            fun h => hv h.1
          have h3 : ¬ (v < N ∧ (e.m.data v).onWL = 1 ∧ toUnsigned (c0 v) = j) :=
            fun h => hv h.1
          have h4 : ¬ (v < N ∧ (e.m.data v).onWL = 1) := fun h => hv h.1
          rw [if_neg this, if_neg h3, if_neg h4]
      · rw [List.reverse_append, List.map_append, List.pairwise_append]
        refine ⟨?_, r6, ?_⟩
        · have hall : ∀ c, c ∈ new1.reverse.map (fun p => toUnsigned (c0 p.1)) → c = j := by
            intro c hcm
            rw [List.mem_map] at hcm
            obtain ⟨p, hp, rfl⟩ := hcm
            rw [List.mem_reverse] at hp
            have hpos : 0 < (new1.map Prod.fst).count p.1 :=
              List.count_pos_iff.mpr (List.mem_map.mpr ⟨p, hp, rfl⟩)
            have hc1 := d6 p.1
            rw [hdr] at hc1
            simp only [List.count_nil, Nat.add_zero] at hc1
            have hm : p.1 ∈ e.bucket j := List.count_pos_iff.mp (by
              have hb1 : (ChromaticExecutor.bucket
                ({ e with nextIndex := (j + 1) % e.colorWorkLists.length,
                          rounds := e.rounds + 1 } : ChromaticExecutor σ) j) = e.bucket j := rfl
              rw [hb1] at hc1
              omega)
            exact (inv.of_mem hm).2.2.2
          exact List.pairwise_of_forall_mem_list (fun a ha b hb => by
            rw [hall a ha, hall b hb])
        · intro a ha b hb
          have haj : a = j := by
            rw [List.mem_map] at ha
            obtain ⟨p, hp, rfl⟩ := ha
            rw [List.mem_reverse] at hp
            have hpos : 0 < (new1.map Prod.fst).count p.1 :=
              List.count_pos_iff.mpr (List.mem_map.mpr ⟨p, hp, rfl⟩)
            have hc1 := d6 p.1
            rw [hdr] at hc1
            simp only [List.count_nil, Nat.add_zero] at hc1
            have hm : p.1 ∈ e.bucket j := List.count_pos_iff.mp (by
              have hb1 : (ChromaticExecutor.bucket
                ({ e with nextIndex := (j + 1) % e.colorWorkLists.length,
                          rounds := e.rounds + 1 } : ChromaticExecutor σ) j) = e.bucket j := rfl
              rw [hb1] at hc1
              omega)
            exact (inv.of_mem hm).2.2.2
          rw [List.mem_map] at hb
          obtain ⟨p, hp, rfl⟩ := hb
          rw [List.mem_reverse] at hp
          have hpos : 0 < (new2.map Prod.fst).count p.1 :=
            List.count_pos_iff.mpr (List.mem_map.mpr ⟨p, hp, rfl⟩)
          rw [r5 p.1] at hpos
          have hpn : p.1 < N ∧ ((ChromaticExecutor.for_each func j s
              ({ e with nextIndex := (j + 1) % e.colorWorkLists.length,
                        rounds := e.rounds + 1 } : ChromaticExecutor σ)).m.data p.1).onWL = 1 := by
            by_contra hcon
            rw [if_neg hcon] at hpos
            omega
          have h := (hflag2 p.1 hpn.1).mp hpn.2
          have := hmin p.1 hpn.1 h.1
          rw [haj]
          exact this

theorem ChromaticExecutor.pushes_frame {σ : Type} (ns : List Nat) :
    ∀ (e : ChromaticExecutor σ),
      (ns.foldl ChromaticExecutor.push e).nextIndex = e.nextIndex ∧
      (ns.foldl ChromaticExecutor.push e).applied = e.applied := by
  induction ns with
  | nil => intro e; exact ⟨rfl, rfl⟩
  | cons a l ih =>
    intro e
    rw [List.foldl_cons]
    have h := ih (e.push a)
    have h1 : (e.push a).nextIndex = e.nextIndex := by
      unfold ChromaticExecutor.push
      simp only
      split_ifs <;> rfl
    rw [h.1, h.2, h1, ChromaticExecutor.push_applied]
    exact ⟨rfl, rfl⟩

/-- Rounds of `ChromaticExecutor::execute` when the buckets cover the colours
and the user function never pushes: the function is invoked exactly once on
every node of `range`, bucket after bucket in increasing colour order, in as
many rounds as there are distinct colours among the nodes of `range`. -/
theorem chromatic_rounds {σ : Type} (g : Graph) (func : Nat → Manager σ → σ × List Nat)
    (m : Manager σ) (B : Nat) (range : List Nat) (scheds : List (List Nat))
    (hq : ∀ n s, (func n s).2 = []) (hB : B ≤ 2147483648)
    (hflag : ∀ v, v < g.numNodes → (m.data v).onWL = 0)
    (hcol : ∀ v, v < g.numNodes → 0 ≤ (m.data v).color ∧ (m.data v).color < (B : Int))
    (hrange : ∀ n, n ∈ range → n < g.numNodes)
    (hs : ∀ s, s ∈ scheds → g.numNodes ≤ s.length)
    (hlen : (range.toFinset.image (fun v => (m.data v).color)).card < scheds.length) :
    (ChromaticExecutor.execute func range scheds (ChromaticExecutor.create m B)).rounds
      = (range.toFinset.image (fun v => (m.data v).color)).card ∧
    (∀ v, ((ChromaticExecutor.execute func range scheds
        (ChromaticExecutor.create m B)).applied.map Prod.fst).count v
      = if v ∈ range then 1 else 0) ∧
    ((ChromaticExecutor.execute func range scheds
        (ChromaticExecutor.create m B)).applied.reverse.map
          (fun p => (m.data p.1).color)).Pairwise (· ≤ ·) ∧
    (∀ p, p ∈ (ChromaticExecutor.execute func range scheds
        (ChromaticExecutor.create m B)).applied → p.2 = 0) ∧
    (∀ j, (ChromaticExecutor.execute func range scheds
        (ChromaticExecutor.create m B)).bucket j = []) := by
  have hU : ∀ v, v < g.numNodes → ((toUnsigned (m.data v).color : Nat) : Int) = (m.data v).color :=
    fun v hv => toUnsigned_of_nonneg _ (hcol v hv).1 (by have := (hcol v hv).2; omega)
  have hcolU : ∀ v, v < g.numNodes → toUnsigned ((fun v => (m.data v).color) v) < B := by
    intro v hv
    have h1 := hU v hv
    have h2 := (hcol v hv).2
    show toUnsigned (m.data v).color < B
    omega
  have inv0 := BucketInv.inv_create g.numNodes B m hflag
  have inv1 := BucketInv.inv_pushes range inv0 hrange
  have hfr := ChromaticExecutor.pushes_frame range (ChromaticExecutor.create m B)
  have invE : BucketInv g.numNodes (fun v => (m.data v).color) B
      ({ range.foldl ChromaticExecutor.push (ChromaticExecutor.create m B) with rounds := 0 } :
        ChromaticExecutor σ) := inv1.of_fields rfl rfl rfl
  have hon : ∀ v, v < g.numNodes →
      (((range.foldl ChromaticExecutor.push (ChromaticExecutor.create m B)).m.data v).onWL = 1
        ↔ v ∈ range) := by
    intro v hv
    rw [(ChromaticExecutor.pushes_count v range (ChromaticExecutor.create m B)).1]
    have h0 : ((ChromaticExecutor.create m B).m.data v).onWL = 0 := hflag v hv
    rw [h0]
    by_cases hr : v ∈ range
    · simp [hr]
    · simp [hr]
  have hpend : ChromaticExecutor.pending g.numNodes
      ({ range.foldl ChromaticExecutor.push (ChromaticExecutor.create m B) with rounds := 0 } :
        ChromaticExecutor σ) = range.toFinset := by
    ext v
    unfold ChromaticExecutor.pending
    rw [Finset.mem_filter, Finset.mem_range, List.mem_toFinset]
    constructor
    · rintro ⟨hv, h1⟩
      exact (hon v hv).mp h1
    · intro hr
      exact ⟨hrange v hr, (hon v (hrange v hr)).mpr hr⟩
  have himg : (range.toFinset.image (fun v => (m.data v).color))
      = (range.toFinset.image (fun v => toUnsigned (m.data v).color)).image
          (fun c : Nat => (c : Int)) := by
    rw [Finset.image_image]
    apply Finset.image_congr
    intro v hv
    have hv2 := hrange v (List.mem_toFinset.mp hv)
    exact (hU v hv2).symm
  have hcard : (range.toFinset.image (fun v => (m.data v).color)).card
      = (range.toFinset.image (fun v => toUnsigned (m.data v).color)).card := by
    rw [himg, Finset.card_image_of_injective _ Nat.cast_injective]
  obtain ⟨r1, r2, r3, new, r4, r5, r6⟩ := BucketInv.rounds_loop func hq hB hcolU scheds _ invE
    (by show (range.foldl ChromaticExecutor.push (ChromaticExecutor.create m B)).nextIndex ≤ B
        rw [hfr.1]; exact Nat.zero_le _)
    (fun v _ _ => by
      show (range.foldl ChromaticExecutor.push (ChromaticExecutor.create m B)).nextIndex ≤ _
      rw [hfr.1]; exact Nat.zero_le _)
    hs (by rw [hpend, ← hcard]; exact hlen)
  have happ : (ChromaticExecutor.execute func range scheds
      (ChromaticExecutor.create m B)).applied = new := by
    unfold ChromaticExecutor.execute
    rw [r4]
    show new ++ (range.foldl ChromaticExecutor.push (ChromaticExecutor.create m B)).applied = new
    rw [hfr.2]
    exact List.append_nil new
  have hnewN : ∀ p, p ∈ new → p.1 < g.numNodes := by
    intro p hp
    have hpos : 0 < (new.map Prod.fst).count p.1 :=
      List.count_pos_iff.mpr (List.mem_map.mpr ⟨p, hp, rfl⟩)
    rw [r5 p.1] at hpos
    by_contra hcon
    rw [if_neg (fun h => hcon h.1)] at hpos
    omega
  refine ⟨?_, ?_, ?_, ?_, ?_⟩
  · unfold ChromaticExecutor.execute
    rw [r2, hpend, hcard]
    show 0 + _ = _
    omega
  · intro v
    rw [happ, r5 v]
    by_cases hr : v ∈ range
    · rw [if_pos hr, if_pos ⟨hrange v hr, (hon v (hrange v hr)).mpr hr⟩]
    · rw [if_neg hr]
      have : ¬ (v < g.numNodes ∧
          (({ range.foldl ChromaticExecutor.push (ChromaticExecutor.create m B) with
              rounds := 0 } : ChromaticExecutor σ).m.data v).onWL = 1) :=
        fun h => hr ((hon v h.1).mp h.2)
      rw [if_neg this]
  · rw [happ]
    have hmap : new.reverse.map (fun p => (m.data p.1).color)
        = (new.reverse.map (fun p => toUnsigned (m.data p.1).color)).map
            (fun c : Nat => (c : Int)) := by
      rw [List.map_map]
      apply List.map_congr_left
      intro p hp
      exact (hU p.1 (hnewN p (List.mem_reverse.mp hp))).symm
    rw [hmap]
    exact List.Pairwise.map _ (fun a b hab => by exact_mod_cast hab) r6
  · intro p hp
    unfold ChromaticExecutor.execute at hp
    exact r1.applied p hp
  · intro j
    unfold ChromaticExecutor.execute
    by_cases hj : j < B
    · rw [List.eq_nil_iff_forall_not_mem]
      intro v hv
      have h := r1.of_mem hv
      have := r3 v h.2.1
      omega
    · exact r1.bucket_nil j (by omega)

/-- The rounds on the path `0 - 1 - 2 - 3 - 4` with two buckets, for every
schedule of two or more rounds with five or more entries each. -/
theorem chromatic_rounds_two_buckets (s1 s2 s3 : List Nat)
    (h1 : 5 ≤ s1.length) (h2 : 5 ≤ s2.length) (h3 : 5 ≤ s3.length) :
    (ChromaticExecutor.execute quiet [0, 1, 2, 3, 4] [s1, s2, s3]
      (ChromaticExecutor.create path5Colored.m 2)).rounds = 2 := by
  have h := (chromatic_rounds path5 quiet path5Colored.m 2 [0, 1, 2, 3, 4] [s1, s2, s3]
    (fun _ _ => rfl) (by decide) (by decide) (by decide) (by decide)
    (by
      intro s hs
      simp only [List.mem_cons, List.mem_singleton, List.not_mem_nil, or_false] at hs
      rcases hs with rfl | rfl | rfl
      · exact h1
      · exact h2
      · exact h3)
    (by
      have hc : (Finset.image (fun v => (path5Colored.m.data v).color)
          [0, 1, 2, 3, 4].toFinset).card = 2 := by decide
      rw [hc]
      simp)).1
  rw [h]
  decide

/-! ## assignIDs and assignPriority -/

theorem foldl_assignIDs (b : Nat) : ∀ (m : Nat) (d : Nat → InputDAGdata) (k : Nat),
    (List.range m).foldl
      (fun d i => setNode d (b + i) { d (b + i) with id := (b + i) % 4294967296 }) d k
      = if b ≤ k ∧ k < b + m then { d k with id := k % 4294967296 } else d k := by
  intro m
  induction m with
  | zero =>
    intro d k
    simp only [List.range_zero, List.foldl_nil]
    rw [if_neg (by omega)]
  | succ m ih =>
    intro d k
    rw [List.range_succ, List.foldl_append, List.foldl_cons, List.foldl_nil]
    simp only [setNode]
    by_cases hk : k = b + m
    · have h1 : b ≤ k ∧ k < b + (m + 1) := by omega
      have h2 : ¬ (b ≤ b + m ∧ b + m < b + m) := by omega
      rw [if_pos hk, if_pos h1, ih, if_neg h2, hk]
    · rw [if_neg hk, ih]
      by_cases h1 : b ≤ k ∧ k < b + m
      · have h2 : b ≤ k ∧ k < b + (m + 1) := by omega
        rw [if_pos h1, if_pos h2]
      · have h2 : ¬ (b ≤ k ∧ k < b + (m + 1)) := by omega
        rw [if_neg h1, if_neg h2]

theorem assignIDsWorker_ok (numNodes numT tid : Nat) (d : Nat → InputDAGdata)
    (h : tid * ((numNodes + numT - 1) / numT) ≤ numNodes) :
    assignIDsWorker numNodes numT tid d
      = some (fun k =>
          if tid * ((numNodes + numT - 1) / numT) ≤ k ∧
              k < min numNodes ((tid + 1) * ((numNodes + numT - 1) / numT))
          then { d k with id := k % 4294967296 } else d k) := by
  unfold assignIDsWorker
  simp only
  have hle : tid * ((numNodes + numT - 1) / numT)
      ≤ min numNodes ((tid + 1) * ((numNodes + numT - 1) / numT)) := by
    rw [Nat.le_min]
    exact ⟨h, Nat.mul_le_mul_right _ (by omega)⟩
  rw [if_pos hle]
  congr 1
  funext k
  rw [foldl_assignIDs]
  have : tid * ((numNodes + numT - 1) / numT)
      + (min numNodes ((tid + 1) * ((numNodes + numT - 1) / numT))
        - tid * ((numNodes + numT - 1) / numT))
      = min numNodes ((tid + 1) * ((numNodes + numT - 1) / numT)) := by omega
  rw [this]

theorem le_workers_mul (numNodes numT : Nat) (ht : 0 < numT) :
    numNodes ≤ numT * ((numNodes + numT - 1) / numT) := by
  have h1 := Nat.div_add_mod (numNodes + numT - 1) numT
  have h2 := Nat.mod_lt (numNodes + numT - 1) ht
  omega

theorem assignIDsWorker_none (numNodes numT tid : Nat) (d : Nat → InputDAGdata)
    (h : ¬ tid * ((numNodes + numT - 1) / numT) ≤ numNodes) :
    assignIDsWorker numNodes numT tid d = none := by
  unfold assignIDsWorker
  simp only
  have hle : ¬ tid * ((numNodes + numT - 1) / numT)
      ≤ min numNodes ((tid + 1) * ((numNodes + numT - 1) / numT)) := by
    rw [Nat.le_min]
    exact fun hh => h hh.1
  rw [if_neg hle]

/-- The workers of `assignIDs` up to `T`: the ids of the positions they cover
are written, unless one of them starts outside the node sequence. -/
theorem assignIDs_fold (numNodes numT : Nat) (d : Nat → InputDAGdata) : ∀ T,
    (List.range T).foldl (fun acc tid => acc.bind (assignIDsWorker numNodes numT tid)) (some d)
      = if (∀ tid, tid < T → tid * ((numNodes + numT - 1) / numT) ≤ numNodes) then
          some (fun k =>
            if k < min numNodes (T * ((numNodes + numT - 1) / numT))
            then { d k with id := k % 4294967296 } else d k)
        else none := by
  intro T
  induction T with
  | zero =>
    rw [if_pos (by intro tid h; omega)]
    simp only [List.range_zero, List.foldl_nil, Nat.zero_mul]
    congr 1
    funext k
    rw [if_neg (by simp)]
  | succ T ih =>
    rw [List.range_succ, List.foldl_append, List.foldl_cons, List.foldl_nil, ih]
    by_cases hall : ∀ tid, tid < T → tid * ((numNodes + numT - 1) / numT) ≤ numNodes
    · rw [if_pos hall]
      simp only [Option.some_bind]
      by_cases hT : T * ((numNodes + numT - 1) / numT) ≤ numNodes
      · have hall2 : ∀ tid, tid < T + 1 → tid * ((numNodes + numT - 1) / numT) ≤ numNodes := by
          intro tid h
          by_cases e : tid = T
          · rw [e]; exact hT
          · exact hall tid (by omega)
        rw [if_pos hall2, assignIDsWorker_ok numNodes numT T _ hT]
        congr 1
        funext k
        have h2 : T * ((numNodes + numT - 1) / numT) ≤ (T + 1) * ((numNodes + numT - 1) / numT) :=
          Nat.mul_le_mul_right _ (by omega)
        have hmin : min numNodes (T * ((numNodes + numT - 1) / numT))
            = T * ((numNodes + numT - 1) / numT) := Nat.min_eq_right hT
        rw [hmin]
        by_cases ha : k < T * ((numNodes + numT - 1) / numT)
        · have hb : ¬ (T * ((numNodes + numT - 1) / numT) ≤ k ∧
              k < min numNodes ((T + 1) * ((numNodes + numT - 1) / numT))) := by omega
          have hc : k < min numNodes ((T + 1) * ((numNodes + numT - 1) / numT)) := by
            rw [Nat.lt_min]; omega
          rw [if_neg hb, if_pos ha, if_pos hc]
        · rw [if_neg ha]
          by_cases hc : k < min numNodes ((T + 1) * ((numNodes + numT - 1) / numT))
          · rw [if_pos ⟨by omega, hc⟩, if_pos hc]
          · have hb : ¬ (T * ((numNodes + numT - 1) / numT) ≤ k ∧
                k < min numNodes ((T + 1) * ((numNodes + numT - 1) / numT))) := fun h => hc h.2
            rw [if_neg hb, if_neg hc]
      · have hall2 : ¬ ∀ tid, tid < T + 1 → tid * ((numNodes + numT - 1) / numT) ≤ numNodes :=
          fun h => hT (h T (by omega))
        rw [if_neg hall2, assignIDsWorker_none numNodes numT T _ hT]
    · have hall2 : ¬ ∀ tid, tid < T + 1 → tid * ((numNodes + numT - 1) / numT) ≤ numNodes :=
        fun h => hall (fun tid ht => h tid (by omega))
      rw [if_neg hall, if_neg hall2]
      rfl

/-- When every worker's range starts inside the node sequence, `assignIDs`
returns, and the node at position `k` has id `k` (as `unsigned`); no other
field changes. -/
theorem assignIDs_spec (numNodes numT : Nat) (d : Nat → InputDAGdata) (ht : 0 < numT)
    (hr : RangesOK numNodes numT) :
    assignIDs numNodes numT d
      = some (fun k => if k < numNodes then { d k with id := k % 4294967296 } else d k) := by
  unfold assignIDs
  have hr2 : ∀ tid, tid < numT → tid * ((numNodes + numT - 1) / numT) ≤ numNodes := hr
  rw [assignIDs_fold, if_pos hr2]
  have := le_workers_mul numNodes numT ht
  rw [Nat.min_eq_left this]

/-- `assignIDs` returns exactly when every worker's range starts inside the
node sequence. -/
theorem assignIDs_isSome_iff (numNodes numT : Nat) (d : Nat → InputDAGdata) :
    (assignIDs numNodes numT d).isSome = true ↔ RangesOK numNodes numT := by
  unfold assignIDs RangesOK
  rw [assignIDs_fold]
  by_cases h : ∀ tid, tid < numT → tid * ((numNodes + numT - 1) / numT) ≤ numNodes
  · rw [if_pos h]
    exact ⟨fun _ => h, fun _ => rfl⟩
  · rw [if_neg h]
    exact ⟨fun x => (by cases x), fun x => absurd x h⟩

/-- What `assignIDs` returns, when it returns. -/
theorem assignIDs_eq_some (numNodes numT : Nat) (d d1 : Nat → InputDAGdata) (ht : 0 < numT)
    (h : assignIDs numNodes numT d = some d1) :
    RangesOK numNodes numT ∧
    d1 = fun k => if k < numNodes then { d k with id := k % 4294967296 } else d k := by
  have hr : RangesOK numNodes numT := by
    rw [← assignIDs_isSome_iff numNodes numT d, h]; rfl
  refine ⟨hr, ?_⟩
  rw [assignIDs_spec numNodes numT d ht hr] at h
  exact (Option.some.inj h).symm

theorem assignPriorityHelper_fold (nodeFunc : Nat → InputDAGdata → InputDAGdata) :
    ∀ (m : Nat) (d : Nat → InputDAGdata) (k : Nat),
    (List.range m).foldl (fun d node => setNode d node (nodeFunc node (d node))) d k
      = if k < m then nodeFunc k (d k) else d k := by
  intro m
  induction m with
  | zero => intro d k; simp
  | succ m ih =>
    intro d k
    rw [List.range_succ, List.foldl_append, List.foldl_cons, List.foldl_nil]
    simp only [setNode]
    by_cases hk : k = m
    · have h1 : k < m + 1 := by omega
      have h2 : ¬ m < m := by omega
      rw [if_pos hk, if_pos h1, ih, if_neg h2, hk]
    · rw [if_neg hk, ih]
      by_cases h1 : k < m
      · have h2 : k < m + 1 := by omega
        rw [if_pos h1, if_pos h2]
      · have h2 : ¬ k < m + 1 := by omega
        rw [if_neg h1, if_neg h2]

/-- The `do_all` of `assignPriorityHelper` applies `nodeFunc` once to every
node of the graph. -/
theorem assignPriorityHelper_apply (g : Graph) (nodeFunc : Nat → InputDAGdata → InputDAGdata)
    (d : Nat → InputDAGdata) (k : Nat) :
    assignPriorityHelper g nodeFunc d k = if k < g.numNodes then nodeFunc k (d k) else d k :=
  assignPriorityHelper_fold nodeFunc g.numNodes d k

/-- `assignPriority` returns exactly when `assignIDs` does. -/
theorem assignPriority_isSome_iff (p : PriorityFunc) (g : Graph) (numT : Nat) (rng : Nat → Nat)
    (d : Nat → InputDAGdata) :
    (assignPriority p g numT rng d).isSome = true ↔ RangesOK g.numNodes numT := by
  unfold assignPriority
  rw [← assignIDs_isSome_iff g.numNodes numT d]
  cases assignIDs g.numNodes numT d <;> simp

/-- What `assignPriority` returns, when it returns: the ids of `assignIDs`,
and the priority the lambda of the policy computes from them. -/
theorem assignPriority_eq_some (p : PriorityFunc) (g : Graph) (numT : Nat) (rng : Nat → Nat)
    (d d2 : Nat → InputDAGdata) (ht : 0 < numT)
    (h : assignPriority p g numT rng d = some d2) :
    ∀ v, v < g.numNodes →
      (d2 v).id = v % 4294967296 ∧
      (d2 v).priority =
        (match p with
         | PriorityFunc.FIRST_FIT => (d v).priority
         | PriorityFunc.BY_ID => (v % 4294967296) % MAX_LEVELS
         | PriorityFunc.RANDOM => rng v % 4294967296
         | PriorityFunc.MIN_DEGREE => (g.adj v).length % 4294967296
         | PriorityFunc.MAX_DEGREE => usub g.numNodes (g.adj v).length) := by
  intro v hv
  unfold assignPriority at h
  rw [Option.map_eq_some'] at h
  obtain ⟨d1, h1, h2⟩ := h
  obtain ⟨_, hd1⟩ := assignIDs_eq_some g.numNodes numT d d1 ht h1
  subst hd1
  subst h2
  cases p <;>
    simp [assignPriorityHelper_apply, hv, byId, randPri, minDegree, maxDegree,
      Nat.mod_mod]
/-- Under `MIN_DEGREE` the priority is the number of edges of the node. -/
theorem minDegree_priority (g : Graph) (numT : Nat) (rng : Nat → Nat)
    (d d2 : Nat → InputDAGdata) (ht : 0 < numT)
    (h : assignPriority PriorityFunc.MIN_DEGREE g numT rng d = some d2)
    (v : Nat) (hv : v < g.numNodes) (hdeg : (g.adj v).length < 4294967296) :
    (d2 v).priority = (g.adj v).length := by
  have h1 := (assignPriority_eq_some _ g numT rng d d2 ht h v hv).2
  simp only at h1
  rw [h1, Nat.mod_eq_of_lt hdeg]

/-- Under `MAX_DEGREE`, on a graph where no node has more edges than there are
nodes, the priority is `numNodes` minus the number of edges, and a node with
more edges is ordered before a node with fewer. -/
theorem maxDegree_priority (g : Graph) (numT : Nat) (rng : Nat → Nat)
    (d d2 : Nat → InputDAGdata) (ht : 0 < numT)
    (h : assignPriority PriorityFunc.MAX_DEGREE g numT rng d = some d2)
    (hn : g.numNodes < 4294967296)
    (hdeg : ∀ v, v < g.numNodes → (g.adj v).length ≤ g.numNodes) :
    ∀ v, v < g.numNodes →
      (d2 v).priority = g.numNodes - (g.adj v).length ∧
      ∀ u, u < g.numNodes → (g.adj v).length < (g.adj u).length →
        DAGdataComparator.compare (d2 u) (d2 v) = true := by
  have key : ∀ v, v < g.numNodes → (d2 v).priority = g.numNodes - (g.adj v).length := by
    intro v hv
    have h1 := (assignPriority_eq_some _ g numT rng d d2 ht h v hv).2
    simp only at h1
    have := hdeg v hv
    rw [h1]
    unfold usub
    omega
  intro v hv
  refine ⟨key v hv, ?_⟩
  intro u hu hlt
  rw [compare_iff_lex]
  left
  rw [key v hv, key u hu]
  have := hdeg u hu
  omega

/-! ## The two successor strategies -/

theorem partition_neighbors_ok : IsPartition partition_neighbors := by
  intro pred l
  unfold partition_neighbors
  refine ⟨?_, ?_, ?_⟩
  · simp only
    exact List.filter_append_perm pred l
  · intro x hx
    simp only [List.take_left'] at hx
    exact (List.mem_filter.1 hx).2
  · intro x hx
    simp only [List.drop_left'] at hx
    have := (List.mem_filter.1 hx).2
    cases h : pred x
    · rfl
    · rw [h] at this; cases this

/-- The prefix a partition returns holds the entries that satisfy the
predicate. -/
theorem IsPartition.take_perm {part : (Nat → Bool) → List Nat → List Nat × Nat}
    (hp : IsPartition part) (pred : Nat → Bool) (l : List Nat) :
    List.Perm ((part pred l).1.take (part pred l).2) (l.filter pred) := by
  obtain ⟨h1, h2, h3⟩ := hp pred l
  have e : (part pred l).1.filter pred = (part pred l).1.take (part pred l).2 := by
    conv_lhs => rw [← List.take_append_drop (part pred l).2 (part pred l).1]
    rw [List.filter_append, List.filter_eq_self.2 h2, List.filter_eq_nil_iff.2, List.append_nil]
    intro x hx
    rw [h3 x hx]
    decide
  rw [← e]
  exact h1.filter pred

theorem DAGmanagerInOut.initDAG_fold (part : (Nat → Bool) → List Nat → List Nat × Nat)
    (d : Nat → InputDAGdata) (s : Nat) :
    ∀ (L : List Nat) (acc : GraphInOut × (Nat → Offsets)), L.Nodup →
    ((L.foldl (DAGmanagerInOut.initDAGstep part d) acc).1.inAdj s
      = if s ∈ L then (part (DAGmanagerInOut.Predicate d s) (acc.1.inAdj s)).1
        else acc.1.inAdj s) ∧
    ((L.foldl (DAGmanagerInOut.initDAGstep part d) acc).1.outAdj s
      = if s ∈ L then (part (DAGmanagerInOut.Predicate d s) (acc.1.outAdj s)).1
        else acc.1.outAdj s) ∧
    ((L.foldl (DAGmanagerInOut.initDAGstep part d) acc).2 s
      = if s ∈ L then
          { dagSuccEndIn := (part (DAGmanagerInOut.Predicate d s) (acc.1.inAdj s)).2,
            dagSuccEndOut := (part (DAGmanagerInOut.Predicate d s) (acc.1.outAdj s)).2 }
        else acc.2 s) := by
  intro L
  induction L with
  | nil => intro acc _; simp
  | cons a l ih =>
    intro acc hnd
    rw [List.nodup_cons] at hnd
    rw [List.foldl_cons]
    obtain ⟨h1, h2, h3⟩ := ih (DAGmanagerInOut.initDAGstep part d acc a) hnd.2
    rw [h1, h2, h3]
    by_cases hsa : s = a
    · subst hsa
      simp [hnd.1, DAGmanagerInOut.initDAGstep, DAGmanagerInOut.InitDAGoffsets]
    · by_cases hsl : s ∈ l
      · simp [hsa, hsl, DAGmanagerInOut.initDAGstep, DAGmanagerInOut.InitDAGoffsets]
      · simp [hsa, hsl, DAGmanagerInOut.initDAGstep, DAGmanagerInOut.InitDAGoffsets]

/-- The nodes `VisitDAGsuccessors` enumerates at a node after `initDAG`: the
two prefixes the partition of its in-edges and of its out-edges returns. -/
theorem DAGmanagerInOut.successors_eq (part : (Nat → Bool) → List Nat → List Nat × Nat)
    (d : Nat → InputDAGdata) (g : GraphInOut) (s : Nat) (hs : s < g.numNodes) :
    DAGmanagerInOut.successors part d g s
      = (part (DAGmanagerInOut.Predicate d s) (g.inAdj s)).1.take
          (part (DAGmanagerInOut.Predicate d s) (g.inAdj s)).2
        ++ (part (DAGmanagerInOut.Predicate d s) (g.outAdj s)).1.take
          (part (DAGmanagerInOut.Predicate d s) (g.outAdj s)).2 := by
  unfold DAGmanagerInOut.successors DAGmanagerInOut.VisitDAGsuccessors DAGmanagerInOut.initDAG
  obtain ⟨h1, h2, h3⟩ := DAGmanagerInOut.initDAG_fold part d s (List.range g.numNodes)
    (g, fun _ => { dagSuccEndIn := 0, dagSuccEndOut := 0 }) (List.nodup_range _)
  have hm : s ∈ List.range g.numNodes := List.mem_range.2 hs
  rw [if_pos hm] at h1 h2 h3
  rw [h1, h2, h3]

/-- With a partition that keeps its guarantee, the in/out strategy enumerates
the neighbours that satisfy `Predicate`. -/
theorem DAGmanagerInOut.successors_perm {part : (Nat → Bool) → List Nat → List Nat × Nat}
    (hp : IsPartition part) (d : Nat → InputDAGdata) (g : GraphInOut) (s : Nat)
    (hs : s < g.numNodes) :
    List.Perm (DAGmanagerInOut.successors part d g s)
      ((DAGmanagerInOut.VisitAdjacent g s).filter (DAGmanagerInOut.Predicate d s)) := by
  rw [DAGmanagerInOut.successors_eq part d g s hs]
  unfold DAGmanagerInOut.VisitAdjacent
  rw [List.filter_append]
  exact (hp.take_perm _ _).append (hp.take_perm _ _)

/-- The successor list `DAGmanagerDefault::initDAG` materialises on the same
graph: the neighbours `dst` with `compare3val (dd, sd) > 0`. -/
theorem default_successors (g : GraphInOut) (d : Nat → InputDAGdata) (s : Nat)
    (hs : s < g.numNodes) :
    (DetChromatic.initDAG g.toGraph d s).dagSucc
      = (DAGmanagerInOut.VisitAdjacent g s).filter (fun dst => after d dst s) := by
  rw [initDAG_apply]
  have hs2 : s < g.toGraph.numNodes := hs
  rw [if_pos hs2]
  rfl

/-- Below `2^31` the two strategies enumerate the same multiset of nodes: the
neighbours that come later in the lexicographic order of `(priority, id)`. -/
theorem successor_strategies_agree {part : (Nat → Bool) → List Nat → List Nat × Nat}
    (hp : IsPartition part) (d : Nat → InputDAGdata) (g : GraphInOut) (s : Nat)
    (hs : s < g.numNodes)
    (hks : (d s).priority < 2147483648 ∧ (d s).id < 2147483648)
    (hk : ∀ v, v ∈ DAGmanagerInOut.VisitAdjacent g s →
      (d v).priority < 2147483648 ∧ (d v).id < 2147483648) :
    (DetChromatic.initDAG g.toGraph d s).dagSucc
      = specSuccessors (DAGmanagerInOut.VisitAdjacent g s) d s ∧
    List.Perm (DAGmanagerInOut.successors part d g s)
      (specSuccessors (DAGmanagerInOut.VisitAdjacent g s) d s) := by
  have e1 : (DAGmanagerInOut.VisitAdjacent g s).filter (fun dst => after d dst s)
      = specSuccessors (DAGmanagerInOut.VisitAdjacent g s) d s := by
    unfold specSuccessors
    apply List.filter_congr
    intro v hv
    unfold after
    rw [decide_eq_decide]
    have := compare3val_pos_iff (d v) (d s) (hk v hv) hks
    rw [gt_iff_lt, this]
    constructor <;> intro h <;> rcases h with h | h
    · exact Or.inl h
    · exact Or.inr ⟨h.1.symm, h.2⟩
    · exact Or.inl h
    · exact Or.inr ⟨h.1.symm, h.2⟩
  have e2 : (DAGmanagerInOut.VisitAdjacent g s).filter (DAGmanagerInOut.Predicate d s)
      = specSuccessors (DAGmanagerInOut.VisitAdjacent g s) d s := by
    unfold specSuccessors
    apply List.filter_congr
    intro v hv
    unfold DAGmanagerInOut.Predicate
    rw [decide_eq_decide]
    exact compare3val_neg_iff (d s) (d v) hks (hk v hv)
  refine ⟨?_, ?_⟩
  · rw [default_successors g d s hs, e1]
  · rw [← e2]
    exact DAGmanagerInOut.successors_perm hp d g s hs

/-! ## Sweeps that reuse the DAG -/

theorem collectSources_congr (g : Graph) (d d2 : Nat → InputDAGdata)
    (h : ∀ v, v < g.numNodes → (d2 v).indegree = (d v).indegree) :
    collectSources g d2 = collectSources g d := by
  unfold collectSources
  apply List.filter_congr
  intro x hx
  rw [h x (List.mem_range.mp hx)]

/-- A sweep leaves every `indeg_backup` alone when the supplied function
does. -/
theorem for_each_local_backup {σ : Type} {func : Nat → Nat → Manager σ → Manager σ}
    (hb : KeepsBackup func) (v : Nat) : ∀ (sched : List (Nat × Nat)) (s : Sweep σ),
    ((for_each_local func sched s).m.data v).indeg_backup = (s.m.data v).indeg_backup := by
  intro sched
  induction sched with
  | nil => intro s; rfl
  | cons c sched ih =>
    intro s
    unfold DetChromatic.for_each_local
    cases hwl : s.wl with
    | nil => rfl
    | cons a l =>
      simp only []
      rw [ih]
      unfold DetChromatic.step
      cases s.wl.get? (c.1 % (a :: l).length) with
      | none => rfl
      | some src =>
        simp only [RunDAGcomp]
        rw [(foldl_dagClosure_log _ _).2.2.1 v]
        exact hb _ _ _ _

theorem CycleReady.of_initDAG (g : Graph) (d : Nat → InputDAGdata) :
    CycleReady g d (initDAG g d) (collectSources g (initDAG g d)) := by
  refine { ready := initDAG_ready g d, bak := ?_, src := rfl }
  intro v hv
  rw [initDAG_apply, if_pos hv]
  rfl

/-- Only the DAG fields of the node data matter. -/
theorem CycleReady.congr {g : Graph} {d0 d : Nat → InputDAGdata} {sources : List Nat}
    (h : CycleReady g d0 d sources) (d2 : Nat → InputDAGdata)
    (he : ∀ v, (d2 v).indegree = (d v).indegree ∧ (d2 v).dagSucc = (d v).dagSucc ∧
      (d2 v).priority = (d v).priority ∧ (d2 v).id = (d v).id ∧
      (d2 v).indeg_backup = (d v).indeg_backup) :
    CycleReady g d0 d2 sources := by
  refine { ready := { key := ?_, succ := ?_, indeg := ?_ }, bak := ?_, src := ?_ }
  · intro v
    rw [(he v).2.2.1, (he v).2.2.2.1]
    exact h.ready.key v
  · intro v hv
    rw [(he v).2.1]
    exact h.ready.succ v hv
  · intro v hv
    rw [(he v).1]
    exact h.ready.indeg v hv
  · intro v hv
    rw [(he v).2.2.2.2]
    exact h.bak v hv
  · rw [h.src]
    exact (collectSources_congr g d d2 (fun v _ => (he v).1)).symm

/-- One sweep from the reused sources, and the `reinitDAG` after it: the
sweep runs to the end when its schedule is long enough, and `reinitDAG`
restores the node data for the next sweep. -/
theorem CycleReady.sweep {σ : Type} {g : Graph} {d0 : Nat → InputDAGdata}
    {func : Nat → Nat → Manager σ → Manager σ} (hf : KeepsDAG func) (hb : KeepsBackup func)
    (hwf : g.WF) (hsym : g.Symmetric) (m : Manager σ) {sources : List Nat}
    (h : CycleReady g d0 m.data sources) (sched : List (Nat × Nat)) :
    SweepInv g d0 (runDAGcomputation func sources sched m) ∧
    (g.numNodes ≤ sched.length → (runDAGcomputation func sources sched m).wl = []) ∧
    CycleReady g d0 (reinitDAG g (runDAGcomputation func sources sched m).m.data).1 sources ∧
    (∀ v, v < g.numNodes →
      ((reinitDAG g (runDAGcomputation func sources sched m).m.data).1 v).indegree
        = (m.data v).indegree) := by
  have inv0 : SweepInv g d0 { m := m, wl := sources, log := [] } := by
    rw [h.src]
    exact SweepInv.sweep_start m h.ready
  have inv : SweepInv g d0 (runDAGcomputation func sources sched m) :=
    SweepInv.sweep_loop hf hwf hsym sched inv0
  have hbk : ∀ v, ((runDAGcomputation func sources sched m).m.data v).indeg_backup
      = (m.data v).indeg_backup := fun v => for_each_local_backup hb v sched _
  have hbak2 : ∀ v, v < g.numNodes →
      ((runDAGcomputation func sources sched m).m.data v).indeg_backup
        = (((g.adj v).countP (fun dst => before d0 dst v) : Nat) : Int) := by
    intro v hv
    rw [hbk v]
    exact h.bak v hv
  have hready := reinitDAG_ready g d0 (runDAGcomputation func sources sched m).m.data
    inv.key inv.succ hbak2
  have hind : ∀ v, v < g.numNodes →
      ((reinitDAG g (runDAGcomputation func sources sched m).m.data).1 v).indegree
        = (m.data v).indegree := by
    intro v hv
    rw [hready.indeg v hv, h.ready.indeg v hv]
  refine ⟨inv, ?_, ?_, hind⟩
  · intro hlen
    exact for_each_local_complete hf hwf hsym sched inv0
      (by simp only [calls, List.length_nil]; omega)
  · refine { ready := hready, bak := ?_, src := ?_ }
    · intro v hv
      rw [reinitDAG_apply, if_pos hv]
      exact hbak2 v hv
    · exact h.src.trans (collectSources_congr g m.data _ hind).symm

/-- In a sweep that has run to the end, below `2^31`, the supplied function
has been invoked exactly once on every node. -/
theorem SweepInv.count_one {σ : Type} {g : Graph} {d0 : Nat → InputDAGdata} {s : Sweep σ}
    (inv : SweepInv g d0 s) (hwf : g.WF) (hk : KeysBelow g d0) (hempty : s.wl = []) :
    ∀ v, v < g.numNodes → (calls s.log).count v = 1 :=
  fun v hv => List.count_eq_one_of_mem inv.done_nodup (inv.all_done hwf hk hempty v hv)

theorem push_initial_apply (range : List Nat) : ∀ (d : Nat → InputDAGdata) (v : Nat),
    InputGraphDAGreuseExecutor.push_initial d range v
      = if v ∈ range then { d v with onWL := 1 } else d v := by
  unfold InputGraphDAGreuseExecutor.push_initial
  induction range with
  | nil => intro d v; simp
  | cons a l ih =>
    intro d v
    rw [List.foldl_cons, ih]
    by_cases hva : v = a
    · subst hva
      simp [setNode]
    · by_cases hvl : v ∈ l
      · simp [setNode, hva, hvl]
      · simp [setNode, hva, hvl]

/-- The cycles of the reusable executor after `initialize ()`: every sweep
runs to the end and invokes the function once on every node, and every
`reinitDAG ()` restores the in-degrees and leaves the sources as they are. -/
theorem reuse_cycles_inv {σ : Type} (g : Graph) (d0 : Nat → InputDAGdata)
    (func : Nat → Manager σ → Manager σ)
    (hwf : g.WF) (hsym : g.Symmetric) (hk : KeysBelow g d0)
    (hf : KeepsDAG (fun _ src m => func src m))
    (hb : KeepsBackup (fun _ src m => func src m)) :
    ∀ (scheds : List (List (Nat × Nat))) (st : Manager σ × List Nat),
    (∀ sched, sched ∈ scheds → g.numNodes ≤ sched.length) →
    CycleReady g d0 st.1.data st.2 →
    (∀ s, s ∈ (InputGraphDAGreuseExecutor.cycles g func scheds st).1 →
      s.wl = [] ∧ ∀ v, v < g.numNodes → (calls s.log).count v = 1) ∧
    (∀ v, v < g.numNodes →
      ((InputGraphDAGreuseExecutor.cycles g func scheds st).2.1.data v).indegree
        = (st.1.data v).indegree) ∧
    (InputGraphDAGreuseExecutor.cycles g func scheds st).2.2 = st.2 := by
  intro scheds
  induction scheds with
  | nil =>
    intro st _ _
    refine ⟨?_, fun _ _ => rfl, rfl⟩
    intro s hs
    simp [InputGraphDAGreuseExecutor.cycles] at hs
  | cons sched rest ih =>
    intro st hlen h
    obtain ⟨inv, hwl, hnext, hind⟩ := h.sweep hf hb hwf hsym st.1 sched
    have hwl2 := hwl (hlen sched (List.mem_cons_self _ _))
    have ih2 := ih
      (InputGraphDAGreuseExecutor.reinitDAG g
        ((InputGraphDAGreuseExecutor.execute func sched st).m, st.2))
      (fun s hs => hlen s (List.mem_cons_of_mem _ hs)) hnext
    obtain ⟨i1, i2, i3⟩ := ih2
    simp only [InputGraphDAGreuseExecutor.cycles]
    refine ⟨?_, ?_, ?_⟩
    · intro s hs
      rcases List.mem_cons.1 hs with e | e
      · rw [e]
        exact ⟨hwl2, inv.count_one hwf hk hwl2⟩
      · exact i1 s e
    · intro v hv
      rw [i2 v hv]
      exact hind v hv
    · rw [i3]
      rfl

theorem push_initial_keysBelow (g : Graph) (d : Nat → InputDAGdata) (range : List Nat)
    (hk : KeysBelow g d) : KeysBelow g (InputGraphDAGreuseExecutor.push_initial d range) := by
  intro v hv
  rw [push_initial_apply]
  split_ifs
  · exact hk v hv
  · exact hk v hv

theorem InputGraphDAGreuseExecutor.initAll_ready {σ : Type} (g : Graph) (m : Manager σ) :
    CycleReady g (InputGraphDAGreuseExecutor.push_initial m.data (List.range g.numNodes))
      (InputGraphDAGreuseExecutor.initAll g m).1.data
      (InputGraphDAGreuseExecutor.initAll g m).2 :=
  CycleReady.of_initDAG g _

/-! ## The topology-driven executor -/

theorem InputGraphDAGtopologyDriven.push_frame {σ : Type}
    (m : Manager (InputGraphDAGtopologyDriven σ)) (node : Nat) :
    ((InputGraphDAGtopologyDriven.push m node).user.user = m.user.user ∧
      (InputGraphDAGtopologyDriven.push m node).user.visited = m.user.visited ∧
      (InputGraphDAGtopologyDriven.push m node).user.applied = m.user.applied ∧
      (InputGraphDAGtopologyDriven.push m node).user.numActiveFound = m.user.numActiveFound ∧
      (InputGraphDAGtopologyDriven.push m node).user.numPushes = m.user.numPushes + 1) ∧
    ∀ v, ((InputGraphDAGtopologyDriven.push m node).data v).onWL
        = (if v = node ∧ (m.data v).onWL = 0 then 1 else (m.data v).onWL) ∧
      ((InputGraphDAGtopologyDriven.push m node).data v).indegree = (m.data v).indegree ∧
      ((InputGraphDAGtopologyDriven.push m node).data v).dagSucc = (m.data v).dagSucc ∧
      ((InputGraphDAGtopologyDriven.push m node).data v).priority = (m.data v).priority ∧
      ((InputGraphDAGtopologyDriven.push m node).data v).id = (m.data v).id ∧
      ((InputGraphDAGtopologyDriven.push m node).data v).indeg_backup = (m.data v).indeg_backup := by
  refine ⟨⟨rfl, rfl, rfl, rfl, rfl⟩, ?_⟩
  intro v
  unfold InputGraphDAGtopologyDriven.push
  simp only
  by_cases h0 : (m.data node).onWL = 0
  · rw [if_pos h0]
    by_cases hv : v = node
    · subst hv
      simp [setNode, h0]
    · simp [setNode, hv]
  · rw [if_neg h0]
    by_cases hv : v = node
    · subst hv
      simp [h0]
    · simp [hv]

theorem InputGraphDAGtopologyDriven.initial_pushes_frame {σ : Type} (L : List Nat) :
    ∀ (m : Manager (InputGraphDAGtopologyDriven σ)),
    ((L.foldl InputGraphDAGtopologyDriven.push m).user.user = m.user.user ∧
      (L.foldl InputGraphDAGtopologyDriven.push m).user.visited = m.user.visited ∧
      (L.foldl InputGraphDAGtopologyDriven.push m).user.applied = m.user.applied ∧
      (L.foldl InputGraphDAGtopologyDriven.push m).user.numActiveFound = m.user.numActiveFound ∧
      (L.foldl InputGraphDAGtopologyDriven.push m).user.numPushes
        = m.user.numPushes + L.length) ∧
    ∀ v, (((m.data v).onWL = 0 ∨ (m.data v).onWL = 1) →
        (((L.foldl InputGraphDAGtopologyDriven.push m).data v).onWL = 0 ∨
          ((L.foldl InputGraphDAGtopologyDriven.push m).data v).onWL = 1)) ∧
      ((L.foldl InputGraphDAGtopologyDriven.push m).data v).indegree = (m.data v).indegree ∧
      ((L.foldl InputGraphDAGtopologyDriven.push m).data v).dagSucc = (m.data v).dagSucc ∧
      ((L.foldl InputGraphDAGtopologyDriven.push m).data v).priority = (m.data v).priority ∧
      ((L.foldl InputGraphDAGtopologyDriven.push m).data v).id = (m.data v).id ∧
      ((L.foldl InputGraphDAGtopologyDriven.push m).data v).indeg_backup
        = (m.data v).indeg_backup := by
  induction L with
  | nil =>
    intro m
    exact ⟨⟨rfl, rfl, rfl, rfl, rfl⟩, fun v => ⟨fun h => h, rfl, rfl, rfl, rfl, rfl⟩⟩
  | cons a l ih =>
    intro m
    rw [List.foldl_cons]
    obtain ⟨⟨h1, h2, h3, h4, h5⟩, h6⟩ := ih (InputGraphDAGtopologyDriven.push m a)
    obtain ⟨⟨k1, k2, k3, k4, k5⟩, k6⟩ := InputGraphDAGtopologyDriven.push_frame m a
    refine ⟨⟨h1.trans k1, h2.trans k2, h3.trans k3, h4.trans k4, ?_⟩, ?_⟩
    · rw [h5, k5, List.length_cons]
      omega
    · intro v
      obtain ⟨g1, g2, g3, g4, g5, g6⟩ := h6 v
      obtain ⟨j1, j2, j3, j4, j5, j6⟩ := k6 v
      refine ⟨?_, g2.trans j2, g3.trans j3, g4.trans j4, g5.trans j5, g6.trans j6⟩
      intro hfl
      apply g1
      rw [j1]
      split_ifs
      · right; rfl
      · exact hfl

/-- What the lambda `f` does to the accumulators, the trace and the node
data. -/
theorem InputGraphDAGtopologyDriven.f_frame {σ : Type} (func : Nat → Manager σ → σ × List Nat)
    (src : Nat) (m : Manager (InputGraphDAGtopologyDriven σ)) :
    (InputGraphDAGtopologyDriven.f func src m).user.visited
      = (src, (m.data src).onWL) :: m.user.visited ∧
    (InputGraphDAGtopologyDriven.f func src m).user.applied
      = (if 0 < (m.data src).onWL then (src, 0) :: m.user.applied else m.user.applied) ∧
    ((∀ n x, (func n x).2 = []) →
      (InputGraphDAGtopologyDriven.f func src m).user.numPushes = m.user.numPushes) ∧
    (∀ v, ((InputGraphDAGtopologyDriven.f func src m).data v).indegree = (m.data v).indegree ∧
      ((InputGraphDAGtopologyDriven.f func src m).data v).dagSucc = (m.data v).dagSucc ∧
      ((InputGraphDAGtopologyDriven.f func src m).data v).priority = (m.data v).priority ∧
      ((InputGraphDAGtopologyDriven.f func src m).data v).id = (m.data v).id ∧
      ((InputGraphDAGtopologyDriven.f func src m).data v).indeg_backup
        = (m.data v).indeg_backup) ∧
    ((∀ v, (m.data v).onWL = 0 ∨ (m.data v).onWL = 1) →
      ∀ v, ((InputGraphDAGtopologyDriven.f func src m).data v).onWL = 0 ∨
        ((InputGraphDAGtopologyDriven.f func src m).data v).onWL = 1) := by
  unfold InputGraphDAGtopologyDriven.f
  simp only
  by_cases hpos : (m.data src).onWL > 0
  · have hpos2 : 0 < (m.data src).onWL := hpos
    rw [if_pos hpos]
    rw [if_pos hpos2]
    refine ⟨?_, ?_, ?_, ?_, ?_⟩
    · exact (InputGraphDAGtopologyDriven.initial_pushes_frame _ _).1.2.1
    · rw [(InputGraphDAGtopologyDriven.initial_pushes_frame _ _).1.2.2.1]
      simp [setNode]
    · intro hq
      rw [(InputGraphDAGtopologyDriven.initial_pushes_frame _ _).1.2.2.2.2, hq]
      rfl
    · intro v
      obtain ⟨_, g2, g3, g4, g5, g6⟩ := (InputGraphDAGtopologyDriven.initial_pushes_frame
        (func src (InputGraphDAGtopologyDriven.view
          { m with
            user := { m.user with visited := (src, (m.data src).onWL) :: m.user.visited }
            data := setNode m.data src { m.data src with onWL := 0 } })).2
        { m with
          user := { m.user with
            visited := (src, (m.data src).onWL) :: m.user.visited
            user := (func src (InputGraphDAGtopologyDriven.view
              { m with
                user := { m.user with visited := (src, (m.data src).onWL) :: m.user.visited }
                data := setNode m.data src { m.data src with onWL := 0 } })).1
            applied := (src, (setNode m.data src { m.data src with onWL := 0 } src).onWL)
              :: m.user.applied }
          data := setNode m.data src { m.data src with onWL := 0 } }).2 v
      refine ⟨g2.trans ?_, g3.trans ?_, g4.trans ?_, g5.trans ?_, g6.trans ?_⟩ <;>
        (simp only [setNode]; split_ifs with h <;> first | rfl | (rw [h]))
    · intro hfl v
      apply ((InputGraphDAGtopologyDriven.initial_pushes_frame _ _).2 v).1
      simp only [setNode]
      split_ifs
      · left; rfl
      · exact hfl v
  · have hpos2 : ¬ 0 < (m.data src).onWL := hpos
    rw [if_neg hpos]
    rw [if_neg hpos2]
    exact ⟨rfl, rfl, fun _ => rfl, fun v => ⟨rfl, rfl, rfl, rfl, rfl⟩, fun h => h⟩
theorem InputGraphDAGtopologyDriven.f_keepsDAG {σ : Type} (func : Nat → Manager σ → σ × List Nat) :
    KeepsDAG (fun (_ : Nat) src m => InputGraphDAGtopologyDriven.f func src m) := by
  intro tid src m v
  obtain ⟨_, _, _, h, _⟩ := InputGraphDAGtopologyDriven.f_frame func src m
  exact ⟨(h v).1, (h v).2.1, (h v).2.2.1, (h v).2.2.2.1⟩

theorem InputGraphDAGtopologyDriven.f_keepsBackup {σ : Type}
    (func : Nat → Manager σ → σ × List Nat) :
    KeepsBackup (fun (_ : Nat) src m => InputGraphDAGtopologyDriven.f func src m) := by
  intro tid src m v
  obtain ⟨_, _, _, h, _⟩ := InputGraphDAGtopologyDriven.f_frame func src m
  exact (h v).2.2.2.2

/-- The successor loop of `RunDAGcomp` touches neither the payload nor the
flags. -/
theorem RunDAGcomp_user {σ : Type} (func : Nat → Nat → Manager σ → Manager σ) (tid src : Nat)
    (s : Sweep σ) :
    (RunDAGcomp func tid src s).m.user = (func tid src s.m).user ∧
    ∀ v, ((RunDAGcomp func tid src s).m.data v).onWL = ((func tid src s.m).data v).onWL := by
  unfold RunDAGcomp
  simp only []
  refine ⟨?_, ?_⟩
  · rw [(foldl_dagClosure _ _).2.1]
  · intro v
    rw [(foldl_dagClosure _ _).1]
    rfl

theorem GateInv.gate_operator {σ : Type} (func : Nat → Manager σ → σ × List Nat)
    {s : Sweep (InputGraphDAGtopologyDriven σ)} (gi : GateInv s) (i tid src : Nat) :
    GateInv (RunDAGcomp (fun (_ : Nat) src m => InputGraphDAGtopologyDriven.f func src m)
      tid src { s with wl := s.wl.eraseIdx i }) := by
  obtain ⟨hu, hw⟩ := RunDAGcomp_user
    (fun (_ : Nat) src m => InputGraphDAGtopologyDriven.f func src m) tid src
    { s with wl := s.wl.eraseIdx i }
  have hc := RunDAGcomp_calls
    (fun (_ : Nat) src m => InputGraphDAGtopologyDriven.f func src m) tid src
    { s with wl := s.wl.eraseIdx i }
  obtain ⟨f1, f2, _, _, f5⟩ := InputGraphDAGtopologyDriven.f_frame func src s.m
  simp only at hu hw hc
  refine { vis := ?_, app0 := ?_, gate := ?_, vflag := ?_, flags := ?_ }
  · rw [hu, f1, hc, List.map_cons, gi.vis]
  · intro e he
    rw [hu, f2] at he
    split_ifs at he
    · rcases List.mem_cons.1 he with h | h
      · rw [h]
      · exact gi.app0 e h
    · exact gi.app0 e he
  · intro v
    rw [hu, f1, f2]
    by_cases hpos : 0 < (s.m.data src).onWL
    · rw [if_pos hpos, List.map_cons, List.mem_cons]
      constructor
      · rintro (h | h)
        · exact ⟨(s.m.data src).onWL, hpos, by rw [h]; exact List.mem_cons_self _ _⟩
        · obtain ⟨x, hx, hm⟩ := (gi.gate v).1 h
          exact ⟨x, hx, List.mem_cons_of_mem _ hm⟩
      · rintro ⟨x, hx, hm⟩
        rcases List.mem_cons.1 hm with h | h
        · left
          exact (Prod.mk.inj h).1
        · right
          exact (gi.gate v).2 ⟨x, hx, h⟩
    · rw [if_neg hpos]
      constructor
      · intro h
        obtain ⟨x, hx, hm⟩ := (gi.gate v).1 h
        exact ⟨x, hx, List.mem_cons_of_mem _ hm⟩
      · rintro ⟨x, hx, hm⟩
        rcases List.mem_cons.1 hm with h | h
        · have := (Prod.mk.inj h).2
          rw [this] at hx
          exact absurd hx hpos
        · exact (gi.gate v).2 ⟨x, hx, h⟩
  · intro e he
    rw [hu, f1] at he
    rcases List.mem_cons.1 he with h | h
    · rw [h]
      exact gi.flags src
    · exact gi.vflag e h
  · intro v
    rw [hw v]
    exact f5 gi.flags v

theorem GateInv.gate_loop {σ : Type} (func : Nat → Manager σ → σ × List Nat)
    (sched : List (Nat × Nat)) :
    ∀ {s : Sweep (InputGraphDAGtopologyDriven σ)}, GateInv s →
      GateInv (for_each_local
        (fun (_ : Nat) src m => InputGraphDAGtopologyDriven.f func src m) sched s) := by
  induction sched with
  | nil => intro s gi; exact gi
  | cons c sched ih =>
    intro s gi
    unfold DetChromatic.for_each_local
    cases hwl : s.wl with
    | nil => exact gi
    | cons x l =>
      simp only []
      apply ih
      unfold DetChromatic.step
      cases hi : s.wl.get? (c.1 % (x :: l).length) with
      | none => exact gi
      | some src => exact gi.gate_operator func _ _ src

/-- With a user function that never pushes, a sweep leaves the count of
pushes as it is. -/
theorem InputGraphDAGtopologyDriven.sweep_numPushes {σ : Type}
    (func : Nat → Manager σ → σ × List Nat) (hq : ∀ n x, (func n x).2 = [])
    (sched : List (Nat × Nat)) :
    ∀ (s : Sweep (InputGraphDAGtopologyDriven σ)),
      (for_each_local (fun (_ : Nat) src m => InputGraphDAGtopologyDriven.f func src m)
        sched s).m.user.numPushes = s.m.user.numPushes := by
  induction sched with
  | nil => intro s; rfl
  | cons c sched ih =>
    intro s
    unfold DetChromatic.for_each_local
    cases hwl : s.wl with
    | nil => rfl
    | cons x l =>
      simp only []
      rw [ih]
      unfold DetChromatic.step
      cases hi : s.wl.get? (c.1 % (x :: l).length) with
      | none => rfl
      | some src =>
        simp only []
        rw [(RunDAGcomp_user _ _ _ _).1]
        exact (InputGraphDAGtopologyDriven.f_frame func src s.m).2.2.1 hq
/-- One round of the topology-driven executor, and the reset after it. -/
theorem InputGraphDAGtopologyDriven.round_sweep {σ : Type} {g : Graph}
    {d0 : Nat → InputDAGdata} (func : Nat → Manager σ → σ × List Nat)
    (hwf : g.WF) (hsym : g.Symmetric) (m : Manager (InputGraphDAGtopologyDriven σ))
    {sources : List Nat} (h : CycleReady g d0 m.data sources)
    (hfl : ∀ v, (m.data v).onWL = 0 ∨ (m.data v).onWL = 1) (sched : List (Nat × Nat)) :
    SweepInv g d0 (runDAGcomputation
      (fun (_ : Nat) src m => InputGraphDAGtopologyDriven.f func src m) sources sched
      (InputGraphDAGtopologyDriven.clear m)) ∧
    (g.numNodes ≤ sched.length → (runDAGcomputation
      (fun (_ : Nat) src m => InputGraphDAGtopologyDriven.f func src m) sources sched
      (InputGraphDAGtopologyDriven.clear m)).wl = []) ∧
    GateInv (runDAGcomputation
      (fun (_ : Nat) src m => InputGraphDAGtopologyDriven.f func src m) sources sched
      (InputGraphDAGtopologyDriven.clear m)) ∧
    CycleReady g d0 (InputGraphDAGtopologyDriven.reset g (runDAGcomputation
      (fun (_ : Nat) src m => InputGraphDAGtopologyDriven.f func src m) sources sched
      (InputGraphDAGtopologyDriven.clear m)).m).data sources ∧
    (∀ v, ((InputGraphDAGtopologyDriven.reset g (runDAGcomputation
        (fun (_ : Nat) src m => InputGraphDAGtopologyDriven.f func src m) sources sched
        (InputGraphDAGtopologyDriven.clear m)).m).data v).onWL = 0 ∨
      ((InputGraphDAGtopologyDriven.reset g (runDAGcomputation
        (fun (_ : Nat) src m => InputGraphDAGtopologyDriven.f func src m) sources sched
        (InputGraphDAGtopologyDriven.clear m)).m).data v).onWL = 1) := by
  have h2 : CycleReady g d0 (InputGraphDAGtopologyDriven.clear m).data sources := h
  obtain ⟨inv, hwl, hnext, _⟩ := h2.sweep (InputGraphDAGtopologyDriven.f_keepsDAG func)
    (InputGraphDAGtopologyDriven.f_keepsBackup func) hwf hsym _ sched
  have gi0 : GateInv (Sweep.mk (InputGraphDAGtopologyDriven.clear m) sources []) :=
    { vis := rfl
      app0 := fun e he => by cases he
      gate := fun v => by
        constructor
        · intro hv; cases hv
        · rintro ⟨x, _, hm⟩; cases hm
      vflag := fun e he => by cases he
      flags := hfl }
  have gi := GateInv.gate_loop func sched gi0
  refine ⟨inv, hwl, gi, hnext, ?_⟩
  intro v
  unfold InputGraphDAGtopologyDriven.reset
  simp only
  rw [reinitDAG_apply]
  split_ifs
  · exact gi.flags v
  · exact gi.flags v

/-- Every round of `execute` that is performed is a complete sweep over the
graph that obeys the gate; the trace holds one sweep per round. -/
theorem InputGraphDAGtopologyDriven.roundLoop_trace {σ : Type} {g : Graph}
    {d0 : Nat → InputDAGdata} (func : Nat → Manager σ → σ × List Nat)
    (hwf : g.WF) (hsym : g.Symmetric) (hk : KeysBelow g d0) :
    ∀ (scheds : List (List (Nat × Nat))) (r : InputGraphDAGtopologyDriven.Run σ),
    (∀ sched, sched ∈ scheds → g.numNodes ≤ sched.length) →
    CycleReady g d0 r.m.data r.sources →
    (∀ v, (r.m.data v).onWL = 0 ∨ (r.m.data v).onWL = 1) →
    (∀ s, s ∈ r.trace →
      s.wl = [] ∧ (∀ v, v < g.numNodes → (calls s.log).count v = 1) ∧
      (calls s.log).Nodup ∧ GateInv s) →
    r.trace.length = r.rounds →
    (∀ s, s ∈ (InputGraphDAGtopologyDriven.roundLoop g func scheds r).trace →
      s.wl = [] ∧ (∀ v, v < g.numNodes → (calls s.log).count v = 1) ∧
      (calls s.log).Nodup ∧ GateInv s) ∧
    (InputGraphDAGtopologyDriven.roundLoop g func scheds r).trace.length
      = (InputGraphDAGtopologyDriven.roundLoop g func scheds r).rounds := by
  intro scheds
  induction scheds with
  | nil =>
    intro r _ _ _ hq hl
    exact ⟨hq, hl⟩
  | cons sched rest ih =>
    intro r hlen h hfl hq hl
    obtain ⟨inv, hwl, gi, hnext, hfl2⟩ :=
      InputGraphDAGtopologyDriven.round_sweep func hwf hsym r.m h hfl sched
    have hwl2 := hwl (hlen sched (List.mem_cons_self _ _))
    have hQ : ∀ s, s ∈ (runDAGcomputation
        (fun (_ : Nat) src m => InputGraphDAGtopologyDriven.f func src m) r.sources sched
        (InputGraphDAGtopologyDriven.clear r.m)) :: r.trace →
        s.wl = [] ∧ (∀ v, v < g.numNodes → (calls s.log).count v = 1) ∧
      (calls s.log).Nodup ∧ GateInv s := by
      intro s hs
      rcases List.mem_cons.1 hs with e | e
      · rw [e]
        exact ⟨hwl2, inv.count_one hwf hk hwl2, inv.done_nodup, gi⟩
      · exact hq s e
    unfold InputGraphDAGtopologyDriven.roundLoop
    simp only [hwl2]
    split_ifs with hp
    · refine ⟨hQ, ?_⟩
      simp only [List.length_cons, hl]
    · apply ih
      · exact fun s hs => hlen s (List.mem_cons_of_mem _ hs)
      · exact hnext
      · exact hfl2
      · exact hQ
      · simp only [List.length_cons, hl]

/-- The state in which `execute` enters its loop. -/
theorem InputGraphDAGtopologyDriven.start_ready {σ : Type} (g : Graph) (range : List Nat)
    (m : Manager σ) :
    CycleReady g m.data (InputGraphDAGtopologyDriven.start g range m).m.data
      (InputGraphDAGtopologyDriven.start g range m).sources ∧
    ((∀ v, (m.data v).onWL = 0 ∨ (m.data v).onWL = 1) →
      ∀ v, ((InputGraphDAGtopologyDriven.start g range m).m.data v).onWL = 0 ∨
        ((InputGraphDAGtopologyDriven.start g range m).m.data v).onWL = 1) ∧
    (InputGraphDAGtopologyDriven.start g range m).m.user.numPushes = range.length := by
  obtain ⟨⟨_, _, _, _, k5⟩, k6⟩ := InputGraphDAGtopologyDriven.initial_pushes_frame range
    (InputGraphDAGtopologyDriven.create (m.initDAG g))
  refine ⟨?_, ?_, ?_⟩
  · refine (CycleReady.of_initDAG g m.data).congr _ ?_
    intro v
    obtain ⟨_, g2, g3, g4, g5, g6⟩ := k6 v
    exact ⟨g2, g3, g4, g5, g6⟩
  · intro hfl v
    apply (k6 v).1
    show ((initDAG g m.data) v).onWL = 0 ∨ ((initDAG g m.data) v).onWL = 1
    rw [initDAG_apply]
    split_ifs
    · exact hfl v
    · exact hfl v
  · rw [InputGraphDAGtopologyDriven.start]
    simp only
    rw [k5]
    simp [InputGraphDAGtopologyDriven.create]

/-- With a user function that never pushes, `execute` on a non-empty range
performs exactly two rounds, and on an empty range exactly one. -/
theorem InputGraphDAGtopologyDriven.execute_quiet_rounds {σ : Type} (g : Graph)
    (func : Nat → Manager σ → σ × List Nat) (range : List Nat)
    (sched1 sched2 : List (Nat × Nat)) (rest : List (List (Nat × Nat))) (m : Manager σ)
    (hwf : g.WF) (hsym : g.Symmetric) (hq : ∀ n x, (func n x).2 = [])
    (h1 : g.numNodes ≤ sched1.length) (h2 : g.numNodes ≤ sched2.length) :
    (InputGraphDAGtopologyDriven.execute g func range (sched1 :: sched2 :: rest) m).finished
      = true ∧
    (InputGraphDAGtopologyDriven.execute g func range (sched1 :: sched2 :: rest) m).rounds
      = if range = [] then 1 else 2 := by
  obtain ⟨hr, _, hn⟩ := InputGraphDAGtopologyDriven.start_ready g range m
  -- round 1
  have hr1 : CycleReady g m.data
      (InputGraphDAGtopologyDriven.clear (InputGraphDAGtopologyDriven.start g range m).m).data
      (InputGraphDAGtopologyDriven.start g range m).sources := hr
  obtain ⟨_, hwl1, hnext1, _⟩ := hr1.sweep (InputGraphDAGtopologyDriven.f_keepsDAG func)
    (InputGraphDAGtopologyDriven.f_keepsBackup func) hwf hsym _ sched1
  have hwl1 := hwl1 h1
  have hp1 : (runDAGcomputation
      (fun (_ : Nat) src m => InputGraphDAGtopologyDriven.f func src m)
      (InputGraphDAGtopologyDriven.start g range m).sources sched1
      (InputGraphDAGtopologyDriven.clear
        (InputGraphDAGtopologyDriven.start g range m).m)).m.user.numPushes = range.length := by
    unfold runDAGcomputation
    rw [InputGraphDAGtopologyDriven.sweep_numPushes func hq sched1]
    exact hn
  unfold InputGraphDAGtopologyDriven.execute
  unfold InputGraphDAGtopologyDriven.roundLoop
  simp only [hwl1, hp1]
  by_cases hrange : range = []
  · have : range.length = 0 := by rw [hrange]; rfl
    rw [if_pos this, if_pos hrange]
    exact ⟨rfl, rfl⟩
  · have : ¬ range.length = 0 := fun h => hrange (List.length_eq_zero.1 h)
    rw [if_neg this, if_neg hrange]
    -- round 2
    have hr2 : CycleReady g m.data
        (InputGraphDAGtopologyDriven.clear (InputGraphDAGtopologyDriven.reset g
          (runDAGcomputation (fun (_ : Nat) src m => InputGraphDAGtopologyDriven.f func src m)
            (InputGraphDAGtopologyDriven.start g range m).sources sched1
            (InputGraphDAGtopologyDriven.clear
              (InputGraphDAGtopologyDriven.start g range m).m)).m)).data
        (InputGraphDAGtopologyDriven.start g range m).sources := hnext1
    obtain ⟨_, hwl2, _, _⟩ := hr2.sweep (InputGraphDAGtopologyDriven.f_keepsDAG func)
      (InputGraphDAGtopologyDriven.f_keepsBackup func) hwf hsym _ sched2
    have hwl2 := hwl2 h2
    have hp2 : (runDAGcomputation
        (fun (_ : Nat) src m => InputGraphDAGtopologyDriven.f func src m)
        (InputGraphDAGtopologyDriven.start g range m).sources sched2
        (InputGraphDAGtopologyDriven.clear (InputGraphDAGtopologyDriven.reset g
          (runDAGcomputation (fun (_ : Nat) src m => InputGraphDAGtopologyDriven.f func src m)
            (InputGraphDAGtopologyDriven.start g range m).sources sched1
            (InputGraphDAGtopologyDriven.clear
              (InputGraphDAGtopologyDriven.start g range m).m)).m))).m.user.numPushes = 0 := by
      unfold runDAGcomputation
      rw [InputGraphDAGtopologyDriven.sweep_numPushes func hq sched2]
      rfl
    unfold InputGraphDAGtopologyDriven.roundLoop
    simp only [hwl2, hp2]
    exact ⟨rfl, rfl⟩

/-- The frame of `reinitActiveDAG`: only `indegree` fields change, and only at
nodes of `range` and at flagged nodes. -/
theorem reinitActiveDAG_frame (d : Nat → InputDAGdata) (range : List Nat) (v : Nat) :
    ((reinitActiveDAG d range).1 v).onWL = (d v).onWL ∧
    ((reinitActiveDAG d range).1 v).dagSucc = (d v).dagSucc ∧
    ((reinitActiveDAG d range).1 v).color = (d v).color ∧
    ((reinitActiveDAG d range).1 v).indeg_backup = (d v).indeg_backup ∧
    ((reinitActiveDAG d range).1 v).priority = (d v).priority ∧
    ((reinitActiveDAG d range).1 v).id = (d v).id ∧
    (v ∉ range → ¬ 0 < (d v).onWL →
      ((reinitActiveDAG d range).1 v).indegree = (d v).indegree) := by
  have h0 := reinitActive_pass0 range d
  have hw : ∀ u, (range.foldl (fun d src => setNode d src { d src with indegree := 0 }) d u).onWL
      = (d u).onWL := by
    intro u; rw [h0]; split_ifs <;> rfl
  unfold reinitActiveDAG
  simp only
  rw [reinitActive_pass1, h0]
  by_cases hv : v ∈ range
  · rw [if_pos hv]
    exact ⟨rfl, rfl, rfl, rfl, rfl, rfl, fun h => absurd hv h⟩
  · rw [if_neg hv]
    refine ⟨rfl, rfl, rfl, rfl, rfl, rfl, fun _ hz => ?_⟩
    have hz2 : ¬ (d v).onWL > 0 := hz
    simp only [hw, if_neg hz2, Int.add_zero]

/-! ## Worker ranges of assignIDs -/

/-- The ranges of the workers of `assignIDs`: every `end` is at most
`numNodes`; `beg ≤ end` holds exactly when `beg ≤ numNodes`; every position
below `numNodes` lies in the range of exactly one worker. -/
theorem assignIDsRange_spec (numNodes numT : Nat) (ht : 0 < numT) :
    (∀ tid, (assignIDsRange numNodes numT tid).2 ≤ numNodes) ∧
    (∀ tid, ((assignIDsRange numNodes numT tid).1 ≤ (assignIDsRange numNodes numT tid).2 ↔
      tid * ((numNodes + numT - 1) / numT) ≤ numNodes)) ∧
    (∀ k, k < numNodes → ∃ tid, tid < numT ∧
      (assignIDsRange numNodes numT tid).1 ≤ k ∧ k < (assignIDsRange numNodes numT tid).2) ∧
    (∀ tid1 tid2 k,
      (assignIDsRange numNodes numT tid1).1 ≤ k → k < (assignIDsRange numNodes numT tid1).2 →
      (assignIDsRange numNodes numT tid2).1 ≤ k → k < (assignIDsRange numNodes numT tid2).2 →
      tid1 = tid2) := by
  have hcov := le_workers_mul numNodes numT ht
  refine ⟨?_, ?_, ?_, ?_⟩
  · intro tid
    exact Nat.min_le_left _ _
  · intro tid
    unfold assignIDsRange
    simp only
    rw [Nat.le_min]
    constructor
    · exact fun h => h.1
    · exact fun h => ⟨h, Nat.mul_le_mul_right _ (by omega)⟩
  · intro k hk
    have hnp : 0 < (numNodes + numT - 1) / numT := by
      rcases Nat.eq_zero_or_pos ((numNodes + numT - 1) / numT) with h | h
      · rw [h] at hcov; omega
      · exact h
    refine ⟨k / ((numNodes + numT - 1) / numT), ?_, ?_, ?_⟩
    · apply Nat.div_lt_of_lt_mul
      rw [Nat.mul_comm]
      omega
    · exact Nat.div_mul_le_self _ _
    · unfold assignIDsRange
      simp only
      rw [Nat.lt_min]
      refine ⟨hk, ?_⟩
      rw [Nat.mul_comm]
      exact Nat.lt_mul_div_succ k hnp
  · intro tid1 tid2 k a1 a2 b1 b2
    unfold assignIDsRange at a1 a2 b1 b2
    simp only at a1 a2 b1 b2
    rw [Nat.lt_min] at a2 b2
    rcases Nat.lt_trichotomy tid1 tid2 with h | h | h
    · have : (tid1 + 1) * ((numNodes + numT - 1) / numT)
          ≤ tid2 * ((numNodes + numT - 1) / numT) := Nat.mul_le_mul_right _ h
      omega
    · exact h
    · have : (tid2 + 1) * ((numNodes + numT - 1) / numT)
          ≤ tid1 * ((numNodes + numT - 1) / numT) := Nat.mul_le_mul_right _ h
      omega

/-- A worker of `assignIDs` returns exactly when its range has `beg ≤ end`. -/
theorem assignIDsWorker_isSome_iff (numNodes numT tid : Nat) (d : Nat → InputDAGdata) :
    (assignIDsWorker numNodes numT tid d).isSome = true ↔
      (assignIDsRange numNodes numT tid).1 ≤ (assignIDsRange numNodes numT tid).2 := by
  unfold assignIDsWorker assignIDsRange
  simp only
  split_ifs with h
  · exact ⟨fun _ => h, fun _ => rfl⟩
  · exact ⟨fun x => (by cases x), fun x => absurd x h⟩

/-! ## Sources and orientation -/

/-- Below `2^31`, a node that no node precedes in the `(priority, id)` order
is a source, and a non-empty graph has a source. -/
theorem sources_exist (g : Graph) (d : Nat → InputDAGdata) (hwf : g.WF) (hk : KeysBelow g d)
    (hpos : 0 < g.numNodes) :
    (∀ v, v < g.numNodes →
      (∀ u, u < g.numNodes → ¬ ((d u).priority < (d v).priority ∨
        ((d u).priority = (d v).priority ∧ (d u).id < (d v).id))) →
      v ∈ collectSources g (initDAG g d)) ∧
    collectSources g (initDAG g d) ≠ [] := by
  have h1 : ∀ v, v < g.numNodes →
      (∀ u, u < g.numNodes → ¬ ((d u).priority < (d v).priority ∨
        ((d u).priority = (d v).priority ∧ (d u).id < (d v).id))) →
      v ∈ collectSources g (initDAG g d) := by
    intro v hv hmin
    unfold collectSources
    rw [List.mem_filter, List.mem_range, decide_eq_true_eq]
    refine ⟨hv, ?_⟩
    rw [(initDAG_indegree_lex g d hwf hk v hv).1]
    have : (g.adj v).countP (fun dst => DAGdataComparator.compare (d dst) (d v)) = 0 := by
      rw [List.countP_eq_zero]
      intro u hu hc
      rw [compare_iff_lex] at hc
      exact hmin u (hwf v hv u hu) hc
    rw [this]
    rfl
  refine ⟨h1, ?_⟩
  obtain ⟨v, hv, hmin⟩ := Finset.exists_min_image (Finset.range g.numNodes)
    (fun v => (d v).priority * 2147483648 + (d v).id) ⟨0, Finset.mem_range.2 hpos⟩
  have hv2 := Finset.mem_range.1 hv
  have hm := h1 v hv2 (by
    intro u hu hlt
    have h2 := hmin u (Finset.mem_range.2 hu)
    have ku := hk u hu
    have kv := hk v hv2
    simp only at h2
    omega)
  intro he
  rw [he] at hm
  cases hm

theorem sum_map_range_eq_finset (n : Nat) (f : Nat → Int) :
    ((List.range n).map f).sum = ∑ i in Finset.range n, f i := by
  induction n with
  | zero => simp
  | succ n ih =>
    rw [List.range_succ, List.map_append, List.sum_append, ih, Finset.sum_range_succ]
    simp

theorem length_eq_sum_count (n : Nat) (l : List Nat) (hl : ∀ x ∈ l, x < n) :
    (l.length : Int) = ∑ v in Finset.range n, ((l.count v : Nat) : Int) := by
  have h := countP_eq_sum_range (fun _ => true) n l hl
  simp only [List.countP_true, if_true] at h
  rw [← sum_map_range_eq_finset, h]
  clear h
  induction (List.range n) with
  | nil => simp
  | cons a t ih => simp only [List.map_cons, List.sum_cons]; rw [Nat.cast_add, ih]

/-- Below `2^31`, on a graph with symmetric adjacency and distinct ids,
`initDAG` orients every edge between distinct nodes one way, the in-degree of
a node is the number of successor entries that name it, and the in-degrees
add up to the number of successor entries. -/
theorem initDAG_orientation (g : Graph) (d : Nat → InputDAGdata) (hwf : g.WF)
    (hsym : g.Symmetric) (hid : DistinctIds g d) (hk : KeysBelow g d) :
    (∀ u, u < g.numNodes → ∀ v, v ∈ g.adj u → u ≠ v →
      ((v ∈ (initDAG g d u).dagSucc ∧ u ∉ (initDAG g d v).dagSucc) ∨
        (v ∉ (initDAG g d u).dagSucc ∧ u ∈ (initDAG g d v).dagSucc))) ∧
    (∀ v, v < g.numNodes →
      (initDAG g d v).indegree
        = ∑ u in Finset.range g.numNodes, (((initDAG g d u).dagSucc.count v : Nat) : Int)) ∧
    ∑ v in Finset.range g.numNodes, (initDAG g d v).indegree
      = ∑ u in Finset.range g.numNodes, ((initDAG g d u).dagSucc.length : Int) := by
  have hsucc : ∀ u, u < g.numNodes →
      (initDAG g d u).dagSucc = (g.adj u).filter (fun dst => after d dst u) := by
    intro u hu
    rw [initDAG_apply, if_pos hu]
    rfl
  have hind : ∀ v, v < g.numNodes →
      (initDAG g d v).indegree
        = ∑ u in Finset.range g.numNodes, (((initDAG g d u).dagSucc.count v : Nat) : Int) := by
    intro v hv
    rw [initDAG_apply, if_pos hv]
    simp only [initRec]
    rw [countP_eq_sum_range _ g.numNodes (g.adj v) (hwf v hv)]
    rw [← sum_map_range_eq_finset]
    have : ∀ l : List Nat, (∀ x ∈ l, x < g.numNodes) →
        (((l.map (fun u => if before d u v = true then (g.adj v).count u else 0)).sum : Nat) : Int)
          = (l.map (fun u => (((initDAG g d u).dagSucc.count v : Nat) : Int))).sum := by
      intro l
      induction l with
      | nil => intro _; simp
      | cons a t ih =>
        intro hl
        simp only [List.map_cons, List.sum_cons]
        rw [Nat.cast_add, ih (fun x hx => hl x (List.mem_cons_of_mem _ hx))]
        congr 1
        have ha := hl a (List.mem_cons_self _ _)
        rw [hsucc a ha, count_filter_ite, hsym v hv a ha]
        by_cases hb : before d a v = true
        · rw [if_pos hb, if_pos ((before_iff_after hk ha hv).1 hb)]
        · have hb2 : ¬ after d v a = true := fun h => hb ((before_iff_after hk ha hv).2 h)
          rw [if_neg hb, if_neg hb2]
    exact this (List.range g.numNodes) (fun x hx => List.mem_range.1 hx)
  refine ⟨?_, hind, ?_⟩
  · intro u hu v hv huv
    have hvl := hwf u hu v hv
    have hu2 : u ∈ g.adj v := mem_adj_symm hsym hu hvl hv
    rw [hsucc u hu, hsucc v hvl]
    simp only [List.mem_filter]
    rcases before_or_before hid hu hvl huv with h | h
    · -- u before v: v is a successor of u
      have ha : after d v u = true := (before_iff_after hk hu hvl).1 h
      left
      refine ⟨⟨hv, ha⟩, ?_⟩
      rintro ⟨_, hc⟩
      have hb : before d v u = true := (before_iff_after hk hvl hu).2 hc
      have l1 := (before_iff_lex hk hu hvl).1 h
      have l2 := (before_iff_lex hk hvl hu).1 hb
      omega
    · have ha : after d u v = true := (before_iff_after hk hvl hu).1 h
      right
      refine ⟨?_, ⟨hu2, ha⟩⟩
      rintro ⟨_, hc⟩
      have hb : before d u v = true := (before_iff_after hk hu hvl).2 hc
      have l1 := (before_iff_lex hk hvl hu).1 h
      have l2 := (before_iff_lex hk hu hvl).1 hb
      omega
  · rw [Finset.sum_congr rfl (fun v hv => hind v (Finset.mem_range.1 hv)), Finset.sum_comm]
    apply Finset.sum_congr rfl
    intro u hu
    have hu2 := Finset.mem_range.1 hu
    rw [length_eq_sum_count g.numNodes]
    intro x hx
    rw [hsucc u hu2] at hx
    exact hwf u hu2 x (List.mem_filter.1 hx).1

/-! ## The reusable chromatic executor -/

/-- `push_initial` of the reusable executor does to the bags what `push` of
the `ChromaticExecutor` does to its buckets. -/
theorem ChromaticReuseExecutor.push_initial_sim {σ : Type} (e : ChromaticReuseExecutor σ)
    (c : ChromaticExecutor σ) (hm : c.m = e.m) (hb : c.colorWorkLists = e.colorBags) (n : Nat) :
    (c.push n).m = (ChromaticReuseExecutor.push_initial e n).m ∧
    (c.push n).colorWorkLists = (ChromaticReuseExecutor.push_initial e n).colorBags := by
  unfold ChromaticExecutor.push ChromaticReuseExecutor.push_initial
  simp only [hm, hb]
  split_ifs <;> first | exact ⟨rfl, rfl⟩ | exact ⟨hm, hb⟩

theorem ChromaticReuseExecutor.fill_sim {σ : Type} (range : List Nat) :
    ∀ (e : ChromaticReuseExecutor σ) (c : ChromaticExecutor σ), c.m = e.m →
      c.colorWorkLists = e.colorBags →
      (range.foldl ChromaticExecutor.push c).m
        = (range.foldl ChromaticReuseExecutor.push_initial e).m ∧
      (range.foldl ChromaticExecutor.push c).colorWorkLists
        = (range.foldl ChromaticReuseExecutor.push_initial e).colorBags := by
  induction range with
  | nil => intro e c hm hb; exact ⟨hm, hb⟩
  | cons a l ih =>
    intro e c hm hb
    rw [List.foldl_cons, List.foldl_cons]
    obtain ⟨h1, h2⟩ := ChromaticReuseExecutor.push_initial_sim e c hm hb a
    exact ih _ _ h1 h2

/-- The bags after `initialize`, when every colour of `range` has a bag and
the flags of `range` were 0: a node of `range` is held once, in the bag of
its colour, and no other node is held. -/
theorem ChromaticReuseExecutor.fill_count {σ : Type} (m : Manager σ) (B : Nat)
    (range : List Nat) (hflag : ∀ v, v ∈ range → (m.data v).onWL = 0) (j v : Nat) :
    (ChromaticReuseExecutor.fill m B range).colorBags.length = B ∧
    ((ChromaticReuseExecutor.fill m B range).colorBags.getD j []).count v
      = if v ∈ range ∧ toUnsigned (m.data v).color = j ∧ j < B then 1 else 0 := by
  obtain ⟨-, h2⟩ := ChromaticReuseExecutor.fill_sim range
    ({ m := m, colorBags := List.replicate B [], oob := false, applied := [] } :
      ChromaticReuseExecutor σ) (ChromaticExecutor.create m B) rfl rfl
  unfold ChromaticReuseExecutor.fill
  rw [← h2]
  have hlen : ∀ (ns : List Nat) (c : ChromaticExecutor σ),
      (ns.foldl ChromaticExecutor.push c).colorWorkLists.length = c.colorWorkLists.length := by
    intro ns
    induction ns with
    | nil => intro c; rfl
    | cons a l ih => intro c; rw [List.foldl_cons, ih, ChromaticExecutor.push_length]
  refine ⟨?_, ?_⟩
  · rw [hlen]
    simp [ChromaticExecutor.create]
  · have h := (ChromaticExecutor.pushes_count v range (ChromaticExecutor.create m B)).2 j
    unfold ChromaticExecutor.bucket at h
    rw [h]
    have hc : (ChromaticExecutor.create m B).colorWorkLists.length = B := by
      simp [ChromaticExecutor.create]
    have he : ((ChromaticExecutor.create m B).colorWorkLists.getD j []).count v = 0 := by
      simp only [ChromaticExecutor.create]
      rw [List.getD_eq_getElem?_getD, List.getElem?_replicate]
      split_ifs <;> rfl
    rw [he, hc, Nat.zero_add]
    have hmm : (ChromaticExecutor.create m B).m = m := rfl
    rw [hmm]
    by_cases hv : v ∈ range
    · simp [hv, hflag v hv]
    · simp [hv]

theorem ChromaticReuseExecutor.bag_frame {σ : Type} (func : Nat → Manager σ → Manager σ)
    (bag : List Nat) : ∀ (e : ChromaticReuseExecutor σ),
    (bag.foldl (ChromaticReuseExecutor.ApplyOperator func) e).colorBags = e.colorBags ∧
    (bag.foldl (ChromaticReuseExecutor.ApplyOperator func) e).oob = e.oob ∧
    (bag.foldl (ChromaticReuseExecutor.ApplyOperator func) e).applied
      = bag.reverse ++ e.applied := by
  induction bag with
  | nil => intro e; exact ⟨rfl, rfl, rfl⟩
  | cons a l ih =>
    intro e
    rw [List.foldl_cons]
    obtain ⟨h1, h2, h3⟩ := ih (ChromaticReuseExecutor.ApplyOperator func e a)
    refine ⟨h1, h2, ?_⟩
    rw [h3]
    simp [ChromaticReuseExecutor.ApplyOperator]

/-- `execute ()` leaves the bags as they are and invokes the user function
on the nodes of the bags, bag after bag. -/
theorem ChromaticReuseExecutor.execute_frame {σ : Type} (func : Nat → Manager σ → Manager σ)
    (e : ChromaticReuseExecutor σ) :
    (ChromaticReuseExecutor.execute func e).colorBags = e.colorBags ∧
    (ChromaticReuseExecutor.execute func e).oob = e.oob ∧
    (ChromaticReuseExecutor.execute func e).applied = e.colorBags.flatten.reverse ++ e.applied := by
  unfold ChromaticReuseExecutor.execute
  have key : ∀ (L : List (List Nat)) (e : ChromaticReuseExecutor σ),
      (L.foldl (fun e bag => bag.foldl (ChromaticReuseExecutor.ApplyOperator func) e) e).colorBags
        = e.colorBags ∧
      (L.foldl (fun e bag => bag.foldl (ChromaticReuseExecutor.ApplyOperator func) e) e).oob
        = e.oob ∧
      (L.foldl (fun e bag => bag.foldl (ChromaticReuseExecutor.ApplyOperator func) e) e).applied
        = L.flatten.reverse ++ e.applied := by
    intro L
    induction L with
    | nil => intro e; exact ⟨rfl, rfl, rfl⟩
    | cons a l ih =>
      intro e
      rw [List.foldl_cons]
      obtain ⟨h1, h2, h3⟩ := ih (a.foldl (ChromaticReuseExecutor.ApplyOperator func) e)
      obtain ⟨k1, k2, k3⟩ := ChromaticReuseExecutor.bag_frame func a e
      refine ⟨h1.trans k1, h2.trans k2, ?_⟩
      rw [h3, k3]
      simp
  exact key e.colorBags e

theorem count_flatten_getD (v : Nat) : ∀ (L : List (List Nat)),
    L.flatten.count v = ((List.range L.length).map (fun j => (L.getD j []).count v)).sum := by
  intro L
  induction L with
  | nil => rfl
  | cons a t ih =>
    rw [List.flatten_cons, List.count_append, ih, List.length_cons, List.range_succ_eq_map,
      List.map_cons, List.sum_cons, List.map_map]
    rfl

theorem pairwise_flatten_buckets (key : Nat → Nat) : ∀ (L : List (List Nat)) (o : Nat),
    (∀ j x, x ∈ L.getD j [] → key x = o + j) →
    (L.flatten).Pairwise (fun a b => key a ≤ key b) := by
  intro L
  induction L with
  | nil => intro o _; exact List.Pairwise.nil
  | cons a t ih =>
    intro o h
    rw [List.flatten_cons, List.pairwise_append]
    refine ⟨?_, ?_, ?_⟩
    · have ha : ∀ x, x ∈ a → key x = o := fun x hx => by
        have := h 0 x (by simpa using hx)
        simpa using this
      exact List.pairwise_of_forall_mem_list (fun x hx y hy => by rw [ha x hx, ha y hy])
    · exact ih (o + 1) (fun j x hx => by
        have := h (j + 1) x (by simpa using hx)
        omega)
    · intro x hx y hy
      have h1 := h 0 x (by simpa using hx)
      rw [List.mem_flatten] at hy
      obtain ⟨bag, hb, hyb⟩ := hy
      obtain ⟨j, hj, hjb⟩ := List.getElem_of_mem hb
      have h2 := h (j + 1) y (by
        simp only [List.getD_cons_succ]
        rw [List.getD_eq_getElem?_getD, List.getElem?_eq_getElem hj, Option.getD_some, hjb]
        exact hyb)
      omega

/-- When every colour of `range` has a bag and the flags of `range` were 0,
every `execute ()` leaves the bags unchanged and invokes the user function
exactly once on each node of `range`, in increasing colour order. -/
theorem reuse_chromatic_execute {σ : Type} (m : Manager σ) (B : Nat) (range : List Nat)
    (func : Nat → Manager σ → Manager σ) (hB : B ≤ 4294967296)
    (hflag : ∀ v, v ∈ range → (m.data v).onWL = 0)
    (hcol : ∀ v, v ∈ range → 0 ≤ (m.data v).color ∧ (m.data v).color < (B : Int))
    (e : ChromaticReuseExecutor σ)
    (he : e.colorBags = (ChromaticReuseExecutor.fill m B range).colorBags) :
    (ChromaticReuseExecutor.execute func e).colorBags = e.colorBags ∧
    (∃ done, (ChromaticReuseExecutor.execute func e).applied = done ++ e.applied ∧
      (∀ v, done.count v = if v ∈ range then 1 else 0) ∧
      done.reverse.Pairwise (fun a b => (m.data a).color ≤ (m.data b).color)) := by
  obtain ⟨h1, -, h3⟩ := ChromaticReuseExecutor.execute_frame func e
  refine ⟨h1, e.colorBags.flatten.reverse, h3, ?_, ?_⟩
  · intro v
    rw [List.count_reverse, count_flatten_getD, he,
      (ChromaticReuseExecutor.fill_count m B range hflag 0 v).1]
    have hf : (fun j => ((ChromaticReuseExecutor.fill m B range).colorBags.getD j []).count v)
        = fun j => if v ∈ range ∧ toUnsigned (m.data v).color = j ∧ j < B then 1 else 0 := by
      funext j
      exact (ChromaticReuseExecutor.fill_count m B range hflag j v).2
    rw [hf]
    by_cases hv : v ∈ range
    · have hu := toUnsigned_of_nonneg _ (hcol v hv).1 (by have := (hcol v hv).2; omega)
      have hlt : toUnsigned (m.data v).color < B := by have := (hcol v hv).2; omega
      have hg : (fun j => if v ∈ range ∧ toUnsigned (m.data v).color = j ∧ j < B then 1 else 0)
          = fun j => if j = toUnsigned (m.data v).color then 1 else 0 := by
        funext j
        by_cases hj : j = toUnsigned (m.data v).color
        · rw [if_pos hj, if_pos ⟨hv, hj.symm, by omega⟩]
        · rw [if_neg hj, if_neg (fun h => hj h.2.1.symm)]
      rw [hg, sum_range_ite_eq B _ 1 hlt, if_pos hv]
    · rw [if_neg hv]
      apply List.sum_eq_zero
      intro x hx
      simp only [List.mem_map] at hx
      obtain ⟨j, -, rfl⟩ := hx
      rw [if_neg (fun h => hv h.1)]
  · rw [List.reverse_reverse, he]
    have hp := pairwise_flatten_buckets (fun v => toUnsigned (m.data v).color)
      (ChromaticReuseExecutor.fill m B range).colorBags 0 (by
        intro j x hx
        have hc := (ChromaticReuseExecutor.fill_count m B range hflag j x).2
        have hpos : 0 < ((ChromaticReuseExecutor.fill m B range).colorBags.getD j []).count x :=
          List.count_pos_iff.2 hx
        by_cases hh : x ∈ range ∧ toUnsigned (m.data x).color = j ∧ j < B
        · simp only [Nat.zero_add]; exact hh.2.1
        · rw [if_neg hh] at hc; omega)
    have hmem : ∀ x, x ∈ (ChromaticReuseExecutor.fill m B range).colorBags.flatten → x ∈ range := by
      intro x hx
      have hpos := List.count_pos_iff.2 hx
      rw [count_flatten_getD] at hpos
      by_contra hn
      have : ((List.range (ChromaticReuseExecutor.fill m B range).colorBags.length).map
          (fun j => ((ChromaticReuseExecutor.fill m B range).colorBags.getD j []).count x)).sum
          = 0 := by
        apply List.sum_eq_zero
        intro y hy
        simp only [List.mem_map] at hy
        obtain ⟨j, -, rfl⟩ := hy
        rw [(ChromaticReuseExecutor.fill_count m B range hflag j x).2, if_neg (fun h => hn h.1)]
      omega
    refine List.Pairwise.imp_of_mem ?_ hp
    intro a b ha hb hab
    have ua := toUnsigned_of_nonneg _ (hcol a (hmem a ha)).1
      (by have := (hcol a (hmem a ha)).2; omega)
    have ub := toUnsigned_of_nonneg _ (hcol b (hmem b hb)).1
      (by have := (hcol b (hmem b hb)).2; omega)
    simp only at hab
    omega

/-! ## The final colouring -/

/-- The invariants of the colouring sweep after `initDAG`. -/
theorem colorDAG_invs {σ : Type} (g : Graph) (m : Manager σ) (sched : List (Nat × Nat))
    (hwf : g.WF) (hsym : g.Symmetric) (hid : DistinctIds g m.data)
    (hunc : ∀ v, (m.data v).color = -1) :
    SweepInv g m.data (colorDAG g sched (m.initDAG g)) ∧
    ColorInv g m.data (colorDAG g sched (m.initDAG g)) ∧
    (g.numNodes ≤ sched.length → (colorDAG g sched (m.initDAG g)).wl = []) := by
  have hready := Manager.initDAG_ready_data g m
  have inv0 := SweepInv.sweep_start (m.initDAG g) hready
  have ci0 : ColorInv g m.data
      { m := m.initDAG g, wl := collectSources g (m.initDAG g).data, log := [] } :=
    ColorInv.color_start g m.data (m.initDAG g)
      (fun v => by rw [Manager.initDAG_color]; exact hunc v)
  refine ⟨SweepInv.sweep_loop (colorNode_keepsDAG g) hwf hsym sched inv0,
    ColorInv.color_loop hwf hsym hid sched inv0 ci0, ?_⟩
  intro hlen
  exact for_each_local_complete (colorNode_keepsDAG g) hwf hsym sched inv0
    (by simp only [calls, List.length_nil]; omega)

theorem colorNode_keepsBackup {σ : Type} (g : Graph) :
    KeepsBackup (colorNode g : Nat → Nat → Manager σ → Manager σ) := by
  intro tid src m v
  unfold colorNode
  by_cases h : v = src
  · subst h; simp [setNode]
  · simp [setNode, h]

/-- A colour whose smaller colours are all carried by entries of `L` is at
most the length of `L`. -/
theorem color_le_length (col : Nat → Int) (L : List Nat) (c : Int)
    (h : ∀ j : Int, 0 ≤ j → j < c → ∃ u ∈ L, col u = j) : c ≤ (L.length : Int) := by
  by_contra hlt
  have hc : (L.length : Int) < c := by omega
  have hsub : Finset.range (L.length + 1) ⊆ (L.map (fun u => (col u).toNat)).toFinset := by
    intro j hj
    have hj2 := Finset.mem_range.1 hj
    obtain ⟨u, hu, hcu⟩ := h (j : Int) (Int.natCast_nonneg _) (by omega)
    rw [List.mem_toFinset, List.mem_map]
    exact ⟨u, hu, by rw [hcu]; rfl⟩
  have h1 := Finset.card_le_card hsub
  have h2 := List.toFinset_card_le (L.map (fun u => (col u).toNat))
  rw [Finset.card_range, List.length_map] at *
  omega

/-- Below `2^31`, on a graph with symmetric adjacency and distinct ids, after
`initDAG` and a colouring sweep that runs to the end the colour of a node is
at most its `indeg_backup`, which is at most the number of its edges. -/
theorem colorDAG_bound {σ : Type} (g : Graph) (m : Manager σ) (sched : List (Nat × Nat))
    (hwf : g.WF) (hsym : g.Symmetric) (hid : DistinctIds g m.data) (hk : KeysBelow g m.data)
    (hunc : ∀ v, (m.data v).color = -1) (hlen : g.numNodes ≤ sched.length) :
    ∀ v, v < g.numNodes →
      0 ≤ ((colorDAG g sched (m.initDAG g)).m.data v).color ∧
      ((colorDAG g sched (m.initDAG g)).m.data v).color
        ≤ ((colorDAG g sched (m.initDAG g)).m.data v).indeg_backup ∧
      ((colorDAG g sched (m.initDAG g)).m.data v).indeg_backup ≤ ((g.adj v).length : Int) := by
  obtain ⟨inv, ci, hwl⟩ := colorDAG_invs g m sched hwf hsym hid hunc
  intro v hv
  have hdone := inv.all_done hwf hk (hwl hlen) v hv
  obtain ⟨f1, -, f3⟩ := ci.col v hdone
  have hbk : ((colorDAG g sched (m.initDAG g)).m.data v).indeg_backup
      = (((g.adj v).countP (fun dst => before m.data dst v) : Nat) : Int) := by
    unfold colorDAG runDAGcomputationAll runDAGcomputation
    rw [for_each_local_backup (colorNode_keepsBackup g) v]
    show ((initDAG g m.data) v).indeg_backup = _
    rw [initDAG_apply, if_pos hv]
    rfl
  refine ⟨f1, ?_, ?_⟩
  · rw [hbk, List.countP_eq_length_filter]
    apply color_le_length (fun u => ((colorDAG g sched (m.initDAG g)).m.data u).color)
    intro j hj0 hjc
    obtain ⟨u, hu, hb, hc⟩ := f3 j hj0 hjc
    exact ⟨u, List.mem_filter.2 ⟨hu, hb⟩, hc⟩
  · rw [hbk]
    exact_mod_cast List.countP_le_length _

/-- Below `2^31`, on a graph with symmetric adjacency, no self-loop and
distinct ids, after `initDAG` and a colouring sweep that runs to the end the
colour of every node is the least non-negative integer that none of its
neighbours carries, and `colorNode` on the node, reset to uncoloured, writes
the same colour again. -/
theorem greedy_fixpoint {σ : Type} (g : Graph) (m : Manager σ) (sched : List (Nat × Nat))
    (hwf : g.WF) (hsym : g.Symmetric) (hns : g.NoSelfLoop) (hid : DistinctIds g m.data)
    (hk : KeysBelow g m.data) (hunc : ∀ v, (m.data v).color = -1)
    (hlen : g.numNodes ≤ sched.length) :
    ∀ v, v < g.numNodes →
      0 ≤ ((colorDAG g sched (m.initDAG g)).m.data v).color ∧
      (∀ u, u ∈ g.adj v → ((colorDAG g sched (m.initDAG g)).m.data u).color
        ≠ ((colorDAG g sched (m.initDAG g)).m.data v).color) ∧
      (∀ j : Int, 0 ≤ j → j < ((colorDAG g sched (m.initDAG g)).m.data v).color →
        ∃ u, u ∈ g.adj v ∧ ((colorDAG g sched (m.initDAG g)).m.data u).color = j) ∧
      ∀ tid, ((colorNode g tid v
          { (colorDAG g sched (m.initDAG g)).m with
            data := setNode (colorDAG g sched (m.initDAG g)).m.data v
              { (colorDAG g sched (m.initDAG g)).m.data v with color := -1 } }).data v).color
        = ((colorDAG g sched (m.initDAG g)).m.data v).color := by
  obtain ⟨inv, ci, hwl⟩ := colorDAG_invs g m sched hwf hsym hid hunc
  have hall := inv.all_done hwf hk (hwl hlen)
  have hvalid := coloring_valid_of_colored g m sched hwf hsym hid hunc
  intro v hv
  obtain ⟨f1, -, f3⟩ := ci.col v (hall v hv)
  have hne : ∀ u, u ∈ g.adj v → ((colorDAG g sched (m.initDAG g)).m.data u).color
      ≠ ((colorDAG g sched (m.initDAG g)).m.data v).color := by
    intro u hu
    have hul := hwf v hv u hu
    have huv : v ≠ u := fun h => hns v hv (by rw [h] at hu ⊢; exact hu)
    have c1 := (ci.col u (hall u hul)).1
    exact (hvalid v hv u hu huv (by omega) (by omega)).symm
  have hex : ∀ j : Int, 0 ≤ j → j < ((colorDAG g sched (m.initDAG g)).m.data v).color →
      ∃ u, u ∈ g.adj v ∧ ((colorDAG g sched (m.initDAG g)).m.data u).color = j := by
    intro j h0 hj
    obtain ⟨u, hu, -, hc⟩ := f3 j h0 hj
    exact ⟨u, hu, hc⟩
  refine ⟨f1, hne, hex, ?_⟩
  intro tid
  obtain ⟨c, hd, c0, c2, c3⟩ := colorNode_first_fit g tid v
    ({ (colorDAG g sched (m.initDAG g)).m with
        data := setNode (colorDAG g sched (m.initDAG g)).m.data v
          { (colorDAG g sched (m.initDAG g)).m.data v with color := -1 } } : Manager σ)
    (by simp [setNode])
  have hother : ∀ u, u ∈ g.adj v →
      (setNode (colorDAG g sched (m.initDAG g)).m.data v
        { (colorDAG g sched (m.initDAG g)).m.data v with color := -1 } u).color
        = ((colorDAG g sched (m.initDAG g)).m.data u).color := by
    intro u hu
    have huv : u ≠ v := fun h => hns v hv (by rw [h] at hu; exact hu)
    simp [setNode, huv]
  rw [hd]
  simp only [setNode, if_true]
  rcases lt_trichotomy c ((colorDAG g sched (m.initDAG g)).m.data v).color with h | h | h
  · obtain ⟨u, hu, hc⟩ := hex c c0 h
    exact absurd ((hother u hu).trans hc) (c2 u hu)
  · exact h
  · obtain ⟨u, hu, hc⟩ := c3 _ f1 h
    exact absurd ((hother u hu).symm.trans hc) (hne u hu)

/-! ## The largest colour -/

theorem colorNode_maxColors {σ : Type} (g : Graph) (tid src : Nat) (m : Manager σ) :
    (colorNode g tid src m).maxColors = max m.maxColors ((colorNode g tid src m).data src).color := by
  unfold colorNode
  simp [setNode]

theorem RunDAGcomp_maxColors {σ : Type} (func : Nat → Nat → Manager σ → Manager σ)
    (tid src : Nat) (s : Sweep σ) :
    (RunDAGcomp func tid src s).m.maxColors = (func tid src s.m).maxColors := by
  unfold RunDAGcomp
  simp only []
  rw [(foldl_dagClosure _ _).2.1]

/-- The accumulator `maxColors` during the colouring sweep: it is the start
value or the colour of a processed node, and no processed node has a larger
colour. -/
theorem maxColors_loop {σ : Type} {g : Graph} {d0 : Nat → InputDAGdata} (hwf : g.WF)
    (hsym : g.Symmetric) (start : Int) (sched : List (Nat × Nat)) :
    ∀ {s : Sweep σ}, SweepInv g d0 s →
      (start ≤ s.m.maxColors ∧ (∀ v, v ∈ calls s.log → (s.m.data v).color ≤ s.m.maxColors) ∧
        (s.m.maxColors = start ∨ ∃ v, v ∈ calls s.log ∧ (s.m.data v).color = s.m.maxColors)) →
      (start ≤ (for_each_local (colorNode g) sched s).m.maxColors ∧
        (∀ v, v ∈ calls (for_each_local (colorNode g) sched s).log →
          ((for_each_local (colorNode g) sched s).m.data v).color
            ≤ (for_each_local (colorNode g) sched s).m.maxColors) ∧
        ((for_each_local (colorNode g) sched s).m.maxColors = start ∨
          ∃ v, v ∈ calls (for_each_local (colorNode g) sched s).log ∧
            ((for_each_local (colorNode g) sched s).m.data v).color
              = (for_each_local (colorNode g) sched s).m.maxColors)) := by
  induction sched with
  | nil => intro s _ h; exact h
  | cons c sched ih =>
    intro s inv h
    unfold DetChromatic.for_each_local
    cases hwl : s.wl with
    | nil => exact h
    | cons a l =>
      simp only []
      rw [← hwl]
      refine ih (inv.sweep_step (colorNode_keepsDAG g) hwf hsym _ _) ?_
      unfold DetChromatic.step
      cases hi : s.wl.get? (c.1 % s.wl.length) with
      | none => exact h
      | some src =>
        simp only []
        obtain ⟨h1, h2, h3⟩ := h
        have hsrc : src ∉ calls s.log := inv.disj src (List.get?_mem hi)
        have hmax := RunDAGcomp_maxColors (colorNode g) c.2 src
          { s with wl := s.wl.eraseIdx (c.1 % s.wl.length) }
        have hcol := RunDAGcomp_color (colorNode g) c.2 src
          { s with wl := s.wl.eraseIdx (c.1 % s.wl.length) }
        have hcalls := RunDAGcomp_calls (colorNode g) c.2 src
          { s with wl := s.wl.eraseIdx (c.1 % s.wl.length) }
        simp only at hmax hcol hcalls
        have hm2 := colorNode_maxColors g c.2 src s.m
        have hoth : ∀ v, v ≠ src → ((colorNode g c.2 src s.m).data v).color = (s.m.data v).color :=
          fun v hv => by rw [colorNode_other g c.2 src s.m v hv]
        rw [hmax, hcalls, hm2]
        refine ⟨le_trans h1 (le_max_left _ _), ?_, ?_⟩
        · intro v hv
          rw [hcol v]
          rcases List.mem_cons.1 hv with e | e
          · rw [e]; exact le_max_right _ _
          · have hvs : v ≠ src := fun he => hsrc (he ▸ e)
            rw [hoth v hvs]
            exact le_trans (h2 v e) (le_max_left _ _)
        · rcases le_total s.m.maxColors ((colorNode g c.2 src s.m).data src).color with hle | hle
          · right
            refine ⟨src, List.mem_cons_self _ _, ?_⟩
            rw [hcol src, max_eq_right hle]
          · rw [max_eq_left hle]
            rcases h3 with e | ⟨v, hv, e⟩
            · left; exact e
            · right
              have hvs : v ≠ src := fun he => hsrc (he ▸ hv)
              refine ⟨v, List.mem_cons_of_mem _ hv, ?_⟩
              rw [hcol v, hoth v hvs]
              exact e

/-- Below `2^31`, on a non-empty graph with symmetric adjacency and distinct
ids, after `initDAG` and a colouring sweep that runs to the end, started with
an accumulator that is not positive: `maxColors` is the largest colour of a
node, every colour from 0 to `maxColors` is the colour of a node, and
`getMaxColors ()` returns `maxColors` when no node has `2^32` edges or more. -/
theorem contiguous_colours {σ : Type} (g : Graph) (m : Manager σ) (sched : List (Nat × Nat))
    (hwf : g.WF) (hsym : g.Symmetric) (hid : DistinctIds g m.data) (hk : KeysBelow g m.data)
    (hunc : ∀ v, (m.data v).color = -1) (hlen : g.numNodes ≤ sched.length)
    (hpos : 0 < g.numNodes) (hstart : m.maxColors ≤ 0) :
    (∃ w, w < g.numNodes ∧
      ((colorDAG g sched (m.initDAG g)).m.data w).color
        = (colorDAG g sched (m.initDAG g)).m.maxColors) ∧
    (∀ v, v < g.numNodes →
      ((colorDAG g sched (m.initDAG g)).m.data v).color
        ≤ (colorDAG g sched (m.initDAG g)).m.maxColors) ∧
    (∀ c : Int, 0 ≤ c → c ≤ (colorDAG g sched (m.initDAG g)).m.maxColors →
      ∃ v, v < g.numNodes ∧ ((colorDAG g sched (m.initDAG g)).m.data v).color = c) ∧
    ((∀ v, v < g.numNodes → (g.adj v).length < 4294967296) →
      ((getMaxColors (colorDAG g sched (m.initDAG g)).m : Nat) : Int)
        = (colorDAG g sched (m.initDAG g)).m.maxColors) := by
  obtain ⟨inv, ci, hwl⟩ := colorDAG_invs g m sched hwf hsym hid hunc
  have hall := inv.all_done hwf hk (hwl hlen)
  have hready := Manager.initDAG_ready_data g m
  have inv0 := SweepInv.sweep_start (m.initDAG g) hready
  obtain ⟨m1, m2, m3⟩ := maxColors_loop hwf hsym m.maxColors sched inv0
    ⟨le_refl _, fun v hv => by simp [calls] at hv, Or.inl rfl⟩
  have hmx : (for_each_local (colorNode g) sched
      { m := m.initDAG g, wl := collectSources g (m.initDAG g).data, log := [] })
      = colorDAG g sched (m.initDAG g) := rfl
  rw [hmx] at m1 m2 m3
  have hc0 := (ci.col 0 (hall 0 hpos)).1
  have hw : ∃ w, w < g.numNodes ∧
      ((colorDAG g sched (m.initDAG g)).m.data w).color
        = (colorDAG g sched (m.initDAG g)).m.maxColors := by
    rcases m3 with e | ⟨v, hv, e⟩
    · refine ⟨0, hpos, ?_⟩
      have := m2 0 (hall 0 hpos)
      omega
    · exact ⟨v, inv.done_lt v hv, e⟩
  have hcontig : ∀ c : Int, 0 ≤ c → c ≤ (colorDAG g sched (m.initDAG g)).m.maxColors →
      ∃ v, v < g.numNodes ∧ ((colorDAG g sched (m.initDAG g)).m.data v).color = c := by
    intro c h0 hc
    obtain ⟨w, hwn, hwc⟩ := hw
    rcases lt_or_eq_of_le hc with h | h
    · obtain ⟨u, hu, -, hcu⟩ := (ci.col w (hall w hwn)).2.2 c h0 (by rw [hwc]; exact h)
      exact ⟨u, hwf w hwn u hu, hcu⟩
    · exact ⟨w, hwn, by rw [hwc, h]⟩
  refine ⟨hw, fun v hv => m2 v (hall v hv), hcontig, ?_⟩
  intro hdeg
  obtain ⟨w, hwn, hwc⟩ := hw
  have hb := colorDAG_bound g m sched hwf hsym hid hk hunc hlen w hwn
  have := hdeg w hwn
  unfold getMaxColors
  apply toUnsigned_of_nonneg
  · rw [← hwc]; exact hb.1
  · rw [← hwc]; omega

/-! ## Activations of the topology-driven executor -/

/-- A push never clears a flag. -/
theorem InputGraphDAGtopologyDriven.pushes_mono {σ : Type} (L : List Nat) :
    ∀ (m : Manager (InputGraphDAGtopologyDriven σ)) (v : Nat),
      0 < (m.data v).onWL → 0 < ((L.foldl InputGraphDAGtopologyDriven.push m).data v).onWL := by
  induction L with
  | nil => intro m v h; exact h
  | cons a l ih =>
    intro m v h
    rw [List.foldl_cons]
    apply ih
    rw [((InputGraphDAGtopologyDriven.push_frame m a).2 v).1]
    split_ifs
    · decide
    · exact h

/-- A flag that `f` takes from positive to 0 is the flag of the node `f` runs
on, and the user function is invoked on that node. -/
theorem InputGraphDAGtopologyDriven.flag_cleared_by_invocation {σ : Type}
    (func : Nat → Manager σ → σ × List Nat) (src : Nat)
    (m : Manager (InputGraphDAGtopologyDriven σ)) (v : Nat)
    (h1 : 0 < (m.data v).onWL)
    (h0 : ((InputGraphDAGtopologyDriven.f func src m).data v).onWL = 0) :
    v = src ∧
    (InputGraphDAGtopologyDriven.f func src m).user.applied = (src, 0) :: m.user.applied := by
  have hfr := (InputGraphDAGtopologyDriven.f_frame func src m).2.1
  by_cases hpos : (m.data src).onWL > 0
  · have hpos2 : 0 < (m.data src).onWL := hpos
    rw [if_pos hpos2] at hfr
    refine ⟨?_, hfr⟩
    by_contra hne
    unfold InputGraphDAGtopologyDriven.f at h0
    simp only at h0
    rw [if_pos hpos] at h0
    have := InputGraphDAGtopologyDriven.pushes_mono
      (func src (InputGraphDAGtopologyDriven.view
        { m with
          user := { m.user with visited := (src, (m.data src).onWL) :: m.user.visited }
          data := setNode m.data src { m.data src with onWL := 0 } })).2
      { m with
        user := { m.user with
          visited := (src, (m.data src).onWL) :: m.user.visited
          user := (func src (InputGraphDAGtopologyDriven.view
            { m with
              user := { m.user with visited := (src, (m.data src).onWL) :: m.user.visited }
              data := setNode m.data src { m.data src with onWL := 0 } })).1
          applied := (src, (setNode m.data src { m.data src with onWL := 0 } src).onWL)
            :: m.user.applied }
        data := setNode m.data src { m.data src with onWL := 0 } } v
      (by simp only [setNode, if_neg hne]; exact h1)
    exact (ne_of_gt this) h0
  · exfalso
    unfold InputGraphDAGtopologyDriven.f at h0
    simp only at h0
    rw [if_neg hpos] at h0
    simp only at h0
    omega

/-- When `f` ends with no push counted, none had been counted before, and
the only flag it has changed is the one it cleared. -/
theorem InputGraphDAGtopologyDriven.f_no_push {σ : Type}
    (func : Nat → Manager σ → σ × List Nat) (src : Nat)
    (m : Manager (InputGraphDAGtopologyDriven σ))
    (h : (InputGraphDAGtopologyDriven.f func src m).user.numPushes = 0) :
    m.user.numPushes = 0 ∧
    ∀ v, ((InputGraphDAGtopologyDriven.f func src m).data v).onWL
      = if v = src ∧ 0 < (m.data src).onWL then 0 else (m.data v).onWL := by
  unfold InputGraphDAGtopologyDriven.f at h ⊢
  simp only at h ⊢
  by_cases hpos : (m.data src).onWL > 0
  · have hpos2 : 0 < (m.data src).onWL := hpos
    rw [if_pos hpos] at h ⊢
    simp only at h ⊢
    generalize hL : (func src (InputGraphDAGtopologyDriven.view
        { m with
          user := { m.user with visited := (src, (m.data src).onWL) :: m.user.visited }
          data := setNode m.data src { m.data src with onWL := 0 } })).2 = L at h ⊢
    rw [(InputGraphDAGtopologyDriven.initial_pushes_frame L _).1.2.2.2.2] at h
    simp only at h
    have hL0 : L = [] := List.length_eq_zero.1 (by omega)
    subst hL0
    refine ⟨by omega, ?_⟩
    intro v
    simp only [List.foldl_nil, setNode]
    by_cases hv : v = src
    · rw [if_pos hv, if_pos ⟨hv, hpos2⟩]
    · rw [if_neg hv, if_neg (fun hh => hv hh.1)]
  · have hpos2 : ¬ 0 < (m.data src).onWL := hpos
    rw [if_neg hpos] at h ⊢
    simp only at h ⊢
    refine ⟨h, ?_⟩
    intro v
    rw [if_neg (fun hh => hpos2 hh.2)]

/-- In a sweep of the topology-driven executor that ends with no push
counted, every node the sweep has visited has its flag at 0. -/
theorem InputGraphDAGtopologyDriven.quiet_loop {σ : Type}
    (func : Nat → Manager σ → σ × List Nat) (sched : List (Nat × Nat)) :
    ∀ {s : Sweep (InputGraphDAGtopologyDriven σ)}, GateInv s →
      (s.m.user.numPushes = 0 → ∀ v, v ∈ calls s.log → (s.m.data v).onWL = 0) →
      (for_each_local (fun (_ : Nat) src m => InputGraphDAGtopologyDriven.f func src m)
          sched s).m.user.numPushes = 0 →
      ∀ v, v ∈ calls (for_each_local
          (fun (_ : Nat) src m => InputGraphDAGtopologyDriven.f func src m) sched s).log →
        ((for_each_local (fun (_ : Nat) src m => InputGraphDAGtopologyDriven.f func src m)
          sched s).m.data v).onWL = 0 := by
  induction sched with
  | nil => intro s _ h; exact h
  | cons c sched ih =>
    intro s gi h
    unfold DetChromatic.for_each_local
    cases hwl : s.wl with
    | nil => exact h
    | cons x l =>
      simp only []
      unfold DetChromatic.step
      cases hi : s.wl.get? (c.1 % (x :: l).length) with
      | none => exact ih gi h
      | some src =>
        simp only []
        apply ih (gi.gate_operator func _ _ src)
        intro hz v hv
        obtain ⟨hu, hw⟩ := RunDAGcomp_user
          (fun (_ : Nat) src m => InputGraphDAGtopologyDriven.f func src m) c.2 src
          { s with wl := s.wl.eraseIdx (c.1 % (x :: l).length) }
        have hc := RunDAGcomp_calls
          (fun (_ : Nat) src m => InputGraphDAGtopologyDriven.f func src m) c.2 src
          { s with wl := s.wl.eraseIdx (c.1 % (x :: l).length) }
        simp only at hu hw hc
        rw [hu] at hz
        obtain ⟨p0, pf⟩ := InputGraphDAGtopologyDriven.f_no_push func src s.m hz
        rw [hc] at hv
        rw [hw v, pf v]
        by_cases hvs : v = src
        · subst hvs
          rcases gi.flags v with e | e
          · rw [e]; simp
          · rw [e]; simp
        · rw [if_neg (fun hh => hvs hh.1)]
          rcases List.mem_cons.1 hv with e | e
          · exact absurd e hvs
          · exact h p0 v e

/-- Below `2^31`, on a graph with symmetric adjacency, when `execute` leaves
its loop by `break` every node of the graph has its flag at 0. -/
theorem InputGraphDAGtopologyDriven.roundLoop_finished {σ : Type} {g : Graph}
    {d0 : Nat → InputDAGdata} (func : Nat → Manager σ → σ × List Nat)
    (hwf : g.WF) (hsym : g.Symmetric) (hk : KeysBelow g d0) :
    ∀ (scheds : List (List (Nat × Nat))) (r : InputGraphDAGtopologyDriven.Run σ),
    CycleReady g d0 r.m.data r.sources →
    (∀ v, (r.m.data v).onWL = 0 ∨ (r.m.data v).onWL = 1) →
    r.finished = false →
    (InputGraphDAGtopologyDriven.roundLoop g func scheds r).finished = true →
    ∀ v, v < g.numNodes →
      ((InputGraphDAGtopologyDriven.roundLoop g func scheds r).m.data v).onWL = 0 := by
  intro scheds
  induction scheds with
  | nil =>
    intro r _ _ hf hfin
    unfold InputGraphDAGtopologyDriven.roundLoop at hfin
    rw [hf] at hfin
    cases hfin
  | cons sched rest ih =>
    intro r h hfl hf
    obtain ⟨inv, -, gi, hnext, hfl2⟩ :=
      InputGraphDAGtopologyDriven.round_sweep func hwf hsym r.m h hfl sched
    unfold InputGraphDAGtopologyDriven.roundLoop
    simp only
    cases hwl : (runDAGcomputation
        (fun (_ : Nat) src m => InputGraphDAGtopologyDriven.f func src m) r.sources sched
        (InputGraphDAGtopologyDriven.clear r.m)).wl with
    | cons a l =>
      simp only
      intro hfin
      rw [hf] at hfin
      cases hfin
    | nil =>
      simp only
      split_ifs with hp
      · intro _ v hv
        simp only
        have hq := InputGraphDAGtopologyDriven.quiet_loop func sched
          (s := Sweep.mk (InputGraphDAGtopologyDriven.clear r.m) r.sources [])
          { vis := rfl
            app0 := fun e he => by cases he
            gate := fun v => by
              constructor
              · intro hv; cases hv
              · rintro ⟨x, _, hm⟩; cases hm
            vflag := fun e he => by cases he
            flags := hfl }
          (fun _ v hv => by simp [calls] at hv) hp
        exact hq v (inv.all_done hwf hk hwl v hv)
      · exact ih _ hnext hfl2 hf

/-- Below `2^31`, on a graph with symmetric adjacency and with all flags 0
before the call: when `execute` returns, every node of the graph has
`onWL = 0`. -/
theorem no_lost_activation {σ : Type} (g : Graph) (func : Nat → Manager σ → σ × List Nat)
    (range : List Nat) (scheds : List (List (Nat × Nat))) (m : Manager σ)
    (hwf : g.WF) (hsym : g.Symmetric) (hk : KeysBelow g m.data)
    (hflag : ∀ v, (m.data v).onWL = 0)
    (hfin : (InputGraphDAGtopologyDriven.execute g func range scheds m).finished = true) :
    ∀ v, v < g.numNodes →
      ((InputGraphDAGtopologyDriven.execute g func range scheds m).m.data v).onWL = 0 := by
  obtain ⟨hr, hfl, _⟩ := InputGraphDAGtopologyDriven.start_ready g range m
  exact InputGraphDAGtopologyDriven.roundLoop_finished func hwf hsym hk scheds
    (InputGraphDAGtopologyDriven.start g range m) hr (hfl (fun v => Or.inl (hflag v))) rfl hfin

/-- For all keys, on a graph with symmetric adjacency, no self-loop and
distinct ids: when the colouring sweep after `initDAG` has coloured every
node, the colour of every node is the least non-negative integer that none of
its neighbours carries, and `colorNode` on the node, reset to uncoloured,
writes the same colour again. -/
theorem greedy_fixpoint_of_colored {σ : Type} (g : Graph) (m : Manager σ) (sched : List (Nat × Nat))
    (hwf : g.WF) (hsym : g.Symmetric) (hns : g.NoSelfLoop) (hid : DistinctIds g m.data)
    (hunc : ∀ v, (m.data v).color = -1)
    (hcol : ∀ v, v < g.numNodes → ((colorDAG g sched (m.initDAG g)).m.data v).color ≠ -1) :
    ∀ v, v < g.numNodes →
      0 ≤ ((colorDAG g sched (m.initDAG g)).m.data v).color ∧
      (∀ u, u ∈ g.adj v → ((colorDAG g sched (m.initDAG g)).m.data u).color
        ≠ ((colorDAG g sched (m.initDAG g)).m.data v).color) ∧
      (∀ j : Int, 0 ≤ j → j < ((colorDAG g sched (m.initDAG g)).m.data v).color →
        ∃ u, u ∈ g.adj v ∧ ((colorDAG g sched (m.initDAG g)).m.data u).color = j) ∧
      ∀ tid, ((colorNode g tid v
          { (colorDAG g sched (m.initDAG g)).m with
            data := setNode (colorDAG g sched (m.initDAG g)).m.data v
              { (colorDAG g sched (m.initDAG g)).m.data v with color := -1 } }).data v).color
        = ((colorDAG g sched (m.initDAG g)).m.data v).color := by
  obtain ⟨-, ci, -⟩ := colorDAG_invs g m sched hwf hsym hid hunc
  have hall : ∀ v, v < g.numNodes → v ∈ calls (colorDAG g sched (m.initDAG g)).log := by
    intro v hv
    by_contra hn
    exact hcol v hv (ci.unc v hn)
  have hvalid := coloring_valid_of_colored g m sched hwf hsym hid hunc
  intro v hv
  obtain ⟨f1, -, f3⟩ := ci.col v (hall v hv)
  have hne : ∀ u, u ∈ g.adj v → ((colorDAG g sched (m.initDAG g)).m.data u).color
      ≠ ((colorDAG g sched (m.initDAG g)).m.data v).color := by
    intro u hu
    have hul := hwf v hv u hu
    have huv : v ≠ u := fun h => hns v hv (by rw [h] at hu ⊢; exact hu)
    have c1 := (ci.col u (hall u hul)).1
    exact (hvalid v hv u hu huv (by omega) (by omega)).symm
  have hex : ∀ j : Int, 0 ≤ j → j < ((colorDAG g sched (m.initDAG g)).m.data v).color →
      ∃ u, u ∈ g.adj v ∧ ((colorDAG g sched (m.initDAG g)).m.data u).color = j := by
    intro j h0 hj
    obtain ⟨u, hu, -, hc⟩ := f3 j h0 hj
    exact ⟨u, hu, hc⟩
  refine ⟨f1, hne, hex, ?_⟩
  intro tid
  obtain ⟨c, hd, c0, c2, c3⟩ := colorNode_first_fit g tid v
    ({ (colorDAG g sched (m.initDAG g)).m with
        data := setNode (colorDAG g sched (m.initDAG g)).m.data v
          { (colorDAG g sched (m.initDAG g)).m.data v with color := -1 } } : Manager σ)
    (by simp [setNode])
  have hother : ∀ u, u ∈ g.adj v →
      (setNode (colorDAG g sched (m.initDAG g)).m.data v
        { (colorDAG g sched (m.initDAG g)).m.data v with color := -1 } u).color
        = ((colorDAG g sched (m.initDAG g)).m.data u).color := by
    intro u hu
    have huv : u ≠ v := fun h => hns v hv (by rw [h] at hu; exact hu)
    simp [setNode, huv]
  rw [hd]
  simp only [setNode, if_true]
  rcases lt_trichotomy c ((colorDAG g sched (m.initDAG g)).m.data v).color with h | h | h
  · obtain ⟨u, hu, hc⟩ := hex c c0 h
    exact absurd ((hother u hu).trans hc) (c2 u hu)
  · exact h
  · obtain ⟨u, hu, hc⟩ := c3 _ f1 h
    exact absurd ((hother u hu).symm.trans hc) (hne u hu)

/-! ## Stores outside the forbidden-colours vector -/

/-- The flag of `colorClosure` after the neighbour loop of `colorNode`: it is
set when it was set before, or when a neighbour without a colour has been
visited. -/
theorem foldl_colorClosure_flag (d : Nat → InputDAGdata) (L : List Nat) :
    ∀ (acc : List Bool × Bool),
      ((L.foldl (colorClosure d) acc).2 = true ↔
        (acc.2 = true ∨ ∃ u ∈ L, (d u).color < 0)) := by
  induction L with
  | nil => intro acc; simp
  | cons a L ih =>
    intro acc
    rw [List.foldl_cons, ih]
    by_cases hc : 0 ≤ (d a).color
    · have e : (colorClosure d acc a).2 = acc.2 := by
        unfold colorClosure; simp [hc]
      rw [e]
      simp only [List.mem_cons, exists_eq_or_imp]
      have : ¬ (d a).color < 0 := by omega
      tauto
    · have e : (colorClosure d acc a).2 = true := by
        unfold colorClosure; simp [hc]
      rw [e]
      simp only [List.mem_cons, exists_eq_or_imp]
      have : (d a).color < 0 := by omega
      tauto

/-- When `colorNode` makes a store outside the forbidden-colours vector: when
one has been made before, or when a neighbour of `src` has no colour. -/
theorem colorNode_oob {σ : Type} (g : Graph) (tid src : Nat) (m : Manager σ) :
    (colorNode g tid src m).oob = true ↔
      (m.oob = true ∨ ∃ u ∈ g.adj src, (m.data u).color < 0) := by
  have h := foldl_colorClosure_flag m.data (g.adj src)
    ((m.perThrdColorVec tid).map (fun _ => false), m.oob)
  unfold colorNode
  exact h

theorem RunDAGcomp_oob {σ : Type} (func : Nat → Nat → Manager σ → Manager σ)
    (tid src : Nat) (s : Sweep σ) :
    (RunDAGcomp func tid src s).m.oob = (func tid src s.m).oob := by
  unfold RunDAGcomp
  simp only []
  rw [(foldl_dagClosure _ _).2.1]

/-- During the colouring sweep, as long as no store has gone outside a
forbidden-colours vector, every processed node is a node whose neighbours are
all other nodes ordered before it. -/
theorem oob_loop {σ : Type} {g : Graph} {d0 : Nat → InputDAGdata} (hwf : g.WF)
    (hsym : g.Symmetric) (hid : DistinctIds g d0) (sched : List (Nat × Nat)) :
    ∀ {s : Sweep σ}, SweepInv g d0 s → ColorInv g d0 s →
      (s.m.oob = true ∨
        ∀ u, u ∈ calls s.log → ∀ v ∈ g.adj u, v ≠ u ∧ before d0 u v = false) →
      ((for_each_local (colorNode g) sched s).m.oob = true ∨
        ∀ u, u ∈ calls (for_each_local (colorNode g) sched s).log →
          ∀ v ∈ g.adj u, v ≠ u ∧ before d0 u v = false) := by
  induction sched with
  | nil => intro s _ _ h; exact h
  | cons c sched ih =>
    intro s inv ci h
    unfold DetChromatic.for_each_local
    cases hwl : s.wl with
    | nil => exact h
    | cons a l =>
      simp only []
      rw [← hwl]
      have inv2 := inv.sweep_step (colorNode_keepsDAG g) hwf hsym (c.1 % s.wl.length) c.2
      have ci2 : ColorInv g d0 (step (colorNode g) (c.1 % s.wl.length) c.2 s) := by
        unfold DetChromatic.step
        cases hi : s.wl.get? (c.1 % s.wl.length) with
        | none => exact ci
        | some src => exact ci.color_operator hsym hid inv _ _ src hi
      refine ih inv2 ci2 ?_
      unfold DetChromatic.step
      cases hi : s.wl.get? (c.1 % s.wl.length) with
      | none => exact h
      | some src =>
        simp only []
        have hsrc_wl : src ∈ s.wl := List.get?_mem hi
        have hsrc_lt := inv.wl_lt src hsrc_wl
        have hsrc_nd : src ∉ calls s.log := inv.disj src hsrc_wl
        have hoob := RunDAGcomp_oob (colorNode g) c.2 src
          { s with wl := s.wl.eraseIdx (c.1 % s.wl.length) }
        have hcalls := RunDAGcomp_calls (colorNode g) c.2 src
          { s with wl := s.wl.eraseIdx (c.1 % s.wl.length) }
        simp only at hoob hcalls
        rw [hoob, hcalls, colorNode_oob]
        by_cases hex : ∃ u ∈ g.adj src, (s.m.data u).color < 0
        · exact Or.inl (Or.inr hex)
        · rcases h with h | h
          · exact Or.inl (Or.inl h)
          · right
            intro u hu v hv
            rcases List.mem_cons.1 hu with e | e
            · subst e
              have hvc : v ∈ calls s.log := by
                by_contra hnd
                exact hex ⟨v, hv, by rw [ci.unc v hnd]; decide⟩
              have hvu : v ≠ u := fun e => hsrc_nd (e ▸ hvc)
              refine ⟨hvu, ?_⟩
              cases hb : before d0 u v with
              | false => rfl
              | true =>
                exfalso
                have hvl := inv.done_lt v hvc
                have huv : u ∈ g.adj v := mem_adj_symm hsym hsrc_lt hvl hv
                exact hsrc_nd
                  (inv.pred_done hvl ((inv.zero v hvl).mpr (Or.inr hvc)) huv hb).1
            · exact h u e v hv

/-- On a graph with symmetric adjacency, distinct ids and keys below `2^31`
that has an edge, every colouring sweep that runs to the end has made a store
outside a forbidden-colours vector. -/
theorem colorDAG_oob {σ : Type} (g : Graph) (m : Manager σ) (sched : List (Nat × Nat))
    (hwf : g.WF) (hsym : g.Symmetric) (hid : DistinctIds g m.data) (hk : KeysBelow g m.data)
    (hunc : ∀ v, (m.data v).color = -1) (hlen : g.numNodes ≤ sched.length)
    (u v : Nat) (hu : u < g.numNodes) (hv : v ∈ g.adj u) :
    (colorDAG g sched (m.initDAG g)).m.oob = true := by
  obtain ⟨inv, _, hwl⟩ := colorDAG_invs g m sched hwf hsym hid hunc
  have hready := Manager.initDAG_ready_data g m
  have inv0 := SweepInv.sweep_start (m.initDAG g) hready
  have ci0 : ColorInv g m.data
      { m := m.initDAG g, wl := collectSources g (m.initDAG g).data, log := [] } :=
    ColorInv.color_start g m.data (m.initDAG g)
      (fun v => by rw [Manager.initDAG_color]; exact hunc v)
  have h := oob_loop hwf hsym hid sched inv0 ci0
    (Or.inr (fun u hu => by simp [calls] at hu))
  have hall := inv.all_done hwf hk (hwl hlen)
  rcases h with h | h
  · exact h
  · exfalso
    have hvl := hwf u hu v hv
    obtain ⟨hne, hb1⟩ := h u (hall u hu) v hv
    obtain ⟨_, hb2⟩ := h v (hall v hvl) u (mem_adj_symm hsym hu hvl hv)
    rcases before_or_before hid hu hvl (fun e => hne e.symm) with hb | hb
    · rw [hb1] at hb; exact Bool.false_ne_true hb
    · rw [hb2] at hb; exact Bool.false_ne_true hb

/-! ## The number of buckets and the degree policies -/

/-- The number of buckets that `getMaxColors ()` gives the executor: when the
accumulator holds a colour (a non-negative `int`) or the least `int`, its
unsigned value is at most `2^31`. -/
theorem getMaxColors_le {σ : Type} (m : Manager σ)
    (h : (0 ≤ m.maxColors ∧ m.maxColors < 2147483648) ∨ m.maxColors = -2147483648) :
    getMaxColors m ≤ 2147483648 := by
  unfold getMaxColors toUnsigned
  omega

/-- Under `MAX_DEGREE` the comparison that `initDAG` uses orders a node with
more edges before a node with fewer, for all degrees that differ by at most
`2^31` (the wrap-around of `numNodes - degree` and the one of `compare3val`
cancel). -/
theorem maxDegree_compare3val (g : Graph) (numT : Nat) (rng : Nat → Nat)
    (d d2 : Nat → InputDAGdata) (ht : 0 < numT)
    (h : assignPriority PriorityFunc.MAX_DEGREE g numT rng d = some d2)
    (u v : Nat) (hu : u < g.numNodes) (hv : v < g.numNodes)
    (hlt : (g.adj v).length < (g.adj u).length)
    (hd : (g.adj u).length ≤ (g.adj v).length + 2147483648) :
    compare3val (d2 u) (d2 v) < 0 := by
  have h1 := (assignPriority_eq_some _ g numT rng d d2 ht h u hu).2
  have h2 := (assignPriority_eq_some _ g numT rng d d2 ht h v hv).2
  simp only at h1 h2
  unfold compare3val
  rw [h1, h2]
  unfold toInt32 usub
  simp only [ne_eq, ite_not]
  split_ifs <;> omega

theorem ChromaticExecutor.pushes_length {σ : Type} (ns : List Nat) :
    ∀ (e : ChromaticExecutor σ),
      (ns.foldl ChromaticExecutor.push e).colorWorkLists.length = e.colorWorkLists.length := by
  induction ns with
  | nil => intro e; rfl
  | cons a l ih =>
    intro e
    rw [List.foldl_cons, ih, ChromaticExecutor.push_length]

/-- Neither `push` nor a step of the `for_each` writes `nextIndex` or changes
the number of buckets. -/
theorem ChromaticExecutor.run_one_frame {σ : Type} (func : Nat → Manager σ → σ × List Nat)
    (mv : Move) (e : ChromaticExecutor σ) :
    (ChromaticExecutor.run func [mv] e).colorWorkLists.length = e.colorWorkLists.length ∧
    (ChromaticExecutor.run func [mv] e).nextIndex = e.nextIndex := by
  cases mv with
  | push n =>
    simp only [ChromaticExecutor.run]
    exact ⟨ChromaticExecutor.push_length e n, (ChromaticExecutor.pushes_frame [n] e).1⟩
  | apply j k =>
    simp only [ChromaticExecutor.run]
    unfold ChromaticExecutor.step
    cases (e.colorWorkLists.getD j []).get? k with
    | none => exact ⟨rfl, rfl⟩
    | some n =>
      simp only []
      unfold ChromaticExecutor.ApplyOperator
      simp only []
      rw [ChromaticExecutor.pushes_length, (ChromaticExecutor.pushes_frame _ _).1]
      simp

/-- A call of `chooseNext` leaves the buckets as they are, and `nextIndex`
below the number of buckets or at 0. -/
theorem ChromaticExecutor.chooseNext_frame {σ : Type} (e : ChromaticExecutor σ)
    (h : e.nextIndex < e.colorWorkLists.length ∨ e.nextIndex = 0) :
    e.chooseNext.2.colorWorkLists = e.colorWorkLists ∧
    (e.chooseNext.2.nextIndex < e.colorWorkLists.length ∨ e.chooseNext.2.nextIndex = 0) := by
  cases hc : chooseNextLoop e.colorWorkLists e.nextIndex e.colorWorkLists.length 0 with
  | none =>
    rw [ChromaticExecutor.chooseNext_snd_none e hc]
    exact ⟨rfl, h⟩
  | some j =>
    rw [ChromaticExecutor.chooseNext_snd_some e j hc]
    refine ⟨rfl, Or.inl ?_⟩
    have hpos : 0 < e.colorWorkLists.length := by
      rcases Nat.eq_zero_or_pos e.colorWorkLists.length with h0 | h0
      · rw [h0] at hc
        simp [ChromaticExecutor.chooseNextLoop] at hc
      · exact h0
    exact Nat.mod_lt _ hpos

/-- In every state that `execute` reaches from the constructor, the number of
buckets is the one of the constructor, and `nextIndex` is below it or 0. -/
theorem ChromaticExecutor.walk_bounds {σ : Type} (func : Nat → Manager σ → σ × List Nat)
    (steps : List (Option Move)) :
    ∀ (e : ChromaticExecutor σ), (e.nextIndex < e.colorWorkLists.length ∨ e.nextIndex = 0) →
      (ChromaticExecutor.walk func steps e).colorWorkLists.length = e.colorWorkLists.length ∧
      ((ChromaticExecutor.walk func steps e).nextIndex < e.colorWorkLists.length ∨
        (ChromaticExecutor.walk func steps e).nextIndex = 0) := by
  induction steps with
  | nil => intro e h; exact ⟨rfl, h⟩
  | cons a l ih =>
    intro e h
    cases a with
    | none =>
      simp only [ChromaticExecutor.walk]
      obtain ⟨h1, h2⟩ := ChromaticExecutor.chooseNext_frame e h
      have := ih e.chooseNext.2 (by rw [h1]; exact h2)
      rw [h1] at this
      exact this
    | some mv =>
      simp only [ChromaticExecutor.walk]
      obtain ⟨h1, h2⟩ := ChromaticExecutor.run_one_frame func mv e
      have := ih (ChromaticExecutor.run func [mv] e) (by rw [h1, h2]; exact h)
      rw [h1] at this
      exact this

/-! ## Statements under a condition

The statements of this section hold in the embedding under a condition that
the code does not establish by itself. Those about colours read the colour
fields with a store through index -1 taken to change nothing, while every
colouring sweep on a graph with an edge makes such a store (`colorDAG_oob`);
those about the chromatic worklists need every colour to index a bucket; those
about the executors on the DAG need keys below `2^31`; the one about `BY_ID`
speaks of the runs in which `assignIDs` returns. -/

/-- The colour fields after a colouring sweep, with the stores through index
-1 taken to change nothing. On a graph with symmetric adjacency and no
self-loop, with pairwise distinct ids and all priorities and ids below `2^31`,
and all nodes uncoloured before: `initDAG` followed by `colorDAG`, under any
schedule with at least `numNodes` entries, empties the worklist and leaves the
two ends of every edge with different colours. -/
theorem coloring_valid {σ : Type} (g : Graph) (m : Manager σ) (sched : List (Nat × Nat))
    (hwf : g.WF) (hsym : g.Symmetric) (hnl : g.NoSelfLoop) (hid : DistinctIds g m.data)
    (hk : KeysBelow g m.data) (hunc : ∀ v, (m.data v).color = -1)
    (hlen : g.numNodes ≤ sched.length) :
    (colorDAG g sched (m.initDAG g)).wl = [] ∧
    ∀ u, u < g.numNodes → ∀ v ∈ g.adj u,
      ((colorDAG g sched (m.initDAG g)).m.data u).color
        ≠ ((colorDAG g sched (m.initDAG g)).m.data v).color := by
  have hready := Manager.initDAG_ready_data g m
  have inv0 := SweepInv.sweep_start (m.initDAG g) hready
  have ci0 : ColorInv g m.data
      { m := m.initDAG g, wl := collectSources g (m.initDAG g).data, log := [] } :=
    ColorInv.color_start g m.data (m.initDAG g) (fun v => by rw [Manager.initDAG_color]; exact hunc v)
  have inv : SweepInv g m.data (colorDAG g sched (m.initDAG g)) :=
    SweepInv.sweep_loop (colorNode_keepsDAG g) hwf hsym sched inv0
  have ci : ColorInv g m.data (colorDAG g sched (m.initDAG g)) :=
    ColorInv.color_loop hwf hsym hid sched inv0 ci0
  have hwl : (colorDAG g sched (m.initDAG g)).wl = [] :=
    for_each_local_complete (colorNode_keepsDAG g) hwf hsym sched inv0
      (by simp only [calls, List.length_nil]; omega)
  have hall := inv.all_done hwf hk hwl
  refine ⟨hwl, ?_⟩
  intro u hu v hv
  have hvl := hwf u hu v hv
  have huv : u ≠ v := fun h => hnl u hu (h ▸ hv)
  rcases before_or_before hid hu hvl huv with hb | hb
  · exact (ci.col v (hall v hvl)).2.1 u (mem_adj_symm hsym hu hvl hv) hb
  · exact fun h => (ci.col u (hall u hu)).2.1 v hv hb h.symm

/-- The statement `coloring_valid` at the path `0 - 1 - 2 - 3 - 4` under the
`BY_ID` keys. -/
theorem coloring_valid_witness :
    (path5.WF ∧ path5.Symmetric ∧ path5.NoSelfLoop ∧ DistinctIds path5 (Manager.init keysById).data ∧
      KeysBelow path5 (Manager.init keysById).data) ∧
    ((colorDAG path5 [(0, 0), (0, 1), (0, 0), (0, 1), (0, 0)]
        ((Manager.init keysById).initDAG path5)).wl = [] ∧
      ∀ u, u < path5.numNodes → ∀ v ∈ path5.adj u,
        ((colorDAG path5 [(0, 0), (0, 1), (0, 0), (0, 1), (0, 0)]
            ((Manager.init keysById).initDAG path5)).m.data u).color
          ≠ ((colorDAG path5 [(0, 0), (0, 1), (0, 0), (0, 1), (0, 0)]
            ((Manager.init keysById).initDAG path5)).m.data v).color) :=
  ⟨by decide,
    coloring_valid path5 (Manager.init keysById) [(0, 0), (0, 1), (0, 0), (0, 1), (0, 0)]
      (by decide) (by decide) (by decide) (by decide) (by decide) (fun _ => rfl) (by decide)⟩

/-- Worklist invariant of a `ChromaticExecutor` whose `B` buckets cover the
colour of every node (`0 ≤ color (n) < B`), with all flags 0 at construction,
in every state reachable by `push` and by dequeue-then-`ApplyOperator` steps:
a node is held in a bucket iff its `onWL` flag is 1; it is then held exactly
once and in bucket `color (n)`; `onWL (n)` is 0 whenever the user function is
invoked on `n`; any two nodes in the same bucket have the same colour and,
given a valid colouring, distinct ones are not adjacent. -/
theorem chromatic_worklist_invariant {σ : Type} (g : Graph)
    (func : Nat → Manager σ → σ × List Nat) (m : Manager σ) (B : Nat) (moves : List Move)
    (hB : B < 4294967296)
    (hflag : ∀ v, v < g.numNodes → (m.data v).onWL = 0)
    (hcol : ∀ v, v < g.numNodes → 0 ≤ (m.data v).color ∧ (m.data v).color < (B : Int))
    (hfunc : ∀ n s x, x ∈ (func n s).2 → x < g.numNodes)
    (hmoves : ∀ mv, mv ∈ moves → Move.below g.numNodes mv = true) :
    (∀ n, n < g.numNodes →
      ((∃ j, j < B ∧ n ∈ (ChromaticExecutor.reach func m B moves).bucket j) ↔
        ((ChromaticExecutor.reach func m B moves).m.data n).onWL = 1)) ∧
    (∀ n j, n < g.numNodes → j < B →
      ((ChromaticExecutor.reach func m B moves).bucket j).count n
        = if ((ChromaticExecutor.reach func m B moves).m.data n).onWL = 1 ∧
            ((ChromaticExecutor.reach func m B moves).m.data n).color = (j : Int)
          then 1 else 0) ∧
    (∀ p, p ∈ (ChromaticExecutor.reach func m B moves).applied → p.2 = 0) ∧
    (∀ j u v, u ∈ (ChromaticExecutor.reach func m B moves).bucket j →
      v ∈ (ChromaticExecutor.reach func m B moves).bucket j →
      ((ChromaticExecutor.reach func m B moves).m.data u).color
        = ((ChromaticExecutor.reach func m B moves).m.data v).color ∧
      ((∀ a, a < g.numNodes → ∀ b, b ∈ g.adj a → b ≠ a →
          ((ChromaticExecutor.reach func m B moves).m.data a).color
            ≠ ((ChromaticExecutor.reach func m B moves).m.data b).color) →
        u ≠ v → v ∉ g.adj u)) := by
  have inv := BucketInv.inv_reach g.numNodes B func m moves hflag hfunc
    (fun n hn => by simpa [Move.below] using hmoves _ hn)
  have hidx : ∀ v, v < g.numNodes → ∀ j : Nat,
      (toUnsigned (m.data v).color = j ↔ (m.data v).color = (j : Int)) := by
    intro v hv j
    have h := hcol v hv
    have h2 := toUnsigned_of_nonneg (m.data v).color h.1 (by omega)
    constructor
    · intro h3; rw [← h3]; exact h2.symm
    · intro h3
      have h4 : ((toUnsigned (m.data v).color : Nat) : Int) = (j : Int) := h2.trans h3
      exact_mod_cast h4
  have hcnt : ∀ n j, n < g.numNodes → j < B →
      ((ChromaticExecutor.reach func m B moves).bucket j).count n
        = if ((ChromaticExecutor.reach func m B moves).m.data n).onWL = 1 ∧
            ((ChromaticExecutor.reach func m B moves).m.data n).color = (j : Int)
          then 1 else 0 := by
    intro n j hn hj
    rw [inv.count j hj n, inv.color n]
    simp only [hn, true_and, hidx n hn j]
  refine ⟨?_, hcnt, inv.applied, ?_⟩
  · intro n hn
    constructor
    · rintro ⟨j, _, hmem⟩
      exact (inv.of_mem hmem).2.2.1
    · intro h1
      have hc := hcol n hn
      refine ⟨toUnsigned (m.data n).color, ?_, ?_⟩
      · have := toUnsigned_of_nonneg (m.data n).color hc.1 (by omega)
        omega
      · have hj : toUnsigned (m.data n).color < B := by
          have := toUnsigned_of_nonneg (m.data n).color hc.1 (by omega)
          omega
        have := inv.count _ hj n
        rw [if_pos ⟨hn, h1, rfl⟩] at this
        exact List.count_pos_iff.mp (by omega)
  · intro j u v hu hv
    have h1 := inv.of_mem hu
    have h2 := inv.of_mem hv
    have hcu : (m.data u).color = (j : Int) := (hidx u h1.2.1 j).mp h1.2.2.2
    have hcv : (m.data v).color = (j : Int) := (hidx v h2.2.1 j).mp h2.2.2.2
    have heq : ((ChromaticExecutor.reach func m B moves).m.data u).color
        = ((ChromaticExecutor.reach func m B moves).m.data v).color := by
      rw [inv.color u, inv.color v]
      exact hcu.trans hcv.symm
    refine ⟨heq, ?_⟩
    intro hvalid hne hadj
    exact hvalid u h1.2.1 v hadj (fun h => hne h.symm) heq

/-- The statement `chromatic_worklist_invariant` on the path
`0 - 1 - 2 - 3 - 4` with the colours 0, 1, 0, 1, 0 and two buckets: all five
nodes are pushed (node 0 twice), node 2 is taken from bucket 0 and processed,
node 1 is pushed again. -/
theorem chromatic_worklist_invariant_witness :
    ((∀ v, v < path5.numNodes → (path5Colored.m.data v).onWL = 0) ∧
      (∀ v, v < path5.numNodes →
        0 ≤ (path5Colored.m.data v).color ∧ (path5Colored.m.data v).color < ((2 : Nat) : Int))) ∧
    (ChromaticExecutor.reach quiet path5Colored.m 2
        [Move.push 0, Move.push 1, Move.push 2, Move.push 0, Move.push 3, Move.push 4,
          Move.apply 0 1, Move.push 1]).colorWorkLists = [[0, 4], [1, 3]] ∧
    (∀ p, p ∈ (ChromaticExecutor.reach quiet path5Colored.m 2
        [Move.push 0, Move.push 1, Move.push 2, Move.push 0, Move.push 3, Move.push 4,
          Move.apply 0 1, Move.push 1]).applied → p.2 = 0) :=
  ⟨⟨by decide, by decide⟩, by decide,
    (chromatic_worklist_invariant path5 quiet path5Colored.m 2
      [Move.push 0, Move.push 1, Move.push 2, Move.push 0, Move.push 3, Move.push 4,
        Move.apply 0 1, Move.push 1]
      (by decide) (by decide) (by decide) (fun _ _ x hx => by simp [quiet] at hx)
      (by decide)).2.2.1⟩

/-- Admission by `push` when the colour of `n` indexes a bucket: starting
from a node `n` with `onWL (n) = 0`, any sequence of `push` calls that
contains `push (n)` at least once results in exactly one enqueue of `n`
(`onWL (n) = 1`, and `n` is present once more than before: in bucket
`color (n)` for `ChromaticExecutor::push`, and in `nextWork` for
`InputGraphDAGexecutor::push`); `push (n)` on a node with `onWL (n) = 1`
changes nothing. -/
theorem push_idempotent {σ : Type} (e : ChromaticExecutor σ) (a : InputGraphDAGexecutor σ)
    (n : Nat) (ns : List Nat) (hmem : n ∈ ns)
    (hin : toUnsigned (e.m.data n).color < e.colorWorkLists.length) :
    ((e.m.data n).onWL = 0 →
      ((ns.foldl ChromaticExecutor.push e).m.data n).onWL = 1 ∧
      ∀ j, ((ns.foldl ChromaticExecutor.push e).bucket j).count n
        = (e.bucket j).count n + (if j = toUnsigned (e.m.data n).color then 1 else 0)) ∧
    ((e.m.data n).onWL = 1 → e.push n = e) ∧
    ((a.m.data n).onWL = 0 →
      ((ns.foldl InputGraphDAGexecutor.push a).m.data n).onWL = 1 ∧
      (ns.foldl InputGraphDAGexecutor.push a).nextWork.count n = a.nextWork.count n + 1) ∧
    ((a.m.data n).onWL = 1 → a.push n = a) := by
  refine ⟨?_, ?_, ?_, ?_⟩
  · intro h0
    have h := ChromaticExecutor.pushes_count n ns e
    refine ⟨?_, ?_⟩
    · rw [h.1, if_pos ⟨hmem, h0⟩]
    · intro j
      rw [h.2 j]
      by_cases hj : j = toUnsigned (e.m.data n).color
      · rw [if_pos hj, if_pos ⟨hmem, h0, hj.symm, by rw [hj]; exact hin⟩]
      · have : ¬ (n ∈ ns ∧ (e.m.data n).onWL = 0 ∧ toUnsigned (e.m.data n).color = j ∧
            j < e.colorWorkLists.length) := fun hh => hj hh.2.2.1.symm
        rw [if_neg hj, if_neg this]
  · intro h1
    exact ChromaticExecutor.push_of_flag e n (by omega)
  · intro h0
    have h := InputGraphDAGexecutor.nextWork_pushes_count n ns a
    rw [h.1, h.2, if_pos ⟨hmem, h0⟩, if_pos ⟨hmem, h0⟩]
    exact ⟨rfl, rfl⟩
  · intro h1
    exact InputGraphDAGexecutor.nextWork_push_of_flag a n (by omega)

/-- The statement `push_idempotent` on the path `0 - 1 - 2 - 3 - 4` with two
buckets: the pushes of the nodes 1, 3, 1 enqueue node 1 once. -/
theorem push_idempotent_witness :
    (toUnsigned ((ChromaticExecutor.create path5Colored.m 2).m.data 1).color
      < (ChromaticExecutor.create path5Colored.m 2).colorWorkLists.length) ∧
    ([1, 3, 1].foldl ChromaticExecutor.push
      (ChromaticExecutor.create path5Colored.m 2)).colorWorkLists = [[], [1, 3]] ∧
    ([1, 3, 1].foldl InputGraphDAGexecutor.push
      (InputGraphDAGexecutor.start path5 [] (Manager.init keysPrioId))).nextWork = [1, 3] ∧
    ((([1, 3, 1].foldl ChromaticExecutor.push
      (ChromaticExecutor.create path5Colored.m 2)).m.data 1).onWL = 1 ∧
      ∀ j, (([1, 3, 1].foldl ChromaticExecutor.push
          (ChromaticExecutor.create path5Colored.m 2)).bucket j).count 1
        = ((ChromaticExecutor.create path5Colored.m 2).bucket j).count 1
          + (if j = toUnsigned ((ChromaticExecutor.create path5Colored.m 2).m.data 1).color
              then 1 else 0)) :=
  ⟨by decide, by decide, by decide,
    (push_idempotent (ChromaticExecutor.create path5Colored.m 2)
      (InputGraphDAGexecutor.start path5 [] (Manager.init keysPrioId)) 1 [1, 3, 1]
      (by decide) (by decide)).1 (by decide)⟩

/-- Round-robin bucket selection while `nextIndex + B` does not exceed
`2^32`, for `B` buckets: `chooseNext` returns null iff every bucket is empty,
and then leaves the state unchanged; otherwise it returns the non-empty bucket
`j` at the smallest cyclic offset from `nextIndex`
(`j = (nextIndex + i) mod B` for the least `i` in `[0, B)`) and sets
`nextIndex` to `(j + 1) mod B`; `nextIndex < B` is preserved. -/
theorem chooseNext_round_robin {σ : Type} (e : ChromaticExecutor σ)
    (hw : e.nextIndex + e.colorWorkLists.length ≤ 4294967296) :
    (e.chooseNext.1 = none ↔ ∀ j, j < e.colorWorkLists.length → e.bucket j = []) ∧
    (e.chooseNext.1 = none → e.chooseNext.2 = e) ∧
    (∀ j, e.chooseNext.1 = some j →
      ∃ i, i < e.colorWorkLists.length ∧ j = (e.nextIndex + i) % e.colorWorkLists.length ∧
        e.bucket j ≠ [] ∧
        (∀ i2, i2 < i → e.bucket ((e.nextIndex + i2) % e.colorWorkLists.length) = []) ∧
        e.chooseNext.2 = { e with nextIndex := (j + 1) % e.colorWorkLists.length }) ∧
    (e.nextIndex < e.colorWorkLists.length →
      e.chooseNext.2.nextIndex < e.colorWorkLists.length) := by
  have hidx : ∀ k, k < e.colorWorkLists.length →
      ((e.nextIndex + (0 + k)) % 4294967296) % e.colorWorkLists.length
        = (e.nextIndex + k) % e.colorWorkLists.length := by
    intro k hk
    rw [Nat.zero_add, Nat.mod_eq_of_lt (show e.nextIndex + k < 4294967296 by omega)]
  have hnone : e.chooseNext.1 = none ↔ ∀ j, j < e.colorWorkLists.length → e.bucket j = [] := by
    rw [ChromaticExecutor.chooseNext_fst, ChromaticExecutor.chooseNextLoop_none]
    constructor
    · intro h j hj
      obtain ⟨k, hk, hkj⟩ := cyclic_offset e.colorWorkLists.length e.nextIndex j hj
      have := h k hk
      rw [hidx k hk, hkj] at this
      exact this
    · intro h k hk
      rw [hidx k hk]
      exact h _ (Nat.mod_lt _ (by omega))
  have hsome : ∀ j, e.chooseNext.1 = some j →
      ∃ i, i < e.colorWorkLists.length ∧ j = (e.nextIndex + i) % e.colorWorkLists.length ∧
        e.bucket j ≠ [] ∧
        (∀ i2, i2 < i → e.bucket ((e.nextIndex + i2) % e.colorWorkLists.length) = []) ∧
        e.chooseNext.2 = { e with nextIndex := (j + 1) % e.colorWorkLists.length } := by
    intro j hj
    rw [ChromaticExecutor.chooseNext_fst] at hj
    obtain ⟨k, hk, hjk, hne, hbefore⟩ := ChromaticExecutor.chooseNextLoop_some _ _ _ _ _ hj
    refine ⟨k, hk, ?_, hne, ?_, ChromaticExecutor.chooseNext_snd_some e j hj⟩
    · rw [hjk, hidx k hk]
    · intro i2 hi2
      have := hbefore i2 hi2
      rw [hidx i2 (by omega)] at this
      exact this
  refine ⟨hnone, ?_, hsome, ?_⟩
  · intro h
    rw [ChromaticExecutor.chooseNext_fst] at h
    exact ChromaticExecutor.chooseNext_snd_none e h
  · intro hlt
    cases hc : e.chooseNext.1 with
    | none =>
      rw [ChromaticExecutor.chooseNext_fst] at hc
      rw [ChromaticExecutor.chooseNext_snd_none e hc]
      exact hlt
    | some j =>
      obtain ⟨_, _, _, _, _, h2⟩ := hsome j hc
      rw [h2]
      exact Nat.mod_lt _ (by omega)

/-- The path `0 - 1 - 2 - 3 - 4` with `priority = id`, with the stores
through index -1 taken to change nothing: `initDAG` yields the in-degrees
0, 1, 1, 1, 1 and the DAG successors `0 → 1 → 2 → 3 → 4` (node 4 has none),
and a `colorDAG` sweep that runs to the end leaves the colour fields
0, 1, 0, 1, 0, whatever its schedule. -/
theorem path_example (sched : List (Nat × Nat)) (hlen : 5 ≤ sched.length) :
    (List.range 5).map (fun v => (path5Init.data v).indegree) = [0, 1, 1, 1, 1] ∧
    (List.range 5).map (fun v => (path5Init.data v).dagSucc) = [[1], [2], [3], [4], []] ∧
    (colorDAG path5 sched path5Init).wl = [] ∧
    (List.range 5).map (fun v => ((colorDAG path5 sched path5Init).m.data v).color)
      = [0, 1, 0, 1, 0] := by
  have h := colorDAG_schedule_agree path5 (Manager.init keysPrioId) sched
    (List.replicate 5 (0, 0)) (by decide) (by decide) (by decide) (fun _ => rfl) hlen (by decide)
  refine ⟨by decide, by decide, h.1, ?_⟩
  have h2 : (List.range 5).map
        (fun v => ((colorDAG path5 sched path5Init).m.data v).color)
      = (List.range 5).map (fun v => (path5Colored.m.data v).color) :=
    List.map_congr_left (fun v _ => h.2.2 v)
  rw [h2]
  decide

/-- The statement `path_example` with three workers taking turns. -/
theorem path_example_witness :
    (List.range 5).map
      (fun v => ((colorDAG path5 [(0, 0), (0, 1), (0, 2), (0, 0), (0, 1)] path5Init).m.data v).color)
      = [0, 1, 0, 1, 0] :=
  (path_example [(0, 0), (0, 1), (0, 2), (0, 0), (0, 1)] (by decide)).2.2.2

/-- The reusable executor on all nodes, below `2^31`. On a graph with
symmetric adjacency whose priorities and ids are below `2^31`, with a user
function that leaves the DAG fields of the node data alone: after
`initialize ()`, in any number of `execute ()` / `reinitDAG ()` cycles (whose
schedules are long enough to end the sweep), every `execute ()` runs to the
end and invokes the user function exactly once on every node of the graph,
and after every `reinitDAG ()` each node's in-degree is the one it had right
after `initialize ()`; the sources are those collected by `initialize ()`
throughout. -/
theorem reuse_executor_cycles {σ : Type} (g : Graph) (func : Nat → Manager σ → Manager σ)
    (m : Manager σ) (scheds : List (List (Nat × Nat)))
    (hwf : g.WF) (hsym : g.Symmetric) (hk : KeysBelow g m.data)
    (hf : KeepsDAG (fun _ src m => func src m))
    (hb : KeepsBackup (fun _ src m => func src m))
    (hlen : ∀ sched, sched ∈ scheds → g.numNodes ≤ sched.length) :
    (InputGraphDAGreuseExecutor.cycles g func scheds
        (InputGraphDAGreuseExecutor.initAll g m)).1.length = scheds.length ∧
    (∀ s, s ∈ (InputGraphDAGreuseExecutor.cycles g func scheds
        (InputGraphDAGreuseExecutor.initAll g m)).1 →
      s.wl = [] ∧ ∀ v, v < g.numNodes → (calls s.log).count v = 1) ∧
    (∀ v, v < g.numNodes →
      ((InputGraphDAGreuseExecutor.cycles g func scheds
          (InputGraphDAGreuseExecutor.initAll g m)).2.1.data v).indegree
        = ((InputGraphDAGreuseExecutor.initAll g m).1.data v).indegree) ∧
    (InputGraphDAGreuseExecutor.cycles g func scheds
        (InputGraphDAGreuseExecutor.initAll g m)).2.2
      = (InputGraphDAGreuseExecutor.initAll g m).2 := by
  have hlen2 : ∀ (scheds : List (List (Nat × Nat))) (st : Manager σ × List Nat),
      (InputGraphDAGreuseExecutor.cycles g func scheds st).1.length = scheds.length := by
    intro scheds
    induction scheds with
    | nil => intro st; rfl
    | cons a l ih =>
      intro st
      simp only [InputGraphDAGreuseExecutor.cycles, List.length_cons, ih]
  exact ⟨hlen2 _ _,
    reuse_cycles_inv g _ func hwf hsym (push_initial_keysBelow g m.data _ hk) hf hb scheds
      (InputGraphDAGreuseExecutor.initAll g m) hlen
      (InputGraphDAGreuseExecutor.initAll_ready g m)⟩

/-- Witness of `reuse_executor_cycles`: three cycles on the path
`0 - 1 - 2 - 3 - 4` with `priority = id`. -/
theorem reuse_executor_cycles_witness :
    (InputGraphDAGreuseExecutor.cycles path5 (noop 0) (List.replicate 3 (List.replicate 5 (0, 0)))
        (InputGraphDAGreuseExecutor.initAll path5 (Manager.init keysPrioId))).1.length = 3 ∧
    (∀ s, s ∈ (InputGraphDAGreuseExecutor.cycles path5 (noop 0)
        (List.replicate 3 (List.replicate 5 (0, 0)))
        (InputGraphDAGreuseExecutor.initAll path5 (Manager.init keysPrioId))).1 →
      s.wl = [] ∧ ∀ v, v < path5.numNodes → (calls s.log).count v = 1) ∧
    (∀ v, v < path5.numNodes →
      ((InputGraphDAGreuseExecutor.cycles path5 (noop 0)
          (List.replicate 3 (List.replicate 5 (0, 0)))
          (InputGraphDAGreuseExecutor.initAll path5 (Manager.init keysPrioId))).2.1.data v).indegree
        = ((InputGraphDAGreuseExecutor.initAll path5 (Manager.init keysPrioId)).1.data v).indegree) ∧
    (InputGraphDAGreuseExecutor.cycles path5 (noop 0)
        (List.replicate 3 (List.replicate 5 (0, 0)))
        (InputGraphDAGreuseExecutor.initAll path5 (Manager.init keysPrioId))).2.2
      = (InputGraphDAGreuseExecutor.initAll path5 (Manager.init keysPrioId)).2 :=
  reuse_executor_cycles path5 (noop 0) (Manager.init keysPrioId)
    (List.replicate 3 (List.replicate 5 (0, 0)))
    (by decide) (by decide) (by decide)
    (fun _ _ _ _ => ⟨rfl, rfl, rfl, rfl⟩) (fun _ _ _ _ => rfl) (by decide)

/-- Gating in the topology-driven executor, below `2^31`. On a graph with
symmetric adjacency whose priorities and ids are below `2^31`, with flags that
are 0 or 1 when `execute` starts and schedules long enough to end each sweep:
in every round of `InputGraphDAGtopologyDriven::execute` the sweep runs to the
end and visits each node of the graph exactly once; the user function is
invoked on a visited node iff its `onWL` flag is 1 at the time of the visit
(it is 0 otherwise), and the flag is 0 when the user function starts. -/
theorem topology_gating {σ : Type} (g : Graph) (func : Nat → Manager σ → σ × List Nat)
    (range : List Nat) (scheds : List (List (Nat × Nat))) (m : Manager σ)
    (hwf : g.WF) (hsym : g.Symmetric) (hk : KeysBelow g m.data)
    (hflag : ∀ v, (m.data v).onWL = 0 ∨ (m.data v).onWL = 1)
    (hlen : ∀ sched, sched ∈ scheds → g.numNodes ≤ sched.length) :
    (InputGraphDAGtopologyDriven.execute g func range scheds m).trace.length
      = (InputGraphDAGtopologyDriven.execute g func range scheds m).rounds ∧
    ∀ s, s ∈ (InputGraphDAGtopologyDriven.execute g func range scheds m).trace →
      s.wl = [] ∧
      (∀ v, v < g.numNodes → (calls s.log).count v = 1) ∧
      s.m.user.visited.map Prod.fst = calls s.log ∧
      (∀ v x, (v, x) ∈ s.m.user.visited →
        (x = 0 ∨ x = 1) ∧ (v ∈ s.m.user.applied.map Prod.fst ↔ x = 1)) ∧
      (∀ e, e ∈ s.m.user.applied → e.2 = 0) := by
  obtain ⟨hr, hfl, _⟩ := InputGraphDAGtopologyDriven.start_ready g range m
  obtain ⟨h1, h2⟩ := InputGraphDAGtopologyDriven.roundLoop_trace func hwf hsym hk scheds
    (InputGraphDAGtopologyDriven.start g range m) hlen hr (hfl hflag)
    (fun s hs => by cases hs) rfl
  refine ⟨h2, ?_⟩
  intro s hs
  obtain ⟨hwl, hcount, hnd, gi⟩ := h1 s hs
  refine ⟨hwl, hcount, gi.vis, ?_, gi.app0⟩
  intro v x hvx
  have h01 : x = 0 ∨ x = 1 := gi.vflag (v, x) hvx
  refine ⟨h01, ?_⟩
  have hnd2 : (s.m.user.visited.map Prod.fst).Nodup := by
    rw [gi.vis]
    exact hnd
  constructor
  · intro hv
    obtain ⟨y, hy, hm⟩ := (gi.gate v).1 hv
    have e := List.inj_on_of_nodup_map hnd2 hm hvx rfl
    have e2 : y = x := (Prod.mk.inj e).2
    rw [e2] at hy
    rcases h01 with h | h
    · rw [h] at hy
      exact absurd hy (by decide)
    · exact h
  · intro hx
    exact (gi.gate v).2 ⟨x, by rw [hx]; decide, hvx⟩

/-- Witness of `topology_gating`: the path `0 - 1 - 2 - 3 - 4` with
`priority = id`, the range `{0}`, and a user function that pushes the next
node up to node 2. -/
theorem topology_gating_witness :
    (InputGraphDAGtopologyDriven.execute path5 pushNext [0]
        (List.replicate 3 (List.replicate 5 (0, 0))) (Manager.init keysPrioId)).trace.length
      = (InputGraphDAGtopologyDriven.execute path5 pushNext [0]
        (List.replicate 3 (List.replicate 5 (0, 0))) (Manager.init keysPrioId)).rounds ∧
    ∀ s, s ∈ (InputGraphDAGtopologyDriven.execute path5 pushNext [0]
        (List.replicate 3 (List.replicate 5 (0, 0))) (Manager.init keysPrioId)).trace →
      s.wl = [] ∧
      (∀ v, v < path5.numNodes → (calls s.log).count v = 1) ∧
      s.m.user.visited.map Prod.fst = calls s.log ∧
      (∀ v x, (v, x) ∈ s.m.user.visited →
        (x = 0 ∨ x = 1) ∧ (v ∈ s.m.user.applied.map Prod.fst ↔ x = 1)) ∧
      (∀ e, e ∈ s.m.user.applied → e.2 = 0) :=
  topology_gating path5 pushNext [0] (List.replicate 3 (List.replicate 5 (0, 0)))
    (Manager.init keysPrioId) (by decide) (by decide) (by decide) (fun _ => Or.inl rfl)
    (by decide)

/-- Under `BY_ID`, `assignPriority` returns exactly when every worker's range
of `assignIDs` starts inside the node sequence, and then every node `v` has
`priority (v) = id (v) % 100`, which is below 100, and two nodes have the
same priority iff their ids are congruent modulo 100. -/
theorem byId_priority (g : Graph) (numT : Nat) (rng : Nat → Nat)
    (d : Nat → InputDAGdata) (ht : 0 < numT) :
    ((assignPriority PriorityFunc.BY_ID g numT rng d).isSome = true
      ↔ RangesOK g.numNodes numT) ∧
    ∀ d2, assignPriority PriorityFunc.BY_ID g numT rng d = some d2 →
      ∀ v, v < g.numNodes →
        (d2 v).priority = (d2 v).id % 100 ∧ (d2 v).priority < 100 ∧
        ∀ u, u < g.numNodes →
          ((d2 u).priority = (d2 v).priority ↔ (d2 u).id % 100 = (d2 v).id % 100) := by
  refine ⟨assignPriority_isSome_iff _ _ _ _ _, ?_⟩
  intro d2 h
  have key : ∀ v, v < g.numNodes → (d2 v).priority = (d2 v).id % 100 := by
    intro v hv
    have h1 := assignPriority_eq_some _ g numT rng d d2 ht h v hv
    simp only [MAX_LEVELS] at h1
    rw [h1.1, h1.2]
  intro v hv
  refine ⟨key v hv, ?_, ?_⟩
  · rw [key v hv]
    exact Nat.mod_lt _ (by decide)
  · intro u hu
    rw [key v hv, key u hu]

/-- Witness of `byId_priority`: the 5-node path with fresh node data and two
workers. -/
theorem byId_priority_witness :
    ∃ d2, assignPriority PriorityFunc.BY_ID path5 2 (fun _ => 0) fresh = some d2 ∧
      ∀ v, v < path5.numNodes →
        (d2 v).priority = (d2 v).id % 100 ∧ (d2 v).priority < 100 ∧
        ∀ u, u < path5.numNodes →
          ((d2 u).priority = (d2 v).priority ↔ (d2 u).id % 100 = (d2 v).id % 100) := by
  have T := byId_priority path5 2 (fun _ => 0) fresh (by decide)
  obtain ⟨d2, hd2⟩ := Option.isSome_iff_exists.1 (T.1.2 (by decide))
  exact ⟨d2, hd2, T.2 d2 hd2⟩

/-! ## Checked properties -/

/-- C1, divergence. After `initDAG` and `colorDAG` the two ends of an edge can
carry the same colour, and the colouring is not defined by the code on a
graph with an edge. (a) On the triangle with priorities a third of `2^32`
apart (symmetric adjacency, ids 0, 1, 2) no node is a source, `colorDAG`
colours no node, and the adjacent nodes 0 and 1 both end with the colour -1;
no store leaves a forbidden-colours vector on this input. (b) On the path
`0 - 1 - 2 - 3 - 4` under the `BY_ID` keys the colouring sweep makes a store
outside a forbidden-colours vector. -/
theorem coloring_invalid_at_wraparound :
    triangle.Symmetric ∧ DistinctIds triangle keysWrap ∧ 1 ∈ triangle.adj 0 ∧
    collectSources triangle ((Manager.init keysWrap).initDAG triangle).data = [] ∧
    (colorDAG triangle (List.replicate 3 (0, 0))
      ((Manager.init keysWrap).initDAG triangle)).wl = [] ∧
    (colorDAG triangle (List.replicate 3 (0, 0))
      ((Manager.init keysWrap).initDAG triangle)).m.oob = false ∧
    ((colorDAG triangle (List.replicate 3 (0, 0))
      ((Manager.init keysWrap).initDAG triangle)).m.data 0).color
      = ((colorDAG triangle (List.replicate 3 (0, 0))
        ((Manager.init keysWrap).initDAG triangle)).m.data 1).color ∧
    path5.Symmetric ∧ DistinctIds path5 keysById ∧
    (colorDAG path5 [(0, 0), (0, 1), (0, 0), (0, 1), (0, 0)]
      ((Manager.init keysById).initDAG path5)).m.oob = true := by
  decide

/-- C2, at the failing input. On the triangle with priorities a third of
`2^32` apart (ids 0, 1, 2) the successor arrays that `initDAG` builds are
`0 → 1`, `1 → 2`, `2 → 0`: node 0 is its own ancestor, and no node is a
source. The same holds with equal priorities and ids a third of `2^32`
apart. -/
theorem initDAG_cycle_at_wraparound :
    (triangle.Symmetric ∧ DistinctIds triangle keysWrap ∧
      (initDAG triangle keysWrap 0).dagSucc = [1] ∧
      (initDAG triangle keysWrap 1).dagSucc = [2] ∧
      (initDAG triangle keysWrap 2).dagSucc = [0] ∧
      collectSources triangle (initDAG triangle keysWrap) = [] ∧
      Relation.TransGen
        (fun u w => u < triangle.numNodes ∧ w ∈ (initDAG triangle keysWrap u).dagSucc) 0 0) ∧
    (DistinctIds triangle keysWrapId ∧
      Relation.TransGen
        (fun u w => u < triangle.numNodes ∧ w ∈ (initDAG triangle keysWrapId u).dagSucc) 0 0) := by
  have a01 : 0 < triangle.numNodes ∧ 1 ∈ (initDAG triangle keysWrap 0).dagSucc := by decide
  have a12 : 1 < triangle.numNodes ∧ 2 ∈ (initDAG triangle keysWrap 1).dagSucc := by decide
  have a20 : 2 < triangle.numNodes ∧ 0 ∈ (initDAG triangle keysWrap 2).dagSucc := by decide
  have b01 : 0 < triangle.numNodes ∧ 1 ∈ (initDAG triangle keysWrapId 0).dagSucc := by decide
  have b12 : 1 < triangle.numNodes ∧ 2 ∈ (initDAG triangle keysWrapId 1).dagSucc := by decide
  have b20 : 2 < triangle.numNodes ∧ 0 ∈ (initDAG triangle keysWrapId 2).dagSucc := by decide
  refine ⟨⟨by decide, by decide, by decide, by decide, by decide, by decide, ?_⟩, by decide, ?_⟩
  · have t1 : Relation.TransGen
        (fun u w => u < triangle.numNodes ∧ w ∈ (initDAG triangle keysWrap u).dagSucc) 0 1 :=
      Relation.TransGen.single a01
    have t2 : Relation.TransGen
        (fun u w => u < triangle.numNodes ∧ w ∈ (initDAG triangle keysWrap u).dagSucc) 0 2 :=
      Relation.TransGen.tail t1 a12
    exact Relation.TransGen.tail t2 a20
  · have t1 : Relation.TransGen
        (fun u w => u < triangle.numNodes ∧ w ∈ (initDAG triangle keysWrapId u).dagSucc) 0 1 :=
      Relation.TransGen.single b01
    have t2 : Relation.TransGen
        (fun u w => u < triangle.numNodes ∧ w ∈ (initDAG triangle keysWrapId u).dagSucc) 0 2 :=
      Relation.TransGen.tail t1 b12
    exact Relation.TransGen.tail t2 b20

/-- C3, divergence. On a graph with symmetric adjacency, pairwise distinct
ids and keys below `2^31` that has an edge, with all nodes uncoloured before:
under any two schedules of `colorDAG` with at least `numNodes` entries,
whatever positions of the worklist they hand out and whatever workers they
use, both sweeps run to the end and both make a store outside a
forbidden-colours vector, so that under no schedule the code defines the
colours that the schedules are to agree on. -/
theorem colouring_sweeps_store_out_of_range {σ : Type} (g : Graph) (m : Manager σ)
    (schedA schedB : List (Nat × Nat)) (hwf : g.WF) (hsym : g.Symmetric)
    (hid : DistinctIds g m.data) (hk : KeysBelow g m.data)
    (hunc : ∀ v, (m.data v).color = -1)
    (hA : g.numNodes ≤ schedA.length) (hB : g.numNodes ≤ schedB.length)
    (u v : Nat) (hu : u < g.numNodes) (hv : v ∈ g.adj u) :
    (colorDAG g schedA (m.initDAG g)).wl = [] ∧ (colorDAG g schedB (m.initDAG g)).wl = [] ∧
    (colorDAG g schedA (m.initDAG g)).m.oob = true ∧
    (colorDAG g schedB (m.initDAG g)).m.oob = true :=
  ⟨(colorDAG_invs g m schedA hwf hsym hid hunc).2.2 hA,
    (colorDAG_invs g m schedB hwf hsym hid hunc).2.2 hB,
    colorDAG_oob g m schedA hwf hsym hid hk hunc hA u v hu hv,
    colorDAG_oob g m schedB hwf hsym hid hk hunc hB u v hu hv⟩

/-- Witness of `colouring_sweeps_store_out_of_range`: the star with centre 0
under the `BY_ID` keys, one worker in worklist order against three workers
taking the leaves in another order. -/
theorem colouring_sweeps_store_out_of_range_witness :
    (star.WF ∧ star.Symmetric ∧ DistinctIds star (Manager.init keysById).data ∧
      KeysBelow star (Manager.init keysById).data ∧ 1 ∈ star.adj 0) ∧
    ((colorDAG star [(0, 0), (0, 0), (0, 0), (0, 0)]
        ((Manager.init keysById).initDAG star)).wl = [] ∧
      (colorDAG star [(0, 2), (2, 1), (1, 0), (0, 2)]
        ((Manager.init keysById).initDAG star)).wl = [] ∧
      (colorDAG star [(0, 0), (0, 0), (0, 0), (0, 0)]
        ((Manager.init keysById).initDAG star)).m.oob = true ∧
      (colorDAG star [(0, 2), (2, 1), (1, 0), (0, 2)]
        ((Manager.init keysById).initDAG star)).m.oob = true) :=
  ⟨by decide,
    colouring_sweeps_store_out_of_range star (Manager.init keysById)
      [(0, 0), (0, 0), (0, 0), (0, 0)] [(0, 2), (2, 1), (1, 0), (0, 2)]
      (by decide) (by decide) (by decide) (by decide) (fun _ => rfl) (by decide) (by decide)
      0 1 (by decide) (by decide)⟩

/-- C4. In every state that a `runDAGcomputation` sweep reaches from the
sources collected after `initDAG`, on a graph with symmetric adjacency and
pairwise distinct ids, two distinct nodes that are both in the worklist are
not adjacent. The supplied function is any one that leaves the DAG
bookkeeping (`indegree`, successor array, priority, id) alone. -/
theorem frontier_conflict_free {σ : Type} (g : Graph)
    (func : Nat → Nat → Manager σ → Manager σ) (m : Manager σ) (sched : List (Nat × Nat))
    (hwf : g.WF) (hsym : g.Symmetric) (hid : DistinctIds g m.data) (hf : KeepsDAG func) :
    ∀ u ∈ (runDAGcomputationAll g func sched (m.initDAG g)).wl,
      ∀ v ∈ (runDAGcomputationAll g func sched (m.initDAG g)).wl, u ≠ v → v ∉ g.adj u := by
  have inv := sweepInv_reachable hf hwf hsym (m.initDAG g) (Manager.initDAG_ready_data g m) sched
  intro u hu v hv huv
  exact inv.wl_not_adj hsym hid hu hv huv

/-- C4, at the star after its centre has been processed: the three leaves are
in the worklist together. -/
theorem frontier_conflict_free_witness :
    (star.WF ∧ star.Symmetric ∧ DistinctIds star (Manager.init keysById).data ∧
      (runDAGcomputationAll star (colorNode star) [(0, 0)]
        ((Manager.init keysById).initDAG star)).wl = [1, 2, 3]) ∧
    ∀ u ∈ (runDAGcomputationAll star (colorNode star) [(0, 0)]
        ((Manager.init keysById).initDAG star)).wl,
      ∀ v ∈ (runDAGcomputationAll star (colorNode star) [(0, 0)]
        ((Manager.init keysById).initDAG star)).wl, u ≠ v → v ∉ star.adj u :=
  ⟨by decide,
    frontier_conflict_free star (colorNode star) (Manager.init keysById) [(0, 0)]
      (by decide) (by decide) (by decide) (colorNode_keepsDAG star)⟩

/-- C5, at the failing input. Node 0 (priority 0) and node 1 (priority
`2^31 + 1`) are adjacent: no neighbour of node 0 has a lexicographically
smaller key, yet `initDAG` sets `indegree` and `indeg_backup` of node 0 to 1
(and those of node 1, which has the smaller neighbour, to 0). The same holds
with equal priorities and the ids 0 and `2^31 + 1`. -/
theorem initDAG_indegree_at_wraparound :
    ((path2.adj 0).countP (fun d => compare (keysFar d) (keysFar 0)) = 0 ∧
      (initDAG path2 keysFar 0).indegree = 1 ∧ (initDAG path2 keysFar 0).indeg_backup = 1 ∧
      (path2.adj 1).countP (fun d => compare (keysFar d) (keysFar 1)) = 1 ∧
      (initDAG path2 keysFar 1).indegree = 0 ∧ (initDAG path2 keysFar 1).indeg_backup = 0) ∧
    ((path2.adj 0).countP (fun d => compare (keysFarId d) (keysFarId 0)) = 0 ∧
      (initDAG path2 keysFarId 0).indegree = 1 ∧ (initDAG path2 keysFarId 0).indeg_backup = 1) := by
  decide

/-- C6, at the failing input. On the triangle with priorities a third of
`2^32` apart every node has `indeg_backup = 1`, no node is a source, and under
every schedule the sweep ends at once: no decrement, no push, and the supplied
function is invoked on no node. The same holds with equal priorities and ids
a third of `2^32` apart. -/
theorem sweep_at_wraparound (func : Nat → Nat → Manager Unit → Manager Unit)
    (sched : List (Nat × Nat)) :
    (triangle.Symmetric ∧ DistinctIds triangle keysWrap ∧
      (∀ v, v < triangle.numNodes →
        (((Manager.init keysWrap).initDAG triangle).data v).indeg_backup = 1) ∧
      (runDAGcomputationAll triangle func sched
        ((Manager.init keysWrap).initDAG triangle)).log = []) ∧
    (DistinctIds triangle keysWrapId ∧
      (∀ v, v < triangle.numNodes →
        (((Manager.init keysWrapId).initDAG triangle).data v).indeg_backup = 1) ∧
      (runDAGcomputationAll triangle func sched
        ((Manager.init keysWrapId).initDAG triangle)).log = []) := by
  refine ⟨⟨by decide, by decide, by decide, ?_⟩, by decide, by decide, ?_⟩
  · unfold runDAGcomputationAll runDAGcomputation
    rw [for_each_local_of_wl_nil func sched _ (by decide)]
  · unfold runDAGcomputationAll runDAGcomputation
    rw [for_each_local_of_wl_nil func sched _ (by decide)]

/-- C7, counterexample. (a) When node 0 lists node 1 but not the other way
round, node 1 is a source although it is a DAG successor of node 0, and the
sweep invokes the function on node 1 first. (b) On the edge `0 - 1` with only
node 1 active, `InputGraphDAGreuseExecutor` seeds the sweep with node 1, and
the function is invoked on node 1 while its DAG predecessor 0 is never
processed. -/
theorem topological_order_counterexample :
    (1 ∈ (((Manager.init keysById).initDAG arc).data 0).dagSucc ∧
      calls (runDAGcomputationAll arc noop [(1, 0)] ((Manager.init keysById).initDAG arc)).log
        = [1]) ∧
    (1 ∈ ((InputGraphDAGreuseExecutor.initRange path2 [1] (Manager.init keysById)).1.data 0).dagSucc ∧
      calls (InputGraphDAGreuseExecutor.execute (fun _ m => m) [(0, 0), (0, 0)]
        (InputGraphDAGreuseExecutor.initRange path2 [1] (Manager.init keysById))).log = [1] ∧
      (InputGraphDAGreuseExecutor.execute (fun _ m => m) [(0, 0), (0, 0)]
        (InputGraphDAGreuseExecutor.initRange path2 [1] (Manager.init keysById))).wl = []) := by
  decide

/-- C7 (amended). In a sweep seeded with `collectSources` right after
`initDAG` or `reinitDAG`, on a graph with symmetric adjacency, with a supplied
function that leaves the DAG bookkeeping alone: whenever the worklist hands
out a node `src`, `indegree (src)` is 0 and every node that has `src` in its
successor array has been processed. In `colorDAG`, started with all nodes
uncoloured, every such node then carries a colour. -/
theorem topological_processing_order {σ : Type} (g : Graph) (d0 : Nat → InputDAGdata)
    (m : Manager σ) (sched : List (Nat × Nat)) (hwf : g.WF) (hsym : g.Symmetric)
    (hm : DAGready g d0 m.data) :
    (∀ func : Nat → Nat → Manager σ → Manager σ, KeepsDAG func → ∀ i src,
      (runDAGcomputationAll g func sched m).wl.get? i = some src →
        ((runDAGcomputationAll g func sched m).m.data src).indegree = 0 ∧
        ∀ u, u < g.numNodes → src ∈ ((runDAGcomputationAll g func sched m).m.data u).dagSucc →
          u ∈ calls (runDAGcomputationAll g func sched m).log) ∧
    ((∀ v, (m.data v).color = -1) → ∀ i src,
      (colorDAG g sched m).wl.get? i = some src →
        ∀ u, u < g.numNodes → src ∈ ((colorDAG g sched m).m.data u).dagSucc →
          0 ≤ ((colorDAG g sched m).m.data u).color) := by
  have inv0 := SweepInv.sweep_start m hm
  have key : ∀ func : Nat → Nat → Manager σ → Manager σ, KeepsDAG func → ∀ i src,
      (runDAGcomputationAll g func sched m).wl.get? i = some src →
        ((runDAGcomputationAll g func sched m).m.data src).indegree = 0 ∧
        ∀ u, u < g.numNodes → src ∈ ((runDAGcomputationAll g func sched m).m.data u).dagSucc →
          u ∈ calls (runDAGcomputationAll g func sched m).log := by
    intro func hf i src hi
    have inv : SweepInv g d0 (runDAGcomputationAll g func sched m) :=
      SweepInv.sweep_loop hf hwf hsym sched inv0
    have hsrc := List.get?_mem hi
    have hsl := inv.wl_lt src hsrc
    have h0 := (inv.zero src hsl).mpr (Or.inl hsrc)
    refine ⟨h0, ?_⟩
    intro u hu hmem
    rw [inv.succ u hu, List.mem_filter] at hmem
    exact (inv.pred_done hsl h0 (mem_adj_symm hsym hu hsl hmem.1)
      (after_before d0 src u hmem.2)).1
  refine ⟨key, ?_⟩
  intro hunc i src hi u hu hmem
  have inv : SweepInv g d0 (colorDAG g sched m) :=
    SweepInv.sweep_loop (colorNode_keepsDAG g) hwf hsym sched inv0
  have ci : Colored (colorDAG g sched m) :=
    Colored.colored_loop hwf hsym sched inv0
      { unc := fun v _ => hunc v, pos := fun v hv => by simp [calls] at hv }
  exact ci.pos u ((key (colorNode g) (colorNode_keepsDAG g) i src hi).2 u hu hmem)

/-- C7 (amended), at the path `0 - 1 - 2 - 3 - 4` after two operator
applications: node 2 is handed out next, and its DAG predecessor 1 has been
processed. -/
theorem topological_processing_order_witness :
    (path5.WF ∧ path5.Symmetric ∧
      (colorDAG path5 [(0, 0), (0, 1)] ((Manager.init keysById).initDAG path5)).wl.get? 0
        = some 2 ∧
      2 ∈ ((colorDAG path5 [(0, 0), (0, 1)]
        ((Manager.init keysById).initDAG path5)).m.data 1).dagSucc) ∧
    ((∀ func : Nat → Nat → Manager Unit → Manager Unit, KeepsDAG func → ∀ i src,
      (runDAGcomputationAll path5 func [(0, 0), (0, 1)]
          ((Manager.init keysById).initDAG path5)).wl.get? i = some src →
        ((runDAGcomputationAll path5 func [(0, 0), (0, 1)]
          ((Manager.init keysById).initDAG path5)).m.data src).indegree = 0 ∧
        ∀ u, u < path5.numNodes →
          src ∈ ((runDAGcomputationAll path5 func [(0, 0), (0, 1)]
            ((Manager.init keysById).initDAG path5)).m.data u).dagSucc →
          u ∈ calls (runDAGcomputationAll path5 func [(0, 0), (0, 1)]
            ((Manager.init keysById).initDAG path5)).log) ∧
    ((∀ v, (((Manager.init keysById).initDAG path5).data v).color = -1) → ∀ i src,
      (colorDAG path5 [(0, 0), (0, 1)] ((Manager.init keysById).initDAG path5)).wl.get? i
          = some src →
        ∀ u, u < path5.numNodes →
          src ∈ ((colorDAG path5 [(0, 0), (0, 1)]
            ((Manager.init keysById).initDAG path5)).m.data u).dagSucc →
          0 ≤ ((colorDAG path5 [(0, 0), (0, 1)]
            ((Manager.init keysById).initDAG path5)).m.data u).color)) :=
  ⟨by decide,
    topological_processing_order path5 (Manager.init keysById).data
      ((Manager.init keysById).initDAG path5) [(0, 0), (0, 1)] (by decide) (by decide)
      (Manager.initDAG_ready_data path5 (Manager.init keysById))⟩

/-- C8, counterexample. (a) When node 0 lists node 1 but not the other way
round, `indegree (1)` is 0 after `initDAG` although the entry `0 → 1` is
unprocessed, and it is `-1` once node 0 has been processed. (b) On the edge
`0 - 1` with only node 1 active, the sweep of `InputGraphDAGreuseExecutor`
starts with `indegree (1) = 0` while the entry `0 → 1` is unprocessed. -/
theorem indegree_invariant_counterexample :
    ((((Manager.init keysById).initDAG arc).data 1).indegree = 0 ∧
      unprocessedPreds arc ((Manager.init keysById).initDAG arc).data [] 1 = 1 ∧
      ((runDAGcomputationAll arc noop [(0, 0)]
        ((Manager.init keysById).initDAG arc)).m.data 1).indegree = -1) ∧
    (((InputGraphDAGreuseExecutor.execute (fun _ m => m) []
        (InputGraphDAGreuseExecutor.initRange path2 [1] (Manager.init keysById))).m.data 1).indegree
        = 0 ∧
      unprocessedPreds path2
        (InputGraphDAGreuseExecutor.execute (fun _ m => m) []
          (InputGraphDAGreuseExecutor.initRange path2 [1] (Manager.init keysById))).m.data
        (calls (InputGraphDAGreuseExecutor.execute (fun _ m => m) []
          (InputGraphDAGreuseExecutor.initRange path2 [1] (Manager.init keysById))).log) 1 = 1) := by
  decide

/-- C8 (amended). In every state of a sweep seeded with `collectSources`
right after `initDAG` or `reinitDAG`, on a graph with symmetric adjacency
whose priorities and ids are below `2^31`, with a supplied function that
leaves the DAG bookkeeping alone: for every node `v`, `indegree (v)` is the
number of successor-array entries `u → v` whose source `u` has not been
processed, and it is not negative. -/
theorem indegree_counts_unprocessed {σ : Type} (g : Graph) (d0 : Nat → InputDAGdata)
    (func : Nat → Nat → Manager σ → Manager σ) (m : Manager σ) (sched : List (Nat × Nat))
    (hwf : g.WF) (hsym : g.Symmetric) (hk : KeysBelow g d0) (hf : KeepsDAG func)
    (hm : DAGready g d0 m.data) :
    ∀ v, v < g.numNodes →
      ((runDAGcomputationAll g func sched m).m.data v).indegree
        = ((unprocessedPreds g (runDAGcomputationAll g func sched m).m.data
            (calls (runDAGcomputationAll g func sched m).log) v : Nat) : Int) ∧
      0 ≤ ((runDAGcomputationAll g func sched m).m.data v).indegree := by
  have inv := sweepInv_reachable hf hwf hsym m hm sched
  intro v hv
  rw [inv.unprocessedPreds_eq hwf hsym hk hv, inv.indeg v hv]
  exact ⟨rfl, Int.natCast_nonneg _⟩

/-- C8 (amended), at the star after its centre has been processed. -/
theorem indegree_counts_unprocessed_witness :
    (star.WF ∧ star.Symmetric ∧ KeysBelow star (Manager.init keysById).data) ∧
    ∀ v, v < star.numNodes →
      ((runDAGcomputationAll star noop [(0, 0)]
          ((Manager.init keysById).initDAG star)).m.data v).indegree
        = ((unprocessedPreds star (runDAGcomputationAll star noop [(0, 0)]
            ((Manager.init keysById).initDAG star)).m.data
            (calls (runDAGcomputationAll star noop [(0, 0)]
              ((Manager.init keysById).initDAG star)).log) v : Nat) : Int) ∧
      0 ≤ ((runDAGcomputationAll star noop [(0, 0)]
          ((Manager.init keysById).initDAG star)).m.data v).indegree :=
  ⟨by decide,
    indegree_counts_unprocessed star (Manager.init keysById).data noop
      ((Manager.init keysById).initDAG star) [(0, 0)] (by decide) (by decide) (by decide)
      noop_keepsDAG (Manager.initDAG_ready_data star (Manager.init keysById))⟩

/-- C9, at the failing input. On the edge `0 - 1` after `initDAG`, node 1 is
uncoloured when `colorNode (0)` runs; the closure then stores through index
`-1` of the forbidden-colours vector, which is empty: a store outside the
vector. In the model the colour written is 0. -/
theorem colorNode_store_out_of_range :
    (((Manager.init keysById).initDAG path2).data 1).color = -1 ∧
    ((Manager.init keysById).initDAG path2).perThrdColorVec 0 = [] ∧
    ((Manager.init keysById).initDAG path2).oob = false ∧
    (colorNode path2 0 0 ((Manager.init keysById).initDAG path2)).oob = true ∧
    ((colorNode path2 0 0 ((Manager.init keysById).initDAG path2)).data 0).color = 0 := by
  decide

/-- C10, at the failing input. On the triangle with priorities a third of
`2^32` apart `colorDAG` colours no node, under every schedule: all three are
left at the sentinel `-1`. The same holds with equal priorities and ids a
third of `2^32` apart. -/
theorem colorDAG_at_wraparound (sched : List (Nat × Nat)) :
    (triangle.Symmetric ∧ DistinctIds triangle keysWrap ∧
      ∀ v, v < triangle.numNodes →
        ((colorDAG triangle sched
          ((Manager.init keysWrap).initDAG triangle)).m.data v).color = -1) ∧
    (DistinctIds triangle keysWrapId ∧
      ∀ v, v < triangle.numNodes →
        ((colorDAG triangle sched
          ((Manager.init keysWrapId).initDAG triangle)).m.data v).color = -1) := by
  refine ⟨⟨by decide, by decide, ?_⟩, by decide, ?_⟩
  · unfold colorDAG runDAGcomputationAll runDAGcomputation
    rw [for_each_local_of_wl_nil _ sched _ (by decide)]
    decide
  · unfold colorDAG runDAGcomputationAll runDAGcomputation
    rw [for_each_local_of_wl_nil _ sched _ (by decide)]
    decide

/-- C11. Reset correctness: after `reinitDAG` every node's `indegree` equals
its `indeg_backup`, whatever the `indegree` values were before the call (and
the backup is the one from before); the returned sources are exactly the
nodes with `indeg_backup == 0`; and when the backups are those `initDAG` has
written for the graph and keys, a following `collectSources` returns what
`collectSources` returns right after a fresh `initDAG`. -/
theorem reinitDAG_reset (g : Graph) (d0 d : Nat → InputDAGdata)
    (hbak : ∀ v, v < g.numNodes → (d v).indeg_backup = (initDAG g d0 v).indeg_backup) :
    (∀ v, v < g.numNodes →
      ((reinitDAG g d).1 v).indegree = ((reinitDAG g d).1 v).indeg_backup ∧
      ((reinitDAG g d).1 v).indeg_backup = (d v).indeg_backup) ∧
    (reinitDAG g d).2
      = (List.range g.numNodes).filter (fun v => decide ((d v).indeg_backup = 0)) ∧
    collectSources g (reinitDAG g d).1 = collectSources g (initDAG g d0) := by
  have hap : ∀ v, v < g.numNodes →
      (reinitDAG g d).1 v = { d v with indegree := (d v).indeg_backup } := by
    intro v hv
    rw [reinitDAG_apply, if_pos hv]
  have hsrc : collectSources g (reinitDAG g d).1
      = (List.range g.numNodes).filter (fun v => decide ((d v).indeg_backup = 0)) := by
    unfold collectSources
    apply List.filter_congr
    intro x hx
    rw [hap x (List.mem_range.mp hx)]
  refine ⟨?_, ?_, ?_⟩
  · intro v hv
    rw [hap v hv]
    exact ⟨rfl, rfl⟩
  · rw [reinitDAG_sources, hsrc]
  · rw [hsrc]
    unfold collectSources
    apply List.filter_congr
    intro x hx
    have hx2 := List.mem_range.mp hx
    rw [hbak x hx2, initDAG_apply, if_pos hx2]
    rfl

/-- C11 at an input: the path `0 - 1 - 2 - 3 - 4` after `initDAG` and a
colouring sweep, which has taken every `indegree` to 0. -/
theorem reinitDAG_reset_witness :
    (∀ v, v < path5.numNodes →
      (path5Colored.m.data v).indeg_backup = (initDAG path5 keysPrioId v).indeg_backup) ∧
    (∀ v, v < path5.numNodes → (path5Colored.m.data v).indegree = 0) ∧
    (reinitDAG path5 path5Colored.m.data).2 = [0] ∧
    collectSources path5 (reinitDAG path5 path5Colored.m.data).1
      = collectSources path5 (initDAG path5 keysPrioId) :=
  ⟨by decide, by decide, by decide,
    (reinitDAG_reset path5 keysPrioId path5Colored.m.data (by decide)).2.2⟩

/-- C12 at the path `0 - 1 - 2 - 3 - 4` (`priority = id`, after `initDAG`):
`colorDAG` assigns the colours 0, 1, 0, 1, 0 and reports the largest colour,
1, to `maxColors`, so `getMaxColors ()` is 1 and the executor of
`for_each_det_chromatic` has one bucket: node 1 has `color = 1`, which is not
below the number of buckets, and `push (1)` indexes `colorWorkLists` out of
range. The same with the accumulator started from the least `int`. On one
node without edges `getMaxColors ()` is 0, the value the constructor asserts
to be positive. -/
theorem buckets_miss_largest_colour :
    (List.range 5).map (fun v => (path5Colored.m.data v).color) = [0, 1, 0, 1, 0] ∧
    getMaxColors path5Colored.m = 1 ∧
    (ChromaticExecutor.create path5Colored.m (getMaxColors path5Colored.m)).colorWorkLists.length
      = 1 ∧
    ¬ (toUnsigned (path5Colored.m.data 1).color
      < (ChromaticExecutor.create path5Colored.m
          (getMaxColors path5Colored.m)).colorWorkLists.length) ∧
    ((ChromaticExecutor.create path5Colored.m (getMaxColors path5Colored.m)).push 1).oob = true ∧
    getMaxColors (colorDAG path5 (List.replicate 5 (0, 0))
      ((Manager.initLeast keysPrioId).initDAG path5)).m = 1 ∧
    getMaxColors (colorDAG single [(0, 0)] ((Manager.init keysPrioId).initDAG single)).m = 0 ∧
    getMaxColors (colorDAG single [(0, 0)] ((Manager.initLeast keysPrioId).initDAG single)).m
      = 0 := by
  decide

/-- C13, divergence. There are reachable states of the executor in which
`push` indexes `colorWorkLists` outside the vector, so that no state of the
buckets is defined there. On one node without edges the colouring sweep
makes no store out of range and gives the node the colour 0;
`getMaxColors ()` is 0, the executor of `for_each_det_chromatic` has no
bucket, the colour of node 0 is not below the number of buckets, and the step
`push (0)` indexes `colorWorkLists` out of range. On the path
`0 - 1 - 2 - 3 - 4` (one bucket) the step `push (0)` is in range and the step
`push (1)` after it is not. -/
theorem chromatic_worklist_push_out_of_range :
    singleColored.wl = [] ∧ singleColored.m.oob = false ∧
    (singleColored.m.data 0).color = 0 ∧ (singleColored.m.data 0).onWL = 0 ∧
    getMaxColors singleColored.m = 0 ∧
    ¬ (toUnsigned (singleColored.m.data 0).color
      < (ChromaticExecutor.create singleColored.m
          (getMaxColors singleColored.m)).colorWorkLists.length) ∧
    (ChromaticExecutor.reach quiet singleColored.m (getMaxColors singleColored.m)
      [Move.push 0]).oob = true ∧
    (ChromaticExecutor.reach quiet path5Colored.m (getMaxColors path5Colored.m)
      [Move.push 0]).oob = false ∧
    (ChromaticExecutor.reach quiet path5Colored.m (getMaxColors path5Colored.m)
      [Move.push 0, Move.push 1]).oob = true := by
  decide

/-- C14, divergence. `ChromaticExecutor::push (n)` on a node with
`onWL (n) = 0` does not always enqueue `n`: in the executor that
`for_each_det_chromatic` constructs on one node without edges there is no
bucket, and `push (0)` indexes `colorWorkLists` out of range; in the one it
constructs on the path `0 - 1 - 2 - 3 - 4` there is one bucket, node 3 has
the colour 1, and `push (3)`, once or twice in a row, indexes
`colorWorkLists` out of range. -/
theorem push_admission_out_of_range :
    (singleColored.m.data 0).onWL = 0 ∧
    (ChromaticExecutor.create singleColored.m (getMaxColors singleColored.m)).colorWorkLists
      = [] ∧
    ((ChromaticExecutor.create singleColored.m (getMaxColors singleColored.m)).push 0).oob
      = true ∧
    (path5Colored.m.data 3).onWL = 0 ∧ (path5Colored.m.data 3).color = 1 ∧
    (ChromaticExecutor.create path5Colored.m (getMaxColors path5Colored.m)).colorWorkLists.length
      = 1 ∧
    ((ChromaticExecutor.create path5Colored.m (getMaxColors path5Colored.m)).push 3).oob
      = true ∧
    ([3, 3].foldl ChromaticExecutor.push
      (ChromaticExecutor.create path5Colored.m (getMaxColors path5Colored.m))).oob = true := by
  decide

/-- C15. Round-robin bucket selection, in every state `e` that a
`ChromaticExecutor` constructed with `B ≤ 2^31` buckets reaches by calls of
`push`, steps of the `for_each` and calls of `chooseNext` (the constructor is
given `getMaxColors ()`, which is at most `2^31`): `chooseNext` returns null
iff every bucket is empty, and then leaves the state unchanged; otherwise it
returns the non-empty bucket `j` at the smallest cyclic offset from
`nextIndex` (`j = (nextIndex + i) mod B` for the least `i` in `[0, B)`) and
sets `nextIndex` to `(j + 1) mod B`; the number of buckets stays `B`, and
with `B > 0` both the old and the new `nextIndex` are below `B`. -/
theorem chooseNext_selects_round_robin {σ : Type} (func : Nat → Manager σ → σ × List Nat)
    (m : Manager σ) (B : Nat) (steps : List (Option Move)) (e : ChromaticExecutor σ)
    (hB : B ≤ 2147483648)
    (he : e = ChromaticExecutor.walk func steps (ChromaticExecutor.create m B)) :
    (e.chooseNext.1 = none ↔ ∀ j, j < B → e.bucket j = []) ∧
    (e.chooseNext.1 = none → e.chooseNext.2 = e) ∧
    (∀ j, e.chooseNext.1 = some j →
      ∃ i, i < B ∧ j = (e.nextIndex + i) % B ∧ e.bucket j ≠ [] ∧
        (∀ i2, i2 < i → e.bucket ((e.nextIndex + i2) % B) = []) ∧
        e.chooseNext.2 = { e with nextIndex := (j + 1) % B }) ∧
    e.colorWorkLists.length = B ∧ e.chooseNext.2.colorWorkLists.length = B ∧
    (0 < B → e.nextIndex < B ∧ e.chooseNext.2.nextIndex < B) := by
  have hc : (ChromaticExecutor.create m B).colorWorkLists.length = B := by
    simp [ChromaticExecutor.create]
  have h0 : (ChromaticExecutor.create m B).nextIndex
        < (ChromaticExecutor.create m B).colorWorkLists.length ∨
      (ChromaticExecutor.create m B).nextIndex = 0 := Or.inr rfl
  obtain ⟨hlen, hidx⟩ := ChromaticExecutor.walk_bounds func steps _ h0
  rw [← he, hc] at hlen hidx
  have hidx2 : e.nextIndex < e.colorWorkLists.length ∨ e.nextIndex = 0 := by
    rw [hlen]; exact hidx
  obtain ⟨f1, f2⟩ := ChromaticExecutor.chooseNext_frame e hidx2
  obtain ⟨h1, h2, h3, _⟩ := chooseNext_round_robin e (by rw [hlen]; omega)
  rw [hlen] at h1 h3 f2
  refine ⟨h1, h2, h3, hlen, by rw [f1, hlen], ?_⟩
  intro hpos
  exact ⟨by omega, by omega⟩

/-- Witness of `chooseNext_selects_round_robin`: on the path
`0 - 1 - 2 - 3 - 4` with the colours 0, 1, 0, 1, 0 and two buckets, after
the pushes of the nodes 0 and 1, the selection of bucket 0 and the processing
of node 0: the next selection is bucket 1, and `nextIndex` wraps round to
0. -/
theorem chooseNext_selects_round_robin_witness :
    (ChromaticExecutor.walk quiet
        [some (Move.push 0), some (Move.push 1), none, some (Move.apply 0 0)]
        (ChromaticExecutor.create path5Colored.m 2)).colorWorkLists = [[], [1]] ∧
    (ChromaticExecutor.walk quiet
        [some (Move.push 0), some (Move.push 1), none, some (Move.apply 0 0)]
        (ChromaticExecutor.create path5Colored.m 2)).nextIndex = 1 ∧
    (ChromaticExecutor.walk quiet
        [some (Move.push 0), some (Move.push 1), none, some (Move.apply 0 0)]
        (ChromaticExecutor.create path5Colored.m 2)).chooseNext.1 = some 1 ∧
    (ChromaticExecutor.walk quiet
        [some (Move.push 0), some (Move.push 1), none, some (Move.apply 0 0)]
        (ChromaticExecutor.create path5Colored.m 2)).chooseNext.2.nextIndex = 0 ∧
    ((ChromaticExecutor.walk quiet
        [some (Move.push 0), some (Move.push 1), none, some (Move.apply 0 0)]
        (ChromaticExecutor.create path5Colored.m 2)).nextIndex < 2 ∧
      (ChromaticExecutor.walk quiet
        [some (Move.push 0), some (Move.push 1), none, some (Move.apply 0 0)]
        (ChromaticExecutor.create path5Colored.m 2)).chooseNext.2.nextIndex < 2) :=
  ⟨by decide, by decide, by decide, by decide,
    (chooseNext_selects_round_robin quiet path5Colored.m 2
      [some (Move.push 0), some (Move.push 1), none, some (Move.apply 0 0)]
      (ChromaticExecutor.walk quiet
        [some (Move.push 0), some (Move.push 1), none, some (Move.apply 0 0)]
        (ChromaticExecutor.create path5Colored.m 2))
      (by decide) rfl).2.2.2.2.2 (by decide)⟩

/-- C16 at its example, the path `0 - 1 - 2 - 3 - 4` with `priority = id`
(after `initDAG`), all five nodes in `range`, a user function that never
pushes: `for_each_det_chromatic` constructs `getMaxColors () = 1` bucket; the
pushes of the nodes 1 and 3 (colour 1) index `colorWorkLists` out of range;
`execute` performs one round, which drains `{0, 2, 4}`, and ends with no
bucket left to choose; the function has not been invoked on the nodes 1 and
3, whose flags are still 1. With two buckets the same run performs two
rounds, draining `{0, 2, 4}` and then `{1, 3}`. -/
theorem chromatic_rounds_on_path :
    (for_each_det_chromatic path5 quiet [0, 1, 2, 3, 4] (List.replicate 5 (0, 0))
      [[0, 0, 0, 0, 0], [0, 0, 0, 0, 0], [0, 0, 0, 0, 0]] path5Init).rounds = 1 ∧
    ((for_each_det_chromatic path5 quiet [0, 1, 2, 3, 4] (List.replicate 5 (0, 0))
      [[0, 0, 0, 0, 0], [0, 0, 0, 0, 0], [0, 0, 0, 0, 0]] path5Init).applied.map Prod.fst).reverse
        = [0, 2, 4] ∧
    (for_each_det_chromatic path5 quiet [0, 1, 2, 3, 4] (List.replicate 5 (0, 0))
      [[0, 0, 0, 0, 0], [0, 0, 0, 0, 0], [0, 0, 0, 0, 0]] path5Init).oob = true ∧
    (for_each_det_chromatic path5 quiet [0, 1, 2, 3, 4] (List.replicate 5 (0, 0))
      [[0, 0, 0, 0, 0], [0, 0, 0, 0, 0], [0, 0, 0, 0, 0]] path5Init).chooseNext.1 = none ∧
    (List.range 5).map (fun v =>
      ((for_each_det_chromatic path5 quiet [0, 1, 2, 3, 4] (List.replicate 5 (0, 0))
        [[0, 0, 0, 0, 0], [0, 0, 0, 0, 0], [0, 0, 0, 0, 0]] path5Init).m.data v).onWL)
        = [0, 1, 0, 1, 0] ∧
    (ChromaticExecutor.execute quiet [0, 1, 2, 3, 4]
      [[0, 0, 0, 0, 0], [0, 0, 0, 0, 0], [0, 0, 0, 0, 0]]
      (ChromaticExecutor.create path5Colored.m 2)).rounds = 2 ∧
    ((ChromaticExecutor.execute quiet [0, 1, 2, 3, 4]
      [[0, 0, 0, 0, 0], [0, 0, 0, 0, 0], [0, 0, 0, 0, 0]]
      (ChromaticExecutor.create path5Colored.m 2)).applied.map Prod.fst).reverse
        = [0, 2, 4, 1, 3] := by
  decide

/-- C17, divergence. On the path `0 - 1 - 2 - 3 - 4` with `priority = id`,
`initDAG` yields the in-degrees 0, 1, 1, 1, 1 and the DAG successors
`0 → 1 → 2 → 3 → 4` (node 4 has none), so that node 0 is the only source. Its
neighbour, node 1, is uncoloured: `colorNode (0)`, whichever worker runs it,
makes a store outside the forbidden-colours vector, and so has every
`colorDAG` sweep that runs to the end, whatever its schedule. The code does
not define the colours that the example lists. -/
theorem path_example_store_out_of_range (sched : List (Nat × Nat)) (hlen : 5 ≤ sched.length) :
    (List.range 5).map (fun v => (path5Init.data v).indegree) = [0, 1, 1, 1, 1] ∧
    (List.range 5).map (fun v => (path5Init.data v).dagSucc) = [[1], [2], [3], [4], []] ∧
    collectSources path5 path5Init.data = [0] ∧
    1 ∈ path5.adj 0 ∧ (path5Init.data 1).color = -1 ∧
    (∀ tid, (colorNode path5 tid 0 path5Init).oob = true) ∧
    (colorDAG path5 sched path5Init).wl = [] ∧
    (colorDAG path5 sched path5Init).m.oob = true := by
  refine ⟨by decide, by decide, by decide, by decide, by decide, ?_, ?_, ?_⟩
  · intro tid
    exact (colorNode_oob path5 tid 0 path5Init).2 (Or.inr ⟨1, by decide, by decide⟩)
  · exact (colorDAG_invs path5 (Manager.init keysPrioId) sched (by decide) (by decide)
      (by decide) (fun _ => rfl)).2.2 hlen
  · exact colorDAG_oob path5 (Manager.init keysPrioId) sched (by decide) (by decide)
      (by decide) (by decide) (fun _ => rfl) hlen 0 1 (by decide) (by decide)

/-- Witness of `path_example_store_out_of_range`: three workers taking
turns. -/
theorem path_example_store_out_of_range_witness :
    (colorDAG path5 [(0, 0), (0, 1), (0, 2), (0, 0), (0, 1)] path5Init).m.oob = true :=
  (path_example_store_out_of_range [(0, 0), (0, 1), (0, 2), (0, 0), (0, 1)]
    (by decide)).2.2.2.2.2.2.2

/-- C19 at the edge `0 - 1` (`priority = id`) with `range = {0}` and a user
function that never pushes: node 1 is not active (`onWL = 0`), and
`reinitActiveDAG` leaves it the in-degree 1 that `initDAG` has counted. In
round 1 `ApplyOperator` on node 0 finds `indegree (1) > 0`, decrements it
while `onWL (1)` is 0 (the assertion `dd.onWL > 0` fails) and pushes node 1;
`ApplyOperator` then runs on node 1 with `onWL (1) = 0` (the assertion
`sd.onWL > 0` fails) and invokes the user function on it. -/
theorem inactive_successor_processed :
    ((InputGraphDAGexecutor.start path2 [0] (Manager.init keysPrioId)).m.data 1).onWL = 0 ∧
    (InputGraphDAGexecutor.start path2 [0] (Manager.init keysPrioId)).frontier.sources = [0] ∧
    ((InputGraphDAGexecutor.start path2 [0]
      (Manager.init keysPrioId)).frontier.m.data 1).indegree = 1 ∧
    (InputGraphDAGexecutor.execute path2 quiet [0] [[0, 0, 0], [0, 0, 0], [0, 0, 0]]
      (Manager.init keysPrioId)).decremented = [(1, 0)] ∧
    (InputGraphDAGexecutor.execute path2 quiet [0] [[0, 0, 0], [0, 0, 0], [0, 0, 0]]
      (Manager.init keysPrioId)).applied.reverse = [(0, 1), (1, 0)] ∧
    (InputGraphDAGexecutor.execute path2 quiet [0] [[0, 0, 0], [0, 0, 0], [0, 0, 0]]
      (Manager.init keysPrioId)).rounds = 1 := by
  decide

/-- C20. Result of `reinitActiveDAG`: if `range` lists, without repetition,
nodes whose `onWL` flag is set (in particular: exactly the nodes whose flag is
1), then after `reinitActiveDAG (range, sources)` every node `v` of `range`
has `indegree (v)` equal to the number of DAG-successor entries `u → v` with
`u` in `range`, and `sources` receives exactly the nodes of `range` for which
that number is 0. -/
theorem reinitActiveDAG_result (d : Nat → InputDAGdata) (range : List Nat)
    (hnd : range.Nodup) (hact : ∀ v, v ∈ range → 0 < (d v).onWL) :
    (∀ v, v ∈ range → ((reinitActiveDAG d range).1 v).indegree
        = ((∑ u ∈ range.toFinset, (d u).dagSucc.count v : Nat) : Int)) ∧
    (reinitActiveDAG d range).2
      = range.filter (fun v => decide (∑ u ∈ range.toFinset, (d u).dagSucc.count v = 0)) := by
  have hsum : ∀ v, ∑ u ∈ range.toFinset, (d u).dagSucc.count v
      = (range.map (fun u => (d u).dagSucc.count v)).sum :=
    fun v => List.sum_toFinset _ hnd
  have h := (reinitActiveDAG_apply d range hact).1
  refine ⟨?_, ?_⟩
  · intro v hv
    rw [h v hv, hsum]
  · have h2 : (reinitActiveDAG d range).2
        = range.filter (fun src => decide (((reinitActiveDAG d range).1 src).indegree = 0)) := rfl
    rw [h2]
    apply List.filter_congr
    intro v hv
    rw [h v hv, hsum]
    simp only [Int.natCast_eq_zero]

/-- C20 on the path `0 - 1 - 2 - 3 - 4` after `initDAG`, with the nodes
1, 2 and 4 flagged: node 2 has the active predecessor 1, nodes 1 and 4 have
none. -/
theorem reinitActiveDAG_result_witness :
    (∀ v, v < 5 → (v ∈ [4, 1, 2] ↔
      (InputGraphDAGreuseExecutor.push_initial path5Init.data [4, 1, 2] v).onWL = 1)) ∧
    (List.range 5).map (fun v => ((reinitActiveDAG
        (InputGraphDAGreuseExecutor.push_initial path5Init.data [4, 1, 2]) [4, 1, 2]).1 v).indegree)
      = [0, 0, 1, 1, 0] ∧
    (reinitActiveDAG
        (InputGraphDAGreuseExecutor.push_initial path5Init.data [4, 1, 2]) [4, 1, 2]).2
      = [4, 1] ∧
    (reinitActiveDAG
        (InputGraphDAGreuseExecutor.push_initial path5Init.data [4, 1, 2]) [4, 1, 2]).2
      = [4, 1, 2].filter (fun v => decide (∑ u ∈ [4, 1, 2].toFinset,
          ((InputGraphDAGreuseExecutor.push_initial path5Init.data [4, 1, 2]) u).dagSucc.count v
            = 0)) :=
  ⟨by decide, by decide, by decide,
    (reinitActiveDAG_result (InputGraphDAGreuseExecutor.push_initial path5Init.data [4, 1, 2])
      [4, 1, 2] (by decide) (by decide)).2⟩

/-- C21, counterexample. Pass 0 of `reinitActiveDAG` clears the in-degree of
every node of `range`, flagged or not: on two adjacent nodes after `initDAG`
(node 1 has in-degree 1 and `onWL = 0`), `reinitActiveDAG` over the range
`{1}` leaves node 1 with in-degree 0. -/
theorem reinitActiveDAG_frame_counterexample :
    ((initDAG path2 keysPrioId) 1).onWL = 0 ∧
    ((initDAG path2 keysPrioId) 1).indegree = 1 ∧
    ((reinitActiveDAG (initDAG path2 keysPrioId) [1]).1 1).indegree = 0 := by
  decide

/-- C21, amended. When every node of `range` has `onWL > 0` (what passes 0
and 2 assert), `reinitActiveDAG` leaves the in-degree of every node whose
`onWL` flag is 0 unchanged, and it changes no node's `indeg_backup`, `onWL`,
`color`, `priority`, `id` or successor list. -/
theorem reinitActiveDAG_frame_flagged (d : Nat → InputDAGdata) (range : List Nat)
    (hact : ∀ v, v ∈ range → 0 < (d v).onWL) (v : Nat) :
    ((d v).onWL = 0 → ((reinitActiveDAG d range).1 v).indegree = (d v).indegree) ∧
    ((reinitActiveDAG d range).1 v).indeg_backup = (d v).indeg_backup ∧
    ((reinitActiveDAG d range).1 v).onWL = (d v).onWL ∧
    ((reinitActiveDAG d range).1 v).color = (d v).color ∧
    ((reinitActiveDAG d range).1 v).priority = (d v).priority ∧
    ((reinitActiveDAG d range).1 v).id = (d v).id ∧
    ((reinitActiveDAG d range).1 v).dagSucc = (d v).dagSucc := by
  obtain ⟨h1, h2, h3, h4, h5, h6, h7⟩ := reinitActiveDAG_frame d range v
  refine ⟨?_, h4, h1, h3, h5, h6, h2⟩
  intro hz
  apply h7
  · intro hv
    have := hact v hv
    omega
  · omega

/-- Witness of `reinitActiveDAG_frame_flagged`: the 5-node path after
`initDAG`, with the nodes 1, 2 and 4 flagged and in the range; node 3 is
unflagged and keeps its in-degree 1. -/
theorem reinitActiveDAG_frame_flagged_witness :
    ((reinitActiveDAG (initDAG path5
        (InputGraphDAGreuseExecutor.push_initial keysPrioId [1, 2, 4])) [1, 2, 4]).1 3).indegree
      = ((initDAG path5
        (InputGraphDAGreuseExecutor.push_initial keysPrioId [1, 2, 4])) 3).indegree ∧
    ((initDAG path5
        (InputGraphDAGreuseExecutor.push_initial keysPrioId [1, 2, 4])) 3).indegree = 1 ∧
    ((reinitActiveDAG (initDAG path5
        (InputGraphDAGreuseExecutor.push_initial keysPrioId [1, 2, 4])) [1, 2, 4]).1 3).indeg_backup
      = ((initDAG path5
        (InputGraphDAGreuseExecutor.push_initial keysPrioId [1, 2, 4])) 3).indeg_backup :=
  ⟨(reinitActiveDAG_frame_flagged
      (initDAG path5 (InputGraphDAGreuseExecutor.push_initial keysPrioId [1, 2, 4])) [1, 2, 4]
      (by decide) 3).1 (by decide),
    by decide,
    (reinitActiveDAG_frame_flagged
      (initDAG path5 (InputGraphDAGreuseExecutor.push_initial keysPrioId [1, 2, 4])) [1, 2, 4]
      (by decide) 3).2.1⟩

/-- C22, divergence. On the triangle (symmetric adjacency, ids 0, 1, 2) with
priorities a third of `2^32` apart, `initialize ()` gives every node the
in-degree 1 and collects no source: `execute ()` ends at once and invokes the
user function on no node, in the first cycle and in the cycle after
`reinitDAG ()`. -/
theorem reuse_executor_at_wraparound :
    triangle.Symmetric ∧ DistinctIds triangle keysWrap ∧
    (InputGraphDAGreuseExecutor.initAll triangle (Manager.init keysWrap)).2 = [] ∧
    (List.range 3).map (fun v =>
      ((InputGraphDAGreuseExecutor.initAll triangle (Manager.init keysWrap)).1.data v).indegree)
      = [1, 1, 1] ∧
    (InputGraphDAGreuseExecutor.execute (noop 0) (List.replicate 3 (0, 0))
      (InputGraphDAGreuseExecutor.initAll triangle (Manager.init keysWrap))).wl = [] ∧
    calls (InputGraphDAGreuseExecutor.execute (noop 0) (List.replicate 3 (0, 0))
      (InputGraphDAGreuseExecutor.initAll triangle (Manager.init keysWrap))).log = [] ∧
    (InputGraphDAGreuseExecutor.cycles triangle (noop 0)
      (List.replicate 2 (List.replicate 3 (0, 0)))
      (InputGraphDAGreuseExecutor.initAll triangle (Manager.init keysWrap))).1.map
        (fun s => calls s.log) = [[], []] := by
  decide

/-- C23, divergence. `push` counts every push in `numPushes`, and `execute`
does not reset the accumulator between the pushes of the initial range and
the first round. On one node without edges, with the range `{0}` and a user
function that never pushes, `numPushes` is 1 when the loop is entered and
still 1 when the first round ends, so `execute` performs a second round (in
which no node is active) and stops after it: 2 rounds. The same on the path
`0 - 1 - 2 - 3 - 4` with the range `{0, 2}`. With the empty range it performs
1 round. -/
theorem topology_driven_extra_round :
    (InputGraphDAGtopologyDriven.start single [0] (Manager.init keysPrioId)).m.user.numPushes
      = 1 ∧
    (InputGraphDAGtopologyDriven.execute single quiet [0] (List.replicate 4 [(0, 0)])
      (Manager.init keysPrioId)).rounds = 2 ∧
    (InputGraphDAGtopologyDriven.execute single quiet [0] (List.replicate 4 [(0, 0)])
      (Manager.init keysPrioId)).finished = true ∧
    (InputGraphDAGtopologyDriven.execute single quiet [0] (List.replicate 4 [(0, 0)])
      (Manager.init keysPrioId)).trace.map (fun s => s.m.user.numPushes) = [0, 1] ∧
    (InputGraphDAGtopologyDriven.execute single quiet [0] (List.replicate 4 [(0, 0)])
      (Manager.init keysPrioId)).trace.map (fun s => s.m.user.applied.map Prod.fst)
      = [[], [0]] ∧
    (InputGraphDAGtopologyDriven.execute path5 quiet [0, 2]
      (List.replicate 4 (List.replicate 5 (0, 0))) (Manager.init keysPrioId)).rounds = 2 ∧
    (InputGraphDAGtopologyDriven.execute path5 quiet [0, 2]
      (List.replicate 4 (List.replicate 5 (0, 0))) (Manager.init keysPrioId)).finished = true ∧
    (InputGraphDAGtopologyDriven.execute single quiet [] (List.replicate 4 [(0, 0)])
      (Manager.init keysPrioId)).rounds = 1 := by
  decide

/-- C24, divergence. On the triangle (symmetric adjacency, ids 0, 1, 2, all
flags 0 before the call) with priorities a third of `2^32` apart and all
three nodes in the range: there is no source, `execute` performs two rounds,
and in neither of them the sweep visits a node or the user function is
invoked, although the flag of every node is 1, and is still 1 when `execute`
returns. -/
theorem topology_gating_at_wraparound :
    triangle.Symmetric ∧ DistinctIds triangle keysWrap ∧
    (∀ v, v < triangle.numNodes → ((Manager.init keysWrap).data v).onWL = 0) ∧
    (InputGraphDAGtopologyDriven.start triangle [0, 1, 2] (Manager.init keysWrap)).sources = [] ∧
    (InputGraphDAGtopologyDriven.execute triangle quiet [0, 1, 2]
      (List.replicate 4 (List.replicate 3 (0, 0))) (Manager.init keysWrap)).finished = true ∧
    (InputGraphDAGtopologyDriven.execute triangle quiet [0, 1, 2]
      (List.replicate 4 (List.replicate 3 (0, 0))) (Manager.init keysWrap)).rounds = 2 ∧
    (InputGraphDAGtopologyDriven.execute triangle quiet [0, 1, 2]
      (List.replicate 4 (List.replicate 3 (0, 0))) (Manager.init keysWrap)).trace.map
        (fun s => (s.wl, calls s.log)) = [([], []), ([], [])] ∧
    (InputGraphDAGtopologyDriven.execute triangle quiet [0, 1, 2]
      (List.replicate 4 (List.replicate 3 (0, 0))) (Manager.init keysWrap)).trace.map
        (fun s => (s.m.user.visited, s.m.user.applied)) = [([], []), ([], [])] ∧
    (List.range 3).map (fun v =>
      ((InputGraphDAGtopologyDriven.execute triangle quiet [0, 1, 2]
        (List.replicate 4 (List.replicate 3 (0, 0))) (Manager.init keysWrap)).m.data v).onWL)
      = [1, 1, 1] := by
  decide

/-- C25, divergence. `assignIDs` does not give position `k` the id `k` for
every node count and worker count. With one node and three workers
`num_per` is 1, so worker 2 computes `beg = 2` and `end = min (1, 3) = 1`:
its iterators are advanced past the end of the node sequence and it never
returns (here: `none`), whatever the node data. The same with five nodes and
four workers (worker 3: `beg = 6`, `end = 5`). With one worker, and with five
nodes and two workers, the ids are the positions. -/
theorem assignIDs_worker_range_outside :
    2 * ((1 + 3 - 1) / 3) = 2 ∧ min 1 ((2 + 1) * ((1 + 3 - 1) / 3)) = 1 ∧
    (∀ d, assignIDsWorker 1 3 2 d = none) ∧
    (∀ d, assignIDs 1 3 d = none) ∧
    3 * ((5 + 4 - 1) / 4) = 6 ∧ min 5 ((3 + 1) * ((5 + 4 - 1) / 4)) = 5 ∧
    (∀ d, assignIDs 5 4 d = none) ∧
    (∀ d, ∃ d1, assignIDs 1 1 d = some d1 ∧ (d1 0).id = 0) ∧
    (∀ d, ∃ d1, assignIDs 5 2 d = some d1 ∧ ∀ k, k < 5 → (d1 k).id = k) := by
  have hnone : ∀ n t d, ¬ RangesOK n t → assignIDs n t d = none := by
    intro n t d h
    rw [← assignIDs_isSome_iff n t d] at h
    cases hx : assignIDs n t d with
    | none => rfl
    | some x => rw [hx] at h; exact absurd rfl h
  refine ⟨by decide, by decide, ?_, ?_, by decide, by decide, ?_, ?_, ?_⟩
  · intro d
    exact assignIDsWorker_none 1 3 2 d (by decide)
  · intro d
    exact hnone 1 3 d (by decide)
  · intro d
    exact hnone 5 4 d (by decide)
  · intro d
    refine ⟨_, assignIDs_spec 1 1 d (by decide) (by decide), ?_⟩
    simp
  · intro d
    refine ⟨_, assignIDs_spec 5 2 d (by decide) (by decide), ?_⟩
    intro k hk
    simp only [if_pos hk]
    omega

/-- C26. `DAGdataComparator::compare` is a strict total order on records with
pairwise distinct ids: no record is before itself, the relation is
transitive, of two records with different ids exactly one is before the
other, and records of equal priority are ordered by id. -/
theorem compare_strict_total_order (a b c : InputDAGdata) (hab : a.id ≠ b.id) :
    DAGdataComparator.compare a a = false ∧
    (DAGdataComparator.compare a b = true → DAGdataComparator.compare b c = true →
      DAGdataComparator.compare a c = true) ∧
    ((DAGdataComparator.compare a b = true ∧ DAGdataComparator.compare b a = false) ∨
      (DAGdataComparator.compare a b = false ∧ DAGdataComparator.compare b a = true)) ∧
    (a.priority = b.priority → (DAGdataComparator.compare a b = true ↔ a.id < b.id)) := by
  have hf : ∀ x y : InputDAGdata, DAGdataComparator.compare x y = false ↔
      ¬ (x.priority < y.priority ∨ (x.priority = y.priority ∧ x.id < y.id)) := by
    intro x y
    rw [← compare_iff_lex]
    cases DAGdataComparator.compare x y <;> simp
  refine ⟨?_, ?_, ?_, ?_⟩
  · rw [hf]; omega
  · rw [compare_iff_lex, compare_iff_lex, compare_iff_lex]; omega
  · rw [hf, hf, compare_iff_lex, compare_iff_lex]; omega
  · intro h
    rw [compare_iff_lex]; omega

/-- Witness of `compare_strict_total_order`: the records with priorities 5, 5, 7
and ids 0, 1, 2. -/
theorem compare_strict_total_order_witness :
    DAGdataComparator.compare (nodeData (fun v => 5 + 2 * (v / 2)) (fun v => v) 0)
        (nodeData (fun v => 5 + 2 * (v / 2)) (fun v => v) 0) = false ∧
    (DAGdataComparator.compare (nodeData (fun v => 5 + 2 * (v / 2)) (fun v => v) 0)
        (nodeData (fun v => 5 + 2 * (v / 2)) (fun v => v) 1) = true →
      DAGdataComparator.compare (nodeData (fun v => 5 + 2 * (v / 2)) (fun v => v) 1)
        (nodeData (fun v => 5 + 2 * (v / 2)) (fun v => v) 2) = true →
      DAGdataComparator.compare (nodeData (fun v => 5 + 2 * (v / 2)) (fun v => v) 0)
        (nodeData (fun v => 5 + 2 * (v / 2)) (fun v => v) 2) = true) ∧
    ((DAGdataComparator.compare (nodeData (fun v => 5 + 2 * (v / 2)) (fun v => v) 0)
        (nodeData (fun v => 5 + 2 * (v / 2)) (fun v => v) 1) = true ∧
      DAGdataComparator.compare (nodeData (fun v => 5 + 2 * (v / 2)) (fun v => v) 1)
        (nodeData (fun v => 5 + 2 * (v / 2)) (fun v => v) 0) = false) ∨
      (DAGdataComparator.compare (nodeData (fun v => 5 + 2 * (v / 2)) (fun v => v) 0)
        (nodeData (fun v => 5 + 2 * (v / 2)) (fun v => v) 1) = false ∧
      DAGdataComparator.compare (nodeData (fun v => 5 + 2 * (v / 2)) (fun v => v) 1)
        (nodeData (fun v => 5 + 2 * (v / 2)) (fun v => v) 0) = true)) ∧
    ((nodeData (fun v => 5 + 2 * (v / 2)) (fun v => v) 0).priority
        = (nodeData (fun v => 5 + 2 * (v / 2)) (fun v => v) 1).priority →
      (DAGdataComparator.compare (nodeData (fun v => 5 + 2 * (v / 2)) (fun v => v) 0)
        (nodeData (fun v => 5 + 2 * (v / 2)) (fun v => v) 1) = true ↔
        (nodeData (fun v => 5 + 2 * (v / 2)) (fun v => v) 0).id
          < (nodeData (fun v => 5 + 2 * (v / 2)) (fun v => v) 1).id)) :=
  compare_strict_total_order _ _ _ (by decide)

/-- C27, divergence. The two successor strategies do not enumerate the same
nodes for all keys. On two nodes joined by one edge, with priorities 0 and
2147483648, `DAGmanagerDefault::initDAG` (which keeps the neighbours with
`compare3val (dd, sd) > 0`) materialises an empty list at both nodes, while
`DAGmanagerInOut` (which keeps those with `compare3val (sd, dd) < 0`)
enumerates node 1 at node 0 and node 0 at node 1; the neighbours that come
later in the `(priority, id)` order are node 1 at node 0 and none at node 1.
With priorities 0 and 2147483649 the two strategies agree with each other,
on the reverse of that order. -/
theorem successor_strategies_differ :
    (initDAG arcInOut.toGraph keysHalf 0).dagSucc = [] ∧
    (initDAG arcInOut.toGraph keysHalf 1).dagSucc = [] ∧
    DAGmanagerInOut.successors partition_neighbors keysHalf arcInOut 0 = [1] ∧
    DAGmanagerInOut.successors partition_neighbors keysHalf arcInOut 1 = [0] ∧
    specSuccessors (DAGmanagerInOut.VisitAdjacent arcInOut 0) keysHalf 0 = [1] ∧
    specSuccessors (DAGmanagerInOut.VisitAdjacent arcInOut 1) keysHalf 1 = [] ∧
    (initDAG arcInOut.toGraph keysFar 0).dagSucc = [] ∧
    (initDAG arcInOut.toGraph keysFar 1).dagSucc = [0] ∧
    DAGmanagerInOut.successors partition_neighbors keysFar arcInOut 0 = [] ∧
    DAGmanagerInOut.successors partition_neighbors keysFar arcInOut 1 = [0] ∧
    specSuccessors (DAGmanagerInOut.VisitAdjacent arcInOut 0) keysFar 0 = [1] ∧
    specSuccessors (DAGmanagerInOut.VisitAdjacent arcInOut 1) keysFar 1 = [] := by
  decide

/-- C29, divergence. `assignPriority` begins with `assignIDs`. With five
nodes and four workers, worker 3 of `assignIDs` computes `beg = 6` and
`end = 5`, its iterators leave the node sequence, and `assignPriority` under
`BY_ID` gives no node data (here: `none`); the same with one node and three
workers. With five nodes and two workers it returns. -/
theorem byId_priority_not_returned :
    ¬ RangesOK path5.numNodes 4 ∧ assignIDsRange path5.numNodes 4 3 = (6, 5) ∧
    (assignIDs path5.numNodes 4 fresh).isSome = false ∧
    (assignPriority PriorityFunc.BY_ID path5 4 (fun _ => 0) fresh).isSome = false ∧
    (assignPriority PriorityFunc.BY_ID single 3 (fun _ => 0) fresh).isSome = false ∧
    (assignPriority PriorityFunc.BY_ID path5 2 (fun _ => 0) fresh).isSome = true := by
  decide

/-- C30, divergence. `assignPriority` begins with `assignIDs`. With five
nodes and four workers, worker 3 of `assignIDs` computes `beg = 6` and
`end = 5`, its iterators leave the node sequence, and `assignPriority` gives
no node data (here: `none`) under `MIN_DEGREE` and under `MAX_DEGREE`; the
same with one node and three workers. With five nodes and two workers it
returns. -/
theorem degree_priority_not_returned :
    ¬ RangesOK path5.numNodes 4 ∧ assignIDsRange path5.numNodes 4 3 = (6, 5) ∧
    (assignPriority PriorityFunc.MIN_DEGREE path5 4 (fun _ => 0) fresh).isSome = false ∧
    (assignPriority PriorityFunc.MAX_DEGREE path5 4 (fun _ => 0) fresh).isSome = false ∧
    (assignPriority PriorityFunc.MAX_DEGREE single 3 (fun _ => 0) fresh).isSome = false ∧
    (assignPriority PriorityFunc.MAX_DEGREE path5 2 (fun _ => 0) fresh).isSome = true := by
  decide

/-- C31, divergence. On the path `0 - 1 - 2 - 3 - 4` (`priority = id`, after
`initDAG`) with all five nodes in the range, `initialize` colours the nodes
0, 1, 0, 1, 0 and creates `getMaxColors () = 1` bag: the nodes 1 and 3 have
colour 1, which is not below the number of bags, so `push_initial` indexes
`colorBags` out of range for them and they are in no bag. Every `execute ()`
leaves the bags as they are and invokes the user function on the nodes 0, 2
and 4 only. -/
theorem reuse_chromatic_misses_largest_colour :
    (ChromaticReuseExecutor.initBags path5 (List.replicate 5 (0, 0)) [0, 1, 2, 3, 4]
      path5Init).colorBags = [[0, 2, 4]] ∧
    (ChromaticReuseExecutor.initBags path5 (List.replicate 5 (0, 0)) [0, 1, 2, 3, 4]
      path5Init).oob = true ∧
    ((ChromaticReuseExecutor.initBags path5 (List.replicate 5 (0, 0)) [0, 1, 2, 3, 4]
      path5Init).m.data 1).color = 1 ∧
    ¬ (toUnsigned ((ChromaticReuseExecutor.initBags path5 (List.replicate 5 (0, 0))
        [0, 1, 2, 3, 4] path5Init).m.data 1).color
      < (ChromaticReuseExecutor.initBags path5 (List.replicate 5 (0, 0)) [0, 1, 2, 3, 4]
        path5Init).colorBags.length) ∧
    (ChromaticReuseExecutor.execute (noop 0)
      (ChromaticReuseExecutor.initBags path5 (List.replicate 5 (0, 0)) [0, 1, 2, 3, 4]
        path5Init)).applied = [4, 2, 0] ∧
    (ChromaticReuseExecutor.execute (noop 0)
      (ChromaticReuseExecutor.initBags path5 (List.replicate 5 (0, 0)) [0, 1, 2, 3, 4]
        path5Init)).colorBags = [[0, 2, 4]] ∧
    (ChromaticReuseExecutor.execute (noop 0) (ChromaticReuseExecutor.execute (noop 0)
      (ChromaticReuseExecutor.initBags path5 (List.replicate 5 (0, 0)) [0, 1, 2, 3, 4]
        path5Init))).applied = [4, 2, 0, 4, 2, 0] := by
  decide

/-- C32, divergence. On two adjacent nodes (symmetric adjacency, distinct
ids) with priorities 0 and 2147483648, `initDAG` gives both nodes the
in-degree 1 and an empty successor list: neither lists the other as a DAG
successor, the in-degree of a node is not the number of successor entries
that name it, and the in-degrees add up to 2 while there is no successor
entry at all. -/
theorem initDAG_orientation_at_wraparound :
    path2.Symmetric ∧ DistinctIds path2 keysHalf ∧
    (initDAG path2 keysHalf 0).dagSucc = [] ∧ (initDAG path2 keysHalf 1).dagSucc = [] ∧
    (initDAG path2 keysHalf 0).indegree = 1 ∧ (initDAG path2 keysHalf 1).indegree = 1 ∧
    ∑ v in Finset.range path2.numNodes, (initDAG path2 keysHalf v).indegree = 2 ∧
    ∑ u in Finset.range path2.numNodes, ((initDAG path2 keysHalf u).dagSucc.length : Int) = 0 := by
  decide

/-- C33, divergence. `compare3val` does not agree with `compare` for all
32-bit values. For the records with priorities 0 and 2147483649 `compare`
orders the first before the second, while `compare3val` of them is
2147483647, which is positive; for the priorities 0 and 2147483648
`compare3val` is negative in both directions, while `compare` holds in one
direction only. -/
theorem compare3val_disagrees_with_compare :
    DAGdataComparator.compare (keysFar 0) (keysFar 1) = true ∧
    DAGdataComparator.compare (keysFar 1) (keysFar 0) = false ∧
    DAGdataComparator.compare3val (keysFar 0) (keysFar 1) = 2147483647 ∧
    DAGdataComparator.compare3val (keysFar 1) (keysFar 0) = -2147483647 ∧
    DAGdataComparator.compare3val (keysHalf 0) (keysHalf 1) = -2147483648 ∧
    DAGdataComparator.compare3val (keysHalf 1) (keysHalf 0) = -2147483648 ∧
    DAGdataComparator.compare (keysHalf 1) (keysHalf 0) = false := by
  decide

/-- C34, divergence. The index `dd.color` that `colorNode` writes to the
forbidden-colours bitmap is not in range for a neighbour that is not yet
coloured. On the path `0 - 1 - 2 - 3 - 4` after `initDAG`, `colorNode (0)`
visits the neighbour 1, whose colour is -1: the bitmap is empty, it is not
resized (`0 <= -1` is false), and the store goes through index -1. The
colouring sweep on the path ends with such a store recorded, and so does
`colorNode` on a node with a self-loop. -/
theorem forbiddenColors_index_out_of_range :
    1 ∈ path5.adj 0 ∧ (path5Init.data 1).color = -1 ∧ path5Init.perThrdColorVec 0 = [] ∧
    colorClosure path5Init.data ([], false) 1 = ([], true) ∧
    (colorNode path5 0 0 path5Init).oob = true ∧
    path5Colored.m.oob = true ∧
    (colorNode selfLoop 0 0 ((Manager.init keysById).initDAG selfLoop)).oob = true := by
  decide

/-- C35, divergence. The worker ranges of `assignIDs` are not all well formed.
With one node and three workers, worker 2 computes `beg = 2` and `end = 1`;
with five nodes and four workers, worker 3 computes `beg = 6` and `end = 5`:
`beg <= end` fails and the worker's iterators leave the node sequence. With
five nodes and two workers the ranges are `[0, 3)` and `[3, 5)`. -/
theorem assignIDs_range_not_well_formed :
    assignIDsRange 1 3 2 = (2, 1) ∧ assignIDsRange 5 4 3 = (6, 5) ∧
    ¬ ((assignIDsRange 1 3 2).1 ≤ (assignIDsRange 1 3 2).2) ∧
    ¬ ((assignIDsRange 5 4 3).1 ≤ (assignIDsRange 5 4 3).2) ∧
    (assignIDsWorker 1 3 2 fresh).isSome = false ∧
    (assignIDsWorker 5 4 3 fresh).isSome = false ∧
    assignIDsRange 5 2 0 = (0, 3) ∧ assignIDsRange 5 2 1 = (3, 5) := by
  decide

/-- C36, divergence. On the triangle (three nodes, symmetric adjacency,
distinct ids) with priorities a third of `2^32` apart, `collectSources` right
after `initDAG` returns nothing, and the topology-driven executor enters its
loop with no source. The same with equal priorities and ids a third of `2^32`
apart. -/
theorem no_source_at_wraparound :
    0 < triangle.numNodes ∧ DistinctIds triangle keysWrap ∧
    collectSources triangle (initDAG triangle keysWrap) = [] ∧
    (InputGraphDAGtopologyDriven.start triangle [0] (Manager.init keysWrap)).sources = [] ∧
    DistinctIds triangle keysWrapId ∧
    collectSources triangle (initDAG triangle keysWrapId) = [] := by
  decide

/-- C37, divergence. On the triangle (symmetric adjacency, no self-loop,
distinct ids) with priorities a third of `2^32` apart the colouring sweep
ends at once, with no node coloured: every node is left at -1, which is not
the least non-negative integer that no neighbour carries (that is 0, the
colour `colorNode` would write). -/
theorem greedy_fixpoint_at_wraparound :
    triangle.Symmetric ∧ triangle.NoSelfLoop ∧ DistinctIds triangle keysWrap ∧
    (colorDAG triangle (List.replicate 3 (0, 0))
      ((Manager.init keysWrap).initDAG triangle)).wl = [] ∧
    (∀ v, v < triangle.numNodes →
      ((colorDAG triangle (List.replicate 3 (0, 0))
        ((Manager.init keysWrap).initDAG triangle)).m.data v).color = -1) ∧
    ((colorNode triangle 0 0 (colorDAG triangle (List.replicate 3 (0, 0))
      ((Manager.init keysWrap).initDAG triangle)).m).data 0).color = 0 := by
  decide

/-- C38, divergence. On two adjacent nodes (symmetric adjacency, ids 0 and 1)
with priorities 0 and 2147483648, `initDAG` gives both nodes the in-degree 1:
there is no source, `colorDAG` colours no node (and makes no store out of
range), and node 0 ends with the colour -1 and `indeg_backup = 1`, so that
`0 <= color (0)` does not hold. -/
theorem colour_bound_at_wraparound :
    path2.Symmetric ∧ DistinctIds path2 keysHalf ∧
    collectSources path2 ((Manager.init keysHalf).initDAG path2).data = [] ∧
    (colorDAG path2 [(0, 0), (0, 0)] ((Manager.init keysHalf).initDAG path2)).wl = [] ∧
    (colorDAG path2 [(0, 0), (0, 0)] ((Manager.init keysHalf).initDAG path2)).m.oob = false ∧
    ((colorDAG path2 [(0, 0), (0, 0)] ((Manager.init keysHalf).initDAG path2)).m.data 0).color
      = -1 ∧
    ((colorDAG path2 [(0, 0), (0, 0)]
      ((Manager.init keysHalf).initDAG path2)).m.data 0).indeg_backup = 1 ∧
    ¬ (0 ≤ ((colorDAG path2 [(0, 0), (0, 0)]
      ((Manager.init keysHalf).initDAG path2)).m.data 0).color) := by
  decide

/-- C39, divergence. On the triangle (a non-empty graph) with priorities a
third of `2^32` apart `colorDAG` colours no node, and `getMaxColors ()`
returns 0: no node has the colour 0, so `getMaxColors ()` is not the largest
colour assigned and not every colour from 0 to `getMaxColors ()` is in use.
With the accumulator started from the least `int`, `getMaxColors ()` returns
2147483648. -/
theorem maxColors_at_wraparound :
    0 < triangle.numNodes ∧
    (colorDAG triangle (List.replicate 3 (0, 0))
      ((Manager.init keysWrap).initDAG triangle)).wl = [] ∧
    getMaxColors (colorDAG triangle (List.replicate 3 (0, 0))
      ((Manager.init keysWrap).initDAG triangle)).m = 0 ∧
    (∀ v, v < triangle.numNodes →
      ((colorDAG triangle (List.replicate 3 (0, 0))
        ((Manager.init keysWrap).initDAG triangle)).m.data v).color ≠ 0) ∧
    getMaxColors (colorDAG triangle (List.replicate 3 (0, 0))
      ((Manager.initLeast keysWrap).initDAG triangle)).m = 2147483648 := by
  decide

/-- C40, divergence. On the triangle (symmetric adjacency, distinct ids, all
flags 0 before the call) with priorities a third of `2^32` apart and the
range `{0}`: `push (0)` sets the flag of node 0, no round visits any node
(there is no source), and `execute` returns after two rounds with the flag of
node 0 still 1 and the user function never invoked. -/
theorem activation_lost_at_wraparound :
    triangle.Symmetric ∧ DistinctIds triangle keysWrap ∧
    (∀ v, v < triangle.numNodes → ((Manager.init keysWrap).data v).onWL = 0) ∧
    (InputGraphDAGtopologyDriven.execute triangle quiet [0]
      (List.replicate 4 (List.replicate 3 (0, 0))) (Manager.init keysWrap)).finished = true ∧
    (InputGraphDAGtopologyDriven.execute triangle quiet [0]
      (List.replicate 4 (List.replicate 3 (0, 0))) (Manager.init keysWrap)).rounds = 2 ∧
    ((InputGraphDAGtopologyDriven.execute triangle quiet [0]
      (List.replicate 4 (List.replicate 3 (0, 0))) (Manager.init keysWrap)).m.data 0).onWL = 1 ∧
    (InputGraphDAGtopologyDriven.execute triangle quiet [0]
      (List.replicate 4 (List.replicate 3 (0, 0))) (Manager.init keysWrap)).trace.map
        (fun s => (calls s.log, s.m.user.applied)) = [([], []), ([], [])] := by
  decide

end DetChromatic
